import Mathlib

/-!
# go-sphinx decoder search core: active lists, partitioner, token trellis

A shallow embedding of `decoder/search`, `decoder/pruner` and `decoder/scorer/scoreable.go`.

Conventions of the embedding.

* Scores are `float64` in the source.  They are embedded as exact integers (`Int`): the
  order on scores and their sums are exact, rounding is not modelled.
* Go `int` values (sizes, indices, beam widths, depths) are `Int`; list positions are reached
  through `getAt` / `setAt`, which fail where a Go slice access would panic.
* A `*Token` held in a slice is an `Option τ`: `none` is the nil pointer, and `score : τ → Int`
  is `GetScore()` of a non-nil token reference.
* A run of the code ends in `Res.ok v`, in a run-time panic (`Res.panics`) or never
  (`Res.diverges`, which is also what a loop returns when its fuel is used up).
-/

namespace Sphinx

/-! # Part I: the embedding of the source -/

/-! ## Outcomes -/

/-- Outcome of running a function of the source. -/
inductive Res (α : Type) where
  | ok (a : α)
  | panics
  | diverges
  deriving DecidableEq, Repr

/-- Sequencing of two steps: the second runs on the value of the first. -/
def Res.bind {α β : Type} (x : Res α) (f : α → Res β) : Res β :=
  match x with
  | .ok a => f a
  | .panics => .panics
  | .diverges => .diverges

instance : Monad Res where
  pure := Res.ok
  bind := Res.bind

/-- The value `math.MaxFloat64`, the integer `2^1024 - 2^971`. -/
def maxFloat64 : Int := 2 ^ 1024 - 2 ^ 971

/-! ## Slices of token references -/

section Slices

variable {τ : Type}

/-- Read `tokens[i]`: an index outside the slice panics. -/
def getAt (tokens : List (Option τ)) (i : Int) : Res (Option τ) :=
  if 0 ≤ i then
    match tokens[i.toNat]? with
    | some v => .ok v
    | none => .panics
  else .panics

/-- Write `tokens[i] = v`: an index outside the slice panics. -/
def setAt (tokens : List (Option τ)) (i : Int) (v : Option τ) : Res (List (Option τ)) :=
  if 0 ≤ i ∧ i.toNat < tokens.length then .ok (tokens.set i.toNat v) else .panics

/-- The call `t.GetScore()` on a token reference: a nil reference panics. -/
def derefScore (score : τ → Int) (t : Option τ) : Res Int :=
  match t with
  | some t => .ok (score t)
  | none => .panics

/-- The expression `tokens[i].GetScore()`. -/
def scoreAt (score : τ → Int) (tokens : List (Option τ)) (i : Int) : Res Int :=
  (getAt tokens i).bind (derefScore score)

end Slices

/-! ## `scorer.ByScore` and `sort.Sort` -/

section Sorting

variable {τ : Type}

/-- The method `ByScore.Less`: `a[i].GetScore() < a[j].GetScore()`. -/
def ByScore.Less (score : τ → Int) (a b : τ) : Bool := score a < score b

/-- The call `sort.Sort(scorer.ByScore(s))`: the slice ends up ordered by `Less`, that is by
ascending score.  The library sort is embedded as insertion sort, which is what it runs on
short slices; nothing proved below depends on the order it gives to equal scores other than
where a statement says so. -/
def sortByScore (score : τ → Int) (s : List τ) : List τ :=
  s.insertionSort (fun a b => score a ≤ score b)

/-- The call `sort.Sort(scorer.ByScore(s))` on a slice of references.  `Less` dereferences its
two arguments, so a nil entry panics as soon as there is something to compare. -/
def sortSlots (score : τ → Int) (s : List (Option τ)) : Res (List (Option τ)) :=
  if s.length < 2 then .ok s
  else if s.all Option.isSome then .ok ((sortByScore score (s.filterMap id)).map some)
  else .panics

end Sorting

/-! ## `partition.go` -/

section Partitioner

variable {τ : Type}

/-- The constant `DEFAULT_MAX_DEPTH`. -/
def DEFAULT_MAX_DEPTH : Int := 50

/-- First inner loop of `endPointPartition`:
`for i < end && tokens[i].GetScore() >= pivotScore { i++ }`. -/
def scanUp (score : τ → Int) (tokens : List (Option τ)) (pivotScore end_ : Int) :
    Nat → Int → Res Int
  | 0, _ => .diverges
  | fuel + 1, i =>
    if i < end_ then
      (scoreAt score tokens i).bind fun s =>
        if s ≥ pivotScore then scanUp score tokens pivotScore end_ fuel (i + 1) else .ok i
    else .ok i

/-- Second inner loop of `endPointPartition`:
`for j > i && tokens[j].GetScore() < pivotScore { j-- }`. -/
def scanDown (score : τ → Int) (tokens : List (Option τ)) (pivotScore i : Int) :
    Nat → Int → Res Int
  | 0, _ => .diverges
  | fuel + 1, j =>
    if j > i then
      (scoreAt score tokens j).bind fun s =>
        if s < pivotScore then scanDown score tokens pivotScore i fuel (j - 1) else .ok j
    else .ok j

/-- The outer `for { ... }` loop of `endPointPartition`, from the current `i` and `j`. -/
def partitionLoop (score : τ → Int) (pivotScore end_ : Int) :
    Nat → List (Option τ) → Int → Int → Res (List (Option τ) × Int)
  | 0, _, _, _ => .diverges
  | fuel + 1, tokens, i, j =>
    (scanUp score tokens pivotScore end_ ((end_ - i).toNat + 1) i).bind fun i =>
    (scanDown score tokens pivotScore i ((j - i).toNat + 1) j).bind fun j =>
      if j ≤ i then .ok (tokens, i)
      else
        (getAt tokens j).bind fun current =>
        (getAt tokens i).bind fun ti =>
        (setAt tokens j ti).bind fun tokens =>
        (setAt tokens i current).bind fun tokens =>
          partitionLoop score pivotScore end_ fuel tokens i j

/-- The method `DefaultPartitioner.endPointPartition`. -/
def endPointPartition (score : τ → Int) (tokens : List (Option τ)) (start end_ : Int) :
    Res (List (Option τ) × Int) :=
  (getAt tokens end_).bind fun pivot =>
  (derefScore score pivot).bind fun pivotScore =>
  (partitionLoop score pivotScore end_ ((end_ - start).toNat + 2) tokens start (end_ - 1)).bind
    fun r =>
      (getAt r.1 r.2).bind fun ti =>
      (setAt r.1 end_ ti).bind fun tokens =>
      (setAt tokens r.2 pivot).bind fun tokens =>
        .ok (tokens, r.2)

/-- The method `DefaultPartitioner.midPointPartition`; `(start + end) >> 1` is the floor of
half the sum. -/
def midPointPartition (score : τ → Int) (tokens : List (Option τ)) (start end_ : Int) :
    Res (List (Option τ) × Int) :=
  let middle := (start + end_) / 2
  (getAt tokens end_).bind fun temp =>
  (getAt tokens middle).bind fun tm =>
  (setAt tokens end_ tm).bind fun tokens =>
  (setAt tokens middle temp).bind fun tokens =>
    endPointPartition score tokens start end_

/-- The method `DefaultPartitioner.simplePointSelect`: sorts `tokens[start : end+1]` in place
with `sort.Sort(scorer.ByScore(..))` and returns `start + targetSize - 1`. -/
def simplePointSelect (score : τ → Int) (tokens : List (Option τ)) (start end_ targetSize : Int) :
    Res (List (Option τ) × Int) :=
  if 0 ≤ start ∧ start ≤ end_ + 1 ∧ end_ + 1 ≤ (tokens.length : Int) then
    (sortSlots score ((tokens.drop start.toNat).take (end_ + 1 - start).toNat)).bind fun seg =>
      .ok (tokens.take start.toNat ++ seg ++ tokens.drop (end_ + 1).toNat, start + targetSize - 1)
  else .panics

/-- The recursion of `midPointSelect`, one unit of fuel per call. -/
def midPointSelectAux (score : τ → Int) :
    Nat → List (Option τ) → Int → Int → Int → Int → Res (List (Option τ) × Int)
  | 0, _, _, _, _, _ => .diverges
  | fuel + 1, tokens, start, end_, targetSize, depth =>
    if depth > DEFAULT_MAX_DEPTH then simplePointSelect score tokens start end_ targetSize
    else if start = end_ then .ok (tokens, start)
    else
      (midPointPartition score tokens start end_).bind fun r =>
        let partitionToken := r.2
        let newSize := partitionToken - start + 1
        if targetSize = newSize then .ok (r.1, partitionToken)
        else if targetSize < newSize then
          midPointSelectAux score fuel r.1 start (partitionToken - 1) targetSize (depth + 1)
        else
          midPointSelectAux score fuel r.1 (partitionToken + 1) end_ (targetSize - newSize)
            (depth + 1)

/-- The method `DefaultPartitioner.midPointSelect`.  A call at depth `d` makes nested calls
at depths `d + 1, ..., DEFAULT_MAX_DEPTH + 1` at most, so `DEFAULT_MAX_DEPTH + 2 - d` units of
fuel are never used up. -/
def midPointSelect (score : τ → Int) (tokens : List (Option τ))
    (start end_ targetSize depth : Int) : Res (List (Option τ) × Int) :=
  midPointSelectAux score (DEFAULT_MAX_DEPTH + 2 - depth).toNat tokens start end_ targetSize depth

/-- The `for i := 0; i < len(tokens); i++` loop of `findBest`, over the entries from index `i`
on; the state is `(lowestScore, r)`. -/
def findBestLoop (score : τ → Int) : List (Option τ) → Int → Int × Int → Res (Int × Int)
  | [], _, acc => .ok acc
  | t :: rest, i, acc =>
    (derefScore score t).bind fun currentScore =>
      if currentScore ≤ acc.1 then findBestLoop score rest (i + 1) (currentScore, i)
      else findBestLoop score rest (i + 1) acc

/-- The method `DefaultPartitioner.findBest`. -/
def findBest (score : τ → Int) (tokens : List (Option τ)) (size : Int) :
    Res (List (Option τ) × Int) :=
  (findBestLoop score tokens 0 (maxFloat64, -1)).bind fun acc =>
    let r := acc.2
    let last := size - 1
    if last ≥ 0 then
      (getAt tokens last).bind fun lastToken =>
      (getAt tokens r).bind fun tr =>
      (setAt tokens last tr).bind fun tokens =>
      (setAt tokens r lastToken).bind fun tokens =>
        .ok (tokens, last)
    else .ok (tokens, last)

/-- The method `DefaultPartitioner.Partition`: the rearranged slice and the returned index. -/
def Partition (score : τ → Int) (tokens : List (Option τ)) (size n : Int) :
    Res (List (Option τ) × Int) :=
  if (tokens.length : Int) > n then midPointSelect score tokens 0 (size - 1) n 0
  else findBest score tokens size

end Partitioner

/-! ## `simple_active_list.go` -/

section SimpleList

variable {τ : Type}

/-- The struct `SimpleActiveList`.  Its tokens come in through `Add`, which takes a non-nil
token reference, so the slice is a list of references. -/
structure SimpleActiveList (τ : Type) where
  absoluteBeamWidth : Int
  logRelativeBeamWidth : Int
  bestToken : Option τ
  tokenList : List τ
  deriving DecidableEq, Repr

/-- The constructor `NewSimpleActiveList`. -/
def NewSimpleActiveList (absoluteBeamWidth logRelativeBeamWidth : Int) : SimpleActiveList τ :=
  { absoluteBeamWidth := absoluteBeamWidth
    logRelativeBeamWidth := logRelativeBeamWidth
    bestToken := none
    tokenList := [] }

/-- The test `bestToken == nil || token.GetScore() > bestToken.GetScore()` that ends both
`Add` methods (the source writes the second `bestToken` without its receiver). -/
def betterThanBest (score : τ → Int) (bestToken : Option τ) (token : τ) : Bool :=
  match bestToken with
  | none => true
  | some b => score token > score b

/-- The method `SimpleActiveList.Add`. -/
def SimpleActiveList.Add (score : τ → Int) (sal : SimpleActiveList τ) (token : τ) :
    SimpleActiveList τ :=
  let sal := { sal with tokenList := sal.tokenList ++ [token] }
  if betterThanBest score sal.bestToken token then { sal with bestToken := some token } else sal

/-- The method `SimpleActiveList.Purge`.  After the ascending sort,
`copy(tokenList[0:], tokenList[w:])` moves the entries from index `w` on to the front and
leaves the last `w` positions as they were; those positions are then set to nil and cut off
by the reslice to `len - w`. -/
def SimpleActiveList.Purge (score : τ → Int) (sal : SimpleActiveList τ) : SimpleActiveList τ :=
  if sal.absoluteBeamWidth > 0 ∧ (sal.tokenList.length : Int) > sal.absoluteBeamWidth then
    let sorted := sortByScore score sal.tokenList
    let w := sal.absoluteBeamWidth.toNat
    let copied := sorted.drop w ++ sorted.drop (sorted.length - w)
    { sal with tokenList := copied.take (copied.length - w) }
  else sal

/-- The method `SimpleActiveList.GetTokens`. -/
def SimpleActiveList.GetTokens (sal : SimpleActiveList τ) : List τ := sal.tokenList

/-- The method `SimpleActiveList.Size`. -/
def SimpleActiveList.Size (sal : SimpleActiveList τ) : Int := sal.tokenList.length

/-- The method `SimpleActiveList.GetBestScore`. -/
def SimpleActiveList.GetBestScore (score : τ → Int) (sal : SimpleActiveList τ) : Int :=
  match sal.bestToken with
  | some b => score b
  | none => -maxFloat64

/-- The method `SimpleActiveList.GetBeamThreshold`. -/
def SimpleActiveList.GetBeamThreshold (score : τ → Int) (sal : SimpleActiveList τ) : Int :=
  sal.GetBestScore score + sal.logRelativeBeamWidth

/-- The method `SimpleActiveList.SetBestToken`. -/
def SimpleActiveList.SetBestToken (sal : SimpleActiveList τ) (token : Option τ) :
    SimpleActiveList τ :=
  { sal with bestToken := token }

/-- The method `SimpleActiveList.GetBestToken`. -/
def SimpleActiveList.GetBestToken (sal : SimpleActiveList τ) : Option τ := sal.bestToken

/-- The method `SimpleActiveList.NewInstance`. -/
def SimpleActiveList.NewInstance (sal : SimpleActiveList τ) : SimpleActiveList τ :=
  NewSimpleActiveList sal.absoluteBeamWidth sal.logRelativeBeamWidth

/-- The list reached from `sal` by calling `Add` on each token in turn. -/
def SimpleActiveList.addAll (score : τ → Int) (sal : SimpleActiveList τ) (tokens : List τ) :
    SimpleActiveList τ :=
  tokens.foldl (SimpleActiveList.Add score) sal

end SimpleList

/-! ## `partition_active_list.go` -/

section PartitionList

variable {τ : Type}

/-- The struct `PartitionActiveList`; its partitioner is always `DefaultPartitioner`. -/
structure PartitionActiveList (τ : Type) where
  size : Int
  absoluteBeamWidth : Int
  logRelativeBeamWidth : Int
  bestToken : Option τ
  tokenList : List (Option τ)
  deriving DecidableEq, Repr

/-- The constructor `NewPartitionActiveList`: the backing slice has `absoluteBeamWidth / 3`
nil entries for a positive beam width, 2000 otherwise. -/
def NewPartitionActiveList (absoluteBeamWidth logRelativeBeamWidth : Int) :
    PartitionActiveList τ :=
  let listSize : Int := if absoluteBeamWidth > 0 then absoluteBeamWidth / 3 else 2000
  { size := 0
    absoluteBeamWidth := absoluteBeamWidth
    logRelativeBeamWidth := logRelativeBeamWidth
    bestToken := none
    tokenList := List.replicate listSize.toNat none }

/-- The method `PartitionActiveList.doubleCapacity`: the list gets a freshly made slice of
twice the length, all nil. -/
def PartitionActiveList.doubleCapacity (pal : PartitionActiveList τ) : PartitionActiveList τ :=
  { pal with tokenList := List.replicate (pal.tokenList.length * 2) none }

/-- The recursion of `PartitionActiveList.Add`, one unit of fuel per call.  The test on the
best token runs at the end of every call, the nested one included. -/
def PartitionActiveList.AddAux (score : τ → Int) :
    Nat → PartitionActiveList τ → τ → Res (PartitionActiveList τ)
  | 0, _, _ => .diverges
  | fuel + 1, pal, token =>
    (if pal.size < (pal.tokenList.length : Int) then
      (setAt pal.tokenList pal.size (some token)).bind fun tl =>
        .ok { pal with tokenList := tl, size := pal.size + 1 }
    else PartitionActiveList.AddAux score fuel pal.doubleCapacity token).bind fun pal =>
      .ok (if betterThanBest score pal.bestToken token then { pal with bestToken := some token }
           else pal)

/-- The method `PartitionActiveList.Add`.  With a non-empty backing slice the nested calls
stop once the doubled length exceeds `size`, within `size + 2` calls; with an empty one the
length stays 0 and the calls never stop. -/
def PartitionActiveList.Add (score : τ → Int) (pal : PartitionActiveList τ) (token : τ) :
    Res (PartitionActiveList τ) :=
  PartitionActiveList.AddAux score (pal.size.toNat + 2) pal token

/-- The method `PartitionActiveList.Purge`. -/
def PartitionActiveList.Purge (score : τ → Int) (pal : PartitionActiveList τ) :
    Res (PartitionActiveList τ) :=
  if pal.absoluteBeamWidth > 0 then
    if pal.size > pal.absoluteBeamWidth then
      (Partition score pal.tokenList pal.size pal.absoluteBeamWidth).bind fun r =>
        .ok { pal with tokenList := r.1, size := r.2 + 1 }
    else .ok pal
  else .ok pal

/-- The method `PartitionActiveList.GetTokens`: the whole backing slice. -/
def PartitionActiveList.GetTokens (pal : PartitionActiveList τ) : List (Option τ) :=
  pal.tokenList

/-- The method `PartitionActiveList.Size`. -/
def PartitionActiveList.Size (pal : PartitionActiveList τ) : Int := pal.size

/-- The method `PartitionActiveList.GetBestScore`. -/
def PartitionActiveList.GetBestScore (score : τ → Int) (pal : PartitionActiveList τ) : Int :=
  match pal.bestToken with
  | some b => score b
  | none => -maxFloat64

/-- The method `PartitionActiveList.GetBeamThreshold`. -/
def PartitionActiveList.GetBeamThreshold (score : τ → Int) (pal : PartitionActiveList τ) : Int :=
  pal.GetBestScore score + pal.logRelativeBeamWidth

/-- The method `PartitionActiveList.SetBestToken`. -/
def PartitionActiveList.SetBestToken (pal : PartitionActiveList τ) (token : Option τ) :
    PartitionActiveList τ :=
  { pal with bestToken := token }

/-- The method `PartitionActiveList.GetBestToken`. -/
def PartitionActiveList.GetBestToken (pal : PartitionActiveList τ) : Option τ := pal.bestToken

/-- The method `PartitionActiveList.NewInstance`. -/
def PartitionActiveList.NewInstance (pal : PartitionActiveList τ) : PartitionActiveList τ :=
  NewPartitionActiveList pal.absoluteBeamWidth pal.logRelativeBeamWidth

/-- The list reached from `pal` by calling `Add` on each token in turn. -/
def PartitionActiveList.addAll (score : τ → Int) (pal : PartitionActiveList τ) :
    List τ → Res (PartitionActiveList τ)
  | [] => .ok pal
  | t :: rest => (pal.Add score t).bind fun pal => PartitionActiveList.addAll score pal rest

end PartitionList

/-! ## `active_list.go`, `active_list_factory.go`, `simple_pruner.go` -/

section ActiveLists

variable {τ : Type}

/-- The interface `ActiveList`, with its two implementations. -/
inductive ActiveList (τ : Type) where
  | simple (l : SimpleActiveList τ)
  | partition (l : PartitionActiveList τ)
  deriving DecidableEq, Repr

/-- The method `ActiveList.Add`. -/
def ActiveList.Add (score : τ → Int) (al : ActiveList τ) (token : τ) : Res (ActiveList τ) :=
  match al with
  | .simple l => .ok (.simple (l.Add score token))
  | .partition l => (l.Add score token).bind fun l => .ok (.partition l)

/-- The method `ActiveList.Purge`. -/
def ActiveList.Purge (score : τ → Int) (al : ActiveList τ) : Res (ActiveList τ) :=
  match al with
  | .simple l => .ok (.simple (l.Purge score))
  | .partition l => (l.Purge score).bind fun l => .ok (.partition l)

/-- The method `ActiveList.Size`. -/
def ActiveList.Size (al : ActiveList τ) : Int :=
  match al with
  | .simple l => l.Size
  | .partition l => l.Size

/-- The method `ActiveList.GetTokens`, as a slice of references. -/
def ActiveList.GetTokens (al : ActiveList τ) : List (Option τ) :=
  match al with
  | .simple l => l.GetTokens.map some
  | .partition l => l.GetTokens

/-- The method `ActiveList.GetBestScore`. -/
def ActiveList.GetBestScore (score : τ → Int) (al : ActiveList τ) : Int :=
  match al with
  | .simple l => l.GetBestScore score
  | .partition l => l.GetBestScore score

/-- The method `ActiveList.GetBeamThreshold`. -/
def ActiveList.GetBeamThreshold (score : τ → Int) (al : ActiveList τ) : Int :=
  match al with
  | .simple l => l.GetBeamThreshold score
  | .partition l => l.GetBeamThreshold score

/-- The method `ActiveList.SetBestToken`. -/
def ActiveList.SetBestToken (al : ActiveList τ) (token : Option τ) : ActiveList τ :=
  match al with
  | .simple l => .simple (l.SetBestToken token)
  | .partition l => .partition (l.SetBestToken token)

/-- The method `ActiveList.GetBestToken`. -/
def ActiveList.GetBestToken (al : ActiveList τ) : Option τ :=
  match al with
  | .simple l => l.GetBestToken
  | .partition l => l.GetBestToken

/-- The method `ActiveList.NewInstance`. -/
def ActiveList.NewInstance (al : ActiveList τ) : ActiveList τ :=
  match al with
  | .simple l => .simple l.NewInstance
  | .partition l => .partition l.NewInstance

/-- The token references an active list holds: every entry of a simple list, every non-nil
entry of the backing slice of a partition list. -/
def ActiveList.held (al : ActiveList τ) : List τ :=
  match al with
  | .simple l => l.tokenList
  | .partition l => l.tokenList.filterMap id

/-- The interface `ActiveListFactory`, with its two implementations; the factory keeps the
beam width and the log of the relative beam width. -/
inductive ActiveListFactory where
  | simple (absoluteBeamWidth logRelativeBeamWidth : Int)
  | partition (absoluteBeamWidth logRelativeBeamWidth : Int)
  deriving DecidableEq, Repr

/-- The method `ActiveListFactory.NewInstance`. -/
def ActiveListFactory.NewInstance (f : ActiveListFactory) : ActiveList τ :=
  match f with
  | .simple a r => .simple (NewSimpleActiveList a r)
  | .partition a r => .partition (NewPartitionActiveList a r)

/-- The method `SimplePruner.Prune`: it invokes the purge of the active list. -/
def SimplePruner.Prune (score : τ → Int) (activeList : ActiveList τ) : Res (ActiveList τ) :=
  activeList.Purge score

end ActiveLists

/-! ## `token.go` -/

/-- A non-nil `*Token`: the address of a token in the heap. -/
abbrev Ptr := Nat

/-- A `linguist.SearchState`, named by a number; two references to the same state are equal. -/
abbrev SearchState := Nat

/-- The values of `frontend.Data` that the decoder tells apart. -/
inductive Data where
  | floatData (values : List Int) (sampleRate firstSampleNumber collectTime : Int)
  | doubleData (values : List Int) (sampleRate firstSampleNumber collectTime : Int)
  | speechEndSignal
  | dataEndSignal
  | otherSignal
  deriving DecidableEq, Repr

/-- The struct `Token`. -/
structure Token where
  curCount : Int
  lastCount : Int
  predecessor : Option Ptr
  logLanguageScore : Int
  logTotalScore : Int
  logInsertionScore : Int
  logAcousticScore : Int
  searchState : Option SearchState
  collectTime : Int
  data : Option Data
  deriving DecidableEq, Repr

/-- The zero value of `Token`, what `new(Token)` gives. -/
instance : Inhabited Token :=
  ⟨{ curCount := 0, lastCount := 0, predecessor := none, logLanguageScore := 0,
     logTotalScore := 0, logInsertionScore := 0, logAcousticScore := 0, searchState := none,
     collectTime := 0, data := none }⟩

/-- The tokens allocated so far; a `Ptr` is a position in this list. -/
abbrev Heap := List Token

/-- The token a reference points to.  References made by the code are always inside the heap. -/
def Heap.deref (h : Heap) (p : Ptr) : Token := h.getD p default

/-- Allocation of a token: it goes to the end of the heap and its position is returned. -/
def Heap.alloc (h : Heap) (t : Token) : Heap × Ptr := (h ++ [t], h.length)

/-- Write through a reference. -/
def Heap.store (h : Heap) (p : Ptr) (t : Token) : Heap := h.set p t

/-- The token that `newToken` builds: the zero value with the six given fields set and
`curCount` incremented. -/
def Token.make (predecessor : Option Ptr) (state : Option SearchState)
    (logTotalScore logInsertionScore logLanguageScore collectTime : Int) : Token :=
  { (default : Token) with
    predecessor := predecessor
    searchState := state
    logTotalScore := logTotalScore
    logInsertionScore := logInsertionScore
    logLanguageScore := logLanguageScore
    collectTime := collectTime
    curCount := 1 }

/-- The function `newToken`. -/
def newToken (h : Heap) (predecessor : Option Ptr) (state : Option SearchState)
    (logTotalScore logInsertionScore logLanguageScore collectTime : Int) : Heap × Ptr :=
  h.alloc (Token.make predecessor state logTotalScore logInsertionScore logLanguageScore
    collectTime)

/-- The function `NewToken`. -/
def NewToken (h : Heap) (state : SearchState) (collectTime : Int) : Heap × Ptr :=
  newToken h none (some state) 0 0 0 collectTime

/-- The function `NewTokenWithScores`. -/
def NewTokenWithScores (h : Heap) (predecessor : Option Ptr)
    (logTotalScore logAcousticScore logInsertionScore logLanguageScore : Int) : Heap × Ptr :=
  let r := newToken h predecessor none logTotalScore logInsertionScore logLanguageScore 0
  (r.1.store r.2 { r.1.deref r.2 with logAcousticScore := logAcousticScore }, r.2)

/-- The method `Token.GetScore`, through a reference. -/
def GetScore (h : Heap) (p : Ptr) : Int := (h.deref p).logTotalScore

/-- The method `Token.GetCollectTime`, through a reference. -/
def GetCollectTime (h : Heap) (p : Ptr) : Int := (h.deref p).collectTime

/-- The method `Token.GetPredecessor`, through a reference. -/
def GetPredecessor (h : Heap) (p : Ptr) : Option Ptr := (h.deref p).predecessor

/-- The method `Token.Update`. -/
def Token.Update (tok : Token) (predecessor : Option Ptr) (nextState : SearchState)
    (logEntryScore insertionProbability languageProbability collectTime : Int) : Token :=
  { tok with
    predecessor := predecessor
    searchState := some nextState
    logTotalScore := logEntryScore
    logInsertionScore := insertionProbability
    logLanguageScore := languageProbability
    collectTime := collectTime }

/-! ## `linguist`: the search graph the decoder consumes -/

/-- The interface `linguist.SearchStateArc`. -/
structure SearchStateArc where
  state : SearchState
  probability : Int
  languageProbability : Int
  insertionProbability : Int
  deriving DecidableEq, Repr

/-- The methods of `linguist.SearchState` that the search managers call, for every state of a
search graph; `isWordSearchState` tells whether the state is a `linguist.WordSearchState`. -/
structure Linguist where
  successors : SearchState → List SearchStateArc
  isEmitting : SearchState → Bool
  isFinal : SearchState → Bool
  isWordSearchState : SearchState → Bool
  order : SearchState → Int

/-- The method `Token.IsEmitting`: it calls the search state, so a token without one panics. -/
def Token.IsEmitting (lg : Linguist) (tok : Token) : Res Bool :=
  match tok.searchState with
  | some s => .ok (lg.isEmitting s)
  | none => .panics

/-- The method `Token.IsFinal`: it calls the search state, so a token without one panics. -/
def Token.IsFinal (lg : Linguist) (tok : Token) : Res Bool :=
  match tok.searchState with
  | some s => .ok (lg.isFinal s)
  | none => .panics

/-- The method `Token.IsWord`: a checked type assertion, false for a token without state. -/
def Token.IsWord (lg : Linguist) (tok : Token) : Bool :=
  match tok.searchState with
  | some s => lg.isWordSearchState s
  | none => false

/-! ## `token_search_manager.go` -/

/-- The struct `TokenSearchManager`. -/
structure TokenSearchManager where
  buildWordLattice : Bool
  keepAllTokens : Bool
  deriving DecidableEq, Repr

/-- The loop `for token != nil && !token.IsWord() { ... }` of `getResultListPredecessor`; the
state is the current token and the three sums `(acoustic, language, insertion)`. -/
def walkToWord (lg : Linguist) (h : Heap) :
    Nat → Option Ptr → Int × Int × Int → Res (Option Ptr × Int × Int × Int)
  | 0, _, _ => .diverges
  | fuel + 1, token, sums =>
    match token with
    | none => .ok (none, sums)
    | some p =>
      if (h.deref p).IsWord lg then .ok (some p, sums)
      else
        walkToWord lg h fuel (GetPredecessor h p)
          (sums.1 + (h.deref p).logAcousticScore,
           sums.2.1 + (h.deref p).logLanguageScore,
           sums.2.2 + (h.deref p).logInsertionScore)

/-- The method `TokenSearchManager.getResultListPredecessor`.  Its last line calls a token
constructor with a predecessor and four scores, which is `NewTokenWithScores`, with the
arguments in the order the source gives them: `token, token.GetScore(), logInsertionScore,
logAcousticScore, logLanguageScore`.  A walk longer than the heap is going round a cycle of
predecessors and never ends. -/
def TokenSearchManager.getResultListPredecessor (tsm : TokenSearchManager) (lg : Linguist)
    (h : Heap) (token : Ptr) : Res (Heap × Option Ptr) :=
  if tsm.keepAllTokens then .ok (h, some token)
  else if !tsm.buildWordLattice then
    if (h.deref token).IsWord lg then .ok (h, some token) else .ok (h, GetPredecessor h token)
  else
    (walkToWord lg h (h.length + 1) (some token) (0, 0, 0)).bind fun r =>
      match r.1 with
      | none => .panics
      | some w =>
        let logAcousticScore := r.2.1
        let logLanguageScore := r.2.2.1
        let logInsertionScore := r.2.2.2
        let made :=
          NewTokenWithScores h (some w) (GetScore h w) logInsertionScore logAcousticScore
            logLanguageScore
        .ok (made.1, some made.2)

/-! ## `simple_active_list_manager.go` -/

/-- The struct `SimpleActiveListManager`. -/
structure SimpleActiveListManager where
  checkPriorLists : Bool
  activeListFactories : List ActiveListFactory
  currentActiveLists : List (ActiveList Ptr)
  deriving DecidableEq, Repr

/-- Read of `currentActiveLists[i]`. -/
def SimpleActiveListManager.listAt (salm : SimpleActiveListManager) (i : Int) :
    Res (ActiveList Ptr) :=
  if 0 ≤ i then
    match salm.currentActiveLists[i.toNat]? with
    | some l => .ok l
    | none => .panics
  else .panics

/-- Write of `currentActiveLists[i]`. -/
def SimpleActiveListManager.setListAt (salm : SimpleActiveListManager) (i : Int)
    (l : ActiveList Ptr) : Res SimpleActiveListManager :=
  if 0 ≤ i ∧ i.toNat < salm.currentActiveLists.length then
    .ok { salm with currentActiveLists := salm.currentActiveLists.set i.toNat l }
  else .panics

/-- The method `SimpleActiveListManager.createActiveLists`, for the list positions from `i`. -/
def SimpleActiveListManager.createActiveLists (factories : List ActiveListFactory) :
    Nat → Nat → Res (List (ActiveList Ptr))
  | 0, _ => .ok []
  | k + 1, i =>
    let nlists : Int := factories.length
    let which : Int := if (i : Int) ≥ nlists then nlists - 1 else i
    if 0 ≤ which then
      match factories[which.toNat]? with
      | some alf =>
        (SimpleActiveListManager.createActiveLists factories k (i + 1)).bind fun rest =>
          .ok (alf.NewInstance :: rest)
      | none => .panics
    else .panics

/-- The method `SimpleActiveListManager.SetNumStateOrder`. -/
def SimpleActiveListManager.SetNumStateOrder (salm : SimpleActiveListManager)
    (numStateOrder : Int) : Res SimpleActiveListManager :=
  if numStateOrder < 0 then .panics
  else if salm.activeListFactories.length = 0 then .panics
  else
    (SimpleActiveListManager.createActiveLists salm.activeListFactories numStateOrder.toNat 0).bind
      fun lists => .ok { salm with currentActiveLists := lists }

/-- The method `SimpleActiveListManager.findListFor`, from the order of the token's state. -/
def SimpleActiveListManager.findListFor (salm : SimpleActiveListManager) (order : Int) :
    Res (ActiveList Ptr) :=
  salm.listAt order

/-- The method `SimpleActiveListManager.Add`; `order` is `token.GetSearchState().GetOrder()`. -/
def SimpleActiveListManager.Add (score : Ptr → Int) (salm : SimpleActiveListManager)
    (order : Int) (token : Ptr) : Res SimpleActiveListManager :=
  (salm.findListFor order).bind fun activeList =>
  (activeList.Add score token).bind fun activeList =>
    salm.setListAt order activeList

/-- The method `SimpleActiveListManager.GetEmittingList`. -/
def SimpleActiveListManager.GetEmittingList (salm : SimpleActiveListManager) :
    Res (ActiveList Ptr) :=
  salm.listAt ((salm.currentActiveLists.length : Int) - 1)

/-- The method `SimpleActiveListManager.ClearEmittingList`. -/
def SimpleActiveListManager.ClearEmittingList (salm : SimpleActiveListManager) :
    Res SimpleActiveListManager :=
  (salm.listAt ((salm.currentActiveLists.length : Int) - 1)).bind fun list =>
    salm.setListAt ((salm.currentActiveLists.length : Int) - 1) list.NewInstance

/-- The method `nonEmittingListIterator.HasNext`. -/
def nonEmittingListIterator.HasNext (salm : SimpleActiveListManager) (listPtr : Int) : Bool :=
  listPtr + 1 < (salm.currentActiveLists.length : Int) - 1

/-- The method `nonEmittingListIterator.checkPriorLists`. -/
def nonEmittingListIterator.checkPriorLists (salm : SimpleActiveListManager) (listPtr : Int) :
    Res Unit :=
  if (salm.currentActiveLists.take listPtr.toNat).all (fun al => al.Size ≤ 0) then .ok ()
  else .panics

/-- The method `nonEmittingListIterator.Next`, after its `listPtr++`: `listPtr` is the new
position, and the result is nil past the end of the lists. -/
def nonEmittingListIterator.Next (salm : SimpleActiveListManager) (listPtr : Int) :
    Res (Option (ActiveList Ptr)) :=
  if listPtr ≥ (salm.currentActiveLists.length : Int) then .ok none
  else
    (if salm.checkPriorLists then nonEmittingListIterator.checkPriorLists salm listPtr
     else .ok ()).bind fun _ =>
      (salm.listAt listPtr).bind fun l => .ok (some l)

/-- The method `nonEmittingListIterator.Remove`. -/
def nonEmittingListIterator.Remove (salm : SimpleActiveListManager) (listPtr : Int) :
    Res SimpleActiveListManager :=
  (salm.listAt listPtr).bind fun l => salm.setListAt listPtr l.NewInstance

/-! ## `word_pruning_breadth_first_search_manager.go` -/

/-- Modelled from the spec: the type `AlternateHypothesisManager` and its method
`AddAlternatePredecessor`, which the search manager calls and the sources do not contain.  The
spec describes it as a bounded map from a surviving token to its losing predecessors, capped at
`max_lattice_edges` entries in total; the entries are kept here in the order they were added. -/
structure AlternateHypothesisManager where
  maxEdges : Int
  viterbiLoserMap : List (Ptr × Option Ptr)
  deriving DecidableEq, Repr

/-- Modelled from the spec: the constructor `NewAlternateHypothesisManager`. -/
def NewAlternateHypothesisManager (maxEdges : Int) : AlternateHypothesisManager :=
  { maxEdges := maxEdges, viterbiLoserMap := [] }

/-- Modelled from the spec: the method `AlternateHypothesisManager.AddAlternatePredecessor`,
which records `predecessor` as a loser of `token` while the cap is not reached. -/
def AlternateHypothesisManager.AddAlternatePredecessor (ahm : AlternateHypothesisManager)
    (token : Ptr) (predecessor : Option Ptr) : AlternateHypothesisManager :=
  if (ahm.viterbiLoserMap.length : Int) < ahm.maxEdges then
    { ahm with viterbiLoserMap := ahm.viterbiLoserMap ++ [(token, predecessor)] }
  else ahm

/-- The struct `WordPruningBreadthFirstSearchManager`: its configuration, its working data, the
active list manager it owns and the heap of the tokens made so far.  The linguist is passed to
the methods; timers and the statistics other than `tokensCreated` are left out. -/
structure WordPruningBreadthFirstSearchManager extends TokenSearchManager where
  checkStateOrder : Bool
  growSkipInterval : Int
  relativeBeamWidth : Int
  acousticLookaheadFrames : Int
  maxLatticeEdges : Int
  tokensCreated : Int
  currentFrameNumber : Int
  currentCollectTime : Int
  activeList : Option (ActiveList Ptr)
  resultList : List (Option Ptr)
  bestTokenMap : List (SearchState × Ptr)
  loserManager : AlternateHypothesisManager
  numStateOrder : Int
  streamEnd : Bool
  activeListManager : SimpleActiveListManager
  heap : Heap
  deriving DecidableEq, Repr

namespace WPBFSM

/-- The receiver type of the methods below. -/
abbrev Manager := WordPruningBreadthFirstSearchManager

/-- The method `createBestTokenMap`: a new empty map.  Its size hint, taken from
`activeList.Size()`, has no other effect than the call on the active list. -/
def createBestTokenMap (m : Manager) : Res Manager :=
  match m.activeList with
  | none => .panics
  | some _ => .ok { m with bestTokenMap := [] }

/-- The method `clearCollectors`. -/
def clearCollectors (m : Manager) : Res Manager :=
  (createBestTokenMap { m with resultList := [] }).bind fun m =>
    m.activeListManager.ClearEmittingList.bind fun alm => .ok { m with activeListManager := alm }

/-- The method `getBestToken`: nil when the map has no token for the state. -/
def getBestToken (m : Manager) (state : SearchState) : Option Ptr := m.bestTokenMap.lookup state

/-- The method `setBestToken`; a lookup finds the entry put last. -/
def setBestToken (m : Manager) (token : Ptr) (state : SearchState) : Manager :=
  { m with bestTokenMap := (state, token) :: m.bestTokenMap }

/-- The method `checkStateOrder`. -/
def checkStateOrder (lg : Linguist) (m : Manager) (fromState toState : SearchState) : Res Unit :=
  if lg.order fromState = m.numStateOrder - 1 then .ok ()
  else if lg.order fromState > lg.order toState then .panics
  else .ok ()

/-- The method `activeListAdd`. -/
def activeListAdd (lg : Linguist) (m : Manager) (token : Ptr) : Res Manager :=
  match (m.heap.deref token).searchState with
  | none => .panics
  | some s =>
    (m.activeListManager.Add (GetScore m.heap) (lg.order s) token).bind fun alm =>
      .ok { m with activeListManager := alm }

/-- The loop `for t != nil && !t.IsEmitting() { ... }` of `isVisited`.  The source compares
the states with `curState.Equals`, a method that the interface `linguist.SearchState` does
not declare: it is read as the equality of the two states. -/
def isVisitedLoop (lg : Linguist) (h : Heap) (curState : Option SearchState) :
    Nat → Option Ptr → Res Bool
  | 0, _ => .diverges
  | fuel + 1, t =>
    match t with
    | none => .ok false
    | some p =>
      ((h.deref p).IsEmitting lg).bind fun emitting =>
        if emitting then .ok false
        else if curState = (h.deref p).searchState then .ok true
        else isVisitedLoop lg h curState fuel (GetPredecessor h p)

/-- The method `isVisited`.  A walk longer than the heap is going round a cycle of
predecessors and never ends. -/
def isVisited (lg : Linguist) (m : Manager) (t : Ptr) : Res Bool :=
  isVisitedLoop lg m.heap (m.heap.deref t).searchState (m.heap.length + 1) (GetPredecessor m.heap t)

/-- One pass of the loop `for _, arc := range arcs` of `collectSuccessorTokens`, for the arc
`arc` out of the state `state` of `token`. -/
def processArc (lg : Linguist) (m : Manager) (token : Ptr) (state : SearchState)
    (predecessor : Option Ptr) (arc : SearchStateArc) : Res Manager :=
  let nextState := arc.state
  (if m.checkStateOrder then checkStateOrder lg m state nextState else .ok ()).bind fun _ =>
    let logEntryScore := GetScore m.heap token + arc.probability
    let ok := lg.isWordSearchState nextState
    match getBestToken m nextState with
    | none =>
      let made := newToken m.heap predecessor (some nextState) logEntryScore
        arc.insertionProbability arc.languageProbability m.currentCollectTime
      let m := { m with heap := made.1, tokensCreated := m.tokensCreated + 1 }
      activeListAdd lg (setBestToken m made.2 nextState) made.2
    | some bestToken =>
      if GetScore m.heap bestToken < logEntryScore then
        let oldPredecessor := GetPredecessor m.heap bestToken
        let updated := (m.heap.deref bestToken).Update predecessor nextState logEntryScore
          arc.insertionProbability arc.languageProbability m.currentCollectTime
        let m := { m with heap := m.heap.store bestToken updated }
        if m.buildWordLattice ∧ ok then
          .ok { m with loserManager :=
            m.loserManager.AddAlternatePredecessor bestToken oldPredecessor }
        else .ok m
      else if m.buildWordLattice ∧ ok then
        if predecessor ≠ none then
          .ok { m with loserManager :=
            m.loserManager.AddAlternatePredecessor bestToken predecessor }
        else .ok m
      else .ok m

/-- The loop `for _, arc := range arcs` of `collectSuccessorTokens`. -/
def arcLoop (lg : Linguist) (token : Ptr) (state : SearchState) (predecessor : Option Ptr) :
    List SearchStateArc → Manager → Res Manager
  | [], m => .ok m
  | arc :: rest, m =>
    (processArc lg m token state predecessor arc).bind (arcLoop lg token state predecessor rest)

/-- The method `collectSuccessorTokens`. -/
def collectSuccessorTokens (lg : Linguist) (m : Manager) (token : Ptr) : Res Manager :=
  ((m.heap.deref token).IsFinal lg).bind fun final =>
    if final then
      (m.getResultListPredecessor lg m.heap token).bind fun r =>
        .ok { m with heap := r.1, resultList := m.resultList ++ [r.2] }
    else
      ((m.heap.deref token).IsEmitting lg).bind fun emitting =>
      (if !emitting ∧ m.keepAllTokens then isVisited lg m token else .ok false).bind fun visited =>
        if visited then .ok m
        else
          match (m.heap.deref token).searchState with
          | none => .panics
          | some state =>
            (m.getResultListPredecessor lg m.heap token).bind fun r =>
              arcLoop lg token state r.2 (lg.successors state) { m with heap := r.1 }

/-- The method `pruneBranches`, with `SimplePruner` as the pruner. -/
def pruneBranches (m : Manager) : Res Manager :=
  match m.activeList with
  | none => .panics
  | some al =>
    (SimplePruner.Prune (GetScore m.heap) al).bind fun al => .ok { m with activeList := some al }

/-- The loop of `growBranches` over the tokens of the active list. -/
def growBranchesLoop (lg : Linguist) (allowExpansion : Token → Bool)
    (relativeBeamThreshold : Int) : List (Option Ptr) → Manager → Res Manager
  | [], m => .ok m
  | none :: _, _ => .panics
  | some token :: rest, m =>
    (if GetScore m.heap token ≥ relativeBeamThreshold ∧ allowExpansion (m.heap.deref token) then
      collectSuccessorTokens lg m token
     else .ok m).bind (growBranchesLoop lg allowExpansion relativeBeamThreshold rest)

/-- The method `growBranches`; `allowExpansion` stands for the method of that name, which the
sources call and do not define. -/
def growBranches (lg : Linguist) (allowExpansion : Token → Bool) (m : Manager) : Res Manager :=
  match m.activeList with
  | none => .panics
  | some al =>
    growBranchesLoop lg allowExpansion (al.GetBeamThreshold (GetScore m.heap)) al.GetTokens m

/-- First loop of `growEmittingBranches`: the best projected score over the tokens. -/
def bestProjectedScore (h : Heap) (acousticLookaheadFrames : Int) :
    List (Option Ptr) → Int → Res Int
  | [], bestScore => .ok bestScore
  | none :: _, _ => .panics
  | some t :: rest, bestScore =>
    let score := GetScore h t + (h.deref t).logAcousticScore * acousticLookaheadFrames
    bestProjectedScore h acousticLookaheadFrames rest (if score > bestScore then score else bestScore)

/-- Second loop of `growEmittingBranches`. -/
def growEmittingLoop (lg : Linguist) (relativeBeamThreshold : Int) :
    List (Option Ptr) → Manager → Res Manager
  | [], m => .ok m
  | none :: _, _ => .panics
  | some t :: rest, m =>
    (if GetScore m.heap t + (m.heap.deref t).logAcousticScore * m.acousticLookaheadFrames
        > relativeBeamThreshold then
      collectSuccessorTokens lg m t
     else .ok m).bind (growEmittingLoop lg relativeBeamThreshold rest)

/-- The method `growEmittingBranches`. -/
def growEmittingBranches (lg : Linguist) (allowExpansion : Token → Bool) (m : Manager) :
    Res Manager :=
  if m.acousticLookaheadFrames ≤ 0 then growBranches lg allowExpansion m
  else
    match m.activeList with
    | none => .panics
    | some al =>
      (bestProjectedScore m.heap m.acousticLookaheadFrames al.GetTokens (-maxFloat64)).bind
        fun bestScore =>
          growEmittingLoop lg (bestScore + m.relativeBeamWidth) al.GetTokens m

/-- The loop `for i.HasNext() { ... }` of `growNonEmittingBranches`; `listPtr` is the position
of the iterator. -/
def growNonEmittingLoop (lg : Linguist) (allowExpansion : Token → Bool) :
    Nat → Int → Manager → Res Manager
  | 0, _, _ => .diverges
  | fuel + 1, listPtr, m =>
    if nonEmittingListIterator.HasNext m.activeListManager listPtr then
      (nonEmittingListIterator.Next m.activeListManager (listPtr + 1)).bind fun next =>
        match next with
        | none =>
          growNonEmittingLoop lg allowExpansion fuel (listPtr + 1) { m with activeList := none }
        | some al =>
          (nonEmittingListIterator.Remove m.activeListManager (listPtr + 1)).bind fun alm =>
          (pruneBranches { m with activeList := some al, activeListManager := alm }).bind fun m =>
          (growBranches lg allowExpansion m).bind fun m =>
            growNonEmittingLoop lg allowExpansion fuel (listPtr + 1) m
    else .ok m

/-- The method `growNonEmittingBranches`.  The iterator moves one list forward in each pass
and the number of lists does not change, so the fuel is never used up. -/
def growNonEmittingBranches (lg : Linguist) (allowExpansion : Token → Bool) (m : Manager) :
    Res Manager :=
  growNonEmittingLoop lg allowExpansion (m.activeListManager.currentActiveLists.length + 1) (-1) m

/-- The grow step of `recognize`: `clearCollectors`, `growEmittingBranches`,
`growNonEmittingBranches`. -/
def growStep (lg : Linguist) (allowExpansion : Token → Bool) (m : Manager) : Res Manager :=
  (clearCollectors m).bind fun m =>
  (growEmittingBranches lg allowExpansion m).bind fun m =>
    growNonEmittingBranches lg allowExpansion m

/-- The tokens held in the active lists of the manager, list after list. -/
def heldTokens (m : Manager) : List Ptr :=
  (m.activeListManager.currentActiveLists.map ActiveList.held).flatten

end WPBFSM

/-! ## `frontend`: the stream of data the scorer reads -/

/-- The checked type assertion `data.(fe.Signal)`. -/
def Data.isSignal : Data → Bool
  | .floatData _ _ _ _ => false
  | .doubleData _ _ _ _ => false
  | _ => true

/-- The checked type assertion `data.(fe.SpeechEndSignal)`. -/
def Data.isSpeechEndSignal : Data → Bool
  | .speechEndSignal => true
  | _ => false

/-- The checked type assertion `data.(fe.DataEndSignal)`, which the scorer never makes. -/
def Data.isDataEndSignal : Data → Bool
  | .dataEndSignal => true
  | _ => false

/-- An ordinary feature frame: a `FloatData` or a `DoubleData`. -/
def Data.isFrame (d : Data) : Bool := !d.isSignal

/-- Modelled from the spec: the type `fe.FrontEnd` with its method `GetData`, which the scorer
calls and the sources do not contain.  The spec describes it as a lazy sequence of `Data`,
feature frames and control signals; `pending` is what is still to come, and `GetData` returns
nil once nothing is left. -/
structure FrontEnd where
  pending : List Data
  deriving DecidableEq, Repr

/-- Modelled from the spec: the method `FrontEnd.GetData`. -/
def FrontEnd.GetData (fe : FrontEnd) : Option Data × FrontEnd :=
  match fe.pending with
  | [] => (none, fe)
  | d :: rest => (some d, { pending := rest })

/-- The function `DoubleData2FloatData` of `util.DataUtil`, which the sources call and do not
contain: the same frame as a `FloatData`. -/
def DoubleData2FloatData : Data → Data
  | .doubleData values sampleRate firstSampleNumber collectTime =>
    .floatData values sampleRate firstSampleNumber collectTime
  | d => d

/-! ## `token.go`: scoring a token -/

/-- What the scorer needs from outside the sources.  `provider s feature` is
`s.(scorer.ScoreProvider).GetScore(feature)` for the search state `s`, a panic when the state
is no `ScoreProvider`; `normalizer` is the optional `ScoreNormalizer`, whose `Normalize`
receives the scored tokens and the best one and gives back the best one. -/
structure ScoringModel where
  provider : SearchState → Data → Res Int
  normalizer : Option (Heap → List (Option Ptr) → Option Ptr → Res (Heap × Option Ptr))

/-- The method `Token.SetData`. -/
def Token.SetData (tok : Token) (data : Data) : Token :=
  match data with
  | .floatData _ _ _ collectTime => { tok with data := some data, collectTime := collectTime }
  | _ => { tok with data := some data }

/-- The method `Token.CalculateScore`, up to the token it leaves. -/
def Token.CalculateScore (sm : ScoringModel) (tok : Token) (feature : Data) : Res Token :=
  match tok.searchState with
  | none => .panics
  | some s =>
    (sm.provider s feature).bind fun logAcousticScore =>
      .ok (Token.SetData
        { tok with
          logAcousticScore := logAcousticScore
          logTotalScore := tok.logTotalScore + logAcousticScore } feature)

/-! ## `simple_acoustic_scorer.go` -/

/-- A value of the interface `fe.Data` as the scorer returns it: nil, a token, or a piece of
data of the front end. -/
inductive Scored where
  | nil
  | token (p : Ptr)
  | data (d : Data)
  deriving DecidableEq, Repr

/-- The struct `SimpleAcousticScorer`; the score normalizer is in the `ScoringModel`. -/
structure SimpleAcousticScorer where
  frontEnd : FrontEnd
  storedData : List Data
  seenEnd : Bool
  deriving DecidableEq, Repr

/-- How the loop `for { ... }` that reads the front end is left: by its `return nil`, or by a
`break` with the data read last (nil when the front end had no more). -/
inductive Drained where
  | returned
  | broke (data : Option Data)
  deriving DecidableEq, Repr

/-- The loop `for { data = sas.getNextData() ... }` of `CalculateScores` and of
`CalculateScoresAndStoreData`, on what the front end still has and on `seenEnd`; it gives how
the loop is left, what the front end has afterwards and the new `seenEnd` (the source writes
`seenEnd = true` without the receiver).  Both type assertions on the data are assertions to
`fe.SpeechEndSignal`, the second one under the name `des_ok`. -/
def SimpleAcousticScorer.readLoop : List Data → Bool → Drained × List Data × Bool
  | [], seenEnd => (.broke none, [], seenEnd)
  | data :: rest, seenEnd =>
    if !data.isSignal then (.broke (some data), rest, seenEnd)
    else if data.isSpeechEndSignal then (.broke (some data), rest, true)
    else if data.isSpeechEndSignal then
      if seenEnd then (.returned, rest, seenEnd) else (.broke (some data), rest, seenEnd)
    else SimpleAcousticScorer.readLoop rest seenEnd

/-- The loop of `doScoring`: every token is scored against the data, and the first one whose
score is above all the scores before it, and above `-math.MaxFloat64`, is the best. -/
def SimpleAcousticScorer.doScoringLoop (sm : ScoringModel) (data : Data) :
    List (Option Ptr) → Heap → Option Ptr × Int → Res (Heap × Option Ptr)
  | [], h, acc => .ok (h, acc.1)
  | none :: _, _, _ => .panics
  | some item :: rest, h, acc =>
    ((h.deref item).CalculateScore sm data).bind fun scored =>
      let h := h.store item scored
      SimpleAcousticScorer.doScoringLoop sm data rest h
        (if GetScore h item > acc.2 then (some item, GetScore h item) else acc)

/-- The method `doScoring`. -/
def SimpleAcousticScorer.doScoring (sm : ScoringModel) (h : Heap)
    (scoreableList : List (Option Ptr)) (data : Data) : Res (Heap × Option Ptr) :=
  SimpleAcousticScorer.doScoringLoop sm data scoreableList h (none, -maxFloat64)

/-- The method `calculateScoresForData`; both of its type assertions are assertions to
`fe.SpeechEndSignal`.  A nil best token comes back as the nil value of `fe.Data`. -/
def SimpleAcousticScorer.calculateScoresForData (sm : ScoringModel) (h : Heap)
    (scoreableList : List (Option Ptr)) (data : Data) : Res (Scored × Heap) :=
  if data.isSpeechEndSignal ∨ data.isSpeechEndSignal then .ok (.data data, h)
  else if scoreableList.length = 0 then .ok (.nil, h)
  else
    (SimpleAcousticScorer.doScoring sm h scoreableList (DoubleData2FloatData data)).bind fun r =>
      (match sm.normalizer with
       | some normalize => normalize r.1 scoreableList r.2
       | none => .ok r).bind fun r =>
        match r.2 with
        | some bestToken => .ok (.token bestToken, r.1)
        | none => .ok (.nil, r.1)

/-- The method `CalculateScores`.  The stored data lose their head by the three lines under
`// remove head`; the last of them takes the new length from `len(wpbflsm.ciScores)`, a name
that the package of the scorer does not have, and is read as the length of `sas.storedData`. -/
def SimpleAcousticScorer.CalculateScores (sm : ScoringModel) (sas : SimpleAcousticScorer)
    (h : Heap) (scoreableList : List (Option Ptr)) :
    Res (Scored × SimpleAcousticScorer × Heap) :=
  match sas.storedData with
  | [] =>
    let r := SimpleAcousticScorer.readLoop sas.frontEnd.pending sas.seenEnd
    let sas := { sas with frontEnd := { pending := r.2.1 }, seenEnd := r.2.2 }
    match r.1 with
    | .returned => .ok (.nil, sas, h)
    | .broke none => .ok (.nil, sas, h)
    | .broke (some data) =>
      (SimpleAcousticScorer.calculateScoresForData sm h scoreableList data).bind fun out =>
        .ok (out.1, sas, out.2)
  | data :: rest =>
    (SimpleAcousticScorer.calculateScoresForData sm h scoreableList data).bind fun out =>
      .ok (out.1, { sas with storedData := rest }, out.2)

/-- The method `CalculateScoresAndStoreData`. -/
def SimpleAcousticScorer.CalculateScoresAndStoreData (sm : ScoringModel)
    (sas : SimpleAcousticScorer) (h : Heap) (scoreableList : List (Option Ptr)) :
    Res (Scored × SimpleAcousticScorer × Heap) :=
  let r := SimpleAcousticScorer.readLoop sas.frontEnd.pending sas.seenEnd
  let sas := { sas with frontEnd := { pending := r.2.1 }, seenEnd := r.2.2 }
  match r.1 with
  | .returned => .ok (.nil, sas, h)
  | .broke none => .ok (.nil, sas, h)
  | .broke (some data) =>
    (SimpleAcousticScorer.calculateScoresForData sm h scoreableList data).bind fun out =>
      .ok (out.1, { sas with storedData := sas.storedData ++ [data] }, out.2)

/-- The method `SimpleAcousticScorer.StartRecognition`. -/
def SimpleAcousticScorer.StartRecognition (sas : SimpleAcousticScorer) : SimpleAcousticScorer :=
  { sas with storedData := [] }

/-! ## `result.go` and `search_graph.go` -/

/-- The struct `Result`, without its reference text and its `logMath`. -/
structure Result where
  activeList : Option (ActiveList Ptr)
  resultList : List (Option Ptr)
  alternateHypothesisManager : AlternateHypothesisManager
  isFinal : Bool
  wordTokenFirst : Bool
  currentCollectTime : Int
  toCreateLattice : Bool
  deriving DecidableEq, Repr

/-- Modelled from the spec: the constructor `NewResult`, which the search managers call and
the sources do not contain.  The spec describes the result as made of the surviving emitting
list, the result list of final tokens, the manager of the lattice losers, the current collect
time and the flag that says whether it is final; the arguments come in the order of the call. -/
def NewResult (alternateHypothesisManager : AlternateHypothesisManager)
    (activeList : Option (ActiveList Ptr)) (resultList : List (Option Ptr))
    (collectTime : Int) (isFinal wordTokenFirst toCreateLattice : Bool) : Result :=
  { activeList := activeList
    resultList := resultList
    alternateHypothesisManager := alternateHypothesisManager
    isFinal := isFinal
    wordTokenFirst := wordTokenFirst
    currentCollectTime := collectTime
    toCreateLattice := toCreateLattice }

/-- The interface `linguist.SearchGraph`. -/
structure SearchGraph where
  initialState : SearchState
  numStateOrder : Int
  wordTokenFirst : Bool
  deriving DecidableEq, Repr

/-! ## `word_pruning_breadth_first_search_manager.go`: the frames -/

namespace WPBFSM

/-- The active list of the manager is the emitting list of its active list manager, one
object under two names: what a method does to the first shows in the second. -/
def shareEmittingList (m : Manager) : Res Manager :=
  match m.activeList with
  | none => .panics
  | some al =>
    (m.activeListManager.setListAt
      ((m.activeListManager.currentActiveLists.length : Int) - 1) al).bind fun alm =>
      .ok { m with activeListManager := alm }

/-- The method `scoreTokens`, with the scorer next to the manager (the source writes
`streamEnd = true` without the receiver).  The counters of scored tokens are left out. -/
def scoreTokens (sm : ScoringModel) (m : Manager) (sas : SimpleAcousticScorer) :
    Res (Bool × Manager × SimpleAcousticScorer) :=
  match m.activeList with
  | none => .panics
  | some al =>
    (sas.CalculateScores sm m.heap al.GetTokens).bind fun r =>
      let data := r.1
      let streamEnd := if data = Scored.nil then true else m.streamEnd
      let bestToken : Option Ptr :=
        match data with
        | .token p => some p
        | _ => none
      let currentCollectTime :=
        match bestToken with
        | some p => GetCollectTime r.2.2 p
        | none => m.currentCollectTime
      .ok (bestToken.isSome,
           { m with
             heap := r.2.2
             streamEnd := streamEnd
             currentCollectTime := currentCollectTime
             activeList := some (al.SetBestToken bestToken) },
           r.2.1)

/-- The method `recognize`: one frame. -/
def recognize (lg : Linguist) (allowExpansion : Token → Bool) (sm : ScoringModel)
    (m : Manager) (sas : SimpleAcousticScorer) : Res (Bool × Manager × SimpleAcousticScorer) :=
  m.activeListManager.GetEmittingList.bind fun al =>
  (scoreTokens sm { m with activeList := some al } sas).bind fun r =>
  (shareEmittingList r.2.1).bind fun m =>
    let more := r.1
    if more then
      (pruneBranches m).bind fun m =>
      (shareEmittingList m).bind fun m =>
        let m := { m with currentFrameNumber := m.currentFrameNumber + 1 }
        if m.growSkipInterval = 0 ∨ Int.tmod m.currentFrameNumber m.growSkipInterval ≠ 0 then
          (growStep lg allowExpansion m).bind fun m => .ok (!more, m, r.2.2)
        else .ok (!more, m, r.2.2)
    else .ok (!more, m, r.2.2)

/-- The loop `for i := 0; i < nFrames && !done; i++` of `Recognize`, for the frames that are
left. -/
def recognizeLoop (lg : Linguist) (allowExpansion : Token → Bool) (sm : ScoringModel) :
    Nat → Bool × Manager × SimpleAcousticScorer → Res (Bool × Manager × SimpleAcousticScorer)
  | 0, x => .ok x
  | n + 1, x =>
    if x.1 then .ok x
    else (recognize lg allowExpansion sm x.2.1 x.2.2).bind (recognizeLoop lg allowExpansion sm n)

/-- The method `Recognize`; the count of tokens that `showTokenCount` prints is left out. -/
def Recognize (lg : Linguist) (sg : SearchGraph) (allowExpansion : Token → Bool)
    (sm : ScoringModel) (nFrames : Int) (m : Manager) (sas : SimpleAcousticScorer) :
    Res (Option Result × Manager × SimpleAcousticScorer) :=
  (recognizeLoop lg allowExpansion sm nFrames.toNat
      (false, { m with streamEnd := false }, sas)).bind fun x =>
    let done := x.1
    let m := x.2.1
    let res :=
      if !m.streamEnd then
        some (NewResult m.loserManager m.activeList m.resultList m.currentCollectTime done
          sg.wordTokenFirst true)
      else none
    .ok (res, m, x.2.2)

end WPBFSM

/-! ## `word_pruning_breadth_first_lookahead_search_manager.go` -/

/-- The struct `FrameCiScores`. -/
structure FrameCiScores where
  scores : List Int
  maxScore : Int
  deriving DecidableEq, Repr

/-- The constructor `NewFrameCiScores` (the source leaves out its `return fcs`). -/
def NewFrameCiScores (scores : List Int) (maxScore : Int) : FrameCiScores :=
  { scores := scores, maxScore := maxScore }

/-- What the lookahead manager asks of the types of the search states, which are types of
packages that the sources do not contain.  `producesPhoneHmms s` says that `s` is a
`LexTreeNonEmittingHMMState`, a `LexTreeWordState` or a `LexTreeEndUnitState`; `hmmBaseId s`
is the base id of the unit of `s` when `s` is a `LexTreeHMMState`; `phoneBaseId s` is
`GetBaseId()` of `s` when `s` is an `allphone.PhoneHmmSearchState`. -/
structure StateKinds where
  producesPhoneHmms : SearchState → Bool
  hmmBaseId : SearchState → Option Int
  phoneBaseId : SearchState → Option Int

/-- The struct `WordPruningBreadthFirstLookaheadSearchManager`: the manager it embeds and its
own fields.  The two linguists and the scorer are passed to the methods; the loader is left
out. -/
structure WordPruningBreadthFirstLookaheadSearchManager
    extends WordPruningBreadthFirstSearchManager where
  fastmatchActiveListFactory : ActiveListFactory
  lookaheadWindow : Int
  lookaheadWeight : Int
  penalties : List (Int × Int)
  ciScores : List FrameCiScores
  currentFastMatchFrameNumber : Int
  fastmatchActiveList : Option (ActiveList Ptr)
  fastMatchBestTokenMap : List (SearchState × Ptr)
  fastmatchStreamEnd : Bool
  deriving DecidableEq, Repr

namespace WPBFLSM

/-- The receiver type of the methods below. -/
abbrev Manager := WordPruningBreadthFirstLookaheadSearchManager

/-- The manager with its embedded manager replaced. -/
def withBase (m : Manager) (b : WPBFSM.Manager) : Manager :=
  { m with toWordPruningBreadthFirstSearchManager := b }

/-- The constructor `NewWordPruningBreadthFirstLookaheadSearchManager`, up to the manager it
builds; `relativeBeamWidth` is the log of the relative word beam width, which the source
takes from `logMath`.  A lookahead window outside `[1..10]` panics.  The source ends
without a `return` and is read as returning the manager it has built; the two calls on the
loader that follow the check belong to `tiedstate.Sphinx3Loader`, which the sources do not
contain, and are left out. -/
def NewWordPruningBreadthFirstLookaheadSearchManager
    (activeListManager : SimpleActiveListManager)
    (fastmatchActiveListFactory : ActiveListFactory) (relativeBeamWidth growSkipInterval : Int)
    (checkStateOrder buildWordLattice : Bool) (lookaheadWindow lookaheadWeight : Int)
    (maxLatticeEdges acousticLookaheadFrames : Int) (keepAllTokens : Bool) : Res Manager :=
  if lookaheadWindow < 1 ∨ lookaheadWindow > 10 then .panics
  else
    .ok
      { buildWordLattice := buildWordLattice
        keepAllTokens := keepAllTokens
        checkStateOrder := checkStateOrder
        growSkipInterval := growSkipInterval
        relativeBeamWidth := relativeBeamWidth
        acousticLookaheadFrames := acousticLookaheadFrames
        maxLatticeEdges := maxLatticeEdges
        tokensCreated := 0
        currentFrameNumber := 0
        currentCollectTime := 0
        activeList := none
        resultList := []
        bestTokenMap := []
        loserManager := NewAlternateHypothesisManager 0
        numStateOrder := 0
        streamEnd := false
        activeListManager := activeListManager
        heap := []
        fastmatchActiveListFactory := fastmatchActiveListFactory
        lookaheadWindow := lookaheadWindow
        lookaheadWeight := lookaheadWeight
        penalties := []
        ciScores := []
        currentFastMatchFrameNumber := 0
        fastmatchActiveList := none
        fastMatchBestTokenMap := []
        fastmatchStreamEnd := false }

/-- The loop of `updateLookaheadPenalty` over the frames of the window. -/
def penaltyLoop (baseId : Int) : List FrameCiScores → Int → Res Int
  | [], penalty => .ok penalty
  | frameCiScores :: rest, penalty =>
    if 0 ≤ baseId then
      match frameCiScores.scores[baseId.toNat]? with
      | some score =>
        let diff := score - frameCiScores.maxScore
        penaltyLoop baseId rest (if diff > penalty then diff else penalty)
      | none => .panics
    else .panics

/-- The method `updateLookaheadPenalty`: the penalty and the manager with its cache. -/
def updateLookaheadPenalty (m : Manager) (baseId : Int) : Res (Int × Manager) :=
  if (m.ciScores.length : Int) ≤ 0 then .ok (0, m)
  else
    (penaltyLoop baseId m.ciScores (-maxFloat64)).bind fun penalty =>
      .ok (penalty, { m with penalties := (baseId, penalty) :: m.penalties })

/-- The lines under `// prune states using lookahead heuristics` of `collectSuccessorTokens`:
whether the arc is skipped, and the manager with its cache.  The penalty starts at 0 and is
replaced by `updateLookaheadPenalty(baseId)` when the cache has nothing for `baseId`. -/
def lookaheadSkips (sk : StateKinds) (m : Manager) (tokenScore beamThreshold : Int)
    (stateProducesPhoneHmms : Bool) (nextState : SearchState) : Res (Bool × Manager) :=
  if stateProducesPhoneHmms then
    match sk.hmmBaseId nextState with
    | some baseId =>
      (if m.penalties.lookup baseId = none then updateLookaheadPenalty m baseId
       else .ok (0, m)).bind fun r =>
        .ok (decide (tokenScore + m.lookaheadWeight * r.1 < beamThreshold), r.2)
    | none => .ok (false, m)
  else .ok (false, m)

/-- The rest of a pass of the arc loop of `collectSuccessorTokens`, from the check of the state
order on; it is the pass of the embedded manager with the score of the token read once,
before the loop. -/
def growArc (lg : Linguist) (m : WPBFSM.Manager) (state : SearchState)
    (predecessor : Option Ptr) (tokenScore : Int) (arc : SearchStateArc) : Res WPBFSM.Manager :=
  let nextState := arc.state
  (if m.checkStateOrder then WPBFSM.checkStateOrder lg m state nextState else .ok ()).bind
    fun _ =>
    let logEntryScore := tokenScore + arc.probability
    let wss_ok := lg.isWordSearchState nextState
    match WPBFSM.getBestToken m nextState with
    | none =>
      let made := newToken m.heap predecessor (some nextState) logEntryScore
        arc.insertionProbability arc.languageProbability m.currentCollectTime
      let m := { m with heap := made.1, tokensCreated := m.tokensCreated + 1 }
      WPBFSM.activeListAdd lg (WPBFSM.setBestToken m made.2 nextState) made.2
    | some bestToken =>
      if GetScore m.heap bestToken < logEntryScore then
        let oldPredecessor := GetPredecessor m.heap bestToken
        let updated := (m.heap.deref bestToken).Update predecessor nextState logEntryScore
          arc.insertionProbability arc.languageProbability m.currentCollectTime
        let m := { m with heap := m.heap.store bestToken updated }
        if m.buildWordLattice ∧ wss_ok then
          .ok { m with loserManager :=
            m.loserManager.AddAlternatePredecessor bestToken oldPredecessor }
        else .ok m
      else if m.buildWordLattice ∧ wss_ok then
        if predecessor ≠ none then
          .ok { m with loserManager :=
            m.loserManager.AddAlternatePredecessor bestToken predecessor }
        else .ok m
      else .ok m

/-- The loop `for _, arc := range arcs` of `collectSuccessorTokens`. -/
def arcLoop (lg : Linguist) (sk : StateKinds) (state : SearchState) (predecessor : Option Ptr)
    (tokenScore beamThreshold : Int) (stateProducesPhoneHmms : Bool) :
    List SearchStateArc → Manager → Res Manager
  | [], m => .ok m
  | arc :: rest, m =>
    (lookaheadSkips sk m tokenScore beamThreshold stateProducesPhoneHmms arc.state).bind fun r =>
      (if r.1 then .ok r.2
       else
        (growArc lg r.2.toWordPruningBreadthFirstSearchManager state predecessor tokenScore
          arc).bind fun b => .ok (withBase r.2 b)).bind
        (arcLoop lg sk state predecessor tokenScore beamThreshold stateProducesPhoneHmms rest)

/-- The method `collectSuccessorTokens` of the lookahead manager. -/
def collectSuccessorTokens (lg : Linguist) (sk : StateKinds) (m : Manager) (token : Ptr) :
    Res Manager :=
  ((m.heap.deref token).IsFinal lg).bind fun final =>
    if final then
      (m.getResultListPredecessor lg m.heap token).bind fun r =>
        .ok { m with heap := r.1, resultList := m.resultList ++ [r.2] }
    else
      ((m.heap.deref token).IsEmitting lg).bind fun emitting =>
      (if !emitting ∧ m.keepAllTokens then
        WPBFSM.isVisited lg m.toWordPruningBreadthFirstSearchManager token
       else .ok false).bind fun visited =>
        if visited then .ok m
        else
          match (m.heap.deref token).searchState with
          | none => .panics
          | some state =>
            (m.getResultListPredecessor lg m.heap token).bind fun r =>
              let tokenScore := GetScore r.1 token
              match m.activeList with
              | none => .panics
              | some al =>
                arcLoop lg sk state r.2 tokenScore (al.GetBeamThreshold (GetScore r.1))
                  (sk.producesPhoneHmms state) (lg.successors state) { m with heap := r.1 }

/-- The method `createFastMatchBestTokenMap`: a new empty map, after the call of `Size` on the
fast-match active list. -/
def createFastMatchBestTokenMap (m : Manager) : Res Manager :=
  match m.fastmatchActiveList with
  | none => .panics
  | some _ => .ok { m with fastMatchBestTokenMap := [] }

/-- The method `getFastMatchBestToken`. -/
def getFastMatchBestToken (m : Manager) (state : SearchState) : Option Ptr :=
  m.fastMatchBestTokenMap.lookup state

/-- The method `setFastMatchBestToken`. -/
def setFastMatchBestToken (m : Manager) (token : Ptr) (state : SearchState) : Manager :=
  { m with fastMatchBestTokenMap := (state, token) :: m.fastMatchBestTokenMap }

/-- One pass of the loop `for _, arc := range arcs` of `collectFastMatchSuccessorTokens`, for
the arc `arc` out of the state of `token`; `recurse` is the call of the method on the token
made for a non-emitting state. -/
def fastMatchArc (fm : Linguist) (recurse : Manager → Ptr → Res Manager) (token : Ptr)
    (arc : SearchStateArc) (m : Manager) : Res Manager :=
  let nextState := arc.state
  let logEntryScore := GetScore m.heap token + arc.probability
  (m.getResultListPredecessor fm m.heap token).bind fun r =>
    let predecessor := r.2
    let m := { m with heap := r.1 }
    if !fm.isEmitting nextState then
      let made := newToken m.heap predecessor (some nextState) logEntryScore
        arc.insertionProbability arc.languageProbability m.currentFastMatchFrameNumber
      let m := { m with heap := made.1, tokensCreated := m.tokensCreated + 1 }
      (WPBFSM.isVisited fm m.toWordPruningBreadthFirstSearchManager made.2).bind fun visited =>
        if !visited then recurse m made.2 else .ok m
    else
      match getFastMatchBestToken m nextState with
      | none =>
        let made := newToken m.heap predecessor (some nextState) logEntryScore
          arc.insertionProbability arc.languageProbability m.currentFastMatchFrameNumber
        let m := { m with heap := made.1, tokensCreated := m.tokensCreated + 1 }
        let m := setFastMatchBestToken m made.2 nextState
        match m.fastmatchActiveList with
        | none => .panics
        | some al =>
          (al.Add (GetScore m.heap) made.2).bind fun al =>
            .ok { m with fastmatchActiveList := some al }
      | some bestToken =>
        if GetScore m.heap bestToken ≤ logEntryScore then
          let updated := (m.heap.deref bestToken).Update predecessor nextState logEntryScore
            arc.insertionProbability arc.languageProbability m.currentFastMatchFrameNumber
          .ok { m with heap := m.heap.store bestToken updated }
        else .ok m

/-- The loop `for _, arc := range arcs` of `collectFastMatchSuccessorTokens` for `token`. -/
def fastMatchArcLoop (fm : Linguist) (recurse : Manager → Ptr → Res Manager) (token : Ptr) :
    List SearchStateArc → Manager → Res Manager
  | [], m => .ok m
  | arc :: rest, m =>
    (fastMatchArc fm recurse token arc m).bind (fastMatchArcLoop fm recurse token rest)

/-- The method `collectFastMatchSuccessorTokens`, which calls itself; `depth` bounds the
nesting of the calls, and a run that nests deeper ends in `diverges`.  A token without search
state panics. -/
def collectFastMatchSuccessorTokens (fm : Linguist) : Nat → Manager → Ptr → Res Manager
  | 0, _, _ => .diverges
  | depth + 1, m, token =>
    match (m.heap.deref token).searchState with
    | none => .panics
    | some state =>
      fastMatchArcLoop fm (collectFastMatchSuccessorTokens fm depth) token
        (fm.successors state) m

/-- The loop of `growFastmatchBranches` over the tokens of the old fast-match list; the state
is the manager, the scores of the frame by base id and their maximum. -/
def growFastmatchLoop (fm : Linguist) (sk : StateKinds) (depth : Nat) (fastmathThreshold : Int) :
    List (Option Ptr) → Manager × List Int × Int → Res (Manager × List Int × Int)
  | [], x => .ok x
  | none :: _, _ => .panics
  | some token :: rest, (m, frameCiScores, frameMaxCiScore) =>
    let tokenScore := GetScore m.heap token
    if tokenScore < fastmathThreshold then
      growFastmatchLoop fm sk depth fastmathThreshold rest (m, frameCiScores, frameMaxCiScore)
    else
      ((match (m.heap.deref token).searchState.bind sk.phoneBaseId with
       | some baseId =>
         if 0 ≤ baseId then
           match frameCiScores[baseId.toNat]? with
           | some old =>
             .ok ((if old < tokenScore then frameCiScores.set baseId.toNat tokenScore
                   else frameCiScores),
                  (if frameMaxCiScore < tokenScore then tokenScore else frameMaxCiScore))
           | none => .panics
         else .panics
       | none => .ok (frameCiScores, frameMaxCiScore) : Res (List Int × Int))).bind fun scores =>
        (collectFastMatchSuccessorTokens fm depth m token).bind fun m =>
          growFastmatchLoop fm sk depth fastmathThreshold rest (m, scores.1, scores.2)

/-- The method `growFastmatchBranches`.  `make([]float64, 1024)` is a slice of 1024 zeros. -/
def growFastmatchBranches (fm : Linguist) (sk : StateKinds) (depth : Nat) (m : Manager) :
    Res Manager :=
  match m.fastmatchActiveList with
  | none => .panics
  | some oldActiveList =>
    let m := { m with fastmatchActiveList := some m.fastmatchActiveListFactory.NewInstance }
    let fastmathThreshold := oldActiveList.GetBeamThreshold (GetScore m.heap)
    (growFastmatchLoop fm sk depth fastmathThreshold oldActiveList.GetTokens
        (m, List.replicate 1024 0, -maxFloat64)).bind fun r =>
      .ok { r.1 with ciScores := r.1.ciScores ++ [NewFrameCiScores r.2.1 r.2.2] }

/-- The method `scoreFastMatchTokens`, with the scorer next to the manager. -/
def scoreFastMatchTokens (sm : ScoringModel) (m : Manager) (sas : SimpleAcousticScorer) :
    Res (Bool × Manager × SimpleAcousticScorer) :=
  match m.fastmatchActiveList with
  | none => .panics
  | some al =>
    (sas.CalculateScoresAndStoreData sm m.heap al.GetTokens).bind fun r =>
      let bestToken : Option Ptr :=
        match r.1 with
        | .token p => some p
        | _ => none
      let fastmatchStreamEnd :=
        match r.1 with
        | .token _ => m.fastmatchStreamEnd
        | _ => true
      .ok (bestToken.isSome,
           { m with
             heap := r.2.2
             fastmatchStreamEnd := fastmatchStreamEnd
             fastmatchActiveList := some (al.SetBestToken bestToken) },
           r.2.1)

/-- The method `pruneFastMatchBranches`, with `SimplePruner` as the pruner. -/
def pruneFastMatchBranches (m : Manager) : Res Manager :=
  match m.fastmatchActiveList with
  | none => .panics
  | some al =>
    (SimplePruner.Prune (GetScore m.heap) al).bind fun al =>
      .ok { m with fastmatchActiveList := some al }

/-- The method `fastMatchRecognize`. -/
def fastMatchRecognize (fm : Linguist) (sk : StateKinds) (depth : Nat) (sm : ScoringModel)
    (m : Manager) (sas : SimpleAcousticScorer) : Res (Manager × SimpleAcousticScorer) :=
  (scoreFastMatchTokens sm m sas).bind fun r =>
    if r.1 then
      (pruneFastMatchBranches r.2.1).bind fun m =>
      (createFastMatchBestTokenMap
        { m with currentFastMatchFrameNumber := m.currentFastMatchFrameNumber + 1 }).bind fun m =>
      (growFastmatchBranches fm sk depth m).bind fun m => .ok (m, r.2.2)
    else .ok (r.2.1, r.2.2)

/-- The three lines under `// remove head` of `Recognize`, in the pass of index `i`:
`copy(ciScores[i:], ciScores[i+1:])` moves the entries after position `i` one place down and
leaves the last position as it was, a slice bound beyond the length panics; the last position
is then set to nil and cut off. -/
def removeHead (i : Int) (ciScores : List FrameCiScores) : Res (List FrameCiScores) :=
  if 0 ≤ i ∧ i + 1 ≤ (ciScores.length : Int) then
    let copied := ciScores.take i.toNat ++ ciScores.drop (i.toNat + 1)
      ++ ciScores.drop (ciScores.length - 1)
    .ok (copied.take (ciScores.length - 1))
  else .panics

/-- One pass of the loop of `Recognize`, of index `i`; `recognize` is the method of the
embedded manager. -/
def recognizePass (lg fm : Linguist) (sk : StateKinds) (allowExpansion : Token → Bool)
    (depth : Nat) (sm : ScoringModel) (i : Int) (m : Manager) (sas : SimpleAcousticScorer) :
    Res (Bool × Manager × SimpleAcousticScorer) :=
  (if !m.fastmatchStreamEnd then fastMatchRecognize fm sk depth sm m sas
   else .ok (m, sas)).bind fun r =>
    let m := { r.1 with penalties := [] }
    (removeHead i m.ciScores).bind fun ciScores =>
      let m := { m with ciScores := ciScores }
      (WPBFSM.recognize lg allowExpansion sm m.toWordPruningBreadthFirstSearchManager r.2).bind
        fun x => .ok (x.1, withBase m x.2.1, x.2.2)

/-- The loop `for i := 0; i < nFrames && !done; i++` of `Recognize`, from the index `i` on,
for the frames that are left. -/
def recognizeLoop (lg fm : Linguist) (sk : StateKinds) (allowExpansion : Token → Bool)
    (depth : Nat) (sm : ScoringModel) :
    Nat → Int → Bool × Manager × SimpleAcousticScorer →
      Res (Bool × Manager × SimpleAcousticScorer)
  | 0, _, x => .ok x
  | n + 1, i, x =>
    if x.1 then .ok x
    else
      (recognizePass lg fm sk allowExpansion depth sm i x.2.1 x.2.2).bind
        (recognizeLoop lg fm sk allowExpansion depth sm n (i + 1))

/-- The method `Recognize` of the lookahead manager. -/
def Recognize (lg fm : Linguist) (sg : SearchGraph) (sk : StateKinds)
    (allowExpansion : Token → Bool) (depth : Nat) (sm : ScoringModel) (nFrames : Int)
    (m : Manager) (sas : SimpleAcousticScorer) :
    Res (Option Result × Manager × SimpleAcousticScorer) :=
  (recognizeLoop lg fm sk allowExpansion depth sm nFrames.toNat 0
      (false, { m with streamEnd := false }, sas)).bind fun x =>
    let done := x.1
    let m := x.2.1
    let res :=
      if !m.streamEnd then
        some (NewResult m.loserManager m.activeList m.resultList m.currentCollectTime done
          sg.wordTokenFirst true)
      else none
    .ok (res, m, x.2.2)

/-- The loop `for i := 0; (i < lookaheadWindow-1) && !fastmatchStreamEnd; i++` of
`localStart`, for the passes that are left. -/
def primeLoop (fm : Linguist) (sk : StateKinds) (depth : Nat) (sm : ScoringModel) :
    Nat → Manager × SimpleAcousticScorer → Res (Manager × SimpleAcousticScorer)
  | 0, x => .ok x
  | n + 1, x =>
    if x.1.fastmatchStreamEnd then .ok x
    else (fastMatchRecognize fm sk depth sm x.1 x.2).bind (primeLoop fm sk depth sm n)

/-- The embedded manager's part of `localStart`, the lines after `// super.localStart()`,
which are those of `localStart` of the embedded manager. -/
def baseLocalStart (lg : Linguist) (sg : SearchGraph) (allowExpansion : Token → Bool)
    (m : WPBFSM.Manager) : Res WPBFSM.Manager :=
  (m.activeListManager.SetNumStateOrder sg.numStateOrder).bind fun alm =>
    let m :=
      { m with
        currentFrameNumber := 0
        numStateOrder := sg.numStateOrder
        activeListManager := alm
        loserManager :=
          if m.buildWordLattice then NewAlternateHypothesisManager m.maxLatticeEdges
          else m.loserManager }
    m.activeListManager.GetEmittingList.bind fun al =>
      let made := NewToken m.heap sg.initialState (-1)
      (al.Add (GetScore made.1) made.2).bind fun al =>
      (WPBFSM.shareEmittingList { m with heap := made.1, activeList := some al }).bind fun m =>
      (WPBFSM.clearCollectors m).bind fun m =>
      (WPBFSM.growBranches lg allowExpansion m).bind fun m =>
        WPBFSM.growNonEmittingBranches lg allowExpansion m

/-- The method `localStart` of the lookahead manager; `fmInitState` is the initial state of
the search graph of the fast-match linguist. -/
def localStart (lg fm : Linguist) (sg : SearchGraph) (fmInitState : SearchState)
    (sk : StateKinds) (allowExpansion : Token → Bool) (depth : Nat) (sm : ScoringModel)
    (m : Manager) (sas : SimpleAcousticScorer) : Res (Manager × SimpleAcousticScorer) :=
  let m := { m with currentFastMatchFrameNumber := 0 }
  let al : ActiveList Ptr := m.fastmatchActiveListFactory.NewInstance
  let made := NewToken m.heap fmInitState m.currentFastMatchFrameNumber
  (al.Add (GetScore made.1) made.2).bind fun al =>
  (createFastMatchBestTokenMap { m with heap := made.1, fastmatchActiveList := some al }).bind
    fun m =>
  (growFastmatchBranches fm sk depth m).bind fun m =>
  (primeLoop fm sk depth sm (m.lookaheadWindow - 1).toNat
      ({ m with fastmatchStreamEnd := false }, sas)).bind fun r =>
  (baseLocalStart lg sg allowExpansion r.1.toWordPruningBreadthFirstSearchManager).bind fun b =>
    .ok (withBase r.1 b, r.2)

end WPBFLSM

/-! ## `token.go`: the value of `CalculateScore`, and the word path -/

/-- The method `Token.CalculateScore` with the value it returns, `tok.logTotalScore` as it is
after the update, next to the token it leaves. -/
def Token.CalculateScoreValue (sm : ScoringModel) (tok : Token) (feature : Data) :
    Res (Int × Token) :=
  (tok.CalculateScore sm feature).bind fun scored => .ok (scored.logTotalScore, scored)

/-- What `GetWordPath` asks of a `linguist.WordSearchState`: for a word state, the spelling of
the word of its pronunciation (`GetPronunciation().GetWord().GetSpelling()`), whether this
word is a filler (`IsFiller()`), and the names of the units of the pronunciation
(`GetPronunciation().GetUnits()`, each with its `GetName()`). -/
structure WordInfo where
  spelling : SearchState → String
  isFiller : SearchState → Bool
  unitNames : SearchState → List String

/-- The loop `for i := len(u) - 1; i >= 0; i-- { ... }` of `GetWordPath` over the names `u`
of the units (the source assigns `u = pron.GetUnits()` without declaring `u`), with `count`
passes left, the next one for `i = count - 1`: a comma is appended when `i < len(u) - 1`, and
then the name `u[i]`. -/
def appendUnitsBackwards (u : List String) : Nat → String → String
  | 0, sb => sb
  | i + 1, sb =>
    appendUnitsBackwards u i ((if i < u.length - 1 then sb ++ "," else sb) ++ u.getD i "")

/-- The loop `for token != nil { ... }` of `GetWordPath`: what is found at a word token is
appended to `sb` with `sb +=`, and the walk goes on to the predecessor. -/
def wordPathLoop (lg : Linguist) (wi : WordInfo) (h : Heap)
    (wantFiller wantPronunciations : Bool) : Nat → Option Ptr → String → Res String
  | 0, _, _ => .diverges
  | fuel + 1, token, sb =>
    match token with
    | none => .ok sb
    | some p =>
      let sb :=
        match (h.deref p).searchState with
        | some s =>
          if lg.isWordSearchState s then
            if wantFiller || !wi.isFiller s then
              let sb :=
                if wantPronunciations then
                  appendUnitsBackwards (wi.unitNames s) (wi.unitNames s).length (sb ++ "]")
                    ++ "["
                else sb
              sb ++ wi.spelling s ++ " "
            else sb
          else sb
        | none => sb
      wordPathLoop lg wi h wantFiller wantPronunciations fuel (GetPredecessor h p) sb

/-- The method `Token.GetWordPath(wantFiller, wantPronunciations)`.  A walk longer than the
heap is going round a cycle of predecessors and never ends. -/
def GetWordPath (lg : Linguist) (wi : WordInfo) (h : Heap) (tok : Ptr)
    (wantFiller wantPronunciations : Bool) : Res String :=
  wordPathLoop lg wi h wantFiller wantPronunciations (h.length + 1) (some tok) ""

/-- The method `Token.GetWordPathNoFiller`. -/
def GetWordPathNoFiller (lg : Linguist) (wi : WordInfo) (h : Heap) (tok : Ptr) : Res String :=
  GetWordPath lg wi h tok false false

/-! ## `transform.go`: the file of an MLLR transform -/

/-- A line of the text file of a transform, as the numbers written on it one after the other,
each followed by a blank (`fmt.Fprint(writer, x)` and `fmt.Fprint(writer, " ")`), up to the
newline of `fmt.Fprintln`.  A number stands for its decimal text, `1.0` for 1. -/
abbrev Line := List Int

/-- The fields `a` and `b` of the struct `Transform`, by cluster, stream, row and column. -/
structure Transform where
  a : List (List (List (List Int)))
  b : List (List (List Int))
  deriving DecidableEq, Repr

/-- What `Store` asks of the loader, a `tiedstate.Sphinx3Loader` that the sources do not
contain: `NumStreams()` and `VectorLength()`. -/
structure LoaderShape where
  numStreams : Int
  vectorLength : List Int
  deriving DecidableEq, Repr

/-- Read of `xs[i]` in a slice: an index outside the slice panics. -/
def sliceAt {α : Type} (xs : List α) (i : Int) : Res α :=
  if 0 ≤ i then
    match xs[i.toNat]? with
    | some v => .ok v
    | none => .panics
  else .panics

/-- The numbers `f 0, f 1, ..., f (n - 1)`, each of which may panic. -/
def collect {α : Type} (f : Int → Res α) : Nat → Int → Res (List α)
  | 0, _ => .ok []
  | n + 1, i => (f i).bind fun x => (collect f n (i + 1)).bind fun rest => .ok (x :: rest)

/-- The body of the loop `for i := 0; i < t.loader.NumStreams(); i++` of `Store` for the
stream `i`: the line of the vector length, a line for every row of `a[index][i]`, the line of
`b[index][i]` and the line of the variance scales `1.0`. -/
def Transform.storeStream (t : Transform) (shape : LoaderShape) (index i : Int) :
    Res (List Line) :=
  (sliceAt shape.vectorLength i).bind fun len =>
  (collect (fun j => collect (fun k =>
      (sliceAt t.a index).bind fun ai => (sliceAt ai i).bind fun aii =>
      (sliceAt aii j).bind fun row => sliceAt row k) len.toNat 0) len.toNat 0).bind fun rows =>
  (collect (fun j =>
      (sliceAt t.b index).bind fun bi => (sliceAt bi i).bind fun bii => sliceAt bii j)
      len.toNat 0).bind fun bs =>
    .ok ([[len]] ++ rows ++ [bs] ++ [List.replicate len.toNat 1])

/-- The method `Transform.Store`, up to the lines it writes to the file: the line `1` of the
number of classes, the line of the number of streams, and the lines of every stream. -/
def Transform.Store (t : Transform) (shape : LoaderShape) (index : Int) : Res (List Line) :=
  (collect (Transform.storeStream t shape index) shape.numStreams.toNat 0).bind fun streams =>
    .ok ([[1], [shape.numStreams]] ++ streams.flatten)

/-- One `if scanner.Scan() { fmt.Sscanf(scanner.Text(), verb, &x) }`: the scanner, which
splits the file into lines, moves to the next line, and `Sscanf` reads the first number of
this line into `x`; `x` stays as it is on a line without number and at the end of the file. -/
def scanNumber (lines : List Line) (x : Int) : Int × List Line :=
  match lines with
  | [] => (x, [])
  | line :: rest =>
    match line with
    | [] => (x, rest)
    | number :: _ => (number, rest)

/-- The numbers that `count` scans in a row give, each into a fresh variable of value 0. -/
def scanNumbers : Nat → List Line → List Int × List Line
  | 0, lines => ([], lines)
  | count + 1, lines =>
    let r := scanNumber lines 0
    let rest := scanNumbers count r.2
    (r.1 :: rest.1, rest.2)

/-- The rows of a matrix of `length` rows and columns, scanned entry by entry. -/
def scanRows (length : Nat) : Nat → List Line → List (List Int) × List Line
  | 0, lines => ([], lines)
  | count + 1, lines =>
    let row := scanNumbers length lines
    let rest := scanRows length count row.2
    (row.1 :: rest.1, rest.2)

/-- The body of the loop `for j := 0; j < numStreams; j++` of `Load`: the length, the matrix,
the vector and the skipped variance scales of one stream.  A negative length panics in
`make`. -/
def loadStream (lines : List Line) : Res ((List (List Int) × List Int) × List Line) :=
  let length := scanNumber lines 0
  if length.1 < 0 then .panics
  else
    let a := scanRows length.1.toNat length.1.toNat length.2
    let b := scanNumbers length.1.toNat a.2
    let skipped := scanNumbers length.1.toNat b.2
    .ok ((a.1, b.1), skipped.2)

/-- The loop `for j := 0; j < numStreams; j++` of `Load`. -/
def loadStreams : Nat → List Line → Res (List (List (List Int) × List Int))
  | 0, _ => .ok []
  | count + 1, lines =>
    (loadStream lines).bind fun r =>
      (loadStreams count r.2).bind fun rest => .ok (r.1 :: rest)

/-- The method `Transform.Load`, from the lines of the file: the error it returns, if any, and
the transform afterwards.  A number of classes other than 1 is an error that leaves the
transform as it is; a negative number of streams panics in `make`. -/
def Transform.Load (t : Transform) (lines : List Line) : Res (Option String × Transform) :=
  let nMllrClass := scanNumber lines 0
  if nMllrClass.1 ≠ 1 then .ok (some "Unexpected nMllrClass value", t)
  else
    let numStreams := scanNumber nMllrClass.2 0
    if numStreams.1 < 0 then .panics
    else
      (loadStreams numStreams.1.toNat numStreams.2).bind fun streams =>
        .ok (none, { a := [streams.map Prod.fst], b := [streams.map Prod.snd] })

/-! ## `recognizer.go` -/

/-- The type `State` of the recognizer. -/
inductive State where
  | DEALLOCATED
  | ALLOCATING
  | ALLOCATED
  | READY
  | RECOGNIZING
  | DEALLOCATING
  | ERROR
  deriving DecidableEq, Repr

/-- The methods of `decoder.Decoder` that the recognizer calls, on a decoder of type `δ` with
results of type `ρ`: each gives its outcome and the decoder it leaves. -/
structure DecoderMethods (δ ρ : Type) where
  Allocate : δ → Res Unit × δ
  Deallocate : δ → Res Unit × δ
  Decode : δ → Res ρ × δ

/-- The struct `Recognizer`, with a decoder of type `δ`.  `StateListenerFunc` is nil or a
function, which gets the new state and may panic; the mutex is left out. -/
structure Recognizer (δ : Type) where
  decoder : δ
  currentState : State
  StateListenerFunc : Option (State → Res Unit)

/-- The function `NewRecognizer`, the monitors left out: the state is the zero value,
`DEALLOCATED`. -/
def NewRecognizer {δ : Type} (decoder : δ) : Recognizer δ :=
  { decoder := decoder, currentState := .DEALLOCATED, StateListenerFunc := none }

/-- The method `checkState`: the outcome, a panic when the state is not the desired one. -/
def Recognizer.checkState {δ : Type} (dr : Recognizer δ) (desiredState : State) : Res Unit :=
  if dr.currentState ≠ desiredState then .panics else .ok ()

/-- The method `setState`: the outcome and the recognizer afterwards. -/
def Recognizer.setState {δ : Type} (dr : Recognizer δ) (newState : State) :
    Res Unit × Recognizer δ :=
  let dr := { dr with currentState := newState }
  match dr.StateListenerFunc with
  | some listener => (listener dr.currentState, dr)
  | none => (.ok (), dr)

/-- A step of a method of the recognizer that runs when the steps before it ended well. -/
def Recognizer.andThen {δ α β : Type} (x : Res α × Recognizer δ)
    (f : α → Recognizer δ → Res β × Recognizer δ) : Res β × Recognizer δ :=
  match x.1 with
  | .ok a => f a x.2
  | .panics => (.panics, x.2)
  | .diverges => (.diverges, x.2)

/-- The method `Recognizer.Allocate`: the outcome and the recognizer afterwards. -/
def Recognizer.Allocate {δ ρ : Type} (dm : DecoderMethods δ ρ) (dr : Recognizer δ) :
    Res Unit × Recognizer δ :=
  Recognizer.andThen (dr.checkState .DEALLOCATED, dr) fun _ dr =>
  Recognizer.andThen (dr.setState .ALLOCATING) fun _ dr =>
  Recognizer.andThen ((dm.Allocate dr.decoder).1, { dr with decoder := (dm.Allocate dr.decoder).2 })
    fun _ dr =>
  Recognizer.andThen (dr.setState .ALLOCATED) fun _ dr => dr.setState .READY

/-- The method `Recognizer.Deallocate`: the outcome and the recognizer afterwards. -/
def Recognizer.Deallocate {δ ρ : Type} (dm : DecoderMethods δ ρ) (dr : Recognizer δ) :
    Res Unit × Recognizer δ :=
  Recognizer.andThen (dr.checkState .READY, dr) fun _ dr =>
  Recognizer.andThen (dr.setState .DEALLOCATING) fun _ dr =>
  Recognizer.andThen ((dm.Deallocate dr.decoder).1,
      { dr with decoder := (dm.Deallocate dr.decoder).2 }) fun _ dr =>
    dr.setState .DEALLOCATED

/-- The method `Recognizer.Recognize`: the outcome and the recognizer afterwards.  The block
has a `try` and a `finally` and no `catch`: `finally`, the call `setState(READY)`, runs after
`try` however `try` ends, and a panic of `try` goes on after it. -/
def Recognizer.Recognize {δ ρ : Type} (dm : DecoderMethods δ ρ) (dr : Recognizer δ) :
    Res ρ × Recognizer δ :=
  Recognizer.andThen (dr.checkState .READY, dr) fun _ dr =>
    let tried : Res ρ × Recognizer δ :=
      Recognizer.andThen (dr.setState .RECOGNIZING) fun _ dr =>
        ((dm.Decode dr.decoder).1, { dr with decoder := (dm.Decode dr.decoder).2 })
    let final := tried.2.setState .READY
    match tried.1 with
    | .ok result => (final.1.bind fun _ => .ok result, final.2)
    | .panics => (final.1.bind fun _ => .panics, final.2)
    | .diverges => (.diverges, tried.2)

/-! ## `tokenizer.go` -/

/-- The constant `NEED_CHAR`, `math.MaxInt` of a 64-bit `int`. -/
def NEED_CHAR : Int := 2 ^ 63 - 1

/-- The constant `SKIP_LF`. -/
def SKIP_LF : Int := 2 ^ 63 - 2

/-- The constant `CT_WHITESPACE`. -/
def CT_WHITESPACE : Nat := 1

/-- The constant `CT_DIGIT`. -/
def CT_DIGIT : Nat := 2

/-- The constant `CT_ALPHA`. -/
def CT_ALPHA : Nat := 4

/-- The constant `CT_QUOTE`. -/
def CT_QUOTE : Nat := 8

/-- The constant `CT_COMMENT`. -/
def CT_COMMENT : Nat := 16

/-- The constant `TT_EOF`. -/
def TT_EOF : Int := -1

/-- The constant `TT_EOL`, the character `'\n'`. -/
def TT_EOL : Int := 10

/-- The constant `TT_NUMBER`. -/
def TT_NUMBER : Int := -2

/-- The constant `TT_WORD`. -/
def TT_WORD : Int := -3

/-- The constant `TT_NOTHING`. -/
def TT_NOTHING : Int := -4

/-- The errors that the tokenizers return: `io.EOF` from the reader, the error `illegal
state.` of `Read` without reader, and the `streamCorruptError` of the extended tokenizer. -/
inductive IOError where
  | eof
  | illegalState
  | corrupt (msg : String)
  deriving DecidableEq, Repr

/-- What a method with the results `(value, err)` gives: a value with a nil error, an error,
or no return at all. -/
inductive Got (α : Type) where
  | ok (a : α)
  | error (e : IOError)
  | diverges
  deriving DecidableEq, Repr

/-- The struct `StreamTokenizer`.  A reader that is not nil is the bytes it still has to
give, after which its `Read` returns `io.EOF`; the buffer `buf` of the characters of the
current token is left out, its content being in `sval` when the token is complete. -/
structure StreamTokenizer where
  reader : Option (List Nat)
  peekc : Int
  pushedBack : Bool
  forceLower : Bool
  eolIsSignificantP : Bool
  slashSlashCommentsP : Bool
  slashStarCommentsP : Bool
  lineno : Int
  ctype : List Nat
  ttype : Int
  sval : String
  nval : ℚ
  deriving DecidableEq

/-- The bytes a range loop `for low <= hi { t.ctype[low] ...; low++ }` goes over, after the
two cuts `low < 0` and `hi >= len(t.ctype)`, get `f` applied to their entry. -/
def StreamTokenizer.overRange (t : StreamTokenizer) (low hi : Int) (f : Nat → Nat) :
    StreamTokenizer :=
  let low := if low < 0 then 0 else low
  let hi := if hi ≥ (t.ctype.length : Int) then (t.ctype.length : Int) - 1 else hi
  { t with ctype := (List.range t.ctype.length).map fun (i : Nat) =>
      if low ≤ (i : Int) ∧ (i : Int) ≤ hi then f (t.ctype.getD i 0) else t.ctype.getD i 0 }

/-- The method `ResetSyntax`. -/
def StreamTokenizer.ResetSyntax (t : StreamTokenizer) : StreamTokenizer :=
  { t with ctype := t.ctype.map fun _ => 0 }

/-- The method `WordChars`. -/
def StreamTokenizer.WordChars (t : StreamTokenizer) (low hi : Int) : StreamTokenizer :=
  t.overRange low hi fun v => v ||| CT_ALPHA

/-- The method `WhitespaceChars`. -/
def StreamTokenizer.WhitespaceChars (t : StreamTokenizer) (low hi : Int) : StreamTokenizer :=
  t.overRange low hi fun _ => CT_WHITESPACE

/-- The method `OrdinaryChars`. -/
def StreamTokenizer.OrdinaryChars (t : StreamTokenizer) (low hi : Int) : StreamTokenizer :=
  t.overRange low hi fun _ => 0

/-- The assignment `t.ctype[ch] = v` under the test `ch >= 0 && ch < len(t.ctype)`. -/
def StreamTokenizer.setType (t : StreamTokenizer) (ch : Int) (v : Nat) : StreamTokenizer :=
  if 0 ≤ ch ∧ ch < (t.ctype.length : Int) then { t with ctype := t.ctype.set ch.toNat v } else t

/-- The method `OrdinaryChar`. -/
def StreamTokenizer.OrdinaryChar (t : StreamTokenizer) (ch : Int) : StreamTokenizer :=
  t.setType ch 0

/-- The method `CommentChar`. -/
def StreamTokenizer.CommentChar (t : StreamTokenizer) (ch : Int) : StreamTokenizer :=
  t.setType ch CT_COMMENT

/-- The method `QuoteChar`. -/
def StreamTokenizer.QuoteChar (t : StreamTokenizer) (ch : Int) : StreamTokenizer :=
  t.setType ch CT_QUOTE

/-- The method `ParseNumbers`: the digits, `'.'` and `'-'` get the attribute `CT_DIGIT`. -/
def StreamTokenizer.ParseNumbers (t : StreamTokenizer) : StreamTokenizer :=
  { t with ctype := (List.range t.ctype.length).map fun (i : Nat) =>
      if (48 ≤ i ∧ i ≤ 57) ∨ i = 46 ∨ i = 45 then t.ctype.getD i 0 ||| CT_DIGIT
      else t.ctype.getD i 0 }

/-- The method `EOLIsSignificant`. -/
def StreamTokenizer.EOLIsSignificant (t : StreamTokenizer) (flag : Bool) : StreamTokenizer :=
  { t with eolIsSignificantP := flag }

/-- The method `SlashStarComments`. -/
def StreamTokenizer.SlashStarComments (t : StreamTokenizer) (flag : Bool) : StreamTokenizer :=
  { t with slashStarCommentsP := flag }

/-- The method `SlashSlashComments`. -/
def StreamTokenizer.SlashSlashComments (t : StreamTokenizer) (flag : Bool) : StreamTokenizer :=
  { t with slashSlashCommentsP := flag }

/-- The method `LowerCaseMode`. -/
def StreamTokenizer.LowerCaseMode (t : StreamTokenizer) (fl : Bool) : StreamTokenizer :=
  { t with forceLower := fl }

/-- The function `NewDefaultStreamTokenizer`: `new(StreamTokenizer)` leaves `ttype` at the zero
value 0, and the reader nil. -/
def NewDefaultStreamTokenizer : StreamTokenizer :=
  let t : StreamTokenizer :=
    { reader := none, peekc := NEED_CHAR, pushedBack := false, forceLower := false,
      eolIsSignificantP := false, slashSlashCommentsP := false, slashStarCommentsP := false,
      lineno := 1, ctype := List.replicate 256 0, ttype := 0, sval := "", nval := 0 }
  (((((((t.WordChars 97 122).WordChars 65 90).WordChars (128 + 32) 255).WhitespaceChars 0
    32).CommentChar 47).QuoteChar 34).QuoteChar 39).ParseNumbers

/-- The function `NewStreamTokenizerFromReader`, for a reader that is not nil and has the bytes
`input` to give. -/
def NewStreamTokenizerFromReader (input : List Nat) : StreamTokenizer :=
  { NewDefaultStreamTokenizer with reader := some input }

/-- The method `Read`: the next byte of the reader, or the error of the reader at its end, a
value that is never negative. -/
def StreamTokenizer.Read (t : StreamTokenizer) : Got Int × StreamTokenizer :=
  match t.reader with
  | some (b :: rest) => (.ok (b : Int), { t with reader := some rest })
  | some [] => (.error .eof, t)
  | none => (.error .illegalState, t)

/-- The two lines `c, err = t.Read()` and `if err != nil { return }`, followed by what comes
after them. -/
def StreamTokenizer.readThen {α : Type} (t : StreamTokenizer)
    (k : Int → StreamTokenizer → Got α × StreamTokenizer) : Got α × StreamTokenizer :=
  match t.Read with
  | (.ok c, t) => k c t
  | (.error e, t) => (.error e, t)
  | (.diverges, t) => (.diverges, t)

/-- The number of bytes that the reader still has. -/
def StreamTokenizer.pending (t : StreamTokenizer) : Nat :=
  match t.reader with
  | some input => input.length
  | none => 0

/-- The character type `ctype = CT_ALPHA; if c < 256 { ctype = ct[c] }`. -/
def charType (ct : List Nat) (c : Int) : Nat :=
  if c < 256 then ct.getD c.toNat 0 else CT_ALPHA

/-- How a part of `NextToken` is left: by a `return` with a token type, or by going on to the
next part with the current character. -/
inductive Flow where
  | returned (ttype : Int)
  | next (c : Int)
  deriving DecidableEq, Repr

/-- The return `t.ttype = TT_EOF; return t.ttype, nil`. -/
def StreamTokenizer.returnEOF (t : StreamTokenizer) : Got Flow × StreamTokenizer :=
  (.ok (.returned TT_EOF), { t with ttype := TT_EOF })

/-- The loop `for (ctype & CT_WHITESPACE) != 0 { ... }` of `NextToken`, one unit of fuel per
pass. -/
def skipWhitespace (ct : List Nat) : Nat → Int → StreamTokenizer → Got Flow × StreamTokenizer
  | 0, _, t => (.diverges, t)
  | fuel + 1, c, t =>
    if charType ct c &&& CT_WHITESPACE ≠ 0 then
      let after : Int → StreamTokenizer → Got Flow × StreamTokenizer := fun c t =>
        if c < 0 then t.returnEOF else skipWhitespace ct fuel c t
      if c = 13 then
        let t := { t with lineno := t.lineno + 1 }
        if t.eolIsSignificantP then
          (.ok (.returned TT_EOL), { t with peekc := SKIP_LF, ttype := TT_EOL })
        else
          t.readThen fun c t => if c = 10 then t.readThen after else after c t
      else
        let t := if c = 10 then { t with lineno := t.lineno + 1 } else t
        if c = 10 ∧ t.eolIsSignificantP then (.ok (.returned TT_EOL), { t with ttype := TT_EOL })
        else t.readThen after
    else (.ok (.next c), t)

/-- The loop `for { ... }` over the characters of a number in `NextToken`; the state is
`(v, decexp, seendot)`, and the loop gives it back with the character that ended it.  The
digit `c` goes into `v` by `v = v * float64(10+(c-'0'))`. -/
def numberLoop : Nat → Int → ℚ × Int × Int → StreamTokenizer →
    Got (Int × ℚ × Int × Int) × StreamTokenizer
  | 0, _, _, t => (.diverges, t)
  | fuel + 1, c, (v, decexp, seendot), t =>
    if c = 46 ∧ seendot = 0 then
      t.readThen fun c t => numberLoop fuel c (v, decexp, 1) t
    else if 48 ≤ c ∧ c ≤ 57 then
      t.readThen fun c' t => numberLoop fuel c' (v * ((10 + (c - 48) : Int) : ℚ),
        decexp + seendot, seendot) t
    else (.ok (c, v, decexp, seendot), t)

/-- The part `if (ctype & CT_DIGIT) != 0 { ... }` of `NextToken`, which always returns. -/
def StreamTokenizer.numberToken (t : StreamTokenizer) (c : Int) : Got Int × StreamTokenizer :=
  let parse : Bool → Int → StreamTokenizer → Got Int × StreamTokenizer := fun neg c t =>
    match numberLoop (t.pending + 1) c (0, 0, 0) t with
    | (.ok (c, v, decexp, _), t) =>
      let v := if decexp ≠ 0 then v / (10 : ℚ) ^ decexp.toNat else v
      (.ok TT_NUMBER, { t with peekc := c, nval := if neg then -v else v, ttype := TT_NUMBER })
    | (.error e, t) => (.error e, t)
    | (.diverges, t) => (.diverges, t)
  if c = 45 then
    t.readThen fun c t =>
      if c ≠ 46 ∧ (c < 48 ∨ c > 57) then (.ok 45, { t with peekc := c, ttype := 45 })
      else parse true c t
  else parse false c t

/-- The loop `for { ... }` over the characters of a word in `NextToken`: the characters so
far, and the character that ended the word. -/
def wordLoop (ct : List Nat) : Nat → Int → List Char → StreamTokenizer →
    Got (Int × List Char) × StreamTokenizer
  | 0, _, _, t => (.diverges, t)
  | fuel + 1, c, buf, t =>
    let buf := buf ++ [Char.ofNat c.toNat]
    t.readThen fun c t =>
      let ctype := if c < 0 then CT_WHITESPACE else if c < 256 then ct.getD c.toNat 0 else CT_ALPHA
      if ctype &&& (CT_ALPHA ||| CT_DIGIT) = 0 then (.ok (c, buf), t)
      else wordLoop ct fuel c buf t

/-- The function `strings.ToLower` on a character below 256: the letters `A` to `Z` and the
capital letters of Latin-1 go to their small letters. -/
def toLowerLatin1 (ch : Char) : Char :=
  if (65 ≤ ch.toNat ∧ ch.toNat ≤ 90) ∨ (192 ≤ ch.toNat ∧ ch.toNat ≤ 214) ∨
      (216 ≤ ch.toNat ∧ ch.toNat ≤ 222) then Char.ofNat (ch.toNat + 32)
  else ch

/-- The part `if (ctype & CT_ALPHA) != 0 { ... }` of `NextToken`, which always returns. -/
def StreamTokenizer.wordToken (t : StreamTokenizer) (ct : List Nat) (c : Int) :
    Got Int × StreamTokenizer :=
  match wordLoop ct (t.pending + 1) c [] t with
  | (.ok (c, buf), t) =>
    let sval := String.mk (if t.forceLower then buf.map toLowerLatin1 else buf)
    (.ok TT_WORD, { t with peekc := c, sval := sval, ttype := TT_WORD })
  | (.error e, t) => (.error e, t)
  | (.diverges, t) => (.diverges, t)

/-- The `switch c { ... }` of the escapes of a quoted string. -/
def escapeOf (c : Int) : Int :=
  if c = 97 then 7 else if c = 98 then 8 else if c = 102 then 12 else if c = 110 then 10
  else if c = 114 then 13 else if c = 116 then 9 else if c = 118 then 11 else c

/-- The loop `for d >= 0 && d != t.ttype && d != '\n' && d != '\r' { ... }` over the body of
a quoted string in `NextToken`: the characters so far, and the character `d` that ended the
loop. -/
def quoteLoop (quote : Int) : Nat → Int → List Char → StreamTokenizer →
    Got (Int × List Char) × StreamTokenizer
  | 0, _, _, t => (.diverges, t)
  | fuel + 1, d, buf, t =>
    if d ≥ 0 ∧ d ≠ quote ∧ d ≠ 10 ∧ d ≠ 13 then
      let store : Int → Int → StreamTokenizer → Got (Int × List Char) × StreamTokenizer :=
        fun c d t => quoteLoop quote fuel d (buf ++ [Char.ofNat c.toNat]) t
      if d = 92 then
        t.readThen fun c t =>
          let first := c
          if 48 ≤ c ∧ c ≤ 55 then
            let c := c - 48
            t.readThen fun c2 t =>
              if 48 ≤ c2 ∧ c2 ≤ 55 then
                let c := c * 8 + (c2 - 48)
                t.readThen fun c2 t =>
                  if 48 ≤ c2 ∧ c2 ≤ 55 ∧ first ≤ 51 then
                    t.readThen fun d t => store (c * 8 + (c2 - 48)) d t
                  else store c c2 t
              else store c c2 t
          else t.readThen fun d t => store (escapeOf c) d t
      else t.readThen fun d' t => store d d' t
    else (.ok (d, buf), t)

/-- The part `if (ctype & CT_QUOTE) != 0 { ... }` of `NextToken`, which always returns. -/
def StreamTokenizer.quoteToken (t : StreamTokenizer) (c : Int) : Got Int × StreamTokenizer :=
  let t := { t with ttype := c }
  t.readThen fun d t =>
    match quoteLoop c (t.pending + 1) d [] t with
    | (.ok (d, buf), t) =>
      (.ok c, { t with peekc := if d = c then NEED_CHAR else d, sval := String.mk buf })
    | (.error e, t) => (.error e, t)
    | (.diverges, t) => (.diverges, t)

/-- The loop `for { c, err = t.Read(); ...; if c == '\n' || c == '\r' || c < 0 { break } }`
that skips the rest of a line: the character that ended it. -/
def skipLine : Nat → StreamTokenizer → Got Int × StreamTokenizer
  | 0, t => (.diverges, t)
  | fuel + 1, t =>
    t.readThen fun c t => if c = 10 ∨ c = 13 ∨ c < 0 then (.ok c, t) else skipLine fuel t

/-- The loop `for { ... }` that skips a comment between `/*` and `*/`, from the character
`prevc` read before: it is left with the closing slash read, or by a return at the end of
the file. -/
def skipStarComment : Nat → Int → StreamTokenizer → Got Flow × StreamTokenizer
  | 0, _, t => (.diverges, t)
  | fuel + 1, prevc, t =>
    t.readThen fun c t =>
      if c = 47 ∧ prevc = 42 then (.ok (.next c), t)
      else
        let after : Int → StreamTokenizer → Got Flow × StreamTokenizer := fun c t =>
          if c < 0 then t.returnEOF else skipStarComment fuel c t
        if c = 13 then
          let t := { t with lineno := t.lineno + 1 }
          t.readThen fun c t => if c = 10 then t.readThen after else after c t
        else if c = 10 then
          let t := { t with lineno := t.lineno + 1 }
          t.readThen after
        else after c t

/-- The method `NextToken`, one unit of fuel per call: a call is nested in another one after
a comment was skipped. -/
def StreamTokenizer.NextTokenAux : Nat → StreamTokenizer → Got Int × StreamTokenizer
  | 0, t => (.diverges, t)
  | fuel + 1, t =>
    if t.pushedBack then (.ok t.ttype, { t with pushedBack := false })
    else
      let ct : List Nat := t.ctype
      let t : StreamTokenizer := { t with sval := "" }
      let c : Int := if t.peekc < 0 then NEED_CHAR else t.peekc
      let skipComment : StreamTokenizer → Got Int × StreamTokenizer := fun t =>
        match skipLine (t.pending + 1) t with
        | (.ok c, t) => StreamTokenizer.NextTokenAux fuel { t with peekc := c }
        | (.error e, t) => (.error e, t)
        | (.diverges, t) => (.diverges, t)
      let classify : Int → StreamTokenizer → Got Int × StreamTokenizer := fun c t =>
        let t := { t with ttype := c, peekc := NEED_CHAR }
        match skipWhitespace ct (t.pending + 1) c t with
        | (.ok (.returned ttype), t) => (.ok ttype, t)
        | (.error e, t) => (.error e, t)
        | (.diverges, t) => (.diverges, t)
        | (.ok (.next c), t) =>
          let ctype := charType ct c
          if ctype &&& CT_DIGIT ≠ 0 then t.numberToken c
          else if ctype &&& CT_ALPHA ≠ 0 then t.wordToken ct c
          else if ctype &&& CT_QUOTE ≠ 0 then t.quoteToken c
          else if c = 47 ∧ (t.slashSlashCommentsP ∨ t.slashStarCommentsP) then
            t.readThen fun c t =>
              if c = 42 ∧ t.slashStarCommentsP then
                match skipStarComment (t.pending + 1) 0 t with
                | (.ok (.returned ttype), t) => (.ok ttype, t)
                | (.ok (.next _), t) => StreamTokenizer.NextTokenAux fuel t
                | (.error e, t) => (.error e, t)
                | (.diverges, t) => (.diverges, t)
              else if c = 47 ∧ t.slashSlashCommentsP then skipComment t
              else if ct.getD 47 0 &&& CT_COMMENT ≠ 0 then skipComment t
              else (.ok 47, { t with peekc := c, ttype := 47 })
          else if ctype &&& CT_COMMENT ≠ 0 then skipComment t
          else (.ok c, { t with ttype := c })
      let fresh : StreamTokenizer → Got Int × StreamTokenizer := fun t =>
        t.readThen fun c t =>
          if c < 0 then (.ok TT_EOF, { t with ttype := TT_EOF }) else classify c t
      if c = SKIP_LF then
        t.readThen fun c t =>
          if c < 0 then (.ok TT_EOF, { t with ttype := TT_EOF })
          else if c = 10 then fresh t
          else classify c t
      else if c = NEED_CHAR then fresh t
      else classify c t

/-- The method `NextToken`.  Every nested call comes after a byte was read, so that their
number is at most the number of bytes that the reader still has. -/
def StreamTokenizer.NextToken (t : StreamTokenizer) : Got Int × StreamTokenizer :=
  StreamTokenizer.NextTokenAux (t.pending + 2) t

/-- The method `PushBack`. -/
def StreamTokenizer.PushBack (t : StreamTokenizer) : StreamTokenizer :=
  if t.ttype ≠ TT_NOTHING then { t with pushedBack := true } else t

/-! ## `extended_stream_tokenizer.go` -/

/-- The struct `ExtendedStreamTokenizer`; its reader is the one of the `StreamTokenizer`. -/
structure ExtendedStreamTokenizer where
  path : String
  st : StreamTokenizer
  atEOF : Bool
  putbackList : List String
  deriving DecidableEq

/-- The function `NewExtendedStreamTokenizerFromReader`, for a reader that has the bytes
`input` to give. -/
def NewExtendedStreamTokenizerFromReader (input : List Nat) (commentChar : Int)
    (eolIsSignificant : Bool) : ExtendedStreamTokenizer :=
  { path := ""
    st := (((((NewStreamTokenizerFromReader input).ResetSyntax.WhitespaceChars 0 32).WordChars 33
      255).EOLIsSignificant eolIsSignificant).CommentChar commentChar)
    atEOF := false
    putbackList := [] }

/-- The method `corrupt`, up to the text of the message. -/
def ExtendedStreamTokenizer.corrupt (_t : ExtendedStreamTokenizer) (msg : String) : IOError :=
  .corrupt msg

/-- The method `GetString`; with an error the string returned is the empty one. -/
def ExtendedStreamTokenizer.GetString (t : ExtendedStreamTokenizer) :
    Got String × ExtendedStreamTokenizer :=
  match t.putbackList.getLast? with
  | some s => (.ok s, { t with putbackList := t.putbackList.dropLast })
  | none =>
    match t.st.NextToken with
    | (.error e, st) => (.error e, { t with st := st })
    | (.diverges, st) => (.diverges, { t with st := st })
    | (.ok _, st) =>
      let t := { t with st := st }
      let t := if t.st.ttype = TT_EOF then { t with atEOF := true } else t
      if t.st.ttype ≠ TT_WORD ∧ t.st.ttype ≠ TT_EOL ∧ t.st.ttype ≠ TT_EOF then
        (.error (t.corrupt "word expected but not found"), t)
      else if t.st.ttype = TT_EOL ∨ t.st.ttype = TT_EOF then (.ok "", t)
      else (.ok t.st.sval, t)

/-- The method `Unget`. -/
def ExtendedStreamTokenizer.Unget (t : ExtendedStreamTokenizer) (str : String) :
    ExtendedStreamTokenizer :=
  { t with putbackList := t.putbackList ++ [str] }

/-- The method `IsEOF`. -/
def ExtendedStreamTokenizer.IsEOF (t : ExtendedStreamTokenizer) : Bool := t.atEOF

/-! # Part II: vocabulary of the statements and inputs of the worked examples -/

/-- Tokens named by their scores: `GetScore()` of the token `x` is `x`. -/
def scoreOf : Int → Int := fun x => x

/-- Scores of 53 tokens on which `midPointSelect` picks the lowest remaining score as pivot
51 times in a row. -/
def deepScores : List Int :=
  [1000, 49, 47, 45, 43, 41, 39, 37, 35, 33, 31, 29, 27, 25, 23, 21, 19, 17, 15, 13, 11, 9, 7,
   5, 3, 1, 0, 26, 46, 24, 38, 22, 999, 20, 36, 18, 44, 16, 34, 14, 48, 12, 32, 10, 42, 8, 30,
   6, 50, 4, 28, 2, 40]

/-- The slice `Partition` leaves for `deepScores`, `size = 53` and `n = 1`. -/
def deepScoresPartitioned : List Int :=
  [999, 1000, 50, 49, 48, 47, 46, 45, 44, 43, 42, 41, 40, 39, 38, 37, 36, 35, 34, 33, 32, 31, 30,
   29, 28, 27, 26, 25, 24, 23, 22, 21, 20, 19, 18, 17, 16, 15, 14, 13, 12, 11, 10, 9, 8, 7, 6, 5,
   4, 3, 2, 1, 0]

/-- A simple active list of beam width 3 that received the scores 1, 4, 2, 3. -/
def fourTokens : SimpleActiveList Int := (NewSimpleActiveList 3 0).addAll scoreOf [1, 4, 2, 3]

/-- A linguist whose only word state is 20. -/
def wordAt20 : Linguist where
  successors := fun _ => []
  isEmitting := fun s => decide (s < 20)
  isFinal := fun _ => false
  isWordSearchState := fun s => decide (s = 20)
  order := fun _ => 0

/-- A token with the given predecessor, state, total score, acoustic, language and insertion
scores, collect time and feature. -/
def tokenWith (predecessor : Option Ptr) (state : Option SearchState)
    (total acoustic language insertion collectTime : Int) (data : Option Data) : Token :=
  { curCount := 1, lastCount := 0, predecessor := predecessor, logLanguageScore := language,
    logTotalScore := total, logInsertionScore := insertion, logAcousticScore := acoustic,
    searchState := state, collectTime := collectTime, data := data }

/-- A heap with a word token (state 20, score 10) followed by two tokens of the non-word
state 30: the first has acoustic, language and insertion scores 1, 2, 3, the second 10, 20, 30. -/
def wordChain : Heap :=
  [tokenWith none (some 20) 10 0 0 0 5 none, tokenWith (some 0) (some 30) 16 1 2 3 5 none,
   tokenWith (some 1) (some 30) 76 10 20 30 5 none]

/-! ## Vocabulary of the statements about the arc loop -/

/-- One pass of the loop `for _, arc := range arcs` of `collectSuccessorTokens`: the token being
expanded, its state, the predecessor computed for its successors and the arc followed. -/
structure ArcPass where
  token : Ptr
  state : SearchState
  predecessor : Option Ptr
  arc : SearchStateArc
  deriving DecidableEq, Repr

/-- What a grow step does to the heap, the best token map and the lists, one event at a time:
a pass of the arc loop, a token that `getResultListPredecessor` puts at the end of the heap,
or a change of the lists of the active list manager (a list replaced by a fresh instance). -/
inductive GrowEvent where
  | pass (a : ArcPass)
  | inserted (t : Token)
  | relisted (alm : SimpleActiveListManager)
  deriving DecidableEq, Repr

/-- The effect of one event on the manager. -/
def WPBFSM.runEvent (lg : Linguist) (m : WPBFSM.Manager) : GrowEvent → Res WPBFSM.Manager
  | .pass a => WPBFSM.processArc lg m a.token a.state a.predecessor a.arc
  | .inserted t => .ok { m with heap := m.heap ++ [t] }
  | .relisted alm => .ok { m with activeListManager := alm }

/-- A run of events, in order. -/
def WPBFSM.runEvents (lg : Linguist) : List GrowEvent → WPBFSM.Manager → Res WPBFSM.Manager
  | [], m => .ok m
  | e :: rest, m => (WPBFSM.runEvent lg m e).bind (WPBFSM.runEvents lg rest)

/-- The entry score `token.GetScore() + arc.GetProbability()` of an event that is a pass into
the state `s`, with the predecessor the pass offers. -/
def WPBFSM.entryOf (s : SearchState) (m : WPBFSM.Manager) : GrowEvent → List (Int × Option Ptr)
  | .pass a =>
    if a.arc.state = s then [(GetScore m.heap a.token + a.arc.probability, a.predecessor)]
    else []
  | _ => []

/-- The entry scores that the passes entering the state `s` compute in a run of events, in the
order of the passes, each with the predecessor it offers. -/
def WPBFSM.entriesInto (lg : Linguist) (s : SearchState) :
    List GrowEvent → WPBFSM.Manager → List (Int × Option Ptr)
  | [], _ => []
  | e :: rest, m =>
    WPBFSM.entryOf s m e ++
    (match WPBFSM.runEvent lg m e with
     | .ok m' => WPBFSM.entriesInto lg s rest m'
     | _ => [])

/-- The entry `first` is the first one of `l` with the highest score: the entries before it
score strictly less, the entries after it score at most as much. -/
def IsFirstMax (l : List (Int × Option Ptr)) (first : Int × Option Ptr) : Prop :=
  ∃ before after, l = before ++ first :: after ∧
    (∀ e ∈ before, e.1 < first.1) ∧ (∀ e ∈ after, e.1 ≤ first.1)

/-- A linguist with the word state 20 (order 0), the unit state 30 (order 1) and the emitting
states 10, 13 and 16 (order 2): the word leads to the unit, the unit to the three emitting
states, and each emitting state back to the word and to itself. -/
def smallGraph : Linguist where
  successors := fun s =>
    if s = 20 then [⟨30, -1, -1, 0⟩]
    else if s = 30 then [⟨10, -1, 0, -1⟩, ⟨13, -1, 0, -1⟩, ⟨16, -1, 0, -1⟩]
    else if s = 10 then [⟨20, -1, 0, -1⟩, ⟨10, -2, 0, -2⟩]
    else if s = 13 then [⟨20, -1, 0, -1⟩, ⟨13, -2, 0, -2⟩]
    else if s = 16 then [⟨20, -1, 0, -1⟩, ⟨16, -2, 0, -2⟩]
    else []
  isEmitting := fun s => decide (s < 20)
  isFinal := fun s => decide (s = 99)
  isWordSearchState := fun s => decide (s = 20)
  order := fun s => if s < 20 then 2 else if s = 20 then 0 else 1

/-- The feature frame of collect time 10. -/
def frame10 : Data := .floatData [0] 16000 160 10

/-- A manager on `smallGraph` with word lattice and three simple lists, in the middle of its
first frame.  `localStart` made the first token 0 (word state 20, collect time -1) and grew
it into the unit token 2 and the emitting tokens 4, 5, 6, with the tokens 1 and 3 inserted by
`getResultListPredecessor`; the frame of collect time 10 then gave the emitting tokens the
acoustic scores -3, -2, -2.  The emitting list is still the active list, and the best token
map is the one of the growth before. -/
def betweenFrames : WPBFSM.Manager where
  buildWordLattice := true
  keepAllTokens := false
  checkStateOrder := true
  growSkipInterval := 0
  relativeBeamWidth := -100
  acousticLookaheadFrames := 0
  maxLatticeEdges := 100
  tokensCreated := 4
  currentFrameNumber := 1
  currentCollectTime := 10
  activeList := some (.simple { absoluteBeamWidth := 5, logRelativeBeamWidth := -100,
                                bestToken := some 5, tokenList := [4, 5, 6] })
  resultList := []
  bestTokenMap := [(16, 6), (13, 5), (10, 4), (30, 2)]
  loserManager := NewAlternateHypothesisManager 100
  numStateOrder := 3
  streamEnd := false
  activeListManager :=
    { checkPriorLists := true
      activeListFactories := [.simple 5 (-100)]
      currentActiveLists :=
        [.simple (NewSimpleActiveList 5 (-100)), .simple (NewSimpleActiveList 5 (-100)),
         .simple { absoluteBeamWidth := 5, logRelativeBeamWidth := -100, bestToken := some 5,
                   tokenList := [4, 5, 6] }] }
  heap :=
    [tokenWith none (some 20) 0 0 0 0 (-1) none,
     tokenWith (some 0) none 0 0 0 0 0 none,
     tokenWith (some 1) (some 30) (-1) 0 (-1) 0 0 none,
     tokenWith (some 0) none 0 0 (-1) 0 0 none,
     tokenWith (some 3) (some 10) (-5) (-3) 0 (-1) 10 (some frame10),
     tokenWith (some 3) (some 13) (-4) (-2) 0 (-1) 10 (some frame10),
     tokenWith (some 3) (some 16) (-4) (-2) 0 (-1) 10 (some frame10)]

/-- The manager `betweenFrames` right after `clearCollectors`. -/
def collectorsCleared : WPBFSM.Manager :=
  match WPBFSM.clearCollectors betweenFrames with
  | .ok m => m
  | _ => betweenFrames

/-- The events of `growEmittingBranches` from `collectorsCleared`: for each of the emitting
tokens 4, 5 and 6 (scores -5, -4, -4) the token that `getResultListPredecessor` inserts (at
the positions 7, 10 and 12), then the pass into the word state 20 and the pass into the own
state of the token. -/
def emittingGrowthEvents : List GrowEvent :=
  [.inserted (tokenWith (some 0) none 0 (-1) (-1) (-3) 0 none),
   .pass ⟨4, 10, some 7, ⟨20, -1, 0, -1⟩⟩, .pass ⟨4, 10, some 7, ⟨10, -2, 0, -2⟩⟩,
   .inserted (tokenWith (some 0) none 0 (-1) (-1) (-2) 0 none),
   .pass ⟨5, 13, some 10, ⟨20, -1, 0, -1⟩⟩, .pass ⟨5, 13, some 10, ⟨13, -2, 0, -2⟩⟩,
   .inserted (tokenWith (some 0) none 0 (-1) (-1) (-2) 0 none),
   .pass ⟨6, 16, some 12, ⟨20, -1, 0, -1⟩⟩, .pass ⟨6, 16, some 12, ⟨16, -2, 0, -2⟩⟩]

/-- The manager that `growEmittingBranches` leaves when run from `collectorsCleared`, which it
does without failing. -/
def afterEmittingGrowth : WPBFSM.Manager :=
  match WPBFSM.growEmittingBranches smallGraph (fun _ => true) collectorsCleared with
  | .ok m => m
  | _ => collectorsCleared

/-! ## Vocabulary of the statements about a grow step -/

/-- Every best token recorded in `bestTokenMap` is in the heap and carries the state it is
recorded for. -/
def WPBFSM.MapOK (m : WPBFSM.Manager) : Prop :=
  ∀ s p, WPBFSM.getBestToken m s = some p →
    p < m.heap.length ∧ (m.heap.deref p).searchState = some s

/-- The token `p` is the best token recorded for its state, and this state has order `i`. -/
def WPBFSM.Recorded (lg : Linguist) (m : WPBFSM.Manager) (i : Nat) (p : Ptr) : Prop :=
  ∃ s, (m.heap.deref p).searchState = some s ∧ WPBFSM.getBestToken m s = some p ∧
    lg.order s = (i : Int)

/-- Invariant of a grow step whose iterator over the non-emitting lists is at `listPtr`: the
best token map is in order, and each list that was replaced by a fresh one since the step
began (the emitting list, and the lists up to `listPtr`) holds every token once, each of
them the recorded best token of its state, a state of the order of the list. -/
def WPBFSM.GrowInv (lg : Linguist) (listPtr : Int) (m : WPBFSM.Manager) : Prop :=
  WPBFSM.MapOK m ∧
  ∀ (i : Nat) (l : ActiveList Ptr), m.activeListManager.currentActiveLists[i]? = some l →
    ((i : Int) ≤ listPtr ∨
      (i : Int) = (m.activeListManager.currentActiveLists.length : Int) - 1) →
    l.held.Nodup ∧ ∀ p ∈ l.held, WPBFSM.Recorded lg m i p

/-- The manager that the grow step leaves when run from `betweenFrames`, which it does without
failing. -/
def afterGrowStep : WPBFSM.Manager :=
  match WPBFSM.growStep smallGraph (fun _ => true) betweenFrames with
  | .ok m => m
  | _ => betweenFrames

/-! ## Vocabulary of the statements about collect times -/

/-- Every token of the heap that has a predecessor is not earlier than it. -/
def TimeOrderedAll (h : Heap) : Prop :=
  ∀ p q : Nat, p < h.length → (h.deref p).predecessor = some q →
    (h.deref q).collectTime ≤ (h.deref p).collectTime

/-- Every token of the heap that has a search state and a predecessor is not earlier than its
predecessor; the tokens without search state are the ones `NewTokenWithScores` makes. -/
def TimeOrdered (h : Heap) : Prop :=
  ∀ p q : Nat, p < h.length → (h.deref p).searchState ≠ none →
    (h.deref p).predecessor = some q → (h.deref q).collectTime ≤ (h.deref p).collectTime

/-- The state of the trellis within a grow step at collect time `currentCollectTime`: the
time is not negative, no token is later than it, predecessors are in the heap, the recorded
best tokens are in the heap and of the current collect time, the tokens without search state
have collect time 0, and the tokens with a search state are not earlier than their
predecessors. -/
structure WPBFSM.TimeInv (m : WPBFSM.Manager) : Prop where
  nonneg : 0 ≤ m.currentCollectTime
  bounded : ∀ p : Nat, p < m.heap.length → (m.heap.deref p).collectTime ≤ m.currentCollectTime
  closed : ∀ p q : Nat, p < m.heap.length → (m.heap.deref p).predecessor = some q →
    q < m.heap.length
  recorded : ∀ (s : SearchState) (p : Nat), WPBFSM.getBestToken m s = some p →
    p < m.heap.length ∧ (m.heap.deref p).collectTime = m.currentCollectTime
  stateless : ∀ p : Nat, p < m.heap.length → (m.heap.deref p).searchState = none →
    (m.heap.deref p).collectTime = 0
  ordered : TimeOrdered m.heap

/-- The trellis `h` is in order at the collect time `now`: the time is not negative, no token
is later than it, predecessors are in the heap, the tokens without search state have collect
time 0, and the tokens with a search state are not earlier than their predecessors. -/
structure TrellisInOrder (h : Heap) (now : Int) : Prop where
  nonneg : 0 ≤ now
  bounded : ∀ p : Nat, p < h.length → (h.deref p).collectTime ≤ now
  closed : ∀ p q : Nat, p < h.length → (h.deref p).predecessor = some q → q < h.length
  stateless : ∀ p : Nat, p < h.length → (h.deref p).searchState = none →
    (h.deref p).collectTime = 0
  ordered : TimeOrdered h

/-- Check of a condition on every token of the heap that has a predecessor, and on this
predecessor. -/
def Heap.allWithPredecessor (h : Heap) (check : Nat → Nat → Bool) : Bool :=
  (List.range h.length).all fun p =>
    match (h.deref p).predecessor with
    | some q => check p q
    | none => true


/-! ## Inputs of the worked examples of the scorer and of `Recognize` -/

/-- A scoring model without normalizer in which every emitting state of `smallGraph` (the
states below 20) scores -1 on every frame; the other states are no score providers. -/
def emittingScoreMinusOne : ScoringModel where
  provider := fun s _ => if s < 20 then .ok (-1) else .panics
  normalizer := none

/-- The feature frame of collect time 20. -/
def frame20 : Data := .floatData [0] 16000 320 20

/-- A scorer at the start of a stream, with the given data still to come. -/
def scorerOn (pending : List Data) : SimpleAcousticScorer :=
  { frontEnd := { pending := pending }, storedData := [], seenEnd := false }

/-- A scorer that has seen the end of speech, with the given data still to come. -/
def scorerAfterSpeechEnd (pending : List Data) : SimpleAcousticScorer :=
  { frontEnd := { pending := pending }, storedData := [], seenEnd := true }

/-- The search graph of `smallGraph`: it starts in the word state 20 and has three orders. -/
def smallSearchGraph : SearchGraph :=
  { initialState := 20, numStateOrder := 3, wordTokenFirst := true }

/-- The front end has come to its end for the scorer: nothing is stored, and what is still to
come holds no feature frame and no end of speech, so that reading it leaves nothing. -/
def SimpleAcousticScorer.AtStreamEnd (sas : SimpleAcousticScorer) : Prop :=
  sas.storedData = [] ∧
    ∀ d, d ∈ sas.frontEnd.pending → d.isFrame = false ∧ d.isSpeechEndSignal = false

/-- The manager that one frame of `recognize` leaves from `afterGrowStep`, when the frame of
collect time 20 and then the end of speech are still to come. -/
def afterFrame20 : WPBFSM.Manager :=
  match WPBFSM.recognize smallGraph (fun _ => true) emittingScoreMinusOne afterGrowStep
      (scorerOn [frame20, .speechEndSignal]) with
  | .ok x => x.2.1
  | _ => afterGrowStep

/-- The emitting list of `afterFrame20`. -/
def emittingListAfterFrame20 : ActiveList Ptr :=
  .simple { absoluteBeamWidth := 5, logRelativeBeamWidth := -100, bestToken := some 21,
            tokenList := [19, 21, 23] }

/-! ## Vocabulary and inputs of the worked examples of the lookahead manager -/

/-- The gap `scores[b] - maxScore` of a frame of the window for the base phone `b`. -/
def FrameCiScores.gap (f : FrameCiScores) (b : Nat) : Int := f.scores.getD b 0 - f.maxScore

/-- A lookahead manager around the embedded manager `b`, with lookahead weight 1, the given
window and an empty penalty cache; nothing of the fast match is set. -/
def lookaheadOver (b : WPBFSM.Manager) (lookaheadWindow : Int) (window : List FrameCiScores) :
    WPBFLSM.Manager :=
  { toWordPruningBreadthFirstSearchManager := b
    fastmatchActiveListFactory := .simple 5 (-100)
    lookaheadWindow := lookaheadWindow
    lookaheadWeight := 1
    penalties := []
    ciScores := window
    currentFastMatchFrameNumber := 0
    fastmatchActiveList := none
    fastMatchBestTokenMap := []
    fastmatchStreamEnd := false }

/-- The window of the scenario S5 of the spec for the base phone 3: three frames in which the
phone scores -2, -3, -2 and the best phone -1. -/
def windowS5 : List FrameCiScores :=
  [⟨[0, 0, 0, -2], -1⟩, ⟨[0, 0, 0, -3], -1⟩, ⟨[0, 0, 0, -2], -1⟩]

/-- A lex tree in which the word state 60 leads to the two emitting HMM states 51 and 52. -/
def twoHmmGraph : Linguist where
  successors := fun s => if s = 60 then [⟨51, -1, 0, -1⟩, ⟨52, -1, 0, -1⟩] else []
  isEmitting := fun s => decide (s < 60)
  isFinal := fun _ => false
  isWordSearchState := fun s => decide (s = 60)
  order := fun s => if s < 60 then 1 else 0

/-- The kinds of the states of `twoHmmGraph`: the word state 60 produces phone HMMs, and the
HMM states 51 and 52 both belong to the base phone 1. -/
def twoHmmKinds : StateKinds where
  producesPhoneHmms := fun s => decide (s = 60)
  hmmBaseId := fun s => if s = 51 ∨ s = 52 then some 1 else none
  phoneBaseId := fun _ => none

/-- A lookahead manager on `twoHmmGraph` that keeps all tokens, in the growth of a frame: the
token 0 of the word state 60 has the score 0 and is the best token of the active list, whose
relative beam is -2, so that the beam threshold is -2; the lookahead weight is 1, the penalty
cache is empty, and the window has one frame, in which the phone 1 scores -5 and the best
phone 0. -/
def lookaheadAtWord : WPBFLSM.Manager :=
  lookaheadOver
    { buildWordLattice := false
      keepAllTokens := true
      checkStateOrder := false
      growSkipInterval := 0
      relativeBeamWidth := -2
      acousticLookaheadFrames := 0
      maxLatticeEdges := 0
      tokensCreated := 1
      currentFrameNumber := 1
      currentCollectTime := 10
      activeList := some (.simple { absoluteBeamWidth := 5, logRelativeBeamWidth := -2,
                                    bestToken := some 0, tokenList := [0] })
      resultList := []
      bestTokenMap := [(60, 0)]
      loserManager := NewAlternateHypothesisManager 0
      numStateOrder := 2
      streamEnd := false
      activeListManager :=
        { checkPriorLists := false
          activeListFactories := [.simple 5 (-2)]
          currentActiveLists :=
            [.simple (NewSimpleActiveList 5 (-2)), .simple (NewSimpleActiveList 5 (-2))] }
      heap := [tokenWith none (some 60) 0 0 0 0 10 none] }
    1 [⟨[0, -5], 0⟩]

/-- A phone loop for the fast match: the non-emitting word state 40 leads to the emitting
phone states 41 and 42, which lead to themselves and back to 40. -/
def phoneLoop : Linguist where
  successors := fun s =>
    if s = 40 then [⟨41, -1, 0, -1⟩, ⟨42, -1, 0, -1⟩]
    else if s = 41 then [⟨41, -1, 0, -1⟩, ⟨40, -1, 0, -1⟩]
    else if s = 42 then [⟨42, -1, 0, -1⟩, ⟨40, -1, 0, -1⟩]
    else []
  isEmitting := fun s => decide (s = 41 ∨ s = 42)
  isFinal := fun _ => false
  isWordSearchState := fun s => decide (s = 40)
  order := fun s => if s = 40 then 0 else 1

/-- The kinds of the states of `phoneLoop`: the phone states 41 and 42 have the base ids 1
and 2. -/
def phoneKinds : StateKinds where
  producesPhoneHmms := fun _ => false
  hmmBaseId := fun _ => none
  phoneBaseId := fun s => if s = 41 then some 1 else if s = 42 then some 2 else none

/-- A lookahead manager that keeps all tokens, with an empty window, whose fast-match list
holds one scored token: token 0 of the phone state 41, with the score -3. -/
def fastMatchOnePhone : WPBFLSM.Manager :=
  { lookaheadOver
      { lookaheadAtWord.toWordPruningBreadthFirstSearchManager with
        heap := [tokenWith none (some 41) (-3) (-3) 0 0 10 (some frame10)]
        activeList := none
        bestTokenMap := [] }
      1 [] with
    currentFastMatchFrameNumber := 1
    fastmatchActiveList := some (.simple { absoluteBeamWidth := 5, logRelativeBeamWidth := -100,
                                           bestToken := some 0, tokenList := [0] }) }

/-- A scoring model without normalizer in which the emitting states of `smallGraph` and of
`phoneLoop` score -1 on every frame. -/
def allEmittingScoreMinusOne : ScoringModel where
  provider := fun s _ => if s < 20 ∨ s = 41 ∨ s = 42 then .ok (-1) else .panics
  normalizer := none

/-- The feature frame of collect time 30. -/
def frame30 : Data := .floatData [0] 16000 480 30

/-- The feature frame of collect time 40. -/
def frame40 : Data := .floatData [0] 16000 640 40

/-- A lookahead manager whose fast-match stream has ended: the embedded manager is
`afterGrowStep`, and the window holds three frames, named by their maxima -1 (the oldest), -2
and -3 (the newest). -/
def drainingLookahead : WPBFLSM.Manager :=
  { lookaheadOver afterGrowStep 3 [⟨[0], -1⟩, ⟨[0], -2⟩, ⟨[0], -3⟩] with
    fastmatchStreamEnd := true }

/-- The scorer of `drainingLookahead`: the front end is used up, and the three frames that the
fast match has read ahead are stored for the main pass. -/
def scorerWithStoredFrames : SimpleAcousticScorer :=
  { frontEnd := { pending := [] }, storedData := [frame20, frame30, frame40], seenEnd := false }

/-- `Recognize` of the lookahead manager on `smallGraph`, with `phoneLoop` as the linguist of
the fast match and `allEmittingScoreMinusOne` as the scoring model. -/
def recognizeOnSmallGraph (nFrames : Int) (m : WPBFLSM.Manager) (sas : SimpleAcousticScorer) :
    Res (Option Result × WPBFLSM.Manager × SimpleAcousticScorer) :=
  WPBFLSM.Recognize smallGraph phoneLoop smallSearchGraph phoneKinds (fun _ => true) 5
    allEmittingScoreMinusOne nFrames m sas

/-- A lookahead manager as its constructor builds it, with a lookahead window of 1, and the
scorer at the start of a stream of four feature frames, after `localStart` on `smallGraph`
and `phoneLoop`. -/
def startedLookahead : Res (WPBFLSM.Manager × SimpleAcousticScorer) :=
  (WPBFLSM.NewWordPruningBreadthFirstLookaheadSearchManager
    { checkPriorLists := true, activeListFactories := [.simple 5 (-100)],
      currentActiveLists := [] }
    (.simple 5 (-100)) (-100) 0 true true 1 1 100 0 true).bind fun m =>
    WPBFLSM.localStart smallGraph phoneLoop smallSearchGraph 40 phoneKinds (fun _ => true) 5
      allEmittingScoreMinusOne m (scorerOn [frame10, frame20, frame30, frame40])

/-- A search graph with a cycle of non-emitting states: the non-emitting state 70 leads to
itself and to the emitting state 71, which leads back to 70. -/
def epsilonLoop : Linguist where
  successors := fun s =>
    if s = 70 then [⟨70, 0, 0, 0⟩, ⟨71, -1, 0, -1⟩]
    else if s = 71 then [⟨70, -1, 0, -1⟩]
    else []
  isEmitting := fun s => decide (s = 71)
  isFinal := fun _ => false
  isWordSearchState := fun _ => false
  order := fun s => if s = 70 then 0 else 1

/-- A manager on `epsilonLoop` that keeps all tokens, after the growth of the emitting list:
the scored token 0 of the emitting state 71 was expanded into the token 1 of the state 70,
which waits in the list of order 0. -/
def atEpsilonLoop : WPBFSM.Manager :=
  { lookaheadAtWord.toWordPruningBreadthFirstSearchManager with
    activeList := some (.simple { absoluteBeamWidth := 5, logRelativeBeamWidth := -100,
                                  bestToken := some 0, tokenList := [0] })
    bestTokenMap := [(70, 1)]
    activeListManager :=
      { checkPriorLists := false
        activeListFactories := [.simple 5 (-100)]
        currentActiveLists :=
          [.simple { absoluteBeamWidth := 5, logRelativeBeamWidth := -100,
                     bestToken := some 1, tokenList := [1] },
           .simple (NewSimpleActiveList 5 (-100))] }
    heap := [tokenWith none (some 71) (-1) (-1) 0 0 10 (some frame10),
             tokenWith (some 0) (some 70) (-2) 0 0 (-1) 10 none] }

/-! ## Vocabulary of the statements about termination -/

/-- The active list is a `SimpleActiveList`. -/
def ActiveList.IsSimple {τ : Type} : ActiveList τ → Prop
  | .simple _ => True
  | .partition _ => False

/-- The walk of `isVisited` from the token reference `t`: `Chain lg h t path` says that the
walk through the predecessors, which stops at nil and at the first emitting token, meets
non-emitting tokens whose states are `path`, each one made after its predecessor. -/
inductive Chain (lg : Linguist) (h : Heap) : Option Ptr → List SearchState → Prop
  | none : Chain lg h none []
  | emitting {p : Ptr} {s : SearchState} :
      (h.deref p).searchState = some s → lg.isEmitting s = true → Chain lg h (some p) []
  | step {p : Ptr} {s : SearchState} {path : List SearchState} :
      (h.deref p).searchState = some s → lg.isEmitting s = false →
      (∀ q, (h.deref p).predecessor = some q → q < p) →
      Chain lg h (h.deref p).predecessor path → Chain lg h (some p) (s :: path)

/-- The heap `h'` has what the walks of `isVisited` read in `h`: a token of `h` is the same in
`h'`, unless its state is emitting in both. -/
def Heap.KeepsWalks (lg : Linguist) (h h' : Heap) : Prop :=
  ∀ p s, (h.deref p).searchState = some s →
    h'.deref p = h.deref p ∨
      (lg.isEmitting s = true ∧
        ∃ s', (h'.deref p).searchState = some s' ∧ lg.isEmitting s' = true)

/-- What the fast match relies on while it grows one frame: all tokens are kept, the tokens
that the fast-match map records have emitting states, and the fast-match list is a
`SimpleActiveList`. -/
structure WPBFLSM.FastInv (fm : Linguist) (m : WPBFLSM.Manager) : Prop where
  keep : m.keepAllTokens = true
  recorded : ∀ s b, WPBFLSM.getFastMatchBestToken m s = some b →
    ∃ s', (m.heap.deref b).searchState = some s' ∧ fm.isEmitting s' = true
  simple : ∀ al, m.fastmatchActiveList = some al → al.IsSimple

/-- The walks of `isVisited` in the heap go upwards: for some ranking `g` of the tokens, every
token with a non-emitting state has its predecessor in the heap, and the predecessor has a
higher score, or the same score and a higher rank. -/
def Heap.WalksOrdered (lg : Linguist) (h : Heap) : Prop :=
  ∃ g : Ptr → Int, ∀ t s, (h.deref t).searchState = some s → lg.isEmitting s = false →
    ∀ p, (h.deref t).predecessor = some p →
      p < h.length ∧
        (GetScore h t < GetScore h p ∨ (GetScore h t = GetScore h p ∧ g t < g p))

/-- What the growth of a frame relies on to end: all tokens are kept, the active lists are
`SimpleActiveList`s, and the walks of `isVisited` go upwards. -/
structure WPBFSM.TermInv (lg : Linguist) (m : WPBFSM.Manager) : Prop where
  keep : m.keepAllTokens = true
  simpleLists : ∀ al, al ∈ m.activeListManager.currentActiveLists → al.IsSimple
  simpleActive : ∀ al, m.activeList = some al → al.IsSimple
  ordered : Heap.WalksOrdered lg m.heap

/-! ## Vocabulary of the statements about the active lists and their manager -/

/-- The field `absoluteBeamWidth` of an active list. -/
def ActiveList.absoluteBeamWidth {τ : Type} (al : ActiveList τ) : Int :=
  match al with
  | .simple l => l.absoluteBeamWidth
  | .partition l => l.absoluteBeamWidth

/-- The field `logRelativeBeamWidth` of an active list. -/
def ActiveList.logRelativeBeamWidth {τ : Type} (al : ActiveList τ) : Int :=
  match al with
  | .simple l => l.logRelativeBeamWidth
  | .partition l => l.logRelativeBeamWidth

/-- The score of the best token of an active list, when one is set. -/
def ActiveList.bestTokenScore {τ : Type} (score : τ → Int) (al : ActiveList τ) : Option Int :=
  al.GetBestToken.map score

/-- What a caller receives that only drains the iterator over the non-emitting lists,
`for i.HasNext() { l := i.Next() }`: every value of `listPtr` at which `Next` returned, with
the list returned there (nil past the end of the lists).  `listPtr` is the position of the
iterator before the pass. -/
def nonEmittingListIterator.drain (salm : SimpleActiveListManager) :
    Nat → Int → Res (List (Int × Option (ActiveList Ptr)))
  | 0, _ => .diverges
  | fuel + 1, listPtr =>
    if nonEmittingListIterator.HasNext salm listPtr then
      (nonEmittingListIterator.Next salm (listPtr + 1)).bind fun l =>
        (nonEmittingListIterator.drain salm fuel (listPtr + 1)).bind fun rest =>
          .ok ((listPtr + 1, l) :: rest)
    else .ok []

/-- A manager with one factory of simple lists and one of partition lists, which checks the
prior lists, set to four state orders. -/
def fourOrders : SimpleActiveListManager :=
  match SimpleActiveListManager.SetNumStateOrder
      { checkPriorLists := true
        activeListFactories := [.simple 5 (-100), .partition 6 (-50)]
        currentActiveLists := [] } 4 with
  | .ok salm => salm
  | _ => { checkPriorLists := true, activeListFactories := [], currentActiveLists := [] }

/-! ## Inputs of the worked examples of the frames -/

/-- The manager `afterGrowStep`, which is at frame 1, with a grow skip interval of 2. -/
def skippingEverySecond : WPBFSM.Manager := { afterGrowStep with growSkipInterval := 2 }

/-- The manager `skippingEverySecond` after the frame of collect time 20 was scored and the
emitting list pruned, before the frame number is incremented. -/
def scoredAndPruned : WPBFSM.Manager :=
  match
    (skippingEverySecond.activeListManager.GetEmittingList.bind fun al =>
      (WPBFSM.scoreTokens emittingScoreMinusOne { skippingEverySecond with activeList := some al }
        (scorerOn [frame20, .speechEndSignal])).bind fun r =>
      (WPBFSM.shareEmittingList r.2.1).bind fun m =>
      (WPBFSM.pruneBranches m).bind fun m => WPBFSM.shareEmittingList m) with
  | .ok m => m
  | _ => skippingEverySecond

/-- The manager `betweenFrames`, which builds the word lattice and does not keep all tokens,
with one more token at the position 7: a token of the final state 99 of `smallGraph`, made
from the emitting token 4. -/
def finalReached : WPBFSM.Manager :=
  { betweenFrames with
    heap := betweenFrames.heap ++ [tokenWith (some 4) (some 99) (-6) 0 0 (-1) 10 none] }

/-! ## Vocabulary of the statements about `isVisited` -/

/-- The ancestors that a walk from the reference `start` comes to when it follows the
predecessors through non-emitting tokens only: `ThroughNonEmitting lg h start a` says that
the token `a` is the one at `start`, or comes after it on the chain of predecessors with only
tokens of non-emitting states before it. -/
inductive ThroughNonEmitting (lg : Linguist) (h : Heap) : Option Ptr → Ptr → Prop
  | first {p : Ptr} : ThroughNonEmitting lg h (some p) p
  | next {p a : Ptr} {s : SearchState} :
      (h.deref p).searchState = some s → lg.isEmitting s = false →
      ThroughNonEmitting lg h (h.deref p).predecessor a → ThroughNonEmitting lg h (some p) a

/-- The walk from the reference `start` through the predecessors comes to its end: after
tokens of non-emitting states only, it reaches the end of the chain or an emitting token. -/
inductive WalkEnds (lg : Linguist) (h : Heap) : Option Ptr → Prop
  | atNil : WalkEnds lg h none
  | atEmitting {p : Ptr} {s : SearchState} :
      (h.deref p).searchState = some s → lg.isEmitting s = true → WalkEnds lg h (some p)
  | step {p : Ptr} {s : SearchState} :
      (h.deref p).searchState = some s → lg.isEmitting s = false →
      WalkEnds lg h (h.deref p).predecessor → WalkEnds lg h (some p)

/-- A manager on `epsilonLoop` that keeps all tokens: the emitting token 0 was expanded into
the token 1 of the non-emitting state 70, this one into the token 2 of a non-emitting state
72, and the token 3 was made for the state 70 again, from the token 2. -/
def roundTheLoop : WPBFSM.Manager :=
  { atEpsilonLoop with
    heap := [tokenWith none (some 71) (-1) (-1) 0 0 10 (some frame10),
             tokenWith (some 0) (some 70) (-2) 0 0 (-1) 10 none,
             tokenWith (some 1) (some 72) (-2) 0 0 0 10 none,
             tokenWith (some 2) (some 70) (-2) 0 0 0 10 none] }

/-! ## Vocabulary of the statements about the growth of the emitting list -/

/-- The calls `collectSuccessorTokens(t)` for the tokens `t` of a list, one after the other in
the order of the list. -/
def WPBFSM.expandAll (lg : Linguist) : List Ptr → WPBFSM.Manager → Res WPBFSM.Manager
  | [], m => .ok m
  | t :: rest, m => (WPBFSM.collectSuccessorTokens lg m t).bind (WPBFSM.expandAll lg rest)

/-- The projected score `t.GetScore() + t.GetAcousticScore() * acousticLookaheadFrames` of the
token `t` in the heap `h`. -/
def projectedScore (h : Heap) (acousticLookaheadFrames : Int) (t : Ptr) : Int :=
  GetScore h t + (h.deref t).logAcousticScore * acousticLookaheadFrames

/-- The tokens `toks` are in the heap of the manager, and none of them is a best token of the
best token map: the state of the tokens of the emitting list after `clearCollectors`, which
empties the map. -/
def WPBFSM.Unrecorded (m : WPBFSM.Manager) (toks : List Ptr) : Prop :=
  (∀ t, t ∈ toks → t < m.heap.length) ∧
    ∀ s p, WPBFSM.getBestToken m s = some p → p ∉ toks

/-- The manager `collectorsCleared` with an acoustic lookahead of 2 frames and a relative
beam width of -2: the emitting tokens 4, 5 and 6, with the scores -5, -4, -4 and the acoustic
scores -3, -2, -2, have the projected scores -11, -8, -8. -/
def projectingTwoFrames : WPBFSM.Manager :=
  { collectorsCleared with acousticLookaheadFrames := 2, relativeBeamWidth := -2 }

/-! ## Inputs of the worked examples of the word path, the transform file, the recognizer, the
tokenizers and the partition list -/

/-- A linguist whose word states are 20, 21 and 22; the states below 20 are emitting. -/
def threeWords : Linguist where
  successors := fun _ => []
  isEmitting := fun s => decide (s < 20)
  isFinal := fun _ => false
  isWordSearchState := fun s => decide (20 ≤ s ∧ s ≤ 22)
  order := fun _ => 0

/-- The words of `threeWords`: `hello` at state 20, the filler `<sil>` at state 21 and `world`
at state 22. -/
def threeWordsInfo : WordInfo where
  spelling := fun s => if s = 20 then "hello" else if s = 21 then "<sil>" else "world"
  isFiller := fun s => decide (s = 21)
  unitNames := fun _ => []

/-- A heap with the path of a recognition of `hello <sil> world`: the word token of `hello`
(token 0), a token of the emitting state 5, the word token of `<sil>` (token 2), a token of the
emitting state 6 and the word token of `world` (token 4), each the predecessor of the next. -/
def helloWorld : Heap :=
  [tokenWith none (some 20) 0 0 0 0 10 none, tokenWith (some 0) (some 5) (-1) (-1) 0 0 20 none,
   tokenWith (some 1) (some 21) (-1) 0 0 0 20 none, tokenWith (some 2) (some 6) (-2) (-1) 0 0 30 none,
   tokenWith (some 3) (some 22) (-2) 0 0 0 30 none]

/-- A transform with one cluster and one stream of vector length 2: the matrix has the rows
`1 2` and `3 4`, the vector is `5 6`. -/
def twoByTwo : Transform := { a := [[[[1, 2], [3, 4]]]], b := [[[5, 6]]] }

/-- A loader with one stream of vector length 2. -/
def oneStreamOfTwo : LoaderShape := { numStreams := 1, vectorLength := [2] }

/-- The lines of the file that `Store` writes for `twoByTwo`. -/
def twoByTwoFile : List Line := [[1], [1], [2], [1, 2], [3, 4], [5, 6], [1, 1]]

/-- A transform with one cluster and one stream of vector length 1. -/
def oneByOne : Transform := { a := [[[[7]]]], b := [[[5]]] }

/-- A decoder that counts the calls it gets: `Allocate` and `Deallocate` return, and `Decode`
returns the count as its result. -/
def countingDecoder : DecoderMethods Nat Nat where
  Allocate := fun d => (.ok (), d + 1)
  Deallocate := fun d => (.ok (), d + 1)
  Decode := fun d => (.ok d, d + 1)

/-- The bytes of a text of characters below 256. -/
def bytesOf (s : String) : List Nat := s.toList.map Char.toNat

/-- A scoring model in which every state scores `-math.MaxFloat64` on every frame. -/
def everyStateLowest : ScoringModel where
  provider := fun _ _ => .ok (-maxFloat64)
  normalizer := none

/-! ## Vocabulary of the statements about `Partition` -/

/-- The first `n` slots of the slice hold tokens: none of them is nil, and the slice has them
all. -/
def HoldsTokens {τ : Type} (n : Nat) (a : List (Option τ)) : Prop :=
  ∀ k : Nat, k < n → ∃ t, a[k]? = some (some t)

/-- The slices `a` and `b` hold the same entries, in an order that differs below the index `n`
at most: they have the same length, `b` is a permutation of `a`, the entries from `n` on are
the same, and when the entries of `a` below `n` are tokens, so are those of `b`. -/
structure Shuffled {τ : Type} (n : Nat) (a b : List (Option τ)) : Prop where
  length : b.length = a.length
  perm : b.Perm a
  outside : ∀ k : Nat, n ≤ k → b[k]? = a[k]?
  inside : HoldsTokens n a → HoldsTokens n b

/-- Seven tokens of scores 5, 1, 4, 2, 3, 9, 0 followed by a nil slot. -/
def sevenAndNil : List (Option Int) := [some 5, some 1, some 4, some 2, some 3, some 9, some 0, none]

/-! ## Vocabulary of the statements about the tokenizers -/

/-- The outcomes of `count` calls of `GetString` one after the other, and the tokenizer after
the last one. -/
def ExtendedStreamTokenizer.getStrings :
    Nat → ExtendedStreamTokenizer → List (Got String) × ExtendedStreamTokenizer
  | 0, t => ([], t)
  | count + 1, t =>
    let r := t.GetString
    let rest := ExtendedStreamTokenizer.getStrings count r.2
    (r.1 :: rest.1, rest.2)

/-- An extended tokenizer with the comment character `#` and without significant ends of line
over the given text. -/
def wordsOf (text : String) : ExtendedStreamTokenizer :=
  NewExtendedStreamTokenizerFromReader (bytesOf text) 35 false

/-! # Part III: theorems -/

/-! ## C1: `Partition` and its fallback -/

set_option maxRecDepth 1000000 in
/-- C1 (code evaluated at the failing input).  On the 53 tokens of `deepScores` with `n = 1`,
`Partition` reaches recursion depth 51 and falls back to `simplePointSelect`, whose sort is
ascending: the call returns index 0 and leaves the score 999 at position 0, in `[0, n)`, and
the higher score 1000 at position 1, in `[n, size)`. -/
theorem partition_deep_fallback_leaves_lower_score_first :
    Partition scoreOf (deepScores.map some) 53 1 = .ok (deepScoresPartitioned.map some, 0) ∧
      deepScoresPartitioned[0]? = some 999 ∧ deepScoresPartitioned[1]? = some 1000 := by
  decide

/-! ## C2 to C6: the active lists -/

/-- C2 (code evaluated at the failing input).  A `SimpleActiveList` with
`absoluteBeamWidth = 1` that received the scores 3, 1, 2: `Prune` sorts them ascending and
cuts the first `absoluteBeamWidth` entries off, so two tokens are left, more than the beam
width. -/
theorem simple_prune_leaves_more_than_beam :
    SimplePruner.Prune scoreOf (.simple ((NewSimpleActiveList 1 0).addAll scoreOf [3, 1, 2]))
        = .ok (.simple { absoluteBeamWidth := 1, logRelativeBeamWidth := 0, bestToken := some 3,
                         tokenList := [2, 3] }) ∧
      (ActiveList.simple (((NewSimpleActiveList 1 0).addAll scoreOf [3, 1, 2]).Purge scoreOf)).Size
        = 2 := by
  decide

/-- Ascending order of scores is total. -/
theorem score_le_total {τ : Type} (score : τ → Int) :
    IsTotal τ (fun a b => score a ≤ score b) :=
  ⟨fun a b => le_total (score a) (score b)⟩

/-- Ascending order of scores is transitive. -/
theorem score_le_trans {τ : Type} (score : τ → Int) :
    IsTrans τ (fun a b => score a ≤ score b) :=
  ⟨fun _ _ _ hab hbc => le_trans hab hbc⟩

/-- The sort permutes the slice. -/
theorem sortByScore_perm {τ : Type} (score : τ → Int) (s : List τ) :
    (sortByScore score s).Perm s :=
  List.perm_insertionSort _ s

/-- The sort leaves the slice in ascending order of score. -/
theorem sortByScore_sorted {τ : Type} (score : τ → Int) (s : List τ) :
    (sortByScore score s).Pairwise (fun a b => score a ≤ score b) := by
  haveI := score_le_total score
  haveI := score_le_trans score
  exact List.sorted_insertionSort (fun a b => score a ≤ score b) s

/-- What `SimpleActiveList.Purge` leaves when it trims: the sorted tokens from position
`absoluteBeamWidth` on. -/
theorem simple_purge_tokenList {τ : Type} (score : τ → Int) (sal : SimpleActiveList τ)
    (hw : sal.absoluteBeamWidth > 0)
    (hlen : (sal.tokenList.length : Int) > sal.absoluteBeamWidth) :
    (sal.Purge score).tokenList
      = (sortByScore score sal.tokenList).drop sal.absoluteBeamWidth.toNat := by
  have hl : (sortByScore score sal.tokenList).length = sal.tokenList.length :=
    (sortByScore_perm score sal.tokenList).length_eq
  have hk : sal.absoluteBeamWidth.toNat ≤ sal.tokenList.length := by omega
  simp only [SimpleActiveList.Purge, hw, hlen, and_self, if_true]
  rw [List.take_append_of_le_length]
  · apply List.take_of_length_le
    simp only [List.length_drop, List.length_append, hl]
    omega
  · simp only [List.length_drop, List.length_append, hl]
    omega

/-- C3.  When a `SimpleActiveList` holds more than `absoluteBeamWidth > 0` tokens, `Purge`
splits them into the retained tokens and `absoluteBeamWidth` discarded ones: together they are
the tokens held before, and every retained token scores at least as much as every discarded
one. -/
theorem simple_purge_retains_top_scores {τ : Type} (score : τ → Int) (sal : SimpleActiveList τ)
    (hw : sal.absoluteBeamWidth > 0)
    (hlen : (sal.tokenList.length : Int) > sal.absoluteBeamWidth) :
    ∃ discarded : List τ,
      ((sal.Purge score).GetTokens ++ discarded).Perm sal.GetTokens ∧
      (discarded.length : Int) = sal.absoluteBeamWidth ∧
      (∀ r ∈ (sal.Purge score).GetTokens, ∀ d ∈ discarded, score d ≤ score r) ∧
      (sal.Purge score).GetTokens ≠ [] := by
  have hl : (sortByScore score sal.tokenList).length = sal.tokenList.length :=
    (sortByScore_perm score sal.tokenList).length_eq
  refine ⟨(sortByScore score sal.tokenList).take sal.absoluteBeamWidth.toNat, ?_, ?_, ?_, ?_⟩
  · simp only [SimpleActiveList.GetTokens, simple_purge_tokenList score sal hw hlen]
    refine List.Perm.trans List.perm_append_comm ?_
    rw [List.take_append_drop]
    exact sortByScore_perm score sal.tokenList
  · simp only [List.length_take, hl]
    omega
  · intro r hr d hd
    simp only [SimpleActiveList.GetTokens, simple_purge_tokenList score sal hw hlen] at hr
    have hs := sortByScore_sorted score sal.tokenList
    rw [← List.take_append_drop sal.absoluteBeamWidth.toNat (sortByScore score sal.tokenList)] at hs
    exact (List.pairwise_append.mp hs).2.2 d hd r hr
  · simp only [SimpleActiveList.GetTokens, simple_purge_tokenList score sal hw hlen]
    intro h
    have := congrArg List.length h
    simp only [List.length_drop, List.length_nil, hl] at this
    omega

/-- C3 at `fourTokens`, a list of four tokens with beam width 3: both conditions hold, the
token of score 4 is retained and the three others are discarded. -/
theorem simple_purge_retains_top_scores_witness :
    fourTokens.absoluteBeamWidth > 0 ∧
    (fourTokens.tokenList.length : Int) > fourTokens.absoluteBeamWidth ∧
    ∃ discarded : List Int,
      ((fourTokens.Purge scoreOf).GetTokens ++ discarded).Perm fourTokens.GetTokens ∧
      (discarded.length : Int) = fourTokens.absoluteBeamWidth ∧
      (∀ r ∈ (fourTokens.Purge scoreOf).GetTokens, ∀ d ∈ discarded, scoreOf d ≤ scoreOf r) ∧
      (fourTokens.Purge scoreOf).GetTokens ≠ [] :=
  ⟨by decide, by decide,
    simple_purge_retains_top_scores scoreOf fourTokens (by decide) (by decide)⟩

/-- C4 (code evaluated at the failing input).  A `SimpleActiveList` with
`logRelativeBeamWidth = -1` that received the scores 0 and -5: `Prune` leaves both tokens in
the list, and the score -5 is below `GetBestScore() + logRelativeBeamWidth = -1`. -/
theorem simple_prune_keeps_token_below_relative_beam :
    SimplePruner.Prune scoreOf (.simple ((NewSimpleActiveList 10 (-1)).addAll scoreOf [0, -5]))
        = .ok (.simple { absoluteBeamWidth := 10, logRelativeBeamWidth := -1, bestToken := some 0,
                         tokenList := [0, -5] }) ∧
      scoreOf (-5) <
        (ActiveList.simple ((NewSimpleActiveList 10 (-1)).addAll scoreOf [0, -5])).GetBestScore
            scoreOf + (-1) := by
  decide

/-- C5 (code evaluated at the failing input).  A `PartitionActiveList` with
`absoluteBeamWidth = 3` starts with a backing slice of one entry.  The second `Add` finds it
full and `doubleCapacity` replaces it by a new slice of nils, so the first token, of score 9,
is lost from the list while it stays the best token: the list holds only the score 1. -/
theorem partition_add_loses_best_token :
    (NewPartitionActiveList 3 0 : PartitionActiveList Int).addAll scoreOf [9, 1]
      = .ok { size := 2, absoluteBeamWidth := 3, logRelativeBeamWidth := 0, bestToken := some 9,
              tokenList := [none, some 1] } := by
  decide

/-- C6 (code evaluated at the failing input).  With `absoluteBeamWidth = 3` and the scores
1, 2, 3, 4 added in this order, `SimpleActiveList.Purge` leaves the single score 4, while
`PartitionActiveList.Purge` panics on the nil entries that `doubleCapacity` left in the first
`size` positions of the backing slice. -/
theorem simple_and_partition_purge_differ :
    (((NewSimpleActiveList 3 0).addAll scoreOf [1, 2, 3, 4]).Purge scoreOf).GetTokens = [4] ∧
      (NewPartitionActiveList 3 0 : PartitionActiveList Int).addAll scoreOf [1, 2, 3, 4]
        = .ok { size := 4, absoluteBeamWidth := 3, logRelativeBeamWidth := 0, bestToken := some 4,
                tokenList := [none, none, some 3, some 4] } ∧
      ((NewPartitionActiveList 3 0 : PartitionActiveList Int).addAll scoreOf [1, 2, 3, 4]).bind
        (PartitionActiveList.Purge scoreOf) = .panics := by
  decide

/-! ## Shared lemmas: outcomes, heap, one pass of the arc loop -/

@[simp] theorem Res.bind_ok {α β : Type} (a : α) (f : α → Res β) : (Res.ok a).bind f = f a := rfl

@[simp] theorem Res.bind_panics {α β : Type} (f : α → Res β) :
    (Res.panics : Res α).bind f = .panics := rfl

@[simp] theorem Res.bind_diverges {α β : Type} (f : α → Res β) :
    (Res.diverges : Res α).bind f = .diverges := rfl

/-- A sequence of two steps ends well exactly when both do. -/
theorem Res.bind_eq_ok {α β : Type} {x : Res α} {f : α → Res β} {b : β} :
    x.bind f = .ok b ↔ ∃ a, x = .ok a ∧ f a = .ok b := by
  cases x <;> simp [Res.bind]

theorem Heap.deref_append_lt (h : Heap) (t : Token) {p : Ptr} (hp : p < h.length) :
    Heap.deref (h ++ [t]) p = h.deref p := by
  simp [Heap.deref, List.getD_eq_getElem?_getD, List.getElem?_append_left hp]

theorem Heap.deref_append_length (h : Heap) (t : Token) :
    Heap.deref (h ++ [t]) h.length = t := by
  simp [Heap.deref, List.getD_eq_getElem?_getD]

theorem Heap.deref_store_same (h : Heap) (t : Token) {p : Ptr} (hp : p < h.length) :
    (h.store p t).deref p = t := by
  simp [Heap.deref, Heap.store, List.getD_eq_getElem?_getD, hp]

theorem Heap.deref_store_ne (h : Heap) (t : Token) {p q : Ptr} (hne : q ≠ p) :
    (h.store p t).deref q = h.deref q := by
  simp [Heap.deref, Heap.store, List.getD_eq_getElem?_getD, List.getElem?_set_ne (Ne.symm hne)]

theorem Heap.length_store (h : Heap) (t : Token) (p : Ptr) : (h.store p t).length = h.length := by
  simp [Heap.store]

/-- The lookup of the best token after `setBestToken`. -/
theorem WPBFSM.getBestToken_setBestToken (m : WPBFSM.Manager) (p : Ptr) (s s' : SearchState) :
    WPBFSM.getBestToken (WPBFSM.setBestToken m p s) s'
      = if s' = s then some p else WPBFSM.getBestToken m s' := by
  simp only [WPBFSM.getBestToken, WPBFSM.setBestToken, List.lookup]
  by_cases h : s' = s
  · subst h; simp
  · have : (s' == s) = false := by simpa using h
    simp [this, h]

/-- What one pass of the arc loop does when it ends well: either the next state had no best
token and a new token is made, recorded and added to an active list, or it had one, which is
updated in place when the entry score is strictly higher and left alone otherwise. -/
theorem WPBFSM.processArc_ok_cases (lg : Linguist) (m m' : WPBFSM.Manager) (token : Ptr)
    (state : SearchState) (predecessor : Option Ptr) (arc : SearchStateArc)
    (h : WPBFSM.processArc lg m token state predecessor arc = .ok m') :
    m'.currentCollectTime = m.currentCollectTime ∧
    ((WPBFSM.getBestToken m arc.state = none ∧
        m'.heap = m.heap ++ [Token.make predecessor (some arc.state)
          (GetScore m.heap token + arc.probability) arc.insertionProbability
          arc.languageProbability m.currentCollectTime] ∧
        m'.bestTokenMap = (arc.state, m.heap.length) :: m.bestTokenMap ∧
        m.activeListManager.Add (GetScore m'.heap) (lg.order arc.state) m.heap.length
          = .ok m'.activeListManager) ∨
     (∃ b, WPBFSM.getBestToken m arc.state = some b ∧
        m'.bestTokenMap = m.bestTokenMap ∧
        m'.activeListManager = m.activeListManager ∧
        ((GetScore m.heap b < GetScore m.heap token + arc.probability ∧
            m'.heap = m.heap.store b ((m.heap.deref b).Update predecessor arc.state
              (GetScore m.heap token + arc.probability) arc.insertionProbability
              arc.languageProbability m.currentCollectTime)) ∨
         (¬ GetScore m.heap b < GetScore m.heap token + arc.probability ∧
            m'.heap = m.heap)))) := by
  unfold WPBFSM.processArc at h
  obtain ⟨_, _, h⟩ := Res.bind_eq_ok.mp h
  simp only at h
  split at h
  · rename_i hbest
    simp only [WPBFSM.activeListAdd, newToken, Heap.alloc, WPBFSM.setBestToken,
      Heap.deref_append_length, Token.make] at h
    obtain ⟨alm, halm, h⟩ := Res.bind_eq_ok.mp h
    cases h
    exact ⟨rfl, Or.inl ⟨hbest, rfl, rfl, halm⟩⟩
  · rename_i b hbest
    refine ⟨?_, Or.inr ⟨b, hbest, ?_⟩⟩
    · split at h
      · split at h <;> cases h <;> rfl
      · split at h
        · split at h <;> cases h <;> rfl
        · cases h; rfl
    · split at h
      · rename_i hlt
        split at h <;> cases h <;> exact ⟨rfl, rfl, Or.inl ⟨hlt, rfl⟩⟩
      · rename_i hlt
        split at h
        · split at h <;> cases h <;> exact ⟨rfl, rfl, Or.inr ⟨hlt, rfl⟩⟩
        · cases h; exact ⟨rfl, rfl, Or.inr ⟨hlt, rfl⟩⟩

/-! ## C9: `getResultListPredecessor` -/

/-- C9 (code evaluated at the failing input).  With `buildWordLattice = true` and
`keepAllTokens = false`, on the last token of `wordChain` the walk passes two non-word tokens
(acoustic 10 + 1, language 20 + 2, insertion 30 + 3) and stops at the word token 0.  The new
token has predecessor 0 and total score 10, and its acoustic score is 33, the sum of the
insertion scores, while its insertion score is 11, the sum of the acoustic scores. -/
theorem result_list_predecessor_swaps_acoustic_and_insertion :
    ({ buildWordLattice := true, keepAllTokens := false } :
        TokenSearchManager).getResultListPredecessor wordAt20 wordChain 2
      = .ok (wordChain ++ [{ curCount := 1, lastCount := 0, predecessor := some 0,
                             logLanguageScore := 22, logTotalScore := 10,
                             logInsertionScore := 11, logAcousticScore := 33,
                             searchState := none, collectTime := 0, data := none }], some 3) := by
  decide

/-! ## C7: the best token of a state carries the highest entry score -/

theorem IsFirstMax.single (e : Int × Option Ptr) : IsFirstMax [e] e :=
  ⟨[], [], rfl, by simp, by simp⟩

/-- The first maximum scores at least as much as the head of the list. -/
theorem IsFirstMax.head_le {e f : Int × Option Ptr} {l : List (Int × Option Ptr)}
    (h : IsFirstMax (e :: l) f) : e.1 ≤ f.1 := by
  obtain ⟨before, after, hl, hb, _⟩ := h
  cases before with
  | nil => simp only [List.nil_append, List.cons.injEq] at hl; rw [hl.1]
  | cons x xs =>
    simp only [List.cons_append, List.cons.injEq] at hl
    rw [hl.1]
    exact le_of_lt (hb x (List.mem_cons_self _ _))

/-- An entry that does not beat the head may be put right after it. -/
theorem IsFirstMax.insert_after_head {e e' f : Int × Option Ptr} {l : List (Int × Option Ptr)}
    (h : IsFirstMax (e :: l) f) (hle : e'.1 ≤ e.1) : IsFirstMax (e :: e' :: l) f := by
  obtain ⟨before, after, hl, hb, ha⟩ := h
  cases before with
  | nil =>
    simp only [List.nil_append, List.cons.injEq] at hl
    obtain ⟨rfl, rfl⟩ := hl
    refine ⟨[], e' :: l, rfl, by simp, ?_⟩
    intro x hx
    rcases List.mem_cons.mp hx with rfl | hx
    · exact hle
    · exact ha x hx
  | cons x xs =>
    simp only [List.cons_append, List.cons.injEq] at hl
    obtain ⟨rfl, rfl⟩ := hl
    refine ⟨e :: e' :: xs, after, by simp, ?_, ha⟩
    intro y hy
    rcases List.mem_cons.mp hy with rfl | hy
    · exact hb _ (List.mem_cons_self _ _)
    · rcases List.mem_cons.mp hy with rfl | hy
      · exact lt_of_le_of_lt hle (hb _ (List.mem_cons_self _ _))
      · exact hb y (List.mem_cons_of_mem _ hy)

/-- An entry that the next one beats may be put in front. -/
theorem IsFirstMax.cons_lt {e e' f : Int × Option Ptr} {l : List (Int × Option Ptr)}
    (h : IsFirstMax (e' :: l) f) (hlt : e.1 < e'.1) : IsFirstMax (e :: e' :: l) f := by
  have hle := h.head_le
  obtain ⟨before, after, hl, hb, ha⟩ := h
  refine ⟨e :: before, after, by simp [hl], ?_, ha⟩
  intro y hy
  rcases List.mem_cons.mp hy with rfl | hy
  · exact lt_of_lt_of_le hlt hle
  · exact hb y hy

/-- The entries of a run that starts with an event that ends well. -/
theorem WPBFSM.entriesInto_cons (lg : Linguist) (s : SearchState) (e : GrowEvent)
    (rest : List GrowEvent) (m m1 : WPBFSM.Manager) (h1 : WPBFSM.runEvent lg m e = .ok m1) :
    WPBFSM.entriesInto lg s (e :: rest) m
      = WPBFSM.entryOf s m e ++ WPBFSM.entriesInto lg s rest m1 := by
  simp only [WPBFSM.entriesInto, h1]

/-- What an event that is not a pass does: the heap keeps its tokens, the map stays. -/
theorem WPBFSM.runEvent_not_pass (lg : Linguist) (m m1 : WPBFSM.Manager) (e : GrowEvent)
    (hnot : ∀ a, e ≠ .pass a) (h1 : WPBFSM.runEvent lg m e = .ok m1) :
    m1.bestTokenMap = m.bestTokenMap ∧ m.heap.length ≤ m1.heap.length ∧
      ∀ p : Nat, p < m.heap.length → m1.heap.deref p = m.heap.deref p := by
  cases e with
  | pass a => exact absurd rfl (hnot a)
  | inserted t =>
    simp only [WPBFSM.runEvent, Res.ok.injEq] at h1
    subst h1
    exact ⟨rfl, by simp, fun p hp => Heap.deref_append_lt _ _ hp⟩
  | relisted alm =>
    simp only [WPBFSM.runEvent, Res.ok.injEq] at h1
    subst h1
    exact ⟨rfl, le_refl _, fun _ _ => rfl⟩

/-- Once the state `s` has its token `p`, further events keep `p` recorded for `s`, and its
score and predecessor are those of the first maximum among the entry that made it and the
entries of the later passes. -/
theorem WPBFSM.runEvents_tracks (lg : Linguist) (s : SearchState) (p : Nat) :
    ∀ (events : List GrowEvent) (m m' : WPBFSM.Manager) (e : Int × Option Ptr),
      WPBFSM.getBestToken m s = some p → p < m.heap.length →
      (∀ s', s' ≠ s → WPBFSM.getBestToken m s' ≠ some p) →
      GetScore m.heap p = e.1 → GetPredecessor m.heap p = e.2 →
      WPBFSM.runEvents lg events m = .ok m' →
      ∃ first, IsFirstMax (e :: WPBFSM.entriesInto lg s events m) first ∧
        WPBFSM.getBestToken m' s = some p ∧
        GetScore m'.heap p = first.1 ∧ GetPredecessor m'.heap p = first.2 := by
  intro events
  induction events with
  | nil =>
    intro m m' e hp _ _ hsc hpr hrun
    simp only [WPBFSM.runEvents, Res.ok.injEq] at hrun
    subst hrun
    exact ⟨e, IsFirstMax.single e, hp, hsc, hpr⟩
  | cons ev rest ih =>
    intro m m' e hp hlt hinj hsc hpr hrun
    simp only [WPBFSM.runEvents] at hrun
    obtain ⟨m1, h1, hrest⟩ := Res.bind_eq_ok.mp hrun
    rw [WPBFSM.entriesInto_cons lg s ev rest m m1 h1]
    by_cases hpass : ∃ a, ev = .pass a
    · obtain ⟨a, rfl⟩ := hpass
      simp only [WPBFSM.runEvent] at h1
      simp only [WPBFSM.entryOf]
      obtain ⟨_, hcase⟩ := WPBFSM.processArc_ok_cases lg m m1 _ _ _ _ h1
      rcases hcase with ⟨hnone, hheap, hmap, _⟩ | ⟨b, hb, hmap, _, hupd⟩
      · -- a new token for another state
        have hne : a.arc.state ≠ s := by
          intro h; rw [h, hp] at hnone; cases hnone
        have hget : ∀ s', WPBFSM.getBestToken m1 s'
            = if s' = a.arc.state then some m.heap.length else WPBFSM.getBestToken m s' := by
          intro s'
          have := WPBFSM.getBestToken_setBestToken m m.heap.length a.arc.state s'
          simpa only [WPBFSM.getBestToken, WPBFSM.setBestToken, hmap] using this
        simp only [hne, if_false, List.nil_append]
        refine ih m1 m' e ?_ ?_ ?_ ?_ ?_ hrest
        · rw [hget, if_neg (Ne.symm hne)]; exact hp
        · rw [hheap]; simp only [List.length_append, List.length_singleton]
          exact Nat.lt_succ_of_lt hlt
        · intro s' hs'
          rw [hget]
          split
          · intro h; simp only [Option.some.injEq] at h
            exact absurd hlt (h ▸ lt_irrefl _)
          · exact hinj s' hs'
        · simp only [GetScore, hheap, Heap.deref_append_lt _ _ hlt]; exact hsc
        · simp only [GetPredecessor, hheap, Heap.deref_append_lt _ _ hlt]; exact hpr
      · have hget : ∀ s', WPBFSM.getBestToken m1 s' = WPBFSM.getBestToken m s' := by
          intro s'; simp only [WPBFSM.getBestToken, hmap]
        by_cases hs : a.arc.state = s
        · -- a pass that enters `s`
          have hbp : b = p := by
            rw [hs, hp] at hb; exact (Option.some.inj hb).symm
          subst hbp
          simp only [hs, if_true, List.singleton_append]
          rcases hupd with ⟨hless, hheap⟩ | ⟨hnot, hheap⟩
          · obtain ⟨first, hfm, h2, h3, h4⟩ :=
              ih m1 m' (GetScore m.heap a.token + a.arc.probability, a.predecessor)
                (by rw [hget]; exact hp)
                (by rw [hheap, Heap.length_store]; exact hlt)
                (by intro s' hs'; rw [hget]; exact hinj s' hs')
                (by simp only [GetScore, hheap, Heap.deref_store_same _ _ hlt, Token.Update])
                (by
                  simp only [GetPredecessor, hheap, Heap.deref_store_same _ _ hlt,
                    Token.Update])
                hrest
            refine ⟨first, hfm.cons_lt ?_, h2, h3, h4⟩
            rw [← hsc]; exact hless
          · obtain ⟨first, hfm, h2, h3, h4⟩ :=
              ih m1 m' e (by rw [hget]; exact hp) (by rw [hheap]; exact hlt)
                (by intro s' hs'; rw [hget]; exact hinj s' hs')
                (by rw [hheap]; exact hsc) (by rw [hheap]; exact hpr) hrest
            refine ⟨first, hfm.insert_after_head ?_, h2, h3, h4⟩
            rw [← hsc]; exact not_lt.mp hnot
        · -- a pass that enters another state, whose token is not `p`
          have hbp : b ≠ p := by
            intro h; rw [h] at hb; exact hinj _ hs hb
          simp only [hs, if_false, List.nil_append]
          have hderef : m1.heap.deref p = m.heap.deref p := by
            rcases hupd with ⟨_, hheap⟩ | ⟨_, hheap⟩
            · rw [hheap]; exact Heap.deref_store_ne _ _ (Ne.symm hbp)
            · rw [hheap]
          have hlen : m1.heap.length = m.heap.length := by
            rcases hupd with ⟨_, hheap⟩ | ⟨_, hheap⟩
            · rw [hheap, Heap.length_store]
            · rw [hheap]
          refine ih m1 m' e (by rw [hget]; exact hp) (by rw [hlen]; exact hlt)
            (by intro s' hs'; rw [hget]; exact hinj s' hs') ?_ ?_ hrest
          · simp only [GetScore, hderef]; exact hsc
          · simp only [GetPredecessor, hderef]; exact hpr
    · -- an inserted token or a change of the lists
      have hnot : ∀ a, ev ≠ .pass a := fun a h => hpass ⟨a, h⟩
      obtain ⟨hmap, hlen, hderef⟩ := WPBFSM.runEvent_not_pass lg m m1 ev hnot h1
      have hentry : WPBFSM.entryOf s m ev = [] := by
        cases ev with
        | pass a => exact absurd rfl (hnot a)
        | inserted t => rfl
        | relisted alm => rfl
      have hget : ∀ s', WPBFSM.getBestToken m1 s' = WPBFSM.getBestToken m s' := by
        intro s'; simp only [WPBFSM.getBestToken, hmap]
      rw [hentry, List.nil_append]
      refine ih m1 m' e (by rw [hget]; exact hp) (lt_of_lt_of_le hlt hlen)
        (by intro s' hs'; rw [hget]; exact hinj s' hs') ?_ ?_ hrest
      · simp only [GetScore, hderef p hlt]; exact hsc
      · simp only [GetPredecessor, hderef p hlt]; exact hpr

/-- C7.  Take a manager in which every recorded best token is in the heap and the state `s`
has none yet, as after `clearCollectors`, and any run of events of a grow step (passes of
the arc loop of `collectSuccessorTokens`, for any expanded tokens, with the tokens that
`getResultListPredecessor` inserts and the list changes in between) that ends well and
enters `s` at least once.  Afterwards `bestTokenMap` records one token for `s`; its score is
the highest of the entry scores `token.GetScore() + arc.GetProbability()` of the passes that
entered `s`, and its predecessor is the one offered by the first pass that reached this
score: a later pass with an equal entry score replaced nothing. -/
theorem best_token_has_first_max_entry (lg : Linguist) (s : SearchState) :
    ∀ (events : List GrowEvent) (m m' : WPBFSM.Manager),
      (∀ s' p, WPBFSM.getBestToken m s' = some p → p < m.heap.length) →
      WPBFSM.getBestToken m s = none →
      WPBFSM.runEvents lg events m = .ok m' →
      WPBFSM.entriesInto lg s events m ≠ [] →
      ∃ p first, WPBFSM.getBestToken m' s = some p ∧
        IsFirstMax (WPBFSM.entriesInto lg s events m) first ∧
        GetScore m'.heap p = first.1 ∧ GetPredecessor m'.heap p = first.2 := by
  intro events
  induction events with
  | nil =>
    intro m m' _ _ _ hsome
    exact absurd rfl hsome
  | cons ev rest ih =>
    intro m m' hvalid hnone hrun hsome
    simp only [WPBFSM.runEvents] at hrun
    obtain ⟨m1, h1, hrest⟩ := Res.bind_eq_ok.mp hrun
    rw [WPBFSM.entriesInto_cons lg s ev rest m m1 h1] at hsome ⊢
    by_cases hpass : ∃ a, ev = .pass a
    · obtain ⟨a, rfl⟩ := hpass
      simp only [WPBFSM.runEvent] at h1
      simp only [WPBFSM.entryOf] at hsome ⊢
      obtain ⟨_, hcase⟩ := WPBFSM.processArc_ok_cases lg m m1 _ _ _ _ h1
      rcases hcase with ⟨_, hheap, hmap, _⟩ | ⟨b, hb, hmap, _, hupd⟩
      · have hget : ∀ s', WPBFSM.getBestToken m1 s'
            = if s' = a.arc.state then some m.heap.length else WPBFSM.getBestToken m s' := by
          intro s'
          have := WPBFSM.getBestToken_setBestToken m m.heap.length a.arc.state s'
          simpa only [WPBFSM.getBestToken, WPBFSM.setBestToken, hmap] using this
        by_cases hs : a.arc.state = s
        · -- the first pass that enters `s` makes its token
          simp only [hs, if_true, List.singleton_append]
          obtain ⟨first, hfm, h2, h3, h4⟩ :=
            WPBFSM.runEvents_tracks lg s m.heap.length rest m1 m'
              (GetScore m.heap a.token + a.arc.probability, a.predecessor)
              (by rw [hget, hs]; simp)
              (by rw [hheap]; simp)
              (by
                intro s' hs' h
                rw [hget, hs, if_neg hs'] at h
                exact absurd (hvalid s' _ h) (lt_irrefl _))
              (by simp only [GetScore, hheap, Heap.deref_append_length, Token.make])
              (by simp only [GetPredecessor, hheap, Heap.deref_append_length, Token.make])
              hrest
          exact ⟨m.heap.length, first, h2, hfm, h3, h4⟩
        · simp only [hs, if_false, List.nil_append] at hsome ⊢
          refine ih m1 m' ?_ ?_ hrest hsome
          · intro s' p hp
            rw [hget] at hp
            rw [hheap]
            simp only [List.length_append, List.length_singleton]
            split at hp
            · cases hp; exact Nat.lt_succ_self _
            · exact Nat.lt_succ_of_lt (hvalid s' p hp)
          · rw [hget, if_neg (Ne.symm hs)]; exact hnone
      · have hget : ∀ s', WPBFSM.getBestToken m1 s' = WPBFSM.getBestToken m s' := by
          intro s'; simp only [WPBFSM.getBestToken, hmap]
        have hs : a.arc.state ≠ s := by
          intro h; rw [h, hnone] at hb; cases hb
        have hlen : m1.heap.length = m.heap.length := by
          rcases hupd with ⟨_, hheap⟩ | ⟨_, hheap⟩
          · rw [hheap, Heap.length_store]
          · rw [hheap]
        simp only [hs, if_false, List.nil_append] at hsome ⊢
        refine ih m1 m' ?_ ?_ hrest hsome
        · intro s' p hp
          rw [hget] at hp
          rw [hlen]
          exact hvalid s' p hp
        · rw [hget]; exact hnone
    · have hnot : ∀ a, ev ≠ .pass a := fun a h => hpass ⟨a, h⟩
      obtain ⟨hmap, hlen, _⟩ := WPBFSM.runEvent_not_pass lg m m1 ev hnot h1
      have hentry : WPBFSM.entryOf s m ev = [] := by
        cases ev with
        | pass a => exact absurd rfl (hnot a)
        | inserted t => rfl
        | relisted alm => rfl
      have hget : ∀ s', WPBFSM.getBestToken m1 s' = WPBFSM.getBestToken m s' := by
        intro s'; simp only [WPBFSM.getBestToken, hmap]
      rw [hentry, List.nil_append] at hsome ⊢
      refine ih m1 m' ?_ ?_ hrest hsome
      · intro s' p hp
        rw [hget] at hp
        exact lt_of_lt_of_le (hvalid s' p hp) hlen
      · rw [hget]; exact hnone

set_option maxRecDepth 100000 in
/-- C7 at `collectorsCleared` and `emittingGrowthEvents`: the conditions hold, the events are
what `growEmittingBranches` does, the entry scores into the word state 20 are -6, -5 and -5,
and the token recorded for state 20 has the score and the predecessor of the first highest
entry. -/
theorem best_token_has_first_max_entry_witness :
    (∀ s' p, WPBFSM.getBestToken collectorsCleared s' = some p →
      p < collectorsCleared.heap.length) ∧
    WPBFSM.getBestToken collectorsCleared 20 = none ∧
    WPBFSM.runEvents smallGraph emittingGrowthEvents collectorsCleared
      = .ok afterEmittingGrowth ∧
    WPBFSM.growEmittingBranches smallGraph (fun _ => true) collectorsCleared
      = .ok afterEmittingGrowth ∧
    WPBFSM.entriesInto smallGraph 20 emittingGrowthEvents collectorsCleared
      = [(-6, some 7), (-5, some 10), (-5, some 12)] ∧
    ∃ p first, WPBFSM.getBestToken afterEmittingGrowth 20 = some p ∧
      IsFirstMax (WPBFSM.entriesInto smallGraph 20 emittingGrowthEvents collectorsCleared)
        first ∧
      GetScore afterEmittingGrowth.heap p = first.1 ∧
      GetPredecessor afterEmittingGrowth.heap p = first.2 :=
  ⟨(fun _ _ h => nomatch h), by decide, by decide!, rfl, rfl,
    best_token_has_first_max_entry smallGraph 20 emittingGrowthEvents collectorsCleared
      afterEmittingGrowth (fun _ _ h => nomatch h) (by decide) (by decide!) (by decide)⟩

/-- The arc loop of one call of `collectSuccessorTokens` is a run of passes. -/
theorem WPBFSM.arcLoop_eq_runEvents (lg : Linguist) (token : Ptr) (state : SearchState)
    (predecessor : Option Ptr) :
    ∀ (arcs : List SearchStateArc) (m : WPBFSM.Manager),
      WPBFSM.arcLoop lg token state predecessor arcs m
        = WPBFSM.runEvents lg
            (arcs.map fun a => GrowEvent.pass ⟨token, state, predecessor, a⟩) m := by
  intro arcs
  induction arcs with
  | nil => intro m; rfl
  | cons a rest ih =>
    intro m
    simp only [WPBFSM.arcLoop, WPBFSM.runEvents, WPBFSM.runEvent, List.map_cons]
    congr 1
    funext m1
    exact ih m1

/-! ## C8: no two held tokens share a search state

### What `Add` and `NewInstance` do to the held tokens -/

theorem filterMap_id_replicate_none {α : Type} (n : Nat) :
    (List.replicate n (none : Option α)).filterMap id = [] := by
  induction n with
  | zero => rfl
  | succ n ih => simp [List.replicate_succ, ih]

/-- Writing a reference into a slot adds it to the non-nil entries and may drop one. -/
theorem filterMap_id_set_mem {α : Type} (p : α) :
    ∀ (l : List (Option α)) (i : Nat) (q : α),
      q ∈ (l.set i (some p)).filterMap id → q = p ∨ q ∈ l.filterMap id := by
  intro l
  induction l with
  | nil => intro i q h; simp at h
  | cons x xs ih =>
    intro i q h
    cases i with
    | zero =>
      simp only [List.set_cons_zero, List.filterMap_cons, id_eq, List.mem_cons] at h
      rcases h with h | h
      · exact Or.inl h
      · right
        cases x <;> simp [h]
    | succ i =>
      simp only [List.set_cons_succ] at h
      cases x with
      | none =>
        simp only [List.filterMap_cons, id_eq] at h ⊢
        exact ih i q h
      | some a =>
        simp only [List.filterMap_cons, id_eq, List.mem_cons] at h ⊢
        rcases h with h | h
        · exact Or.inr (Or.inl h)
        · rcases ih i q h with h | h
          · exact Or.inl h
          · exact Or.inr (Or.inr h)

/-- Writing a new reference into a slot keeps the non-nil entries free of repetitions. -/
theorem filterMap_id_set_nodup {α : Type} (p : α) :
    ∀ (l : List (Option α)) (i : Nat),
      (l.filterMap id).Nodup → p ∉ l.filterMap id → ((l.set i (some p)).filterMap id).Nodup := by
  intro l
  induction l with
  | nil => intro i _ _; simp
  | cons x xs ih =>
    intro i hnd hp
    cases i with
    | zero =>
      cases x with
      | none =>
        simp only [List.filterMap_cons, id_eq] at hnd hp
        simp only [List.set_cons_zero, List.filterMap_cons, id_eq, List.nodup_cons]
        exact ⟨hp, hnd⟩
      | some a =>
        simp only [List.filterMap_cons, id_eq, List.nodup_cons, List.mem_cons, not_or] at hnd hp
        simp only [List.set_cons_zero, List.filterMap_cons, id_eq, List.nodup_cons]
        exact ⟨hp.2, hnd.2⟩
    | succ i =>
      cases x with
      | none =>
        simp only [List.filterMap_cons, id_eq] at hnd hp
        simp only [List.set_cons_succ, List.filterMap_cons, id_eq]
        exact ih i hnd hp
      | some a =>
        simp only [List.filterMap_cons, id_eq, List.nodup_cons, List.mem_cons, not_or] at hnd hp
        simp only [List.set_cons_succ, List.filterMap_cons, id_eq, List.nodup_cons]
        refine ⟨?_, ih i hnd.2 hp.2⟩
        intro h
        rcases filterMap_id_set_mem p xs i a h with h | h
        · exact hp.1 h.symm
        · exact hnd.1 h

theorem ActiveList.held_NewInstance {τ : Type} (al : ActiveList τ) : al.NewInstance.held = [] := by
  cases al with
  | simple l => rfl
  | partition l =>
    simp only [ActiveList.NewInstance, ActiveList.held, PartitionActiveList.NewInstance,
      NewPartitionActiveList, filterMap_id_replicate_none]

/-- What `PartitionActiveList.Add` does to the non-nil entries of the backing slice. -/
theorem PartitionActiveList.AddAux_held {τ : Type} (score : τ → Int) (p : τ) :
    ∀ (fuel : Nat) (pal pal' : PartitionActiveList τ),
      PartitionActiveList.AddAux score fuel pal p = .ok pal' →
      (∀ q ∈ pal'.tokenList.filterMap id, q = p ∨ q ∈ pal.tokenList.filterMap id) ∧
      ((pal.tokenList.filterMap id).Nodup → p ∉ pal.tokenList.filterMap id →
        (pal'.tokenList.filterMap id).Nodup) := by
  intro fuel
  induction fuel with
  | zero => intro pal pal' h; simp [PartitionActiveList.AddAux] at h
  | succ fuel ih =>
    intro pal pal' h
    simp only [PartitionActiveList.AddAux] at h
    obtain ⟨pal1, h1, h2⟩ := Res.bind_eq_ok.mp h
    have htl : pal'.tokenList = pal1.tokenList := by
      simp only [Res.ok.injEq] at h2
      rw [← h2]; split <;> rfl
    rw [htl]
    split at h1
    · obtain ⟨tl, hset, h3⟩ := Res.bind_eq_ok.mp h1
      simp only [Res.ok.injEq] at h3
      subst h3
      simp only [setAt] at hset
      split at hset
      · simp only [Res.ok.injEq] at hset
        subst hset
        exact ⟨fun q hq => filterMap_id_set_mem p _ _ q hq,
          fun hnd hp => filterMap_id_set_nodup p _ _ hnd hp⟩
      · cases hset
    · obtain ⟨hmem, hnd⟩ := ih pal.doubleCapacity pal1 h1
      simp only [PartitionActiveList.doubleCapacity, filterMap_id_replicate_none] at hmem hnd
      refine ⟨fun q hq => ?_, fun _ _ => hnd List.nodup_nil (List.not_mem_nil _)⟩
      rcases hmem q hq with h | h
      · exact Or.inl h
      · exact absurd h (List.not_mem_nil _)

/-- What `Add` does to the tokens an active list holds: the new token may come in, no other
does, and no repetition appears when the token is new to the list. -/
theorem ActiveList.Add_held {τ : Type} (score : τ → Int) (al al' : ActiveList τ) (p : τ)
    (h : al.Add score p = .ok al') :
    (∀ q ∈ al'.held, q = p ∨ q ∈ al.held) ∧ (al.held.Nodup → p ∉ al.held → al'.held.Nodup) := by
  cases al with
  | simple l =>
    simp only [ActiveList.Add, Res.ok.injEq] at h
    subst h
    have htl : (l.Add score p).tokenList = l.tokenList ++ [p] := by
      simp only [SimpleActiveList.Add]; split <;> rfl
    simp only [ActiveList.held, htl]
    refine ⟨fun q hq => ?_, fun hnd hp => ?_⟩
    · rcases List.mem_append.mp hq with hq | hq
      · exact Or.inr hq
      · exact Or.inl (List.mem_singleton.mp hq)
    · rw [List.nodup_append]
      refine ⟨hnd, List.nodup_singleton p, ?_⟩
      intro a ha hb
      rw [List.mem_singleton.mp hb] at ha
      exact hp ha
  | partition l =>
    simp only [ActiveList.Add] at h
    obtain ⟨l', h1, h2⟩ := Res.bind_eq_ok.mp h
    simp only [Res.ok.injEq] at h2
    subst h2
    exact PartitionActiveList.AddAux_held score p _ l l' h1

/-! ### The invariant of a grow step through the arc loop -/

theorem SimpleActiveListManager.listAt_ok {salm : SimpleActiveListManager} {i : Int}
    {l : ActiveList Ptr} (h : salm.listAt i = .ok l) :
    0 ≤ i ∧ salm.currentActiveLists[i.toNat]? = some l := by
  simp only [SimpleActiveListManager.listAt] at h
  split at h
  · rename_i hi
    split at h
    · rename_i v hv
      simp only [Res.ok.injEq] at h
      subst h
      exact ⟨hi, hv⟩
    · cases h
  · cases h

theorem SimpleActiveListManager.setListAt_ok {salm salm' : SimpleActiveListManager} {i : Int}
    {l : ActiveList Ptr} (h : salm.setListAt i l = .ok salm') :
    salm'.currentActiveLists = salm.currentActiveLists.set i.toNat l := by
  simp only [SimpleActiveListManager.setListAt] at h
  split at h
  · simp only [Res.ok.injEq] at h
    subst h
    rfl
  · cases h

/-- What `SimpleActiveListManager.Add` does when it ends well: the list at the position of the
order receives the token, the other lists stay. -/
theorem SimpleActiveListManager.Add_ok {score : Ptr → Int} {salm salm' : SimpleActiveListManager}
    {order : Int} {p : Ptr} (h : salm.Add score order p = .ok salm') :
    ∃ l l', 0 ≤ order ∧ salm.currentActiveLists[order.toNat]? = some l ∧
      l.Add score p = .ok l' ∧
      salm'.currentActiveLists = salm.currentActiveLists.set order.toNat l' := by
  simp only [SimpleActiveListManager.Add, SimpleActiveListManager.findListFor] at h
  obtain ⟨l, hl, h⟩ := Res.bind_eq_ok.mp h
  obtain ⟨l', hl', h⟩ := Res.bind_eq_ok.mp h
  obtain ⟨h0, hget⟩ := SimpleActiveListManager.listAt_ok hl
  exact ⟨l, l', h0, hget, hl', SimpleActiveListManager.setListAt_ok h⟩

/-- The invariant only looks at the map, the lists and the states of the tokens in the heap. -/
theorem growInv_frame {lg : Linguist} {k : Int} {m m' : WPBFSM.Manager}
    (hinv : WPBFSM.GrowInv lg k m) (hmap : m'.bestTokenMap = m.bestTokenMap)
    (hlists : m'.activeListManager.currentActiveLists = m.activeListManager.currentActiveLists)
    (hlen : m.heap.length ≤ m'.heap.length)
    (hst : ∀ p, p < m.heap.length →
      (m'.heap.deref p).searchState = (m.heap.deref p).searchState) :
    WPBFSM.GrowInv lg k m' := by
  have hget : ∀ s, WPBFSM.getBestToken m' s = WPBFSM.getBestToken m s := by
    intro s; simp only [WPBFSM.getBestToken, hmap]
  refine ⟨?_, ?_⟩
  · intro s p hp
    rw [hget] at hp
    obtain ⟨h1, h2⟩ := hinv.1 s p hp
    exact ⟨lt_of_lt_of_le h1 hlen, by rw [hst p h1]; exact h2⟩
  · intro i l hl hc
    rw [hlists] at hl hc
    obtain ⟨hnd, hrec⟩ := hinv.2 i l hl hc
    refine ⟨hnd, fun p hp => ?_⟩
    obtain ⟨s, hs, hb, ho⟩ := hrec p hp
    refine ⟨s, ?_, by rw [hget]; exact hb, ho⟩
    rw [hst p (hinv.1 s p hb).1]; exact hs

/-- One pass of the arc loop keeps the invariant of the grow step. -/
theorem growInv_processArc {lg : Linguist} {k : Int} {m m' : WPBFSM.Manager} {token : Ptr}
    {state : SearchState} {predecessor : Option Ptr} {arc : SearchStateArc}
    (hinv : WPBFSM.GrowInv lg k m)
    (h : WPBFSM.processArc lg m token state predecessor arc = .ok m') :
    WPBFSM.GrowInv lg k m' := by
  obtain ⟨_, hcase⟩ := WPBFSM.processArc_ok_cases lg m m' _ _ _ _ h
  rcases hcase with ⟨hnone, hheap, hmap, hadd⟩ | ⟨b, hb, hmap, halm, hupd⟩
  · -- a new token, recorded and added to the list of its order
    obtain ⟨l, l', h0, hl, hladd, hset⟩ := SimpleActiveListManager.Add_ok hadd
    obtain ⟨hmem, hndAdd⟩ := ActiveList.Add_held _ l l' _ hladd
    have hget : ∀ s', WPBFSM.getBestToken m' s'
        = if s' = arc.state then some m.heap.length else WPBFSM.getBestToken m s' := by
      intro s'
      have := WPBFSM.getBestToken_setBestToken m m.heap.length arc.state s'
      simpa only [WPBFSM.getBestToken, WPBFSM.setBestToken, hmap] using this
    have hlen : m'.heap.length = m.heap.length + 1 := by
      rw [hheap]; simp
    have hold : ∀ i p, WPBFSM.Recorded lg m i p → WPBFSM.Recorded lg m' i p := by
      intro i p ⟨s, hs, hbs, ho⟩
      have hp := (hinv.1 s p hbs).1
      refine ⟨s, ?_, ?_, ho⟩
      · rw [hheap, Heap.deref_append_lt _ _ hp]; exact hs
      · rw [hget]
        split
        · rename_i heq; rw [heq, hnone] at hbs; cases hbs
        · exact hbs
    refine ⟨?_, ?_⟩
    · intro s' p hp
      rw [hget] at hp
      split at hp
      · rename_i heq
        simp only [Option.some.injEq] at hp
        subst hp
        refine ⟨by rw [hlen]; exact Nat.lt_succ_self _, ?_⟩
        rw [hheap, Heap.deref_append_length, heq]; rfl
      · obtain ⟨h1, h2⟩ := hinv.1 s' p hp
        refine ⟨by rw [hlen]; exact Nat.lt_succ_of_lt h1, ?_⟩
        rw [hheap, Heap.deref_append_lt _ _ h1]; exact h2
    · intro i x hx hc
      rw [hset] at hx hc
      rw [List.length_set] at hc
      by_cases hij : i = (lg.order arc.state).toNat
      · subst hij
        have hlt : (lg.order arc.state).toNat < m.activeListManager.currentActiveLists.length := by
          by_contra hge
          rw [List.getElem?_eq_none (not_lt.mp hge)] at hl
          cases hl
        rw [List.getElem?_set_self hlt] at hx
        simp only [Option.some.injEq] at hx
        subst hx
        obtain ⟨hnd, hrec⟩ := hinv.2 _ l hl hc
        have hfresh : m.heap.length ∉ l.held := by
          intro hin
          obtain ⟨s, _, hbs, _⟩ := hrec _ hin
          exact lt_irrefl _ (hinv.1 s _ hbs).1
        refine ⟨hndAdd hnd hfresh, fun p hp => ?_⟩
        rcases hmem p hp with hp | hp
        · subst hp
          refine ⟨arc.state, ?_, ?_, ?_⟩
          · rw [hheap, Heap.deref_append_length]; rfl
          · rw [hget, if_pos rfl]
          · exact (Int.toNat_of_nonneg h0).symm
        · exact hold _ p (hrec p hp)
      · rw [List.getElem?_set_ne (Ne.symm hij)] at hx
        obtain ⟨hnd, hrec⟩ := hinv.2 i x hx hc
        exact ⟨hnd, fun p hp => hold i p (hrec p hp)⟩
  · -- the best token of the next state, updated in place or left alone
    obtain ⟨hbl, hbs⟩ := hinv.1 _ b hb
    refine growInv_frame hinv hmap (by rw [halm]) ?_ ?_
    · rcases hupd with ⟨_, hheap⟩ | ⟨_, hheap⟩
      · rw [hheap, Heap.length_store]
      · rw [hheap]
    · intro p _
      rcases hupd with ⟨_, hheap⟩ | ⟨_, hheap⟩
      · rw [hheap]
        by_cases hpb : p = b
        · subst hpb
          rw [Heap.deref_store_same _ _ hbl, hbs]; rfl
        · rw [Heap.deref_store_ne _ _ hpb]
      · rw [hheap]

/-! ### The invariant of a grow step through the growth loops -/

theorem Heap.store_append_length (h : Heap) (t t' : Token) :
    Heap.store (h ++ [t]) h.length t' = h ++ [t'] := by
  simp [Heap.store, List.set_append]

/-- The function `NewTokenWithScores` puts one token at the end of the heap. -/
theorem NewTokenWithScores_heap (h : Heap) (predecessor : Option Ptr)
    (total acoustic insertion language : Int) :
    NewTokenWithScores h predecessor total acoustic insertion language
      = (h ++ [{ Token.make predecessor none total insertion language 0 with
                 logAcousticScore := acoustic }], h.length) := by
  simp only [NewTokenWithScores, newToken, Heap.alloc, Heap.deref_append_length,
    Heap.store_append_length]

/-- The heap after `getResultListPredecessor`: unchanged, or longer by one token. -/
theorem TokenSearchManager.getResultListPredecessor_heap {tsm : TokenSearchManager}
    {lg : Linguist} {h : Heap} {token : Ptr} {r : Heap × Option Ptr}
    (hr : tsm.getResultListPredecessor lg h token = .ok r) :
    r.1 = h ∨ ∃ t, r.1 = h ++ [t] := by
  simp only [TokenSearchManager.getResultListPredecessor] at hr
  split at hr
  · cases hr; exact Or.inl rfl
  · split at hr
    · split at hr <;> cases hr <;> exact Or.inl rfl
    · obtain ⟨w, _, hr⟩ := Res.bind_eq_ok.mp hr
      split at hr
      · cases hr
      · simp only [NewTokenWithScores_heap, Res.ok.injEq] at hr
        subst hr
        exact Or.inr ⟨_, rfl⟩

/-- A manager whose heap grew by `getResultListPredecessor`, with any result list and active
list, keeps the invariant. -/
theorem growInv_heap_grown {lg : Linguist} {k : Int} {m m' : WPBFSM.Manager}
    (hinv : WPBFSM.GrowInv lg k m) (hmap : m'.bestTokenMap = m.bestTokenMap)
    (hlists : m'.activeListManager.currentActiveLists = m.activeListManager.currentActiveLists)
    (hheap : m'.heap = m.heap ∨ ∃ t, m'.heap = m.heap ++ [t]) :
    WPBFSM.GrowInv lg k m' := by
  refine growInv_frame hinv hmap hlists ?_ ?_
  · rcases hheap with h | ⟨t, h⟩
    · rw [h]
    · rw [h]; simp
  · intro p hp
    rcases hheap with h | ⟨t, h⟩
    · rw [h]
    · rw [h, Heap.deref_append_lt _ _ hp]

theorem growInv_arcLoop {lg : Linguist} {k : Int} {token : Ptr} {state : SearchState}
    {predecessor : Option Ptr} :
    ∀ (arcs : List SearchStateArc) (m m' : WPBFSM.Manager), WPBFSM.GrowInv lg k m →
      WPBFSM.arcLoop lg token state predecessor arcs m = .ok m' → WPBFSM.GrowInv lg k m' := by
  intro arcs
  induction arcs with
  | nil => intro m m' hinv h; cases h; exact hinv
  | cons a rest ih =>
    intro m m' hinv h
    simp only [WPBFSM.arcLoop] at h
    obtain ⟨m1, h1, h2⟩ := Res.bind_eq_ok.mp h
    exact ih m1 m' (growInv_processArc hinv h1) h2

/-- The method `collectSuccessorTokens` keeps the invariant of the grow step. -/
theorem growInv_collectSuccessorTokens {lg : Linguist} {k : Int} {m m' : WPBFSM.Manager}
    {token : Ptr} (hinv : WPBFSM.GrowInv lg k m)
    (h : WPBFSM.collectSuccessorTokens lg m token = .ok m') : WPBFSM.GrowInv lg k m' := by
  simp only [WPBFSM.collectSuccessorTokens] at h
  obtain ⟨final, _, h⟩ := Res.bind_eq_ok.mp h
  split at h
  · obtain ⟨r, hr, h⟩ := Res.bind_eq_ok.mp h
    cases h
    exact growInv_heap_grown hinv rfl rfl (TokenSearchManager.getResultListPredecessor_heap hr)
  · obtain ⟨emitting, _, h⟩ := Res.bind_eq_ok.mp h
    obtain ⟨visited, _, h⟩ := Res.bind_eq_ok.mp h
    split at h
    · cases h; exact hinv
    · split at h
      · cases h
      · obtain ⟨r, hr, h⟩ := Res.bind_eq_ok.mp h
        refine growInv_arcLoop _ _ m' ?_ h
        exact growInv_heap_grown hinv rfl rfl (TokenSearchManager.getResultListPredecessor_heap hr)

theorem growInv_growBranchesLoop {lg : Linguist} {k : Int} {allow : Token → Bool}
    {thr : Int} :
    ∀ (tokens : List (Option Ptr)) (m m' : WPBFSM.Manager), WPBFSM.GrowInv lg k m →
      WPBFSM.growBranchesLoop lg allow thr tokens m = .ok m' → WPBFSM.GrowInv lg k m' := by
  intro tokens
  induction tokens with
  | nil => intro m m' hinv h; cases h; exact hinv
  | cons t rest ih =>
    intro m m' hinv h
    cases t with
    | none => cases h
    | some t =>
      simp only [WPBFSM.growBranchesLoop] at h
      obtain ⟨m1, h1, h2⟩ := Res.bind_eq_ok.mp h
      refine ih m1 m' ?_ h2
      split at h1
      · exact growInv_collectSuccessorTokens hinv h1
      · cases h1; exact hinv

theorem growInv_growBranches {lg : Linguist} {k : Int} {allow : Token → Bool}
    {m m' : WPBFSM.Manager} (hinv : WPBFSM.GrowInv lg k m)
    (h : WPBFSM.growBranches lg allow m = .ok m') : WPBFSM.GrowInv lg k m' := by
  simp only [WPBFSM.growBranches] at h
  split at h
  · cases h
  · exact growInv_growBranchesLoop _ m m' hinv h

theorem growInv_growEmittingLoop {lg : Linguist} {k : Int} {thr : Int} :
    ∀ (tokens : List (Option Ptr)) (m m' : WPBFSM.Manager), WPBFSM.GrowInv lg k m →
      WPBFSM.growEmittingLoop lg thr tokens m = .ok m' → WPBFSM.GrowInv lg k m' := by
  intro tokens
  induction tokens with
  | nil => intro m m' hinv h; cases h; exact hinv
  | cons t rest ih =>
    intro m m' hinv h
    cases t with
    | none => cases h
    | some t =>
      simp only [WPBFSM.growEmittingLoop] at h
      obtain ⟨m1, h1, h2⟩ := Res.bind_eq_ok.mp h
      refine ih m1 m' ?_ h2
      split at h1
      · exact growInv_collectSuccessorTokens hinv h1
      · cases h1; exact hinv

theorem growInv_growEmittingBranches {lg : Linguist} {k : Int} {allow : Token → Bool}
    {m m' : WPBFSM.Manager} (hinv : WPBFSM.GrowInv lg k m)
    (h : WPBFSM.growEmittingBranches lg allow m = .ok m') : WPBFSM.GrowInv lg k m' := by
  simp only [WPBFSM.growEmittingBranches] at h
  split at h
  · exact growInv_growBranches hinv h
  · split at h
    · cases h
    · obtain ⟨_, _, h⟩ := Res.bind_eq_ok.mp h
      exact growInv_growEmittingLoop _ m m' hinv h

/-! ### The invariant of a grow step through `growNonEmittingBranches`, and C8 -/

/-- Replacing the list at a position by a fresh instance makes this position one of those the
invariant speaks of. -/
theorem growInv_replaced {lg : Linguist} {k : Int} {m m' : WPBFSM.Manager}
    {j : Nat} {l : ActiveList Ptr} (hinv : WPBFSM.GrowInv lg k m) (hheap : m'.heap = m.heap)
    (hmap : m'.bestTokenMap = m.bestTokenMap)
    (hlists : m'.activeListManager.currentActiveLists
      = m.activeListManager.currentActiveLists.set j l.NewInstance)
    (k' : Int)
    (hk : ∀ i : Nat, i ≠ j → ((i : Int) ≤ k' ∨
        (i : Int) = (m.activeListManager.currentActiveLists.length : Int) - 1) →
      ((i : Int) ≤ k ∨ (i : Int) = (m.activeListManager.currentActiveLists.length : Int) - 1)) :
    WPBFSM.GrowInv lg k' m' := by
  have hget : ∀ s, WPBFSM.getBestToken m' s = WPBFSM.getBestToken m s := by
    intro s; simp only [WPBFSM.getBestToken, hmap]
  refine ⟨?_, ?_⟩
  · intro s p hp
    rw [hget] at hp
    rw [hheap]
    exact hinv.1 s p hp
  · intro i x hx hc
    rw [hlists] at hx hc
    rw [List.length_set] at hc
    by_cases hij : i = j
    · subst hij
      have hlt : i < m.activeListManager.currentActiveLists.length := by
        by_contra hge
        rw [List.getElem?_eq_none (by rw [List.length_set]; exact not_lt.mp hge)] at hx
        cases hx
      rw [List.getElem?_set_self hlt] at hx
      simp only [Option.some.injEq] at hx
      subst hx
      rw [ActiveList.held_NewInstance]
      exact ⟨List.nodup_nil, fun p hp => absurd hp (List.not_mem_nil _)⟩
    · rw [List.getElem?_set_ne (Ne.symm hij)] at hx
      obtain ⟨hnd, hrec⟩ := hinv.2 i x hx (hk i hij hc)
      refine ⟨hnd, fun p hp => ?_⟩
      obtain ⟨s, hs, hb, ho⟩ := hrec p hp
      exact ⟨s, by rw [hheap]; exact hs, by rw [hget]; exact hb, ho⟩

theorem growInv_pruneBranches {lg : Linguist} {k : Int} {m m' : WPBFSM.Manager}
    (hinv : WPBFSM.GrowInv lg k m) (h : WPBFSM.pruneBranches m = .ok m') :
    WPBFSM.GrowInv lg k m' := by
  simp only [WPBFSM.pruneBranches] at h
  split at h
  · cases h
  · obtain ⟨_, _, h⟩ := Res.bind_eq_ok.mp h
    cases h
    exact growInv_heap_grown hinv rfl rfl (Or.inl rfl)

/-- When `growNonEmittingBranches` is through, the invariant speaks of every list. -/
theorem growInv_growNonEmittingLoop {lg : Linguist} {allow : Token → Bool} :
    ∀ (fuel : Nat) (listPtr : Int) (m m' : WPBFSM.Manager), -1 ≤ listPtr →
      WPBFSM.GrowInv lg listPtr m →
      WPBFSM.growNonEmittingLoop lg allow fuel listPtr m = .ok m' →
      ∃ k, WPBFSM.GrowInv lg k m' ∧
        (m'.activeListManager.currentActiveLists.length : Int) - 1 ≤ k + 1 := by
  intro fuel
  induction fuel with
  | zero => intro listPtr m m' _ _ h; cases h
  | succ fuel ih =>
    intro listPtr m m' hge hinv h
    simp only [WPBFSM.growNonEmittingLoop] at h
    split at h
    · obtain ⟨next, hnext, h⟩ := Res.bind_eq_ok.mp h
      cases next with
      | none =>
        simp only at h
        refine ih (listPtr + 1) _ m' (by omega) ?_ h
        simp only [nonEmittingListIterator.Next] at hnext
        split at hnext
        · rename_i hpast
          refine ⟨hinv.1, fun i l hl hc => ?_⟩
          have hi : i < m.activeListManager.currentActiveLists.length := by
            by_contra hge'
            rw [List.getElem?_eq_none (not_lt.mp hge')] at hl
            cases hl
          have hc' : (i : Int) ≤ listPtr ∨
              (i : Int) = (m.activeListManager.currentActiveLists.length : Int) - 1 := by
            rcases hc with hc | hc
            · left; omega
            · exact Or.inr hc
          exact hinv.2 i l hl hc'
        · obtain ⟨_, _, hnext⟩ := Res.bind_eq_ok.mp hnext
          obtain ⟨_, _, hnext⟩ := Res.bind_eq_ok.mp hnext
          cases hnext
      | some al =>
        simp only at h
        obtain ⟨alm, hrem, h⟩ := Res.bind_eq_ok.mp h
        obtain ⟨m1, hprune, h⟩ := Res.bind_eq_ok.mp h
        obtain ⟨m2, hgrow, h⟩ := Res.bind_eq_ok.mp h
        refine ih (listPtr + 1) m2 m' (by omega) ?_ h
        refine growInv_growBranches ?_ hgrow
        refine growInv_pruneBranches ?_ hprune
        simp only [nonEmittingListIterator.Remove] at hrem
        obtain ⟨l, hl, hrem⟩ := Res.bind_eq_ok.mp hrem
        have hset := SimpleActiveListManager.setListAt_ok hrem
        refine @growInv_replaced lg listPtr m
          ({ m with activeList := some al, activeListManager := alm } : WPBFSM.Manager)
          (listPtr + 1).toNat l hinv rfl rfl hset (listPtr + 1) ?_
        intro i hij hc
        rcases hc with hc | hc
        · left; omega
        · exact Or.inr hc
    · rename_i hno
      cases h
      refine ⟨listPtr, hinv, ?_⟩
      simp only [nonEmittingListIterator.HasNext, decide_eq_true_eq, not_lt] at hno
      omega

/-- Right after `clearCollectors` the invariant holds, with the emitting list as the only list
it speaks of. -/
theorem growInv_clearCollectors {lg : Linguist} {m m' : WPBFSM.Manager}
    (h : WPBFSM.clearCollectors m = .ok m') : WPBFSM.GrowInv lg (-1) m' := by
  simp only [WPBFSM.clearCollectors] at h
  obtain ⟨m0, hcreate, h⟩ := Res.bind_eq_ok.mp h
  obtain ⟨alm, hclear, h⟩ := Res.bind_eq_ok.mp h
  cases h
  have hmap0 : m0.bestTokenMap = [] := by
    simp only [WPBFSM.createBestTokenMap] at hcreate
    split at hcreate
    · cases hcreate
    · cases hcreate; rfl
  simp only [SimpleActiveListManager.ClearEmittingList] at hclear
  obtain ⟨l, hl, hclear⟩ := Res.bind_eq_ok.mp hclear
  have hset := SimpleActiveListManager.setListAt_ok hclear
  obtain ⟨h0, _⟩ := SimpleActiveListManager.listAt_ok hl
  refine ⟨?_, ?_⟩
  · intro s p hp
    simp [WPBFSM.getBestToken, hmap0] at hp
  · intro i x hx hc
    simp only at hx hc
    rw [hset] at hx hc
    rw [List.length_set] at hc
    have hi : i = ((m0.activeListManager.currentActiveLists.length : Int) - 1).toNat := by
      rcases hc with hc | hc
      · omega
      · omega
    subst hi
    have hlt : ((m0.activeListManager.currentActiveLists.length : Int) - 1).toNat
        < m0.activeListManager.currentActiveLists.length := by omega
    rw [List.getElem?_set_self hlt] at hx
    simp only [Option.some.injEq] at hx
    subst hx
    rw [ActiveList.held_NewInstance]
    exact ⟨List.nodup_nil, fun p hp => absurd hp (List.not_mem_nil _)⟩

/-- Lists of which each is free of repetitions and each element tells the position of its list
are pairwise disjoint. -/
theorem pairwise_disjoint_of_position {α : Type} (key : α → Nat) :
    ∀ (L : List (List α)) (off : Nat),
      (∀ (i : Nat) (l : List α) (a : α), L[i]? = some l → a ∈ l → key a = off + i) →
      L.Pairwise List.Disjoint := by
  intro L
  induction L with
  | nil => intro _ _; exact List.Pairwise.nil
  | cons l L ih =>
    intro off hkey
    refine List.Pairwise.cons ?_ (ih (off + 1) ?_)
    · intro l' hl' a ha ha'
      obtain ⟨j, hj⟩ := List.getElem?_of_mem hl'
      have h1 := hkey 0 l a (by simp) ha
      have h2 := hkey (j + 1) l' a (by simpa using hj) ha'
      omega
    · intro i l' a hl' ha
      have := hkey (i + 1) l' a (by simpa using hl') ha
      omega

/-- C8.  Whenever a grow step (`clearCollectors`, `growEmittingBranches`,
`growNonEmittingBranches`) ends well, whatever the manager it starts from, the search states
of the tokens held in the active lists of the manager are pairwise different. -/
theorem grow_step_leaves_distinct_states (lg : Linguist) (allowExpansion : Token → Bool)
    (m m' : WPBFSM.Manager) (h : WPBFSM.growStep lg allowExpansion m = .ok m') :
    ((WPBFSM.heldTokens m').map fun p => (m'.heap.deref p).searchState).Nodup := by
  simp only [WPBFSM.growStep] at h
  obtain ⟨m1, h1, h⟩ := Res.bind_eq_ok.mp h
  obtain ⟨m2, h2, h⟩ := Res.bind_eq_ok.mp h
  have hinv2 : WPBFSM.GrowInv lg (-1) m2 :=
    growInv_growEmittingBranches (growInv_clearCollectors h1) h2
  obtain ⟨k, hinv, hk⟩ :=
    growInv_growNonEmittingLoop _ (-1) m2 m' (le_refl _) hinv2 h
  -- every list is one the invariant speaks of
  have hall : ∀ (i : Nat) (l : ActiveList Ptr),
      m'.activeListManager.currentActiveLists[i]? = some l →
      l.held.Nodup ∧ ∀ p ∈ l.held, WPBFSM.Recorded lg m' i p := by
    intro i l hl
    refine hinv.2 i l hl ?_
    have hi : i < m'.activeListManager.currentActiveLists.length := by
      by_contra hge
      rw [List.getElem?_eq_none (not_lt.mp hge)] at hl
      cases hl
    omega
  have hmemAll : ∀ p ∈ WPBFSM.heldTokens m', ∃ i, WPBFSM.Recorded lg m' i p := by
    intro p hp
    simp only [WPBFSM.heldTokens, List.mem_flatten, List.mem_map] at hp
    obtain ⟨_, ⟨l, hl, rfl⟩, hp⟩ := hp
    obtain ⟨i, hi⟩ := List.getElem?_of_mem hl
    exact ⟨i, (hall i l hi).2 p hp⟩
  have hnodup : (WPBFSM.heldTokens m').Nodup := by
    simp only [WPBFSM.heldTokens]
    rw [List.nodup_flatten]
    refine ⟨?_, ?_⟩
    · intro x hx
      obtain ⟨l, hl, rfl⟩ := List.mem_map.mp hx
      obtain ⟨i, hi⟩ := List.getElem?_of_mem hl
      exact (hall i l hi).1
    · refine pairwise_disjoint_of_position
        (fun p => match (m'.heap.deref p).searchState with
          | some s => (lg.order s).toNat
          | none => 0) _ 0 ?_
      intro i x a hx ha
      simp only [List.getElem?_map, Option.map_eq_some'] at hx
      obtain ⟨l, hl, rfl⟩ := hx
      obtain ⟨s, hs, _, ho⟩ := (hall i l hl).2 a ha
      simp only [hs, ho, Int.toNat_ofNat, zero_add]
  refine List.Nodup.map_on ?_ hnodup
  intro p hp q hq hpq
  obtain ⟨_, s, hs, hb, _⟩ := hmemAll p hp
  obtain ⟨_, s', hs', hb', _⟩ := hmemAll q hq
  rw [hs, hs'] at hpq
  simp only [Option.some.injEq] at hpq
  subst hpq
  rw [hb] at hb'
  exact Option.some.inj hb'

set_option maxRecDepth 100000 in
/-- C8 at `betweenFrames`: its grow step ends well, merges the three arcs into the word state
20 into the one token 8, and leaves the tokens 9, 11 and 13 in the emitting list, with the
three states 10, 13 and 16. -/
theorem grow_step_leaves_distinct_states_witness :
    WPBFSM.growStep smallGraph (fun _ => true) betweenFrames = .ok afterGrowStep ∧
    WPBFSM.heldTokens afterGrowStep = [9, 11, 13] ∧
    ((WPBFSM.heldTokens afterGrowStep).map fun p =>
      (afterGrowStep.heap.deref p).searchState).Nodup :=
  ⟨by decide, by decide,
    grow_step_leaves_distinct_states smallGraph (fun _ => true) betweenFrames afterGrowStep
      (by decide)⟩

/-! ## C10: collect times along the trellis -/

/-- A check that passes on every token with a predecessor holds of every such pair. -/
theorem Heap.allWithPredecessor_spec {h : Heap} {check : Nat → Nat → Bool}
    (hall : h.allWithPredecessor check = true) :
    ∀ p q : Nat, p < h.length → (h.deref p).predecessor = some q → check p q = true := by
  intro p q hp hq
  simp only [Heap.allWithPredecessor, List.all_eq_true, List.mem_range] at hall
  have := hall p hp
  rw [hq] at this
  exact this

set_option maxRecDepth 100000 in
/-- C10 (the claim fails).  The trellis of `betweenFrames` is ordered in time.  Its grow step
ends well and makes the word token 8 at collect time 10; when this token is expanded,
`getResultListPredecessor` inserts the token 14, whose predecessor is 8 and whose collect
time is 0: a token earlier than its predecessor. -/
theorem synthetic_token_earlier_than_predecessor :
    TimeOrderedAll betweenFrames.heap ∧
    WPBFSM.growStep smallGraph (fun _ => true) betweenFrames = .ok afterGrowStep ∧
    GetPredecessor afterGrowStep.heap 14 = some 8 ∧
    GetCollectTime afterGrowStep.heap 14 = 0 ∧ GetCollectTime afterGrowStep.heap 8 = 10 ∧
    ¬ TimeOrderedAll afterGrowStep.heap := by
  refine ⟨?_, by decide, by decide, by decide, by decide, ?_⟩
  · intro p q hp hpred
    have hcheck : betweenFrames.heap.allWithPredecessor (fun p q =>
        decide ((betweenFrames.heap.deref q).collectTime
          ≤ (betweenFrames.heap.deref p).collectTime)) = true := by decide
    exact of_decide_eq_true (Heap.allWithPredecessor_spec hcheck p q hp hpred)
  · intro hall
    exact absurd (hall 14 8 (by decide) (by decide)) (by decide)

/-- One pass of the arc loop keeps the trellis ordered in time, when the predecessor it offers
is in the heap. -/
theorem timeInv_processArc {lg : Linguist} {m m' : WPBFSM.Manager} {token : Ptr}
    {state : SearchState} {predecessor : Option Ptr} {arc : SearchStateArc}
    (hinv : WPBFSM.TimeInv m) (hpred : ∀ q : Nat, predecessor = some q → q < m.heap.length)
    (h : WPBFSM.processArc lg m token state predecessor arc = .ok m') :
    WPBFSM.TimeInv m' := by
  obtain ⟨htime, hcase⟩ := WPBFSM.processArc_ok_cases lg m m' _ _ _ _ h
  rcases hcase with ⟨hnone, hheap, hmap, _⟩ | ⟨b, hb, hmap, _, hupd⟩
  · -- a new token at the end of the heap
    have hget : ∀ s', WPBFSM.getBestToken m' s'
        = if s' = arc.state then some m.heap.length else WPBFSM.getBestToken m s' := by
      intro s'
      have := WPBFSM.getBestToken_setBestToken m m.heap.length arc.state s'
      simpa only [WPBFSM.getBestToken, WPBFSM.setBestToken, hmap] using this
    have hlen : m'.heap.length = m.heap.length + 1 := by rw [hheap]; simp
    have hsplit : ∀ p : Nat, p < m'.heap.length → p < m.heap.length ∨ p = m.heap.length := by
      intro p hp; rw [hlen] at hp; omega
    have hold : ∀ p : Nat, p < m.heap.length → m'.heap.deref p = m.heap.deref p := by
      intro p hp; rw [hheap]; exact Heap.deref_append_lt _ _ hp
    have hnew : m'.heap.deref m.heap.length
        = Token.make predecessor (some arc.state) (GetScore m.heap token + arc.probability)
            arc.insertionProbability arc.languageProbability m.currentCollectTime := by
      rw [hheap]; exact Heap.deref_append_length _ _
    refine ⟨by rw [htime]; exact hinv.nonneg, ?_, ?_, ?_, ?_, ?_⟩
    · intro p hp
      rw [htime]
      rcases hsplit p hp with hp | rfl
      · rw [hold p hp]; exact hinv.bounded p hp
      · rw [hnew]; exact le_refl _
    · intro p q hp hq
      rw [hlen]
      rcases hsplit p hp with hp | rfl
      · rw [hold p hp] at hq
        exact Nat.lt_succ_of_lt (hinv.closed p q hp hq)
      · rw [hnew] at hq
        exact Nat.lt_succ_of_lt (hpred q hq)
    · intro s p hp
      rw [hget] at hp
      rw [htime]
      split at hp
      · simp only [Option.some.injEq] at hp
        subst hp
        exact ⟨by rw [hlen]; exact Nat.lt_succ_self _, by rw [hnew]; rfl⟩
      · obtain ⟨h1, h2⟩ := hinv.recorded s p hp
        exact ⟨by rw [hlen]; exact Nat.lt_succ_of_lt h1, by rw [hold p h1]; exact h2⟩
    · intro p hp hst
      rcases hsplit p hp with hp | rfl
      · rw [hold p hp] at hst ⊢; exact hinv.stateless p hp hst
      · rw [hnew] at hst; cases hst
    · intro p q hp hst hq
      rcases hsplit p hp with hp | rfl
      · rw [hold p hp] at hst hq ⊢
        rw [hold q (hinv.closed p q hp hq)]
        exact hinv.ordered p q hp hst hq
      · rw [hnew] at hq ⊢
        have hql : q < m.heap.length := hpred q hq
        rw [hold q hql]
        exact hinv.bounded q hql
  · obtain ⟨hbl, hbt⟩ := hinv.recorded _ b hb
    have hget : ∀ s', WPBFSM.getBestToken m' s' = WPBFSM.getBestToken m s' := by
      intro s'; simp only [WPBFSM.getBestToken, hmap]
    rcases hupd with ⟨_, hheap⟩ | ⟨_, hheap⟩
    · -- the best token of the next state is updated in place
      have hlen : m'.heap.length = m.heap.length := by rw [hheap, Heap.length_store]
      have hsame : m'.heap.deref b
          = (m.heap.deref b).Update predecessor arc.state
              (GetScore m.heap token + arc.probability) arc.insertionProbability
              arc.languageProbability m.currentCollectTime := by
        rw [hheap]; exact Heap.deref_store_same _ _ hbl
      have hother : ∀ p : Nat, p ≠ b → m'.heap.deref p = m.heap.deref p := by
        intro p hp; rw [hheap]; exact Heap.deref_store_ne _ _ hp
      have htimes : ∀ p : Nat, (m'.heap.deref p).collectTime = (m.heap.deref p).collectTime := by
        intro p
        by_cases hpb : p = b
        · subst hpb; rw [hsame, hbt]; rfl
        · rw [hother p hpb]
      refine ⟨by rw [htime]; exact hinv.nonneg, ?_, ?_, ?_, ?_, ?_⟩
      · intro p hp
        rw [htime, htimes]
        exact hinv.bounded p (by rw [← hlen]; exact hp)
      · intro p q hp hq
        rw [hlen] at hp ⊢
        by_cases hpb : p = b
        · subst hpb
          rw [hsame] at hq
          exact hpred q hq
        · rw [hother p hpb] at hq
          exact hinv.closed p q hp hq
      · intro s p hp
        rw [hget] at hp
        rw [htime, htimes, hlen]
        exact hinv.recorded s p hp
      · intro p hp hst
        rw [hlen] at hp
        by_cases hpb : p = b
        · subst hpb; rw [hsame] at hst; cases hst
        · rw [hother p hpb] at hst
          rw [htimes]
          exact hinv.stateless p hp hst
      · intro p q hp hst hq
        rw [hlen] at hp
        rw [htimes, htimes]
        by_cases hpb : p = b
        · subst hpb
          rw [hsame] at hq
          rw [hbt]
          exact hinv.bounded q (hpred q hq)
        · rw [hother p hpb] at hst hq
          exact hinv.ordered p q hp hst hq
    · -- nothing is replaced
      exact ⟨by rw [htime]; exact hinv.nonneg,
        by rw [htime, hheap]; exact hinv.bounded,
        by rw [hheap]; exact hinv.closed,
        by
          intro s p hp
          rw [hget] at hp
          rw [htime, hheap]
          exact hinv.recorded s p hp,
        by rw [hheap]; exact hinv.stateless,
        by rw [hheap]; exact hinv.ordered⟩

theorem WPBFSM.processArc_heap_length {lg : Linguist} {m m' : WPBFSM.Manager} {token : Ptr}
    {state : SearchState} {predecessor : Option Ptr} {arc : SearchStateArc}
    (h : WPBFSM.processArc lg m token state predecessor arc = .ok m') :
    m.heap.length ≤ m'.heap.length := by
  obtain ⟨_, hcase⟩ := WPBFSM.processArc_ok_cases lg m m' _ _ _ _ h
  rcases hcase with ⟨_, hheap, _, _⟩ | ⟨b, _, _, _, ⟨_, hheap⟩ | ⟨_, hheap⟩⟩
  · rw [hheap]; simp
  · rw [hheap, Heap.length_store]
  · rw [hheap]

theorem timeInv_arcLoop {lg : Linguist} {token : Ptr} {state : SearchState}
    {predecessor : Option Ptr} :
    ∀ (arcs : List SearchStateArc) (m m' : WPBFSM.Manager), WPBFSM.TimeInv m →
      (∀ q : Nat, predecessor = some q → q < m.heap.length) →
      WPBFSM.arcLoop lg token state predecessor arcs m = .ok m' → WPBFSM.TimeInv m' := by
  intro arcs
  induction arcs with
  | nil => intro m m' hinv _ h; cases h; exact hinv
  | cons a rest ih =>
    intro m m' hinv hpred h
    simp only [WPBFSM.arcLoop] at h
    obtain ⟨m1, h1, h2⟩ := Res.bind_eq_ok.mp h
    exact ih m1 m' (timeInv_processArc hinv hpred h1)
      (fun q hq => lt_of_lt_of_le (hpred q hq) (WPBFSM.processArc_heap_length h1)) h2

/-- The walk of `getResultListPredecessor` stays inside a heap that contains the predecessors
of its tokens. -/
theorem walkToWord_in_heap (lg : Linguist) (h : Heap)
    (hclosed : ∀ p q : Nat, p < h.length → (h.deref p).predecessor = some q → q < h.length) :
    ∀ (fuel : Nat) (t : Option Ptr) (sums : Int × Int × Int)
      (r : Option Ptr × Int × Int × Int),
      (∀ q : Nat, t = some q → q < h.length) → walkToWord lg h fuel t sums = .ok r →
      ∀ w : Nat, r.1 = some w → w < h.length := by
  intro fuel
  induction fuel with
  | zero => intro t sums r _ hw; cases hw
  | succ fuel ih =>
    intro t sums r ht hw
    cases t with
    | none =>
      simp only [walkToWord, Res.ok.injEq] at hw
      subst hw
      intro w hwq; cases hwq
    | some p =>
      simp only [walkToWord] at hw
      split at hw
      · simp only [Res.ok.injEq] at hw
        subst hw
        intro w hwq
        exact ht w hwq
      · exact ih _ _ r (fun q hq => hclosed p q (ht p rfl) hq) hw

/-- The result of `getResultListPredecessor` when it ends well: the token itself or its
predecessor, with the heap as it was, or a new token without search state and with collect
time 0 at the end of the heap, whose predecessor is the word token the walk stopped at. -/
theorem TokenSearchManager.getResultListPredecessor_cases {tsm : TokenSearchManager}
    {lg : Linguist} {h : Heap} {token : Ptr} {r : Heap × Option Ptr}
    (hr : tsm.getResultListPredecessor lg h token = .ok r) :
    (r.1 = h ∧ (r.2 = some token ∨ r.2 = GetPredecessor h token)) ∨
    (∃ (w : Ptr) (sums : Int × Int × Int) (t : Token),
      walkToWord lg h (h.length + 1) (some token) (0, 0, 0) = .ok (some w, sums) ∧
      t.predecessor = some w ∧ t.searchState = none ∧ t.collectTime = 0 ∧
      r = (h ++ [t], some h.length)) := by
  simp only [TokenSearchManager.getResultListPredecessor] at hr
  split at hr
  · cases hr; exact Or.inl ⟨rfl, Or.inl rfl⟩
  · split at hr
    · split at hr
      · cases hr; exact Or.inl ⟨rfl, Or.inl rfl⟩
      · cases hr; exact Or.inl ⟨rfl, Or.inr rfl⟩
    · obtain ⟨x, hx, hr⟩ := Res.bind_eq_ok.mp hr
      obtain ⟨xw, sums⟩ := x
      cases xw with
      | none => cases hr
      | some w =>
        simp only [NewTokenWithScores_heap, Res.ok.injEq] at hr
        exact Or.inr ⟨w, sums, _, hx, rfl, rfl, rfl, hr.symm⟩

/-- A manager with the same heap, map and collect time keeps the invariant. -/
theorem timeInv_same {m m' : WPBFSM.Manager} (hinv : WPBFSM.TimeInv m)
    (hheap : m'.heap = m.heap) (hmap : m'.bestTokenMap = m.bestTokenMap)
    (htime : m'.currentCollectTime = m.currentCollectTime) : WPBFSM.TimeInv m' := by
  have hget : ∀ s', WPBFSM.getBestToken m' s' = WPBFSM.getBestToken m s' := by
    intro s'; simp only [WPBFSM.getBestToken, hmap]
  exact ⟨by rw [htime]; exact hinv.nonneg,
    by rw [htime, hheap]; exact hinv.bounded,
    by rw [hheap]; exact hinv.closed,
    by
      intro s p hp
      rw [hget] at hp
      rw [htime, hheap]
      exact hinv.recorded s p hp,
    by rw [hheap]; exact hinv.stateless,
    by rw [hheap]; exact hinv.ordered⟩

/-- A token without search state and with collect time 0, put at the end of the heap with a
predecessor from the heap, keeps the invariant. -/
theorem timeInv_stateless_added {m m' : WPBFSM.Manager} {t : Token}
    (hinv : WPBFSM.TimeInv m) (hheap : m'.heap = m.heap ++ [t])
    (hmap : m'.bestTokenMap = m.bestTokenMap)
    (htime : m'.currentCollectTime = m.currentCollectTime)
    (hst : t.searchState = none) (ht : t.collectTime = 0)
    (hpred : ∀ q : Nat, t.predecessor = some q → q < m.heap.length) : WPBFSM.TimeInv m' := by
  have hget : ∀ s', WPBFSM.getBestToken m' s' = WPBFSM.getBestToken m s' := by
    intro s'; simp only [WPBFSM.getBestToken, hmap]
  have hlen : m'.heap.length = m.heap.length + 1 := by rw [hheap]; simp
  have hsplit : ∀ p : Nat, p < m'.heap.length → p < m.heap.length ∨ p = m.heap.length := by
    intro p hp; rw [hlen] at hp; omega
  have hold : ∀ p : Nat, p < m.heap.length → m'.heap.deref p = m.heap.deref p := by
    intro p hp; rw [hheap]; exact Heap.deref_append_lt _ _ hp
  have hnew : m'.heap.deref m.heap.length = t := by
    rw [hheap]; exact Heap.deref_append_length _ _
  refine ⟨by rw [htime]; exact hinv.nonneg, ?_, ?_, ?_, ?_, ?_⟩
  · intro p hp
    rw [htime]
    rcases hsplit p hp with hp | rfl
    · rw [hold p hp]; exact hinv.bounded p hp
    · rw [hnew, ht]; exact hinv.nonneg
  · intro p q hp hq
    rw [hlen]
    rcases hsplit p hp with hp | rfl
    · rw [hold p hp] at hq
      exact Nat.lt_succ_of_lt (hinv.closed p q hp hq)
    · rw [hnew] at hq
      exact Nat.lt_succ_of_lt (hpred q hq)
  · intro s p hp
    rw [hget] at hp
    obtain ⟨h1, h2⟩ := hinv.recorded s p hp
    exact ⟨by rw [hlen]; exact Nat.lt_succ_of_lt h1, by rw [htime, hold p h1]; exact h2⟩
  · intro p hp hstp
    rcases hsplit p hp with hp | rfl
    · rw [hold p hp] at hstp ⊢; exact hinv.stateless p hp hstp
    · rw [hnew]; exact ht
  · intro p q hp hstp hq
    rcases hsplit p hp with hp | rfl
    · rw [hold p hp] at hstp hq ⊢
      rw [hold q (hinv.closed p q hp hq)]
      exact hinv.ordered p q hp hstp hq
    · rw [hnew] at hstp
      exact absurd hst hstp

theorem Heap.deref_of_length_le (h : Heap) {p : Ptr} (hp : h.length ≤ p) :
    h.deref p = default := by
  simp [Heap.deref, List.getD_eq_getElem?_getD, List.getElem?_eq_none hp]

/-- The method `collectSuccessorTokens` keeps the trellis in order within a grow step. -/
theorem timeInv_collectSuccessorTokens {lg : Linguist} {m m' : WPBFSM.Manager} {token : Nat}
    (hinv : WPBFSM.TimeInv m) (h : WPBFSM.collectSuccessorTokens lg m token = .ok m') :
    WPBFSM.TimeInv m' := by
  -- a token outside the heap has no search state, and the call panics on it
  have htoken : token < m.heap.length := by
    by_contra hge
    have hdef := Heap.deref_of_length_le m.heap (not_lt.mp hge)
    simp only [WPBFSM.collectSuccessorTokens] at h
    obtain ⟨final, hfinal, _⟩ := Res.bind_eq_ok.mp h
    rw [hdef] at hfinal
    cases hfinal
  -- the manager after `getResultListPredecessor`, and the predecessor it returns
  have hstep : ∀ r : Heap × Option Ptr,
      m.getResultListPredecessor lg m.heap token = .ok r →
      ∀ m1 : WPBFSM.Manager, m1.heap = r.1 → m1.bestTokenMap = m.bestTokenMap →
        m1.currentCollectTime = m.currentCollectTime →
        WPBFSM.TimeInv m1 ∧ ∀ q : Nat, r.2 = some q → q < m1.heap.length := by
    intro r hr m1 hheap hmap htime
    rcases TokenSearchManager.getResultListPredecessor_cases hr with
      ⟨h1, h2⟩ | ⟨w, sums, t, hwalk, htp, hts, htt, hreq⟩
    · refine ⟨timeInv_same hinv (by rw [hheap, h1]) hmap htime, ?_⟩
      intro q hq
      rw [hheap, h1]
      rcases h2 with h2 | h2
      · rw [h2] at hq; cases hq; exact htoken
      · rw [h2] at hq; exact hinv.closed token q htoken hq
    · have hw : w < m.heap.length :=
        walkToWord_in_heap lg m.heap hinv.closed _ _ _ _
          (fun q hq => by cases hq; exact htoken) hwalk w rfl
      refine ⟨timeInv_stateless_added hinv (by rw [hheap, hreq]) hmap htime hts htt ?_, ?_⟩
      · intro q hq
        rw [htp] at hq
        cases hq
        exact hw
      · intro q hq
        rw [hreq] at hq
        simp only [Option.some.injEq] at hq
        subst hq
        rw [hheap, hreq]
        simp
  simp only [WPBFSM.collectSuccessorTokens] at h
  obtain ⟨final, _, h⟩ := Res.bind_eq_ok.mp h
  split at h
  · obtain ⟨r, hr, h⟩ := Res.bind_eq_ok.mp h
    cases h
    exact (hstep r hr
      ({ m with heap := r.1, resultList := m.resultList ++ [r.2] } : WPBFSM.Manager)
      rfl rfl rfl).1
  · obtain ⟨emitting, _, h⟩ := Res.bind_eq_ok.mp h
    obtain ⟨visited, _, h⟩ := Res.bind_eq_ok.mp h
    split at h
    · cases h; exact hinv
    · split at h
      · cases h
      · obtain ⟨r, hr, h⟩ := Res.bind_eq_ok.mp h
        obtain ⟨h1, h2⟩ := hstep r hr { m with heap := r.1 } rfl rfl rfl
        exact timeInv_arcLoop _ _ m' h1 h2 h

theorem timeInv_growBranchesLoop {lg : Linguist} {allow : Token → Bool} {thr : Int} :
    ∀ (tokens : List (Option Ptr)) (m m' : WPBFSM.Manager), WPBFSM.TimeInv m →
      WPBFSM.growBranchesLoop lg allow thr tokens m = .ok m' → WPBFSM.TimeInv m' := by
  intro tokens
  induction tokens with
  | nil => intro m m' hinv h; cases h; exact hinv
  | cons t rest ih =>
    intro m m' hinv h
    cases t with
    | none => cases h
    | some t =>
      simp only [WPBFSM.growBranchesLoop] at h
      obtain ⟨m1, h1, h2⟩ := Res.bind_eq_ok.mp h
      refine ih m1 m' ?_ h2
      split at h1
      · exact timeInv_collectSuccessorTokens hinv h1
      · cases h1; exact hinv

theorem timeInv_growBranches {lg : Linguist} {allow : Token → Bool} {m m' : WPBFSM.Manager}
    (hinv : WPBFSM.TimeInv m) (h : WPBFSM.growBranches lg allow m = .ok m') :
    WPBFSM.TimeInv m' := by
  simp only [WPBFSM.growBranches] at h
  split at h
  · cases h
  · exact timeInv_growBranchesLoop _ m m' hinv h

theorem timeInv_growEmittingLoop {lg : Linguist} {thr : Int} :
    ∀ (tokens : List (Option Ptr)) (m m' : WPBFSM.Manager), WPBFSM.TimeInv m →
      WPBFSM.growEmittingLoop lg thr tokens m = .ok m' → WPBFSM.TimeInv m' := by
  intro tokens
  induction tokens with
  | nil => intro m m' hinv h; cases h; exact hinv
  | cons t rest ih =>
    intro m m' hinv h
    cases t with
    | none => cases h
    | some t =>
      simp only [WPBFSM.growEmittingLoop] at h
      obtain ⟨m1, h1, h2⟩ := Res.bind_eq_ok.mp h
      refine ih m1 m' ?_ h2
      split at h1
      · exact timeInv_collectSuccessorTokens hinv h1
      · cases h1; exact hinv

theorem timeInv_growEmittingBranches {lg : Linguist} {allow : Token → Bool}
    {m m' : WPBFSM.Manager} (hinv : WPBFSM.TimeInv m)
    (h : WPBFSM.growEmittingBranches lg allow m = .ok m') : WPBFSM.TimeInv m' := by
  simp only [WPBFSM.growEmittingBranches] at h
  split at h
  · exact timeInv_growBranches hinv h
  · split at h
    · cases h
    · obtain ⟨_, _, h⟩ := Res.bind_eq_ok.mp h
      exact timeInv_growEmittingLoop _ m m' hinv h

theorem timeInv_growNonEmittingLoop {lg : Linguist} {allow : Token → Bool} :
    ∀ (fuel : Nat) (listPtr : Int) (m m' : WPBFSM.Manager), WPBFSM.TimeInv m →
      WPBFSM.growNonEmittingLoop lg allow fuel listPtr m = .ok m' → WPBFSM.TimeInv m' := by
  intro fuel
  induction fuel with
  | zero => intro listPtr m m' _ h; cases h
  | succ fuel ih =>
    intro listPtr m m' hinv h
    simp only [WPBFSM.growNonEmittingLoop] at h
    split at h
    · obtain ⟨next, _, h⟩ := Res.bind_eq_ok.mp h
      cases next with
      | none =>
        simp only at h
        exact ih (listPtr + 1) ({ m with activeList := none } : WPBFSM.Manager) m'
          (timeInv_same hinv rfl rfl rfl) h
      | some al =>
        simp only at h
        obtain ⟨alm, _, h⟩ := Res.bind_eq_ok.mp h
        obtain ⟨m1, hprune, h⟩ := Res.bind_eq_ok.mp h
        obtain ⟨m2, hgrow, h⟩ := Res.bind_eq_ok.mp h
        refine ih (listPtr + 1) m2 m' (timeInv_growBranches ?_ hgrow) h
        simp only [WPBFSM.pruneBranches] at hprune
        obtain ⟨_, _, hprune⟩ := Res.bind_eq_ok.mp hprune
        cases hprune
        exact timeInv_same hinv rfl rfl rfl
    · cases h; exact hinv

/-- C10, amended.  A grow step (`clearCollectors`, `growEmittingBranches`,
`growNonEmittingBranches`) that starts from a trellis in order at `currentCollectTime` and
ends well leaves a trellis in order: every token with a search state is not earlier than its
predecessor, no token is later than the current collect time, and every token without search
state (those `getResultListPredecessor` inserts) has collect time 0, whatever the collect
time of its predecessor. -/
theorem grow_step_keeps_time_order (lg : Linguist) (allowExpansion : Token → Bool)
    (m m' : WPBFSM.Manager) (hm : TrellisInOrder m.heap m.currentCollectTime)
    (h : WPBFSM.growStep lg allowExpansion m = .ok m') :
    TrellisInOrder m'.heap m'.currentCollectTime := by
  simp only [WPBFSM.growStep] at h
  obtain ⟨m1, h1, h⟩ := Res.bind_eq_ok.mp h
  obtain ⟨m2, h2, h⟩ := Res.bind_eq_ok.mp h
  have hinv1 : WPBFSM.TimeInv m1 := by
    simp only [WPBFSM.clearCollectors] at h1
    obtain ⟨m0, hcreate, h1⟩ := Res.bind_eq_ok.mp h1
    obtain ⟨alm, _, h1⟩ := Res.bind_eq_ok.mp h1
    cases h1
    simp only [WPBFSM.createBestTokenMap] at hcreate
    split at hcreate
    · cases hcreate
    · cases hcreate
      exact ⟨hm.nonneg, hm.bounded, hm.closed, (fun s p hp => nomatch hp), hm.stateless,
        hm.ordered⟩
  have hinv := timeInv_growNonEmittingLoop _ (-1) m2 m'
    (timeInv_growEmittingBranches hinv1 h2) h
  exact ⟨hinv.nonneg, hinv.bounded, hinv.closed, hinv.stateless, hinv.ordered⟩

set_option maxRecDepth 100000 in
/-- C10, amended, at `betweenFrames`: its trellis is in order at collect time 10, its grow
step ends well with a heap of 17 tokens, and the trellis it leaves is in order. -/
theorem grow_step_keeps_time_order_witness :
    TrellisInOrder betweenFrames.heap betweenFrames.currentCollectTime ∧
    WPBFSM.growStep smallGraph (fun _ => true) betweenFrames = .ok afterGrowStep ∧
    afterGrowStep.heap.length = 17 ∧
    TrellisInOrder afterGrowStep.heap afterGrowStep.currentCollectTime := by
  have hclosed : betweenFrames.heap.allWithPredecessor (fun _ q =>
      decide (q < betweenFrames.heap.length)) = true := by decide
  have hordered : betweenFrames.heap.allWithPredecessor (fun p q =>
      decide ((betweenFrames.heap.deref p).searchState ≠ none →
        (betweenFrames.heap.deref q).collectTime
          ≤ (betweenFrames.heap.deref p).collectTime)) = true := by decide
  have hm : TrellisInOrder betweenFrames.heap betweenFrames.currentCollectTime :=
    ⟨by decide, by decide,
      fun p q hp hq => of_decide_eq_true (Heap.allWithPredecessor_spec hclosed p q hp hq),
      by decide,
      fun p q hp hst hq =>
        of_decide_eq_true (Heap.allWithPredecessor_spec hordered p q hp hq) hst⟩
  exact ⟨hm, by decide, by decide,
    grow_step_keeps_time_order smallGraph (fun _ => true) betweenFrames afterGrowStep hm
      (by decide)⟩


/-! ## C12, C13: what `CalculateScores` returns -/

/-- C12.  On a `SpeechEndSignal` the scorer sets `seenEnd` and returns the signal.  A
`DataEndSignal` is read past like any other signal, because both tests of the loop are tests
for `SpeechEndSignal`: with `[DataEndSignal]` to come and no end of speech seen, the scorer
returns nil, not the signal; with `[DataEndSignal, frame20]` to come after the end of speech,
it does not return nil but scores the tokens 4, 5, 6 of `betweenFrames` against the frame and
returns the best one, token 5. -/
theorem calculate_scores_reads_past_data_end :
    (scorerOn [.speechEndSignal]).CalculateScores emittingScoreMinusOne betweenFrames.heap
        [some 4, some 5, some 6]
      = .ok (.data .speechEndSignal, scorerAfterSpeechEnd [], betweenFrames.heap) ∧
    (scorerOn [.dataEndSignal]).CalculateScores emittingScoreMinusOne betweenFrames.heap
        [some 4, some 5, some 6]
      = .ok (.nil, scorerOn [], betweenFrames.heap) ∧
    ((scorerAfterSpeechEnd [.dataEndSignal, frame20]).CalculateScores emittingScoreMinusOne
        betweenFrames.heap [some 4, some 5, some 6]).bind (fun r => .ok (r.1, r.2.1))
      = .ok (.token 5, scorerAfterSpeechEnd []) := by
  refine ⟨by decide, by decide, by decide!⟩

/-- The reading loop is never left by its `return nil`. -/
theorem SimpleAcousticScorer.readLoop_not_returned (pending : List Data) (seenEnd : Bool) :
    (SimpleAcousticScorer.readLoop pending seenEnd).1 ≠ .returned := by
  induction pending generalizing seenEnd with
  | nil => simp [SimpleAcousticScorer.readLoop]
  | cons d rest ih =>
    simp only [SimpleAcousticScorer.readLoop]
    split
    · simp
    · split
      · simp
      · exact ih seenEnd

/-- The reading loop ends without data only when nothing but signals other than the end of
speech was left. -/
theorem SimpleAcousticScorer.readLoop_broke_none (pending : List Data) (seenEnd : Bool)
    (h : (SimpleAcousticScorer.readLoop pending seenEnd).1 = .broke none) :
    ∀ d, d ∈ pending → d.isFrame = false ∧ d.isSpeechEndSignal = false := by
  induction pending generalizing seenEnd with
  | nil => intro d hd; cases hd
  | cons x rest ih =>
    simp only [SimpleAcousticScorer.readLoop] at h
    split at h
    · simp at h
    · rename_i hsig
      split at h
      · simp at h
      · rename_i hend
        intro d hd
        rcases List.mem_cons.mp hd with rfl | hd
        · refine ⟨?_, by simpa using hend⟩
          simp only [Data.isFrame]
          simpa using hsig
        · exact ih seenEnd h d hd

/-- The scoring loop changes only the tokens of its list. -/
theorem SimpleAcousticScorer.doScoringLoop_frame (sm : ScoringModel) (data : Data) :
    ∀ (l : List (Option Ptr)) (h h' : Heap) (acc : Option Ptr × Int) (b : Option Ptr),
      SimpleAcousticScorer.doScoringLoop sm data l h acc = .ok (h', b) →
      ∀ q : Nat, some q ∉ l → h'.deref q = h.deref q := by
  intro l
  induction l with
  | nil =>
    intro h h' acc b hrun q _
    simp only [SimpleAcousticScorer.doScoringLoop, Res.ok.injEq, Prod.mk.injEq] at hrun
    rw [← hrun.1]
  | cons x rest ih =>
    intro h h' acc b hrun q hq
    cases x with
    | none => simp [SimpleAcousticScorer.doScoringLoop] at hrun
    | some item =>
      simp only [SimpleAcousticScorer.doScoringLoop] at hrun
      obtain ⟨scored, _, hrest⟩ := Res.bind_eq_ok.mp hrun
      have hne : q ≠ item := by
        intro hqi; exact hq (by rw [hqi]; exact List.mem_cons_self _ _)
      rw [ih _ _ _ _ hrest q (fun hmem => hq (List.mem_cons_of_mem _ hmem))]
      exact Heap.deref_store_ne _ _ hne

/-- Once a best token is found the scoring loop returns one. -/
theorem SimpleAcousticScorer.doScoringLoop_some (sm : ScoringModel) (data : Data) :
    ∀ (l : List (Option Ptr)) (h h' : Heap) (acc : Option Ptr × Int),
      SimpleAcousticScorer.doScoringLoop sm data l h acc = .ok (h', none) → acc.1 = none := by
  intro l
  induction l with
  | nil =>
    intro h h' acc hrun
    simp only [SimpleAcousticScorer.doScoringLoop, Res.ok.injEq, Prod.mk.injEq] at hrun
    exact hrun.2
  | cons x rest ih =>
    intro h h' acc hrun
    cases x with
    | none => simp [SimpleAcousticScorer.doScoringLoop] at hrun
    | some item =>
      simp only [SimpleAcousticScorer.doScoringLoop] at hrun
      obtain ⟨scored, _, hrest⟩ := Res.bind_eq_ok.mp hrun
      have := ih _ _ _ hrest
      split at this
      · cases this
      · exact this

/-- When the scoring loop finds no best token, no token of the list has, in the heap it
leaves, a score above the bound it started from. -/
theorem SimpleAcousticScorer.doScoringLoop_none (sm : ScoringModel) (data : Data) :
    ∀ (l : List (Option Ptr)) (h h' : Heap) (best : Option Ptr) (bound : Int),
      SimpleAcousticScorer.doScoringLoop sm data l h (best, bound) = .ok (h', none) →
      ∀ p : Nat, some p ∈ l → GetScore h' p ≤ bound := by
  intro l
  induction l with
  | nil => intro h h' best bound _ p hp; cases hp
  | cons x rest ih =>
    intro h h' best bound hrun p hp
    cases x with
    | none => simp [SimpleAcousticScorer.doScoringLoop] at hrun
    | some item =>
      simp only [SimpleAcousticScorer.doScoringLoop] at hrun
      obtain ⟨scored, _, hrest⟩ := Res.bind_eq_ok.mp hrun
      have hacc := SimpleAcousticScorer.doScoringLoop_some sm data _ _ _ _ hrest
      have hkeep : ¬ GetScore (h.store item scored) item > bound := by
        intro hgt; rw [if_pos hgt] at hacc; cases hacc
      rw [if_neg hkeep] at hrest
      by_cases hmem : some p ∈ rest
      · exact ih _ _ _ _ hrest p hmem
      · have hpi : p = item := by
          rcases List.mem_cons.mp hp with heq | hin
          · exact Option.some.inj heq
          · exact absurd hin hmem
        subst hpi
        have hsame := SimpleAcousticScorer.doScoringLoop_frame sm data _ _ _ _ _ hrest p hmem
        simp only [GetScore, hsame]
        exact not_lt.mp hkeep

/-- C13, as the code has it.  Without score normalizer, `CalculateScores` returns nil in three
cases only: at the end of the stream, where nothing was stored and the front end had no feature
frame and no end of speech left; when the list of tokens is empty; and when no token of the
list has, after the scoring, a score above `-math.MaxFloat64`.  So with a token that scores
above `-math.MaxFloat64` it never returns nil after it has consumed a feature frame. -/
theorem calculate_scores_nil_cases (sm : ScoringModel) (sas sas' : SimpleAcousticScorer)
    (h h' : Heap) (tokens : List (Option Ptr)) (hnorm : sm.normalizer = none)
    (hrun : sas.CalculateScores sm h tokens = .ok (.nil, sas', h')) :
    sas.AtStreamEnd ∨ tokens = [] ∨ ∀ p : Nat, some p ∈ tokens → GetScore h' p ≤ -maxFloat64 := by
  have hdata : ∀ (data : Data) (out : Scored × Heap),
      SimpleAcousticScorer.calculateScoresForData sm h tokens data = .ok out → out.1 = .nil →
      tokens = [] ∨ ∀ p : Nat, some p ∈ tokens → GetScore out.2 p ≤ -maxFloat64 := by
    intro data out hcalc hnil
    simp only [SimpleAcousticScorer.calculateScoresForData, or_self] at hcalc
    split at hcalc
    · simp only [Res.ok.injEq] at hcalc
      rw [← hcalc] at hnil; cases hnil
    · split at hcalc
      · left; exact List.length_eq_zero.mp (by assumption)
      · right
        obtain ⟨r, hscore, hrest⟩ := Res.bind_eq_ok.mp hcalc
        rw [hnorm] at hrest
        simp only [Res.bind_ok] at hrest
        split at hrest
        · simp only [Res.ok.injEq] at hrest
          rw [← hrest] at hnil; cases hnil
        · rename_i hbest
          simp only [Res.ok.injEq] at hrest
          rw [← hrest]
          have hr : r = (r.1, none) := Prod.ext rfl hbest
          have hloop : SimpleAcousticScorer.doScoringLoop sm (DoubleData2FloatData data) tokens h
              (none, -maxFloat64) = .ok (r.1, none) := by
            rw [← hr]; exact hscore
          exact SimpleAcousticScorer.doScoringLoop_none sm _ _ _ _ none _ hloop
  unfold SimpleAcousticScorer.CalculateScores at hrun
  split at hrun
  · rename_i hstored
    dsimp only at hrun
    split at hrun
    · exact absurd (by assumption) (SimpleAcousticScorer.readLoop_not_returned _ _)
    · left
      exact ⟨hstored, SimpleAcousticScorer.readLoop_broke_none _ _ (by assumption)⟩
    · obtain ⟨out, hcalc, hout⟩ := Res.bind_eq_ok.mp hrun
      simp only [Res.ok.injEq, Prod.mk.injEq] at hout
      rw [← hout.2.2]
      exact Or.inr (hdata _ out hcalc hout.1)
  · obtain ⟨out, hcalc, hout⟩ := Res.bind_eq_ok.mp hrun
    simp only [Res.ok.injEq, Prod.mk.injEq] at hout
    rw [← hout.2.2]
    exact Or.inr (hdata _ out hcalc hout.1)

/-- C13 as stated fails: with two feature frames to come and an empty list of tokens, the
scorer consumes the first frame and returns nil, and the stream is not at its end. -/
theorem calculate_scores_nil_on_empty_list :
    (scorerOn [frame10, frame20]).CalculateScores emittingScoreMinusOne betweenFrames.heap []
      = .ok (.nil, scorerOn [frame20], betweenFrames.heap) ∧
    ¬ (scorerOn [frame10, frame20]).AtStreamEnd := by
  refine ⟨by decide, ?_⟩
  intro hend
  have := (hend.2 frame10 (List.mem_cons_self _ _)).1
  revert this
  decide

/-- C13 at the end of a stream: the scorer returns nil for the tokens 4 and 5 of
`betweenFrames`, and this is the first of the three cases. -/
theorem calculate_scores_nil_cases_witness :
    (scorerOn []).AtStreamEnd ∨ [some 4, some 5] = ([] : List (Option Ptr)) ∨
      ∀ p : Nat, some p ∈ [some 4, some 5] → GetScore betweenFrames.heap p ≤ -maxFloat64 :=
  calculate_scores_nil_cases emittingScoreMinusOne (scorerOn []) (scorerOn [])
    betweenFrames.heap betweenFrames.heap [some 4, some 5] rfl (by decide)

/-! ## C11: what `Recognize` returns at the end of the stream -/

/-- One pass of the arc loop leaves `streamEnd` as it is. -/
theorem WPBFSM.processArc_streamEnd {lg : Linguist} {m m' : WPBFSM.Manager} {token : Ptr}
    {state : SearchState} {predecessor : Option Ptr} {arc : SearchStateArc}
    (h : WPBFSM.processArc lg m token state predecessor arc = .ok m') :
    m'.streamEnd = m.streamEnd := by
  simp only [WPBFSM.processArc] at h
  obtain ⟨_, _, h⟩ := Res.bind_eq_ok.mp h
  split at h
  · simp only [WPBFSM.activeListAdd, WPBFSM.setBestToken] at h
    split at h
    · cases h
    · obtain ⟨alm, _, h⟩ := Res.bind_eq_ok.mp h
      cases h; rfl
  · split at h
    · split at h <;> (cases h; rfl)
    · split at h
      · split at h <;> (cases h; rfl)
      · cases h; rfl

theorem WPBFSM.arcLoop_streamEnd {lg : Linguist} {token : Ptr} {state : SearchState}
    {predecessor : Option Ptr} :
    ∀ (arcs : List SearchStateArc) (m m' : WPBFSM.Manager),
      WPBFSM.arcLoop lg token state predecessor arcs m = .ok m' →
      m'.streamEnd = m.streamEnd := by
  intro arcs
  induction arcs with
  | nil => intro m m' h; cases h; rfl
  | cons a rest ih =>
    intro m m' h
    simp only [WPBFSM.arcLoop] at h
    obtain ⟨m1, h1, h2⟩ := Res.bind_eq_ok.mp h
    rw [ih m1 m' h2, WPBFSM.processArc_streamEnd h1]

theorem WPBFSM.collectSuccessorTokens_streamEnd {lg : Linguist} {m m' : WPBFSM.Manager}
    {token : Ptr} (h : WPBFSM.collectSuccessorTokens lg m token = .ok m') :
    m'.streamEnd = m.streamEnd := by
  simp only [WPBFSM.collectSuccessorTokens] at h
  obtain ⟨final, _, h⟩ := Res.bind_eq_ok.mp h
  split at h
  · obtain ⟨r, _, h⟩ := Res.bind_eq_ok.mp h
    cases h; rfl
  · obtain ⟨emitting, _, h⟩ := Res.bind_eq_ok.mp h
    obtain ⟨visited, _, h⟩ := Res.bind_eq_ok.mp h
    split at h
    · cases h; rfl
    · split at h
      · cases h
      · obtain ⟨r, _, h⟩ := Res.bind_eq_ok.mp h
        have hloop := WPBFSM.arcLoop_streamEnd _ _ _ h
        exact hloop

theorem WPBFSM.pruneBranches_streamEnd {m m' : WPBFSM.Manager}
    (h : WPBFSM.pruneBranches m = .ok m') : m'.streamEnd = m.streamEnd := by
  simp only [WPBFSM.pruneBranches] at h
  split at h
  · cases h
  · obtain ⟨al, _, h⟩ := Res.bind_eq_ok.mp h
    cases h; rfl

theorem WPBFSM.growBranchesLoop_streamEnd {lg : Linguist} {allowExpansion : Token → Bool}
    {threshold : Int} :
    ∀ (tokens : List (Option Ptr)) (m m' : WPBFSM.Manager),
      WPBFSM.growBranchesLoop lg allowExpansion threshold tokens m = .ok m' →
      m'.streamEnd = m.streamEnd := by
  intro tokens
  induction tokens with
  | nil => intro m m' h; cases h; rfl
  | cons t rest ih =>
    intro m m' h
    cases t with
    | none => simp [WPBFSM.growBranchesLoop] at h
    | some token =>
      simp only [WPBFSM.growBranchesLoop] at h
      obtain ⟨m1, h1, h2⟩ := Res.bind_eq_ok.mp h
      rw [ih m1 m' h2]
      split at h1
      · exact WPBFSM.collectSuccessorTokens_streamEnd h1
      · cases h1; rfl

theorem WPBFSM.growBranches_streamEnd {lg : Linguist} {allowExpansion : Token → Bool}
    {m m' : WPBFSM.Manager} (h : WPBFSM.growBranches lg allowExpansion m = .ok m') :
    m'.streamEnd = m.streamEnd := by
  simp only [WPBFSM.growBranches] at h
  split at h
  · cases h
  · exact WPBFSM.growBranchesLoop_streamEnd _ _ _ h

theorem WPBFSM.growEmittingLoop_streamEnd {lg : Linguist} {threshold : Int} :
    ∀ (tokens : List (Option Ptr)) (m m' : WPBFSM.Manager),
      WPBFSM.growEmittingLoop lg threshold tokens m = .ok m' →
      m'.streamEnd = m.streamEnd := by
  intro tokens
  induction tokens with
  | nil => intro m m' h; cases h; rfl
  | cons t rest ih =>
    intro m m' h
    cases t with
    | none => simp [WPBFSM.growEmittingLoop] at h
    | some token =>
      simp only [WPBFSM.growEmittingLoop] at h
      obtain ⟨m1, h1, h2⟩ := Res.bind_eq_ok.mp h
      rw [ih m1 m' h2]
      split at h1
      · exact WPBFSM.collectSuccessorTokens_streamEnd h1
      · cases h1; rfl

theorem WPBFSM.growEmittingBranches_streamEnd {lg : Linguist} {allowExpansion : Token → Bool}
    {m m' : WPBFSM.Manager} (h : WPBFSM.growEmittingBranches lg allowExpansion m = .ok m') :
    m'.streamEnd = m.streamEnd := by
  simp only [WPBFSM.growEmittingBranches] at h
  split at h
  · exact WPBFSM.growBranches_streamEnd h
  · split at h
    · cases h
    · obtain ⟨best, _, h⟩ := Res.bind_eq_ok.mp h
      exact WPBFSM.growEmittingLoop_streamEnd _ _ _ h

theorem WPBFSM.growNonEmittingLoop_streamEnd {lg : Linguist} {allowExpansion : Token → Bool} :
    ∀ (fuel : Nat) (listPtr : Int) (m m' : WPBFSM.Manager),
      WPBFSM.growNonEmittingLoop lg allowExpansion fuel listPtr m = .ok m' →
      m'.streamEnd = m.streamEnd := by
  intro fuel
  induction fuel with
  | zero => intro listPtr m m' h; cases h
  | succ fuel ih =>
    intro listPtr m m' h
    simp only [WPBFSM.growNonEmittingLoop] at h
    split at h
    · obtain ⟨next, _, h⟩ := Res.bind_eq_ok.mp h
      split at h
      · have hloop := ih _ _ _ h
        exact hloop
      · obtain ⟨alm, _, h⟩ := Res.bind_eq_ok.mp h
        obtain ⟨m1, h1, h⟩ := Res.bind_eq_ok.mp h
        obtain ⟨m2, h2, h⟩ := Res.bind_eq_ok.mp h
        rw [ih _ _ _ h, WPBFSM.growBranches_streamEnd h2, WPBFSM.pruneBranches_streamEnd h1]
    · cases h; rfl

/-- A grow step leaves `streamEnd` as it is. -/
theorem WPBFSM.growStep_streamEnd {lg : Linguist} {allowExpansion : Token → Bool}
    {m m' : WPBFSM.Manager} (h : WPBFSM.growStep lg allowExpansion m = .ok m') :
    m'.streamEnd = m.streamEnd := by
  simp only [WPBFSM.growStep] at h
  obtain ⟨m1, h1, h⟩ := Res.bind_eq_ok.mp h
  obtain ⟨m2, h2, h3⟩ := Res.bind_eq_ok.mp h
  simp only [WPBFSM.growNonEmittingBranches] at h3
  rw [WPBFSM.growNonEmittingLoop_streamEnd _ _ _ _ h3, WPBFSM.growEmittingBranches_streamEnd h2]
  simp only [WPBFSM.clearCollectors, WPBFSM.createBestTokenMap] at h1
  obtain ⟨m0, h0, h1⟩ := Res.bind_eq_ok.mp h1
  obtain ⟨alm, _, h1⟩ := Res.bind_eq_ok.mp h1
  split at h0
  · cases h0
  · cases h0; cases h1; rfl

theorem WPBFSM.shareEmittingList_ok {m m' : WPBFSM.Manager}
    (h : WPBFSM.shareEmittingList m = .ok m') :
    m'.streamEnd = m.streamEnd ∧ m'.resultList = m.resultList ∧ m'.activeList = m.activeList ∧
      m'.heap = m.heap ∧ m'.loserManager = m.loserManager ∧
      m'.currentCollectTime = m.currentCollectTime := by
  simp only [WPBFSM.shareEmittingList] at h
  split at h
  · cases h
  · obtain ⟨alm, _, h⟩ := Res.bind_eq_ok.mp h
    cases h
    exact ⟨rfl, rfl, rfl, rfl, rfl, rfl⟩

/-- What `scoreTokens` does with what the scorer returns: a token means more frames, nil sets
`streamEnd`, and a piece of data does neither. -/
theorem WPBFSM.scoreTokens_ok {sm : ScoringModel} {m m' : WPBFSM.Manager}
    {sas sas' : SimpleAcousticScorer} {more : Bool}
    (h : WPBFSM.scoreTokens sm m sas = .ok (more, m', sas')) :
    ∃ al out h1, m.activeList = some al ∧
      sas.CalculateScores sm m.heap al.GetTokens = .ok (out, sas', h1) ∧
      m'.resultList = m.resultList ∧ m'.loserManager = m.loserManager ∧
      m'.activeListManager = m.activeListManager ∧
      ((out = .nil ∧ more = false ∧ m'.streamEnd = true ∧
          m'.currentCollectTime = m.currentCollectTime) ∨
       (∃ p, out = .token p ∧ more = true ∧ m'.streamEnd = m.streamEnd) ∨
       (∃ d, out = .data d ∧ more = false ∧ m'.streamEnd = m.streamEnd ∧
          m'.currentCollectTime = m.currentCollectTime)) := by
  simp only [WPBFSM.scoreTokens] at h
  split at h
  · cases h
  · rename_i al hal
    obtain ⟨r, hr, h⟩ := Res.bind_eq_ok.mp h
    simp only [Res.ok.injEq, Prod.mk.injEq] at h
    obtain ⟨hmore, hm, hsas⟩ := h
    refine ⟨al, r.1, r.2.2, hal, ?_, ?_, ?_, ?_, ?_⟩
    · rw [hr, ← hsas]
    · rw [← hm]
    · rw [← hm]
    · rw [← hm]
    · rw [← hm, ← hmore]
      cases hout : r.1 with
      | nil => left; simp
      | token p => right; left; exact ⟨p, rfl, by simp, by simp⟩
      | data d => right; right; exact ⟨d, rfl, by simp, by simp, by simp⟩

/-- A frame after which more frames are wanted leaves `streamEnd` as it is. -/
theorem WPBFSM.recognize_more_streamEnd {lg : Linguist} {allowExpansion : Token → Bool}
    {sm : ScoringModel} {m m' : WPBFSM.Manager} {sas sas' : SimpleAcousticScorer}
    (h : WPBFSM.recognize lg allowExpansion sm m sas = .ok (false, m', sas')) :
    m'.streamEnd = m.streamEnd := by
  simp only [WPBFSM.recognize] at h
  obtain ⟨al, _, h⟩ := Res.bind_eq_ok.mp h
  obtain ⟨⟨more, m0, sas0⟩, hr, h⟩ := Res.bind_eq_ok.mp h
  obtain ⟨m1, h1, h⟩ := Res.bind_eq_ok.mp h
  obtain ⟨_, out, _, _, _, _, _, _, hcases⟩ := WPBFSM.scoreTokens_ok hr
  have hm1 := (WPBFSM.shareEmittingList_ok h1).1
  simp only at h
  split at h
  · rename_i hmore
    have hend : m0.streamEnd = m.streamEnd := by
      rcases hcases with ⟨_, hf, _⟩ | ⟨_, _, _, hend⟩ | ⟨_, _, hf, _⟩
      · rw [hf] at hmore; cases hmore
      · exact hend
      · rw [hf] at hmore; cases hmore
    obtain ⟨m2, h2, h⟩ := Res.bind_eq_ok.mp h
    obtain ⟨m3, h3, h⟩ := Res.bind_eq_ok.mp h
    have hm3 : m3.streamEnd = m.streamEnd := by
      rw [(WPBFSM.shareEmittingList_ok h3).1, WPBFSM.pruneBranches_streamEnd h2, hm1, hend]
    split at h
    · obtain ⟨m4, h4, h⟩ := Res.bind_eq_ok.mp h
      simp only [Res.ok.injEq, Prod.mk.injEq] at h
      rw [← h.2.1, WPBFSM.growStep_streamEnd h4]
      exact hm3
    · simp only [Res.ok.injEq, Prod.mk.injEq] at h
      rw [← h.2.1]
      exact hm3
  · rename_i hmore
    simp only [Res.ok.injEq, Prod.mk.injEq] at h
    simp [hmore] at h

/-- While the loop of `Recognize` wants more frames, `streamEnd` stays as it was. -/
theorem WPBFSM.recognizeLoop_more_streamEnd {lg : Linguist} {allowExpansion : Token → Bool}
    {sm : ScoringModel} :
    ∀ (n : Nat) (x : Bool × WPBFSM.Manager × SimpleAcousticScorer) (m' : WPBFSM.Manager)
      (sas' : SimpleAcousticScorer),
      WPBFSM.recognizeLoop lg allowExpansion sm n x = .ok (false, m', sas') →
      m'.streamEnd = x.2.1.streamEnd := by
  intro n
  induction n with
  | zero => intro x m' sas' h; cases h; rfl
  | succ n ih =>
    intro x m' sas' h
    simp only [WPBFSM.recognizeLoop] at h
    split at h
    · cases h; rfl
    · obtain ⟨y, hy, h⟩ := Res.bind_eq_ok.mp h
      have hlast := ih y m' sas' h
      by_cases hdone : y.1 = true
      · cases n with
        | zero => simp only [WPBFSM.recognizeLoop, Res.ok.injEq] at h; rw [h] at hdone; cases hdone
        | succ n =>
          simp only [WPBFSM.recognizeLoop, hdone, if_true, Res.ok.injEq] at h
          rw [h] at hdone; cases hdone
      · have hy' : WPBFSM.recognize lg allowExpansion sm x.2.1 x.2.2 = .ok (false, y.2.1, y.2.2) := by
          rw [hy]
          have : y.1 = false := by simpa using hdone
          rw [← this]
        rw [hlast, WPBFSM.recognize_more_streamEnd hy']

/-- The loop of `Recognize` stops once a frame says that it is done. -/
theorem WPBFSM.recognizeLoop_done {lg : Linguist} {allowExpansion : Token → Bool}
    {sm : ScoringModel} (n : Nat) (m : WPBFSM.Manager) (sas : SimpleAcousticScorer) :
    WPBFSM.recognizeLoop lg allowExpansion sm n (true, m, sas) = .ok (true, m, sas) := by
  cases n <;> simp [WPBFSM.recognizeLoop]

/-- The loop over `k + j` frames is the loop over `k` frames followed by the loop over `j`. -/
theorem WPBFSM.recognizeLoop_add {lg : Linguist} {allowExpansion : Token → Bool}
    {sm : ScoringModel} (j : Nat) :
    ∀ (k : Nat) (x : Bool × WPBFSM.Manager × SimpleAcousticScorer),
      WPBFSM.recognizeLoop lg allowExpansion sm (k + j) x
        = (WPBFSM.recognizeLoop lg allowExpansion sm k x).bind
            (WPBFSM.recognizeLoop lg allowExpansion sm j) := by
  intro k
  induction k with
  | zero => intro x; simp [WPBFSM.recognizeLoop]
  | succ k ih =>
    intro x
    rw [Nat.succ_add]
    simp only [WPBFSM.recognizeLoop]
    split
    · rename_i hdone
      obtain ⟨d, m, sas⟩ := x
      simp only at hdone
      subst hdone
      simp only [Res.bind_ok]
      exact (WPBFSM.recognizeLoop_done j m sas).symm
    · cases hrec : WPBFSM.recognize lg allowExpansion sm x.2.1 x.2.2 with
      | ok y => simp only [Res.bind_ok]; exact ih y
      | panics => rfl
      | diverges => rfl

/-- A frame in which the scorer returns no token is the last one: nothing grows, the result
list stays, and `streamEnd` is set exactly when the scorer returned nil. -/
theorem WPBFSM.recognize_without_token (lg : Linguist) (allowExpansion : Token → Bool)
    {sm : ScoringModel} {m : WPBFSM.Manager} {sas sas1 : SimpleAcousticScorer}
    {al : ActiveList Ptr} {out : Scored} {h1 : Heap}
    (hlist : m.activeListManager.GetEmittingList = .ok al)
    (hscore : sas.CalculateScores sm m.heap al.GetTokens = .ok (out, sas1, h1))
    (hnot : ∀ p, out ≠ .token p) :
    ∃ m1, WPBFSM.recognize lg allowExpansion sm m sas = .ok (true, m1, sas1) ∧
      m1.resultList = m.resultList ∧
      m1.streamEnd = (if out = .nil then true else m.streamEnd) := by
  obtain ⟨hi, hget⟩ := SimpleActiveListManager.listAt_ok hlist
  have hlt : ((m.activeListManager.currentActiveLists.length : Int) - 1).toNat
      < m.activeListManager.currentActiveLists.length := by
    rcases List.getElem?_eq_some.mp hget with ⟨hlt, _⟩
    exact hlt
  have hbest : (match out with
      | .token p => some p
      | _ => (none : Option Ptr)) = none := by
    cases out with
    | nil => rfl
    | token p => exact absurd rfl (hnot p)
    | data d => rfl
  simp only [WPBFSM.recognize, hlist, Res.bind_ok, WPBFSM.scoreTokens, hscore, hbest,
    Option.isSome, WPBFSM.shareEmittingList, SimpleActiveListManager.setListAt, hi, hlt,
    and_self, if_true, Bool.false_eq_true, if_false, Bool.not_false]
  exact ⟨_, rfl, rfl, rfl⟩

/-- C11, as the code has it.  Let `Recognize` have processed `k` of its `nFrames` frames from
the manager `m0`, with more frames wanted, and let the scorer return no token in the next
frame.  When the scorer returns nil, `Recognize` returns nil, because it builds its result
only `if !streamEnd`.  When the scorer returns a piece of data instead, as it does at the end
of speech, `Recognize` returns a final result whose result list is the one the frame before
had collected. -/
theorem recognize_result_when_scorer_has_no_token (lg : Linguist) (sg : SearchGraph)
    (allowExpansion : Token → Bool) (sm : ScoringModel) (nFrames : Int) (k : Nat)
    (m0 m : WPBFSM.Manager) (sas0 sas sas1 : SimpleAcousticScorer) (al : ActiveList Ptr)
    (out : Scored) (h1 : Heap)
    (hk : (k : Int) < nFrames)
    (hprev : WPBFSM.recognizeLoop lg allowExpansion sm k
      (false, { m0 with streamEnd := false }, sas0) = .ok (false, m, sas))
    (hlist : m.activeListManager.GetEmittingList = .ok al)
    (hscore : sas.CalculateScores sm m.heap al.GetTokens = .ok (out, sas1, h1))
    (hnot : ∀ p, out ≠ .token p) :
    ∃ res m', WPBFSM.Recognize lg sg allowExpansion sm nFrames m0 sas0 = .ok (res, m', sas1) ∧
      (out = .nil → res = none) ∧
      (out ≠ .nil → ∃ r, res = some r ∧ r.isFinal = true ∧ r.resultList = m.resultList) := by
  obtain ⟨m1, hrec, hres, hend⟩ :=
    WPBFSM.recognize_without_token lg allowExpansion hlist hscore hnot
  have hm : m.streamEnd = false := WPBFSM.recognizeLoop_more_streamEnd k _ m sas hprev
  obtain ⟨j, hj⟩ : ∃ j, nFrames.toNat = k + (j + 1) := by
    refine ⟨nFrames.toNat - k - 1, ?_⟩
    have : k < nFrames.toNat := by omega
    omega
  have hloop : WPBFSM.recognizeLoop lg allowExpansion sm nFrames.toNat
      (false, { m0 with streamEnd := false }, sas0) = .ok (true, m1, sas1) := by
    rw [hj, WPBFSM.recognizeLoop_add, hprev, Res.bind_ok]
    simp only [WPBFSM.recognizeLoop, Bool.false_eq_true, if_false, hrec, Res.bind_ok]
    exact WPBFSM.recognizeLoop_done j m1 sas1
  simp only [WPBFSM.Recognize, hloop, Res.bind_ok]
  refine ⟨_, _, rfl, ?_, ?_⟩
  · intro hnil
    rw [hend, if_pos hnil]
    rfl
  · intro hdata
    rw [hend, if_neg hdata, hm]
    exact ⟨_, rfl, rfl, hres⟩

/-- C11 as stated fails: from `afterGrowStep`, with one feature frame to come and nothing
after it, the scorer returns nil in the second frame and `Recognize` returns nil. -/
theorem recognize_returns_nil_when_scorer_returns_nil :
    (scorerOn []).CalculateScores emittingScoreMinusOne afterFrame20.heap
        [some 19, some 21, some 23]
      = .ok (.nil, scorerOn [], afterFrame20.heap) ∧
    (WPBFSM.Recognize smallGraph smallSearchGraph (fun _ => true) emittingScoreMinusOne 3
        afterGrowStep (scorerOn [frame20])).bind (fun r => .ok r.1)
      = .ok none := by
  refine ⟨by decide!, by decide!⟩

/-- C11 on `smallGraph`: after the frame of collect time 20 the scorer meets the end of speech
and returns the signal; `Recognize` then returns a final result with the result list of the
frame before. -/
theorem recognize_result_when_scorer_has_no_token_witness :
    WPBFSM.recognizeLoop smallGraph (fun _ => true) emittingScoreMinusOne 1
        (false, { afterGrowStep with streamEnd := false }, scorerOn [frame20, .speechEndSignal])
      = .ok (false, afterFrame20, scorerOn [.speechEndSignal]) ∧
    afterFrame20.activeListManager.GetEmittingList = .ok emittingListAfterFrame20 ∧
    (scorerOn [.speechEndSignal]).CalculateScores emittingScoreMinusOne afterFrame20.heap
        emittingListAfterFrame20.GetTokens
      = .ok (.data .speechEndSignal, scorerAfterSpeechEnd [], afterFrame20.heap) ∧
    ∃ res m', WPBFSM.Recognize smallGraph smallSearchGraph (fun _ => true)
        emittingScoreMinusOne 3 afterGrowStep (scorerOn [frame20, .speechEndSignal])
        = .ok (res, m', scorerAfterSpeechEnd []) ∧
      (Scored.data .speechEndSignal = .nil → res = none) ∧
      (Scored.data .speechEndSignal ≠ .nil →
        ∃ r, res = some r ∧ r.isFinal = true ∧ r.resultList = afterFrame20.resultList) :=
  ⟨by decide!, by decide!, by decide!,
    recognize_result_when_scorer_has_no_token smallGraph smallSearchGraph (fun _ => true)
      emittingScoreMinusOne 3 1 afterGrowStep afterFrame20
      (scorerOn [frame20, .speechEndSignal]) (scorerOn [.speechEndSignal])
      (scorerAfterSpeechEnd []) emittingListAfterFrame20 (.data .speechEndSignal)
      afterFrame20.heap (by decide) (by decide!) (by decide!) (by decide!)
      (fun _ h => nomatch h)⟩

/-! ## C15: the lookahead penalty -/

/-- The loop of `updateLookaheadPenalty`, on frames that all have a score for the phone `b`:
it ends with the starting value or the gap of a frame, whichever is highest. -/
theorem WPBFLSM.penaltyLoop_max (b : Nat) :
    ∀ (window : List FrameCiScores) (penalty : Int),
      (∀ f, f ∈ window → b < f.scores.length) →
      ∃ r, WPBFLSM.penaltyLoop b window penalty = .ok r ∧ penalty ≤ r ∧
        (∀ f, f ∈ window → f.gap b ≤ r) ∧ (r = penalty ∨ ∃ f, f ∈ window ∧ r = f.gap b) := by
  intro window
  induction window with
  | nil =>
    intro penalty _
    exact ⟨penalty, rfl, le_refl _, (fun f hf => absurd hf (List.not_mem_nil f)), Or.inl rfl⟩
  | cons f rest ih =>
    intro penalty hin
    have hb : b < f.scores.length := hin f (List.mem_cons_self _ _)
    have hget : f.scores[((b : Int)).toNat]? = some (f.scores.getD b 0) := by
      simp [List.getD_eq_getElem?_getD, List.getElem?_eq_getElem hb]
    obtain ⟨r, hr, hle, hall, hwhich⟩ :=
      ih (if f.gap b > penalty then f.gap b else penalty)
        (fun g hg => hin g (List.mem_cons_of_mem _ hg))
    refine ⟨r, ?_, ?_, ?_, ?_⟩
    · simp only [WPBFLSM.penaltyLoop, Int.natCast_nonneg, if_true, hget]
      exact hr
    · split at hle
      · exact le_of_lt (lt_of_lt_of_le (by assumption) hle)
      · exact hle
    · intro g hg
      rcases List.mem_cons.mp hg with rfl | hg
      · split at hle
        · exact hle
        · exact le_trans (not_lt.mp (by assumption)) hle
      · exact hall g hg
    · rcases hwhich with hacc | ⟨g, hg, hrg⟩
      · split at hacc
        · exact Or.inr ⟨f, List.mem_cons_self _ _, hacc⟩
        · exact Or.inl hacc
      · exact Or.inr ⟨g, List.mem_cons_of_mem _ hg, hrg⟩

/-- C15.  For a non-empty window whose frames all have a score for the base phone `b`, one of
them with a gap `scores[b] - maxScore` not below `-math.MaxFloat64`, `updateLookaheadPenalty(b)`
returns the maximum of the gaps over the frames of the window and stores it in the penalty
cache under `b`, leaving the rest of the manager as it is. -/
theorem update_lookahead_penalty_is_max_gap (m : WPBFLSM.Manager) (b : Nat)
    (hne : m.ciScores ≠ []) (hin : ∀ f, f ∈ m.ciScores → b < f.scores.length)
    (hrange : ∃ f, f ∈ m.ciScores ∧ -maxFloat64 ≤ f.gap b) :
    ∃ penalty,
      WPBFLSM.updateLookaheadPenalty m b
        = .ok (penalty, { m with penalties := ((b : Int), penalty) :: m.penalties }) ∧
      List.lookup (b : Int) (((b : Int), penalty) :: m.penalties) = some penalty ∧
      (∃ f, f ∈ m.ciScores ∧ penalty = f.gap b) ∧ ∀ f, f ∈ m.ciScores → f.gap b ≤ penalty := by
  obtain ⟨r, hr, hle, hall, hwhich⟩ := WPBFLSM.penaltyLoop_max b m.ciScores (-maxFloat64) hin
  have hlen : ¬ (m.ciScores.length : Int) ≤ 0 := by
    intro h
    have : m.ciScores.length = 0 := by omega
    exact hne (List.length_eq_zero.mp this)
  refine ⟨r, ?_, ?_, ?_, hall⟩
  · simp only [WPBFLSM.updateLookaheadPenalty, hlen, if_false, hr, Res.bind_ok]
  · simp [List.lookup]
  · rcases hwhich with hacc | hgap
    · obtain ⟨f, hf, hfr⟩ := hrange
      exact ⟨f, hf, le_antisymm (by rw [hacc]; exact hfr) (hall f hf)⟩
    · exact hgap

/-- C15 on the window of the scenario S5: the phone 3 scores -2, -3, -2 in frames whose
maxima are -1, -1, -1, and the penalty is -1. -/
theorem update_lookahead_penalty_is_max_gap_witness :
    (lookaheadOver betweenFrames 3 windowS5).ciScores.map (fun f => (f.scores.getD 3 0, f.maxScore))
      = [(-2, -1), (-3, -1), (-2, -1)] ∧
    (WPBFLSM.updateLookaheadPenalty (lookaheadOver betweenFrames 3 windowS5) 3).bind
        (fun r => .ok (r.1, r.2.penalties)) = .ok (-1, [(3, -1)]) ∧
    ∃ penalty,
      WPBFLSM.updateLookaheadPenalty (lookaheadOver betweenFrames 3 windowS5) ((3 : Nat) : Int)
        = .ok (penalty, { lookaheadOver betweenFrames 3 windowS5 with
            penalties := (((3 : Nat) : Int), penalty)
              :: (lookaheadOver betweenFrames 3 windowS5).penalties }) ∧
      List.lookup ((3 : Nat) : Int) ((((3 : Nat) : Int), penalty)
        :: (lookaheadOver betweenFrames 3 windowS5).penalties) = some penalty ∧
      (∃ f, f ∈ (lookaheadOver betweenFrames 3 windowS5).ciScores ∧ penalty = f.gap 3) ∧
      ∀ f, f ∈ (lookaheadOver betweenFrames 3 windowS5).ciScores → f.gap 3 ≤ penalty :=
  ⟨by decide, by decide!,
    update_lookahead_penalty_is_max_gap (lookaheadOver betweenFrames 3 windowS5) 3 (by decide)
      (by decide) ⟨⟨[0, 0, 0, -2], -1⟩, by decide, by decide!⟩⟩

/-! ## C14, C16: the penalty on a cache hit, the scores of a fast-match frame -/

/-- C14.  On `lookaheadAtWord` the token 0 of the word state 60 has the score 0 and the beam
threshold is -2; the window penalty of the phone 1 is -5, so that an arc into an HMM state of
the phone 1 is not to be followed: `0 + 1 * (-5) < -2`.  `collectSuccessorTokens` skips the
arc into the state 51, on which it computes the penalty and caches it, and then follows the
arc into the state 52 of the same phone, for which it takes the penalty 0 because the cache
has an entry: a token is made for the state 52 and none for the state 51. -/
theorem lookahead_penalty_is_zero_on_cache_hit :
    (lookaheadAtWord.activeList.map fun al => al.GetBeamThreshold (GetScore lookaheadAtWord.heap))
      = some (-2) ∧
    (WPBFLSM.updateLookaheadPenalty lookaheadAtWord 1).bind (fun r => .ok r.1) = .ok (-5) ∧
    GetScore lookaheadAtWord.heap 0 + lookaheadAtWord.lookaheadWeight * (-5) < -2 ∧
    (WPBFLSM.collectSuccessorTokens twoHmmGraph twoHmmKinds lookaheadAtWord 0).bind
        (fun m => .ok (m.penalties, m.bestTokenMap, m.heap.map fun t => t.searchState))
      = .ok ([(1, -5)], [(52, 1), (60, 0)], [some 60, some 52]) := by
  refine ⟨by decide, by decide!, by decide, by decide!⟩

/-- C16.  On `fastMatchOnePhone` the only token of the fast-match list is at the beam
threshold, belongs to the phone 1 and has the score -3.  The frame scores that
`growFastmatchBranches` appends to the window have the maximum -3, but the score 0 for the
phone 1: the slice of the scores starts as zeros, and a score is replaced only by a higher
one. -/
theorem fastmatch_frame_scores_stay_zero :
    (fastMatchOnePhone.fastmatchActiveList.map fun al =>
        (al.GetTokens, al.GetBeamThreshold (GetScore fastMatchOnePhone.heap)))
      = some ([some 0], -103) ∧
    ((fastMatchOnePhone.heap.deref 0).searchState.bind phoneKinds.phoneBaseId,
      GetScore fastMatchOnePhone.heap 0) = (some 1, -3) ∧
    (WPBFLSM.growFastmatchBranches phoneLoop phoneKinds 5 fastMatchOnePhone).bind
        (fun m => .ok (m.ciScores.map fun f => (f.scores.getD 1 0, f.maxScore)))
      = .ok [(0, -3)] := by
  refine ⟨by decide, by decide, by decide!⟩

/-! ## C17, C18, C19: the window in the loop of `Recognize` -/

/-- The lines under `// remove head` take out the entry at the index of the pass. -/
theorem WPBFLSM.removeHead_eq_eraseIdx (i : Nat) (ciScores : List FrameCiScores)
    (hi : i < ciScores.length) :
    WPBFLSM.removeHead i ciScores = .ok (ciScores.eraseIdx i) := by
  have hcond : (0 : Int) ≤ (i : Int) ∧ (i : Int) + 1 ≤ (ciScores.length : Int) := by
    constructor <;> omega
  simp only [WPBFLSM.removeHead, hcond, and_self, if_true, Int.toNat_ofNat, Res.ok.injEq]
  rw [List.eraseIdx_eq_take_drop_succ]
  have hlen : (List.take i ciScores ++ List.drop (i + 1) ciScores).length
      = ciScores.length - 1 := by
    simp only [List.length_append, List.length_take, List.length_drop]
    omega
  rw [List.take_append_of_le_length (by rw [hlen]), ← hlen, List.take_length]

/-- The lines under `// remove head` panic when the window has no entry past the index of the
pass. -/
theorem WPBFLSM.removeHead_panics (i : Int) (ciScores : List FrameCiScores)
    (hi : (ciScores.length : Int) < i + 1) : WPBFLSM.removeHead i ciScores = .panics := by
  have hcond : ¬ ((0 : Int) ≤ i ∧ i + 1 ≤ (ciScores.length : Int)) := by
    intro h; omega
  simp only [WPBFLSM.removeHead, hcond, if_false]

/-- Once the fast-match stream has ended, a pass of the loop of `Recognize` whose index is
not below the length of the window panics before the main-pass frame runs. -/
theorem WPBFLSM.recognizePass_panics (lg fm : Linguist) (sk : StateKinds)
    (allowExpansion : Token → Bool) (depth : Nat) (sm : ScoringModel) (i : Int)
    (m : WPBFLSM.Manager) (sas : SimpleAcousticScorer) (hend : m.fastmatchStreamEnd = true)
    (hi : (m.ciScores.length : Int) < i + 1) :
    WPBFLSM.recognizePass lg fm sk allowExpansion depth sm i m sas = .panics := by
  simp only [WPBFLSM.recognizePass, hend, Bool.not_true, Bool.false_eq_true, if_false,
    Res.bind_ok, WPBFLSM.removeHead_panics i m.ciScores hi, Res.bind_panics]

/-- C17.  On `drainingLookahead` the window holds, oldest first, the frames of maxima -1, -2
and -3.  The first pass of the loop of `Recognize` takes out the oldest entry; the second
pass, of index 1, takes out the entry at position 1 of what is left, the newest one, and the
oldest entry that was left stays. -/
theorem recognize_removes_entry_at_pass_index :
    drainingLookahead.ciScores.map (fun f => f.maxScore) = [-1, -2, -3] ∧
    (recognizeOnSmallGraph 1 drainingLookahead scorerWithStoredFrames).bind
        (fun x => .ok (x.2.1.ciScores.map fun f => f.maxScore)) = .ok [-2, -3] ∧
    (recognizeOnSmallGraph 2 drainingLookahead scorerWithStoredFrames).bind
        (fun x => .ok (x.2.1.ciScores.map fun f => f.maxScore)) = .ok [-2] := by
  refine ⟨by decide, by decide!, by decide!⟩

/-- C18.  With a lookahead window of 1, `localStart` leaves one entry in the window.  On a
stream of four feature frames `Recognize(2)` runs two passes, each with the fast-match stream
alive and one entry in the window while the main-pass frame runs, and leaves two frames in
the front end; `Recognize(3)` panics in its third pass, of index 2, where the window has two
entries and the slice `ciScores[3:]` is taken. -/
theorem recognize_panics_past_window_length :
    startedLookahead.bind (fun r => .ok (r.1.lookaheadWindow, r.1.ciScores.length)) = .ok (1, 1) ∧
    (startedLookahead.bind fun r => (recognizeOnSmallGraph 2 r.1 r.2).bind fun x =>
        .ok (x.2.1.ciScores.length, x.2.1.fastmatchStreamEnd, x.2.2.frontEnd.pending.length))
      = .ok (1, false, 2) ∧
    (startedLookahead.bind fun r => recognizeOnSmallGraph 3 r.1 r.2) = .panics := by
  refine ⟨by decide!, by decide!, by decide!⟩

/-- C19.  With the fast-match stream ended and an empty window, `updateLookaheadPenalty`
returns 0, but `Recognize` panics in its first pass, on the lines under `// remove head`,
before any main-pass frame runs; and from a window of three entries `Recognize(3)` panics in
its third pass, where one entry is left. -/
theorem recognize_panics_on_empty_window :
    (WPBFLSM.updateLookaheadPenalty { drainingLookahead with ciScores := [] } 0).bind
        (fun r => .ok r.1) = .ok 0 ∧
    recognizeOnSmallGraph 1 { drainingLookahead with ciScores := [] } scorerWithStoredFrames
      = .panics ∧
    recognizeOnSmallGraph 3 drainingLookahead scorerWithStoredFrames = .panics := by
  refine ⟨by decide, by decide!, by decide!⟩

/-! ## C20: the recursion of the fast match ends -/

/-- A sequence of two steps does not diverge when neither step does. -/
theorem Res.bind_ne_diverges {α β : Type} {x : Res α} {f : α → Res β}
    (hx : x ≠ .diverges) (hf : ∀ a, x = .ok a → f a ≠ .diverges) : x.bind f ≠ .diverges := by
  cases x with
  | ok a => exact hf a rfl
  | panics => simp
  | diverges => exact absurd rfl hx

/-- A token with a search state is in the heap. -/
theorem Heap.lt_of_searchState {h : Heap} {p : Ptr} {s : SearchState}
    (hs : (h.deref p).searchState = some s) : p < h.length := by
  by_contra hge
  have hdef : h.deref p = default := by
    simp [Heap.deref, List.getD_eq_getElem?_getD, List.getElem?_eq_none (not_lt.mp hge)]
  rw [hdef] at hs
  cases hs

theorem Heap.keepsWalks_refl (lg : Linguist) (h : Heap) : Heap.KeepsWalks lg h h :=
  fun _ _ _ => Or.inl rfl

theorem Heap.keepsWalks_trans {lg : Linguist} {h h1 h2 : Heap}
    (h01 : Heap.KeepsWalks lg h h1) (h12 : Heap.KeepsWalks lg h1 h2) :
    Heap.KeepsWalks lg h h2 := by
  intro p s hs
  rcases h01 p s hs with hsame | ⟨hem, s', hs', hem'⟩
  · rcases h12 p s (by rw [hsame]; exact hs) with hsame2 | ⟨hem, s', hs', hem'⟩
    · exact Or.inl (by rw [hsame2, hsame])
    · exact Or.inr ⟨hem, s', hs', hem'⟩
  · rcases h12 p s' hs' with hsame2 | ⟨_, s2, hs2, hem2⟩
    · exact Or.inr ⟨hem, s', by rw [hsame2]; exact hs', hem'⟩
    · exact Or.inr ⟨hem, s2, hs2, hem2⟩

/-- A token put at the end of the heap leaves the walks as they are. -/
theorem Heap.keepsWalks_append (lg : Linguist) (h : Heap) (t : Token) :
    Heap.KeepsWalks lg h (h ++ [t]) :=
  fun _ _ hs => Or.inl (Heap.deref_append_lt h t (Heap.lt_of_searchState hs))

/-- A token with an emitting state that is replaced by one with an emitting state leaves the
walks as they are. -/
theorem Heap.keepsWalks_store {lg : Linguist} {h : Heap} {b : Ptr} {t : Token}
    {s s' : SearchState} (hb : (h.deref b).searchState = some s) (hem : lg.isEmitting s = true)
    (ht : t.searchState = some s') (hem' : lg.isEmitting s' = true) :
    Heap.KeepsWalks lg h (h.store b t) := by
  intro p sp hsp
  by_cases hpb : p = b
  · subst hpb
    rw [hb] at hsp
    cases hsp
    exact Or.inr ⟨hem, s', by rw [Heap.deref_store_same h t (Heap.lt_of_searchState hb)]; exact ht,
      hem'⟩
  · exact Or.inl (Heap.deref_store_ne h t hpb)

/-- What a walk reads stays when the heap keeps the walks. -/
theorem Chain.keeps {lg : Linguist} {h h' : Heap} {t : Option Ptr} {path : List SearchState}
    (hchain : Chain lg h t path) (hkeep : Heap.KeepsWalks lg h h') : Chain lg h' t path := by
  induction hchain with
  | none => exact Chain.none
  | emitting hs hem =>
    rcases hkeep _ _ hs with hsame | ⟨_, s', hs', hem'⟩
    · exact Chain.emitting (by rw [hsame]; exact hs) hem
    · exact Chain.emitting hs' hem'
  | step hs hne hlt _ ih =>
    rcases hkeep _ _ hs with hsame | ⟨hem, _⟩
    · exact Chain.step (by rw [hsame]; exact hs) hne (by rw [hsame]; exact hlt)
        (by rw [hsame]; exact ih)
    · rw [hne] at hem; cases hem

/-- A walk from the token `p` meets at most `p + 1` non-emitting tokens. -/
theorem Chain.length_le {lg : Linguist} {h : Heap} {t : Option Ptr} {path : List SearchState}
    (hchain : Chain lg h t path) : ∀ p : Nat, t = some p → path.length ≤ p + 1 := by
  induction hchain with
  | none => intro p _; simp
  | emitting _ _ => intro p _; simp
  | @step p0 s path hs hne hlt hrest ih =>
    intro p hp
    cases hp
    cases hpred : (h.deref p0).predecessor with
    | none =>
      rw [hpred] at hrest
      cases hrest
      simp
    | some q =>
      have hlen : path.length ≤ q + 1 := ih q hpred
      simp only [List.length_cons]
      exact Nat.succ_le_succ (le_trans hlen (Nat.succ_le_of_lt (hlt q hpred)))

/-- The loop of `isVisited` on a walk that the fuel covers: it says whether the state is among
those of the walk. -/
theorem WPBFSM.isVisitedLoop_chain {lg : Linguist} {h : Heap} {t : Option Ptr}
    {path : List SearchState} (hchain : Chain lg h t path) (c : SearchState) :
    ∀ fuel, path.length < fuel →
      WPBFSM.isVisitedLoop lg h (some c) fuel t = .ok (decide (c ∈ path)) := by
  induction hchain with
  | none =>
    intro fuel hfuel
    cases fuel with
    | zero => simp at hfuel
    | succ fuel => simp [WPBFSM.isVisitedLoop]
  | emitting hs hem =>
    intro fuel hfuel
    cases fuel with
    | zero => simp at hfuel
    | succ fuel => simp [WPBFSM.isVisitedLoop, Token.IsEmitting, hs, hem]
  | @step p0 s path hs hne hlt hrest ih =>
    intro fuel hfuel
    cases fuel with
    | zero => simp at hfuel
    | succ fuel =>
      have hfuel' : path.length < fuel := by
        simp only [List.length_cons] at hfuel; omega
      simp only [WPBFSM.isVisitedLoop, Token.IsEmitting, hs, hne, Res.bind_ok,
        Bool.false_eq_true, if_false, Option.some.injEq, GetPredecessor, ih fuel hfuel']
      by_cases hcs : c = s
      · simp [hcs]
      · simp [hcs]

/-- Distinct states below `n` are at most `n`. -/
theorem length_le_of_nodup_of_lt {path : List SearchState} {n : Nat} (hnodup : path.Nodup)
    (hlt : ∀ s, s ∈ path → s < n) : path.length ≤ n := by
  have hsub : path ⊆ List.range n := fun s hs => List.mem_range.mpr (hlt s hs)
  have := (List.subperm_of_subset hnodup hsub).length_le
  simpa using this

/-- The token at the start of a walk is in the heap. -/
theorem Chain.lt_length {lg : Linguist} {h : Heap} {p : Ptr} {path : List SearchState}
    (hchain : Chain lg h (some p) path) : p < h.length := by
  cases hchain with
  | emitting hs _ => exact Heap.lt_of_searchState hs
  | step hs _ _ _ => exact Heap.lt_of_searchState hs

/-- `isVisited` on a token that was just made for the state `c` with the predecessor `token`:
it says whether `c` is among the states of the walk from `token`. -/
theorem WPBFSM.isVisited_made {lg : Linguist} {m : WPBFSM.Manager} {h : Heap} {made : Token}
    {token : Nat} {c : SearchState} {path : List SearchState}
    (hheap : m.heap = h ++ [made]) (hstate : made.searchState = some c)
    (hpred : made.predecessor = some token) (hchain : Chain lg h (some token) path) :
    WPBFSM.isVisited lg m h.length = .ok (decide (c ∈ path)) := by
  have hlen := hchain.length_le token rfl
  have htok : token < h.length := hchain.lt_length
  simp only [WPBFSM.isVisited, hheap, Heap.deref_append_length, hstate, GetPredecessor, hpred]
  refine WPBFSM.isVisitedLoop_chain (hchain.keeps (Heap.keepsWalks_append lg h made)) c _ ?_
  simp only [List.length_append, List.length_singleton]
  omega

/-- One pass of the arc loop of the fast match does not diverge when the nested calls do not,
and keeps what the fast match relies on. -/
theorem WPBFLSM.fastMatchArc_terminates (fm : Linguist) (n : Nat)
    (recurse : WPBFLSM.Manager → Ptr → Res WPBFLSM.Manager) (token : Nat)
    (path : List SearchState)
    (hrec : ∀ (m : WPBFLSM.Manager) (tok : Nat) (path' : List SearchState),
        WPBFLSM.FastInv fm m → Chain fm m.heap (some tok) path' → path'.Nodup →
        (∀ s, s ∈ path' → s < n) → path.length < path'.length →
        recurse m tok ≠ .diverges ∧
          ∀ m', recurse m tok = .ok m' →
            WPBFLSM.FastInv fm m' ∧ Heap.KeepsWalks fm m.heap m'.heap)
    (arc : SearchStateArc) (m : WPBFLSM.Manager) (harc : arc.state < n)
    (hinv : WPBFLSM.FastInv fm m) (hchain : Chain fm m.heap (some token) path)
    (hnodup : path.Nodup) (hbound : ∀ s, s ∈ path → s < n) :
    WPBFLSM.fastMatchArc fm recurse token arc m ≠ .diverges ∧
      ∀ m', WPBFLSM.fastMatchArc fm recurse token arc m = .ok m' →
        WPBFLSM.FastInv fm m' ∧ Heap.KeepsWalks fm m.heap m'.heap := by
  have htok : token < m.heap.length := hchain.lt_length
  have hkeep := hinv.keep
  have hpredOk : m.getResultListPredecessor fm m.heap token = .ok (m.heap, some token) := by
    simp only [TokenSearchManager.getResultListPredecessor, hkeep, if_true]
  simp only [WPBFLSM.fastMatchArc, hpredOk, Res.bind_ok]
  by_cases hem : fm.isEmitting arc.state = true
  · simp only [hem, Bool.not_true, Bool.false_eq_true, if_false]
    cases hbest : WPBFLSM.getFastMatchBestToken m arc.state with
    | none =>
      have hbest' : WPBFLSM.getFastMatchBestToken
          { m with heap := m.heap } arc.state = none := hbest
      simp only [hbest']
      cases hal : m.fastmatchActiveList with
      | none =>
        simp only [WPBFLSM.setFastMatchBestToken, hal]
        exact ⟨by simp, fun m' h => nomatch h⟩
      | some al =>
        have hsimple := hinv.simple al hal
        cases al with
        | partition l => exact absurd hsimple (by simp [ActiveList.IsSimple])
        | simple l =>
          simp only [WPBFLSM.setFastMatchBestToken, hal, ActiveList.Add, Res.bind_ok, newToken,
            Heap.alloc]
          refine ⟨by simp, ?_⟩
          intro m' hm'
          simp only [Res.ok.injEq] at hm'
          subst hm'
          refine ⟨⟨hkeep, ?_, ?_⟩, Heap.keepsWalks_append fm _ _⟩
          · intro s b hb
            simp only [WPBFLSM.getFastMatchBestToken, List.lookup] at hb
            split at hb
            · simp only [Option.some.injEq] at hb
              subst hb
              exact ⟨arc.state, by simp [Heap.deref_append_length, Token.make], hem⟩
            · obtain ⟨s', hs', hem'⟩ := hinv.recorded s b hb
              exact ⟨s', by
                show (Heap.deref (m.heap ++ _) b).searchState = some s'
                rw [Heap.deref_append_lt _ _ (Heap.lt_of_searchState hs')]; exact hs', hem'⟩
          · intro al hal'
            simp only [Option.some.injEq] at hal'
            subst hal'
            simp [ActiveList.IsSimple]
    | some b =>
      have hbest' : WPBFLSM.getFastMatchBestToken
          { m with heap := m.heap } arc.state = some b := hbest
      simp only [hbest']
      obtain ⟨sb, hsb, hemb⟩ := hinv.recorded arc.state b hbest
      have hb : b < m.heap.length := Heap.lt_of_searchState hsb
      split
      · refine ⟨by simp, ?_⟩
        intro m' hm'
        simp only [Res.ok.injEq] at hm'
        subst hm'
        refine ⟨⟨hkeep, ?_, hinv.simple⟩,
          Heap.keepsWalks_store hsb hemb (by simp [Token.Update]) hem⟩
        intro s b' hb'
        obtain ⟨s', hs', hem'⟩ := hinv.recorded s b' hb'
        by_cases hbb : b' = b
        · subst hbb
          exact ⟨arc.state, by
            show (Heap.deref (m.heap.store b' _) b').searchState = some arc.state
            rw [Heap.deref_store_same _ _ hb]; simp [Token.Update], hem⟩
        · exact ⟨s', by
            show (Heap.deref (m.heap.store b _) b').searchState = some s'
            rw [Heap.deref_store_ne _ _ hbb]; exact hs', hem'⟩
      · refine ⟨by simp, ?_⟩
        intro m' hm'
        simp only [Res.ok.injEq] at hm'
        subst hm'
        exact ⟨⟨hkeep, hinv.recorded, hinv.simple⟩, Heap.keepsWalks_refl fm _⟩
  · have hne : fm.isEmitting arc.state = false := by simpa using hem
    simp only [hne, Bool.not_false, if_true, newToken, Heap.alloc]
    have hv : ∀ b : WPBFSM.Manager,
        b.heap = m.heap ++ [Token.make (some token) (some arc.state)
          (GetScore m.heap token + arc.probability) arc.insertionProbability
          arc.languageProbability m.currentFastMatchFrameNumber] →
        WPBFSM.isVisited fm b m.heap.length = .ok (decide (arc.state ∈ path)) :=
      fun b hb => WPBFSM.isVisited_made hb rfl rfl hchain
    rw [hv _ rfl, Res.bind_ok]
    have hinv1 : WPBFLSM.FastInv fm
        { m with
          heap := m.heap ++ [Token.make (some token) (some arc.state)
            (GetScore m.heap token + arc.probability) arc.insertionProbability
            arc.languageProbability m.currentFastMatchFrameNumber]
          tokensCreated := m.tokensCreated + 1 } := by
      refine ⟨hkeep, ?_, hinv.simple⟩
      intro s b hb
      obtain ⟨s', hs', hem'⟩ := hinv.recorded s b hb
      exact ⟨s', by
        show (Heap.deref (m.heap ++ _) b).searchState = some s'
        rw [Heap.deref_append_lt _ _ (Heap.lt_of_searchState hs')]; exact hs', hem'⟩
    by_cases hin : arc.state ∈ path
    · simp only [hin, decide_True, Bool.not_true, Bool.false_eq_true, if_false]
      refine ⟨by simp, ?_⟩
      intro m' hm'
      simp only [Res.ok.injEq] at hm'
      subst hm'
      exact ⟨hinv1, Heap.keepsWalks_append fm _ _⟩
    · simp only [hin, decide_False, Bool.not_false, if_true]
      have hchain1 : Chain fm
          (m.heap ++ [Token.make (some token) (some arc.state)
            (GetScore m.heap token + arc.probability) arc.insertionProbability
            arc.languageProbability m.currentFastMatchFrameNumber])
          (some m.heap.length) (arc.state :: path) := by
        refine Chain.step (s := arc.state) ?_ hne ?_ ?_
        · rw [Heap.deref_append_length]; rfl
        · intro q hq
          rw [Heap.deref_append_length] at hq
          cases hq
          exact htok
        · rw [Heap.deref_append_length]
          exact hchain.keeps (Heap.keepsWalks_append fm _ _)
      obtain ⟨hnd, hok⟩ := hrec _ m.heap.length (arc.state :: path) hinv1 hchain1
        (List.nodup_cons.mpr ⟨hin, hnodup⟩)
        (fun s hs => by
          rcases List.mem_cons.mp hs with rfl | hs
          · exact harc
          · exact hbound s hs)
        (by simp)
      refine ⟨hnd, ?_⟩
      intro m' hm'
      obtain ⟨hinv', hkeeps'⟩ := hok m' hm'
      exact ⟨hinv', Heap.keepsWalks_trans (Heap.keepsWalks_append fm _ _) hkeeps'⟩

/-- The arc loop of the fast match does not diverge when the nested calls do not, and keeps
what the fast match relies on. -/
theorem WPBFLSM.fastMatchArcLoop_terminates (fm : Linguist) (n : Nat)
    (recurse : WPBFLSM.Manager → Ptr → Res WPBFLSM.Manager) (token : Nat)
    (path : List SearchState)
    (hrec : ∀ (m : WPBFLSM.Manager) (tok : Nat) (path' : List SearchState),
        WPBFLSM.FastInv fm m → Chain fm m.heap (some tok) path' → path'.Nodup →
        (∀ s, s ∈ path' → s < n) → path.length < path'.length →
        recurse m tok ≠ .diverges ∧
          ∀ m', recurse m tok = .ok m' →
            WPBFLSM.FastInv fm m' ∧ Heap.KeepsWalks fm m.heap m'.heap)
    (hnodup : path.Nodup) (hbound : ∀ s, s ∈ path → s < n) :
    ∀ (arcs : List SearchStateArc) (m : WPBFLSM.Manager),
      (∀ arc, arc ∈ arcs → arc.state < n) → WPBFLSM.FastInv fm m →
      Chain fm m.heap (some token) path →
      WPBFLSM.fastMatchArcLoop fm recurse token arcs m ≠ .diverges ∧
        ∀ m', WPBFLSM.fastMatchArcLoop fm recurse token arcs m = .ok m' →
          WPBFLSM.FastInv fm m' ∧ Heap.KeepsWalks fm m.heap m'.heap := by
  intro arcs
  induction arcs with
  | nil =>
    intro m _ hinv _
    refine ⟨by simp [WPBFLSM.fastMatchArcLoop], ?_⟩
    intro m' hm'
    simp only [WPBFLSM.fastMatchArcLoop, Res.ok.injEq] at hm'
    subst hm'
    exact ⟨hinv, Heap.keepsWalks_refl fm _⟩
  | cons arc rest ih =>
    intro m harcs hinv hchain
    obtain ⟨hnd, hok⟩ := WPBFLSM.fastMatchArc_terminates fm n recurse token path hrec arc m
      (harcs arc (List.mem_cons_self _ _)) hinv hchain hnodup hbound
    simp only [WPBFLSM.fastMatchArcLoop]
    refine ⟨Res.bind_ne_diverges hnd ?_, ?_⟩
    · intro m1 hm1
      obtain ⟨hinv1, hkeeps1⟩ := hok m1 hm1
      exact (ih m1 (fun a ha => harcs a (List.mem_cons_of_mem _ ha)) hinv1
        (hchain.keeps hkeeps1)).1
    · intro m' hm'
      obtain ⟨m1, hm1, hrest⟩ := Res.bind_eq_ok.mp hm'
      obtain ⟨hinv1, hkeeps1⟩ := hok m1 hm1
      obtain ⟨hinv', hkeeps'⟩ := (ih m1 (fun a ha => harcs a (List.mem_cons_of_mem _ ha)) hinv1
        (hchain.keeps hkeeps1)).2 m' hrest
      exact ⟨hinv', Heap.keepsWalks_trans hkeeps1 hkeeps'⟩

/-- On a graph whose arcs lead to states below `n`, a call of
`collectFastMatchSuccessorTokens` whose depth bound covers the states that are not yet on the
walk from its token does not diverge, and keeps what the fast match relies on. -/
theorem WPBFLSM.collectFastMatchSuccessorTokens_terminates (fm : Linguist) (n : Nat)
    (harcs : ∀ s arc, arc ∈ fm.successors s → arc.state < n) :
    ∀ (depth : Nat) (m : WPBFLSM.Manager) (token : Nat) (path : List SearchState),
      WPBFLSM.FastInv fm m → Chain fm m.heap (some token) path → path.Nodup →
      (∀ s, s ∈ path → s < n) → n + 1 ≤ depth + path.length →
      WPBFLSM.collectFastMatchSuccessorTokens fm depth m token ≠ .diverges ∧
        ∀ m', WPBFLSM.collectFastMatchSuccessorTokens fm depth m token = .ok m' →
          WPBFLSM.FastInv fm m' ∧ Heap.KeepsWalks fm m.heap m'.heap := by
  intro depth
  induction depth with
  | zero =>
    intro m token path _ _ hnodup hbound hdepth
    have := length_le_of_nodup_of_lt hnodup hbound
    omega
  | succ depth ih =>
    intro m token path hinv hchain hnodup hbound hdepth
    simp only [WPBFLSM.collectFastMatchSuccessorTokens]
    cases hstate : (m.heap.deref token).searchState with
    | none => exact ⟨by simp, fun m' h => nomatch h⟩
    | some state =>
      simp only []
      exact WPBFLSM.fastMatchArcLoop_terminates fm n _ token path
        (fun m1 tok path' hinv1 hchain1 hnodup1 hbound1 hlen =>
          ih m1 tok path' hinv1 hchain1 hnodup1 hbound1 (by omega))
        hnodup hbound (fm.successors state) m (fun arc ha => harcs state arc ha) hinv hchain

/-! ## C20: the non-emitting growth ends -/

/-- A write past the end of the heap changes nothing. -/
theorem Heap.store_of_length_le (h : Heap) (t : Token) {p : Ptr} (hp : h.length ≤ p) :
    h.store p t = h := by
  simp only [Heap.store]
  exact List.set_eq_of_length_le hp

/-- A token made with a predecessor in the heap that scores at least as much keeps the walks
going upwards. -/
theorem Heap.walksOrdered_append {lg : Linguist} {h : Heap} {made : Token} {token : Nat}
    (hord : Heap.WalksOrdered lg h) (htok : token < h.length)
    (hpred : made.predecessor = some token) (hscore : made.logTotalScore ≤ GetScore h token) :
    Heap.WalksOrdered lg (h ++ [made]) := by
  obtain ⟨g, hg⟩ := hord
  refine ⟨Function.update g h.length (g token - 1), ?_⟩
  intro t s hs hne p hp
  have ht : t < (h ++ [made]).length := Heap.lt_of_searchState hs
  simp only [List.length_append, List.length_singleton] at ht ⊢
  have htokne : (token : Nat) ≠ h.length := Nat.ne_of_lt htok
  by_cases hth : t = h.length
  · subst hth
    rw [Heap.deref_append_length] at hp
    rw [hpred] at hp
    cases hp
    refine ⟨Nat.lt_succ_of_lt htok, ?_⟩
    simp only [GetScore, Heap.deref_append_length, Heap.deref_append_lt h made htok,
      Function.update_same, Function.update_noteq htokne]
    simp only [GetScore] at hscore
    rcases lt_or_eq_of_le hscore with hlt | heq
    · exact Or.inl hlt
    · exact Or.inr ⟨heq, by omega⟩
  · have htlt : t < h.length := lt_of_le_of_ne (Nat.lt_succ_iff.mp ht) hth
    rw [Heap.deref_append_lt h made htlt] at hs hp
    obtain ⟨hplt, hrel⟩ := hg t s hs hne p hp
    have hpne : (p : Nat) ≠ h.length := Nat.ne_of_lt hplt
    refine ⟨Nat.lt_succ_of_lt hplt, ?_⟩
    simp only [GetScore, Heap.deref_append_lt h made htlt, Heap.deref_append_lt h made hplt,
      Function.update_noteq hth, Function.update_noteq hpne]
    exact hrel

/-- A token that is updated to a strictly higher score, with a predecessor in the heap that
scores at least as much, keeps the walks going upwards. -/
theorem Heap.walksOrdered_store {lg : Linguist} {h : Heap} {updated : Token} {b token : Nat}
    (hord : Heap.WalksOrdered lg h) (hb : b < h.length) (htok : token < h.length)
    (hpred : updated.predecessor = some token) (hless : GetScore h b < updated.logTotalScore)
    (hscore : updated.logTotalScore ≤ GetScore h token) :
    Heap.WalksOrdered lg (h.store b updated) := by
  obtain ⟨g, hg⟩ := hord
  have htb : token ≠ b := by
    intro heq
    rw [heq] at hscore
    exact absurd (lt_of_lt_of_le hless hscore) (lt_irrefl _)
  refine ⟨Function.update g b (g token - 1), ?_⟩
  intro t s hs hne p hp
  rw [Heap.length_store]
  by_cases htb' : t = b
  · subst htb'
    rw [Heap.deref_store_same h updated hb] at hp
    rw [hpred] at hp
    cases hp
    refine ⟨htok, ?_⟩
    simp only [GetScore, Heap.deref_store_same h updated hb, Heap.deref_store_ne h updated htb,
      Function.update_same, Function.update_noteq htb]
    simp only [GetScore] at hscore
    rcases lt_or_eq_of_le hscore with hlt | heq
    · exact Or.inl hlt
    · exact Or.inr ⟨heq, by omega⟩
  · rw [Heap.deref_store_ne h updated htb'] at hs hp
    obtain ⟨hplt, hrel⟩ := hg t s hs hne p hp
    refine ⟨hplt, ?_⟩
    by_cases hpb : p = b
    · subst hpb
      left
      simp only [GetScore, Heap.deref_store_same h updated hb,
        Heap.deref_store_ne h updated htb']
      simp only [GetScore] at hrel hless
      rcases hrel with hlt | ⟨heq, _⟩
      · exact lt_trans hlt hless
      · rw [heq]; exact hless
    · simp only [GetScore, Heap.deref_store_ne h updated htb', Heap.deref_store_ne h updated hpb,
        Function.update_noteq htb', Function.update_noteq hpb]
      exact hrel

/-- In a heap whose walks go upwards by the ranking `g`, the loop of `isVisited` from a token
of the heap does not run out of a fuel that covers the tokens above it. -/
theorem WPBFSM.isVisitedLoop_ne_diverges {lg : Linguist} {h : Heap} (g : Ptr → Int)
    (hg : ∀ t s, (h.deref t).searchState = some s → lg.isEmitting s = false →
      ∀ p, (h.deref t).predecessor = some p →
        p < h.length ∧
          (GetScore h t < GetScore h p ∨ (GetScore h t = GetScore h p ∧ g t < g p)))
    (cur : Option SearchState) :
    ∀ (fuel : Nat) (t : Nat), t < h.length →
      ((Finset.range h.length).filter fun q =>
        GetScore h t < GetScore h q ∨ (GetScore h t = GetScore h q ∧ g t < g q)).card + 2
        ≤ fuel →
      WPBFSM.isVisitedLoop lg h cur fuel (some t) ≠ .diverges := by
  intro fuel
  induction fuel with
  | zero => intro t _ hfuel; omega
  | succ f ih =>
    intro t ht hfuel
    simp only [WPBFSM.isVisitedLoop, Token.IsEmitting]
    cases hst : (h.deref t).searchState with
    | none => simp
    | some s =>
      simp only [Res.bind_ok]
      by_cases hem : lg.isEmitting s = true
      · simp [hem]
      · have hne : lg.isEmitting s = false := by simpa using hem
        simp only [hne, Bool.false_eq_true, if_false]
        split
        · simp
        · cases hpred : GetPredecessor h t with
          | none =>
            cases f with
            | zero => omega
            | succ f => simp [WPBFSM.isVisitedLoop]
          | some p =>
            obtain ⟨hp, hrel⟩ := hg t s hst hne p hpred
            refine ih p hp ?_
            have hlt : ((Finset.range h.length).filter fun q =>
                GetScore h p < GetScore h q ∨ (GetScore h p = GetScore h q ∧ g p < g q)).card
                < ((Finset.range h.length).filter fun q =>
                GetScore h t < GetScore h q ∨ (GetScore h t = GetScore h q ∧ g t < g q)).card := by
              apply Finset.card_lt_card
              rw [Finset.ssubset_iff_of_subset]
              · refine ⟨p, ?_, ?_⟩
                · simp only [Finset.mem_filter, Finset.mem_range]
                  exact ⟨hp, hrel⟩
                · simp only [Finset.mem_filter, Finset.mem_range, not_and]
                  intro _ hself
                  omega
              · intro q hq
                simp only [Finset.mem_filter, Finset.mem_range] at hq ⊢
                refine ⟨hq.1, ?_⟩
                have := hq.2
                omega
            omega

/-- In a heap whose walks go upwards, `isVisited` does not diverge. -/
theorem WPBFSM.isVisited_ne_diverges {lg : Linguist} {m : WPBFSM.Manager}
    (hord : Heap.WalksOrdered lg m.heap) (t : Ptr) :
    WPBFSM.isVisited lg m t ≠ .diverges := by
  obtain ⟨g, hg⟩ := hord
  simp only [WPBFSM.isVisited]
  cases hpred : GetPredecessor m.heap t with
  | none => simp [WPBFSM.isVisitedLoop]
  | some p =>
    by_cases hp : p < m.heap.length
    · refine WPBFSM.isVisitedLoop_ne_diverges g hg _ _ p hp ?_
      have hcard : ((Finset.range m.heap.length).filter fun q =>
          GetScore m.heap p < GetScore m.heap q ∨
            (GetScore m.heap p = GetScore m.heap q ∧ g p < g q)).card
          < (Finset.range m.heap.length).card := by
        apply Finset.card_lt_card
        rw [Finset.ssubset_iff_of_subset (Finset.filter_subset _ _)]
        refine ⟨p, Finset.mem_range.mpr hp, ?_⟩
        simp only [Finset.mem_filter, Finset.mem_range, not_and]
        intro _ hself
        omega
      rw [Finset.card_range] at hcard
      omega
    · have hdef : m.heap.deref p = default := Heap.deref_of_length_le m.heap (not_lt.mp hp)
      simp only [WPBFSM.isVisitedLoop, Token.IsEmitting, hdef]
      simp [default]

theorem ActiveList.Add_of_simple {τ : Type} (score : τ → Int) {al : ActiveList τ} (p : τ)
    (hs : al.IsSimple) : ∃ al', al.Add score p = .ok al' ∧ al'.IsSimple := by
  cases al with
  | simple l => exact ⟨_, rfl, trivial⟩
  | partition l => exact absurd hs (by simp [ActiveList.IsSimple])

theorem ActiveList.Purge_of_simple {τ : Type} (score : τ → Int) {al : ActiveList τ}
    (hs : al.IsSimple) : ∃ al', al.Purge score = .ok al' ∧ al'.IsSimple := by
  cases al with
  | simple l => exact ⟨_, rfl, trivial⟩
  | partition l => exact absurd hs (by simp [ActiveList.IsSimple])

theorem ActiveList.NewInstance_simple {τ : Type} {al : ActiveList τ} (hs : al.IsSimple) :
    al.NewInstance.IsSimple := by
  cases al with
  | simple l => trivial
  | partition l => exact absurd hs (by simp [ActiveList.IsSimple])

theorem SimpleActiveListManager.listAt_ne_diverges (salm : SimpleActiveListManager) (i : Int) :
    salm.listAt i ≠ .diverges := by
  simp only [SimpleActiveListManager.listAt]
  split
  · split <;> simp
  · simp

theorem SimpleActiveListManager.setListAt_ne_diverges (salm : SimpleActiveListManager) (i : Int)
    (l : ActiveList Ptr) : salm.setListAt i l ≠ .diverges := by
  simp only [SimpleActiveListManager.setListAt]
  split <;> simp

/-- Lists that are simple stay simple, and as many, when one of them is replaced by a simple
list. -/
theorem SimpleActiveListManager.setListAt_simple {salm salm' : SimpleActiveListManager}
    {i : Int} {l : ActiveList Ptr} (h : salm.setListAt i l = .ok salm')
    (hs : ∀ al, al ∈ salm.currentActiveLists → al.IsSimple) (hl : l.IsSimple) :
    (∀ al, al ∈ salm'.currentActiveLists → al.IsSimple) ∧
      salm'.currentActiveLists.length = salm.currentActiveLists.length := by
  rw [SimpleActiveListManager.setListAt_ok h]
  refine ⟨?_, List.length_set _ _ _⟩
  intro al hal
  rcases List.mem_or_eq_of_mem_set hal with hmem | heq
  · exact hs al hmem
  · rw [heq]; exact hl

/-- With simple lists `SimpleActiveListManager.Add` does not diverge and leaves simple lists,
as many as before. -/
theorem SimpleActiveListManager.Add_terminates (score : Ptr → Int)
    (salm : SimpleActiveListManager) (order : Int) (p : Ptr)
    (hs : ∀ al, al ∈ salm.currentActiveLists → al.IsSimple) :
    salm.Add score order p ≠ .diverges ∧
      ∀ salm', salm.Add score order p = .ok salm' →
        (∀ al, al ∈ salm'.currentActiveLists → al.IsSimple) ∧
          salm'.currentActiveLists.length = salm.currentActiveLists.length := by
  simp only [SimpleActiveListManager.Add, SimpleActiveListManager.findListFor]
  cases hl : salm.listAt order with
  | panics => exact ⟨by simp, fun _ h => nomatch h⟩
  | diverges => exact absurd hl (SimpleActiveListManager.listAt_ne_diverges _ _)
  | ok l =>
    have hmem : l ∈ salm.currentActiveLists :=
      List.getElem?_mem (SimpleActiveListManager.listAt_ok hl).2
    obtain ⟨l', hadd, hl'⟩ := ActiveList.Add_of_simple score p (hs l hmem)
    simp only [Res.bind_ok, hadd]
    exact ⟨SimpleActiveListManager.setListAt_ne_diverges _ _ _,
      fun salm' h => SimpleActiveListManager.setListAt_simple h hs hl'⟩

/-- One pass of the arc loop, for a token of the heap that is the predecessor of what it
makes and an arc of probability at most 0: it does not diverge, and it keeps what the growth
relies on, the active list and the number of lists. -/
theorem termInv_processArc {lg : Linguist} {m : WPBFSM.Manager} {token : Nat}
    (state : SearchState) {arc : SearchStateArc} (hinv : WPBFSM.TermInv lg m)
    (htok : token < m.heap.length) (harc : arc.probability ≤ 0) :
    WPBFSM.processArc lg m token state (some token) arc ≠ .diverges ∧
      ∀ m', WPBFSM.processArc lg m token state (some token) arc = .ok m' →
        WPBFSM.TermInv lg m' ∧ m'.activeList = m.activeList ∧
          m'.activeListManager.currentActiveLists.length
            = m.activeListManager.currentActiveLists.length ∧
          m.heap.length ≤ m'.heap.length := by
  have hentry : GetScore m.heap token + arc.probability ≤ GetScore m.heap token := by omega
  constructor
  · simp only [WPBFSM.processArc]
    refine Res.bind_ne_diverges ?_ ?_
    · split
      · simp only [WPBFSM.checkStateOrder]
        split
        · simp
        · split <;> simp
      · simp
    · intro _ _
      split
      · simp only [WPBFSM.activeListAdd, newToken, Heap.alloc, WPBFSM.setBestToken,
          Heap.deref_append_length, Token.make]
        refine Res.bind_ne_diverges
          (SimpleActiveListManager.Add_terminates _ _ _ _ hinv.simpleLists).1 ?_
        intro _ _; simp
      · split
        · split <;> simp
        · split
          · split <;> simp
          · simp
  · intro m' h
    unfold WPBFSM.processArc at h
    obtain ⟨_, _, h⟩ := Res.bind_eq_ok.mp h
    simp only at h
    split at h
    · simp only [WPBFSM.activeListAdd, newToken, Heap.alloc, WPBFSM.setBestToken,
        Heap.deref_append_length, Token.make] at h
      obtain ⟨alm, halm, h⟩ := Res.bind_eq_ok.mp h
      obtain ⟨hsimple, hlen⟩ :=
        (SimpleActiveListManager.Add_terminates _ _ _ _ hinv.simpleLists).2 alm halm
      cases h
      refine ⟨⟨hinv.keep, hsimple, hinv.simpleActive, ?_⟩, rfl, hlen, by simp⟩
      exact Heap.walksOrdered_append hinv.ordered htok rfl hentry
    · rename_i b hbest
      have hupd : GetScore m.heap b < GetScore m.heap token + arc.probability →
          Heap.WalksOrdered lg (m.heap.store b ((m.heap.deref b).Update (some token) arc.state
            (GetScore m.heap token + arc.probability) arc.insertionProbability
            arc.languageProbability m.currentCollectTime)) := by
        intro hless
        by_cases hb : b < m.heap.length
        · exact Heap.walksOrdered_store hinv.ordered hb htok rfl hless hentry
        · rw [Heap.store_of_length_le _ _ (not_lt.mp hb)]
          exact hinv.ordered
      split at h
      · rename_i hless
        split at h <;>
          (cases h
           exact ⟨⟨hinv.keep, hinv.simpleLists, hinv.simpleActive, hupd hless⟩, rfl, rfl,
             by simp [Heap.length_store]⟩)
      · split at h
        · split at h <;>
            (cases h
             exact ⟨⟨hinv.keep, hinv.simpleLists, hinv.simpleActive, hinv.ordered⟩, rfl, rfl,
               le_refl _⟩)
        · cases h
          exact ⟨hinv, rfl, rfl, le_refl _⟩

theorem termInv_arcLoop {lg : Linguist} {token : Nat} (state : SearchState) :
    ∀ (arcs : List SearchStateArc) (m : WPBFSM.Manager), WPBFSM.TermInv lg m →
      token < m.heap.length → (∀ arc, arc ∈ arcs → arc.probability ≤ 0) →
      WPBFSM.arcLoop lg token state (some token) arcs m ≠ .diverges ∧
        ∀ m', WPBFSM.arcLoop lg token state (some token) arcs m = .ok m' →
          WPBFSM.TermInv lg m' ∧ m'.activeList = m.activeList ∧
            m'.activeListManager.currentActiveLists.length
              = m.activeListManager.currentActiveLists.length := by
  intro arcs
  induction arcs with
  | nil =>
    intro m hinv _ _
    refine ⟨by simp [WPBFSM.arcLoop], ?_⟩
    intro m' h
    simp only [WPBFSM.arcLoop, Res.ok.injEq] at h
    subst h
    exact ⟨hinv, rfl, rfl⟩
  | cons arc rest ih =>
    intro m hinv htok harcs
    obtain ⟨hnd, hok⟩ := termInv_processArc state hinv htok
      (harcs arc (List.mem_cons_self _ _))
    simp only [WPBFSM.arcLoop]
    refine ⟨Res.bind_ne_diverges hnd ?_, ?_⟩
    · intro m1 hm1
      obtain ⟨hinv1, _, _, hlen1⟩ := hok m1 hm1
      exact (ih m1 hinv1 (lt_of_lt_of_le htok hlen1)
        (fun a ha => harcs a (List.mem_cons_of_mem _ ha))).1
    · intro m' hm'
      obtain ⟨m1, hm1, hrest⟩ := Res.bind_eq_ok.mp hm'
      obtain ⟨hinv1, hal1, hlists1, hlen1⟩ := hok m1 hm1
      obtain ⟨hinv', hal', hlists'⟩ := (ih m1 hinv1 (lt_of_lt_of_le htok hlen1)
        (fun a ha => harcs a (List.mem_cons_of_mem _ ha))).2 m' hrest
      exact ⟨hinv', by rw [hal', hal1], by rw [hlists', hlists1]⟩

/-- On a graph whose arcs have probabilities at most 0, `collectSuccessorTokens` does not
diverge and keeps what the growth relies on, the active list and the number of lists. -/
theorem termInv_collectSuccessorTokens {lg : Linguist}
    (harcs : ∀ s arc, arc ∈ lg.successors s → arc.probability ≤ 0) {m : WPBFSM.Manager}
    (hinv : WPBFSM.TermInv lg m) (token : Nat) :
    WPBFSM.collectSuccessorTokens lg m token ≠ .diverges ∧
      ∀ m', WPBFSM.collectSuccessorTokens lg m token = .ok m' →
        WPBFSM.TermInv lg m' ∧ m'.activeList = m.activeList ∧
          m'.activeListManager.currentActiveLists.length
            = m.activeListManager.currentActiveLists.length := by
  have hpredOk : m.getResultListPredecessor lg m.heap token = .ok (m.heap, some token) := by
    simp only [TokenSearchManager.getResultListPredecessor, hinv.keep, if_true]
  simp only [WPBFSM.collectSuccessorTokens, hpredOk, Res.bind_ok, Token.IsFinal,
    Token.IsEmitting]
  cases hstate : (m.heap.deref token).searchState with
  | none => exact ⟨by simp, fun _ h => nomatch h⟩
  | some state =>
    have htok : token < m.heap.length := Heap.lt_of_searchState hstate
    simp only [Res.bind_ok]
    split
    · refine ⟨by simp, ?_⟩
      intro m' h
      simp only [Res.ok.injEq] at h
      subst h
      exact ⟨⟨hinv.keep, hinv.simpleLists, hinv.simpleActive, hinv.ordered⟩, rfl, rfl⟩
    · have hloop := termInv_arcLoop state (lg.successors state) m hinv htok
        (fun arc ha => harcs state arc ha)
      have hm : ({ m with heap := m.heap } : WPBFSM.Manager) = m := rfl
      rw [hm]
      split
      · refine ⟨Res.bind_ne_diverges (WPBFSM.isVisited_ne_diverges hinv.ordered token) ?_, ?_⟩
        · intro visited _
          split
          · simp
          · exact hloop.1
        · intro m' h
          obtain ⟨visited, _, h⟩ := Res.bind_eq_ok.mp h
          split at h
          · simp only [Res.ok.injEq] at h
            subst h
            exact ⟨hinv, rfl, rfl⟩
          · exact hloop.2 m' h
      · simp only [Res.bind_ok, Bool.false_eq_true, if_false]
        exact hloop

theorem termInv_growBranchesLoop {lg : Linguist}
    (harcs : ∀ s arc, arc ∈ lg.successors s → arc.probability ≤ 0)
    {allowExpansion : Token → Bool} {threshold : Int} :
    ∀ (tokens : List (Option Ptr)) (m : WPBFSM.Manager), WPBFSM.TermInv lg m →
      WPBFSM.growBranchesLoop lg allowExpansion threshold tokens m ≠ .diverges ∧
        ∀ m', WPBFSM.growBranchesLoop lg allowExpansion threshold tokens m = .ok m' →
          WPBFSM.TermInv lg m' ∧ m'.activeList = m.activeList ∧
            m'.activeListManager.currentActiveLists.length
              = m.activeListManager.currentActiveLists.length := by
  intro tokens
  induction tokens with
  | nil =>
    intro m hinv
    refine ⟨by simp [WPBFSM.growBranchesLoop], ?_⟩
    intro m' h
    simp only [WPBFSM.growBranchesLoop, Res.ok.injEq] at h
    subst h
    exact ⟨hinv, rfl, rfl⟩
  | cons t rest ih =>
    intro m hinv
    cases t with
    | none => exact ⟨by simp [WPBFSM.growBranchesLoop], fun _ h => by
        simp [WPBFSM.growBranchesLoop] at h⟩
    | some token =>
      have hstep : (if GetScore m.heap token ≥ threshold ∧
            allowExpansion (m.heap.deref token) = true then
          WPBFSM.collectSuccessorTokens lg m token else .ok m) ≠ .diverges ∧
          ∀ m1, (if GetScore m.heap token ≥ threshold ∧
              allowExpansion (m.heap.deref token) = true then
            WPBFSM.collectSuccessorTokens lg m token else .ok m) = .ok m1 →
            WPBFSM.TermInv lg m1 ∧ m1.activeList = m.activeList ∧
              m1.activeListManager.currentActiveLists.length
                = m.activeListManager.currentActiveLists.length := by
        split
        · exact termInv_collectSuccessorTokens harcs hinv token
        · refine ⟨by simp, ?_⟩
          intro m1 h
          simp only [Res.ok.injEq] at h
          subst h
          exact ⟨hinv, rfl, rfl⟩
      simp only [WPBFSM.growBranchesLoop]
      refine ⟨Res.bind_ne_diverges hstep.1 ?_, ?_⟩
      · intro m1 hm1
        exact (ih m1 (hstep.2 m1 hm1).1).1
      · intro m' hm'
        obtain ⟨m1, hm1, hrest⟩ := Res.bind_eq_ok.mp hm'
        obtain ⟨hinv1, hal1, hlists1⟩ := hstep.2 m1 hm1
        obtain ⟨hinv', hal', hlists'⟩ := (ih m1 hinv1).2 m' hrest
        exact ⟨hinv', by rw [hal', hal1], by rw [hlists', hlists1]⟩

theorem termInv_growBranches {lg : Linguist}
    (harcs : ∀ s arc, arc ∈ lg.successors s → arc.probability ≤ 0)
    {allowExpansion : Token → Bool} {m : WPBFSM.Manager} (hinv : WPBFSM.TermInv lg m) :
    WPBFSM.growBranches lg allowExpansion m ≠ .diverges ∧
      ∀ m', WPBFSM.growBranches lg allowExpansion m = .ok m' →
        WPBFSM.TermInv lg m' ∧
          m'.activeListManager.currentActiveLists.length
            = m.activeListManager.currentActiveLists.length := by
  simp only [WPBFSM.growBranches]
  cases hal : m.activeList with
  | none => exact ⟨by simp, fun _ h => nomatch h⟩
  | some al =>
    obtain ⟨hnd, hok⟩ := @termInv_growBranchesLoop lg harcs allowExpansion
      (al.GetBeamThreshold (GetScore m.heap)) al.GetTokens m hinv
    exact ⟨hnd, fun m' h => ⟨(hok m' h).1, (hok m' h).2.2⟩⟩

theorem termInv_pruneBranches {lg : Linguist} {m : WPBFSM.Manager}
    (hinv : WPBFSM.TermInv lg m) :
    WPBFSM.pruneBranches m ≠ .diverges ∧
      ∀ m', WPBFSM.pruneBranches m = .ok m' →
        WPBFSM.TermInv lg m' ∧
          m'.activeListManager.currentActiveLists.length
            = m.activeListManager.currentActiveLists.length := by
  simp only [WPBFSM.pruneBranches]
  cases hal : m.activeList with
  | none => exact ⟨by simp, fun _ h => nomatch h⟩
  | some al =>
    obtain ⟨al', hpurge, hal'⟩ :=
      ActiveList.Purge_of_simple (GetScore m.heap) (hinv.simpleActive al hal)
    simp only [SimplePruner.Prune, hpurge, Res.bind_ok]
    refine ⟨by simp, ?_⟩
    intro m' h
    simp only [Res.ok.injEq] at h
    subst h
    refine ⟨⟨hinv.keep, hinv.simpleLists, ?_, hinv.ordered⟩, rfl⟩
    intro al2 h2
    simp only [Option.some.injEq] at h2
    subst h2
    exact hal'

theorem nonEmittingListIterator.Next_terminates (salm : SimpleActiveListManager) (i : Int) :
    nonEmittingListIterator.Next salm i ≠ .diverges ∧
      ∀ l, nonEmittingListIterator.Next salm i = .ok (some l) →
        l ∈ salm.currentActiveLists := by
  simp only [nonEmittingListIterator.Next]
  split
  · exact ⟨by simp, fun _ h => by simp at h⟩
  · have hcheck : (if salm.checkPriorLists = true then
        nonEmittingListIterator.checkPriorLists salm i else .ok ()) ≠ .diverges := by
      split
      · simp only [nonEmittingListIterator.checkPriorLists]
        split <;> simp
      · simp
    refine ⟨Res.bind_ne_diverges hcheck ?_, ?_⟩
    · intro _ _
      exact Res.bind_ne_diverges (SimpleActiveListManager.listAt_ne_diverges _ _)
        (fun _ _ => by simp)
    · intro l h
      obtain ⟨_, _, h⟩ := Res.bind_eq_ok.mp h
      obtain ⟨l', hl', h⟩ := Res.bind_eq_ok.mp h
      simp only [Res.ok.injEq, Option.some.injEq] at h
      subst h
      exact List.getElem?_mem (SimpleActiveListManager.listAt_ok hl').2

theorem nonEmittingListIterator.Remove_terminates (salm : SimpleActiveListManager) (i : Int)
    (hs : ∀ al, al ∈ salm.currentActiveLists → al.IsSimple) :
    nonEmittingListIterator.Remove salm i ≠ .diverges ∧
      ∀ salm', nonEmittingListIterator.Remove salm i = .ok salm' →
        (∀ al, al ∈ salm'.currentActiveLists → al.IsSimple) ∧
          salm'.currentActiveLists.length = salm.currentActiveLists.length := by
  simp only [nonEmittingListIterator.Remove]
  refine ⟨Res.bind_ne_diverges (SimpleActiveListManager.listAt_ne_diverges _ _)
    (fun _ _ => SimpleActiveListManager.setListAt_ne_diverges _ _ _), ?_⟩
  intro salm' h
  obtain ⟨l, hl, h⟩ := Res.bind_eq_ok.mp h
  exact SimpleActiveListManager.setListAt_simple h hs
    (ActiveList.NewInstance_simple
      (hs l (List.getElem?_mem (SimpleActiveListManager.listAt_ok hl).2)))

/-- The loop of `growNonEmittingBranches` does not diverge when its fuel covers the lists
that are left. -/
theorem termInv_growNonEmittingLoop_terminates {lg : Linguist}
    (harcs : ∀ s arc, arc ∈ lg.successors s → arc.probability ≤ 0)
    {allowExpansion : Token → Bool} :
    ∀ (fuel : Nat) (listPtr : Int) (m : WPBFSM.Manager), WPBFSM.TermInv lg m →
      ((m.activeListManager.currentActiveLists.length : Int) - 1 - (listPtr + 1)).toNat + 1
        ≤ fuel →
      WPBFSM.growNonEmittingLoop lg allowExpansion fuel listPtr m ≠ .diverges := by
  intro fuel
  induction fuel with
  | zero => intro listPtr m _ hfuel; omega
  | succ fuel ih =>
    intro listPtr m hinv hfuel
    simp only [WPBFSM.growNonEmittingLoop]
    split
    · rename_i hnext
      simp only [nonEmittingListIterator.HasNext, decide_eq_true_eq] at hnext
      obtain ⟨hnd, hmem⟩ :=
        nonEmittingListIterator.Next_terminates m.activeListManager (listPtr + 1)
      refine Res.bind_ne_diverges hnd ?_
      intro next hnextok
      cases next with
      | none =>
        refine ih (listPtr + 1) _ ⟨hinv.keep, hinv.simpleLists, (fun _ h => nomatch h),
          hinv.ordered⟩ ?_
        show ((m.activeListManager.currentActiveLists.length : Int) - 1
          - (listPtr + 1 + 1)).toNat + 1 ≤ fuel
        omega
      | some al =>
        have hal : al.IsSimple := hinv.simpleLists al (hmem al hnextok)
        obtain ⟨hndr, hokr⟩ := nonEmittingListIterator.Remove_terminates m.activeListManager
          (listPtr + 1) hinv.simpleLists
        refine Res.bind_ne_diverges hndr ?_
        intro alm halm
        obtain ⟨hsimple, hlen⟩ := hokr alm halm
        have hinv0 : WPBFSM.TermInv lg
            { m with activeList := some al, activeListManager := alm } := by
          refine ⟨hinv.keep, hsimple, ?_, hinv.ordered⟩
          intro al2 h2
          simp only [Option.some.injEq] at h2
          subst h2
          exact hal
        obtain ⟨hndp, hokp⟩ := termInv_pruneBranches hinv0
        refine Res.bind_ne_diverges hndp ?_
        intro m1 hm1
        obtain ⟨hinv1, hlen1⟩ := hokp m1 hm1
        obtain ⟨hndg, hokg⟩ := @termInv_growBranches lg harcs allowExpansion m1 hinv1
        refine Res.bind_ne_diverges hndg ?_
        intro m2 hm2
        obtain ⟨hinv2, hlen2⟩ := hokg m2 hm2
        refine ih (listPtr + 1) m2 hinv2 ?_
        have hsame : m2.activeListManager.currentActiveLists.length
            = m.activeListManager.currentActiveLists.length := by
          rw [hlen2, hlen1]; exact hlen
        rw [hsame]
        omega
    · simp

/-! ## C20: enough depth gives the result, and the claim -/

/-- One pass of the arc loop of the fast match is the same with a nested call that agrees
with the given one wherever that one does not diverge. -/
theorem WPBFLSM.fastMatchArc_congr (fm : Linguist)
    (recurse recurse' : WPBFLSM.Manager → Ptr → Res WPBFLSM.Manager)
    (hagree : ∀ m t, recurse m t ≠ .diverges → recurse' m t = recurse m t) (token : Ptr)
    (arc : SearchStateArc) (m : WPBFLSM.Manager)
    (hnd : WPBFLSM.fastMatchArc fm recurse token arc m ≠ .diverges) :
    WPBFLSM.fastMatchArc fm recurse' token arc m = WPBFLSM.fastMatchArc fm recurse token arc m := by
  simp only [WPBFLSM.fastMatchArc] at hnd ⊢
  cases hpred : m.getResultListPredecessor fm m.heap token with
  | panics => rfl
  | diverges => rfl
  | ok r =>
    rw [hpred] at hnd
    simp only [Res.bind_ok] at hnd ⊢
    split
    · rename_i hne
      simp only [hne, if_true] at hnd
      cases hvis : WPBFSM.isVisited fm
          ({ m with
            heap := (newToken r.1 r.2 (some arc.state) (GetScore m.heap token + arc.probability)
              arc.insertionProbability arc.languageProbability m.currentFastMatchFrameNumber).1
            tokensCreated := m.tokensCreated + 1 } :
            WPBFLSM.Manager).toWordPruningBreadthFirstSearchManager
          (newToken r.1 r.2 (some arc.state) (GetScore m.heap token + arc.probability)
            arc.insertionProbability arc.languageProbability m.currentFastMatchFrameNumber).2 with
      | panics => rfl
      | diverges => rfl
      | ok visited =>
        rw [hvis] at hnd
        simp only [Res.bind_ok] at hnd ⊢
        split
        · rename_i hnot
          simp only [hnot, if_true] at hnd
          exact hagree _ _ hnd
        · rfl
    · rfl

/-- The arc loop of the fast match is the same with a nested call that agrees with the given
one wherever that one does not diverge. -/
theorem WPBFLSM.fastMatchArcLoop_congr (fm : Linguist)
    (recurse recurse' : WPBFLSM.Manager → Ptr → Res WPBFLSM.Manager)
    (hagree : ∀ m t, recurse m t ≠ .diverges → recurse' m t = recurse m t) (token : Ptr) :
    ∀ (arcs : List SearchStateArc) (m : WPBFLSM.Manager),
      WPBFLSM.fastMatchArcLoop fm recurse token arcs m ≠ .diverges →
      WPBFLSM.fastMatchArcLoop fm recurse' token arcs m
        = WPBFLSM.fastMatchArcLoop fm recurse token arcs m := by
  intro arcs
  induction arcs with
  | nil => intro m _; rfl
  | cons arc rest ih =>
    intro m hnd
    simp only [WPBFLSM.fastMatchArcLoop] at hnd ⊢
    cases harc : WPBFLSM.fastMatchArc fm recurse token arc m with
    | diverges => rw [harc] at hnd; exact absurd rfl hnd
    | panics =>
      rw [WPBFLSM.fastMatchArc_congr fm recurse recurse' hagree token arc m (by rw [harc]; simp),
        harc]
      rfl
    | ok m1 =>
      rw [WPBFLSM.fastMatchArc_congr fm recurse recurse' hagree token arc m (by rw [harc]; simp),
        harc]
      rw [harc] at hnd
      simp only [Res.bind_ok] at hnd ⊢
      exact ih m1 hnd

/-- A call of `collectFastMatchSuccessorTokens` that does not diverge is the same with a
higher bound on the depth. -/
theorem WPBFLSM.collectFastMatchSuccessorTokens_succ (fm : Linguist) :
    ∀ (depth : Nat) (m : WPBFLSM.Manager) (token : Ptr),
      WPBFLSM.collectFastMatchSuccessorTokens fm depth m token ≠ .diverges →
      WPBFLSM.collectFastMatchSuccessorTokens fm (depth + 1) m token
        = WPBFLSM.collectFastMatchSuccessorTokens fm depth m token := by
  intro depth
  induction depth with
  | zero => intro m token hnd; exact absurd rfl hnd
  | succ depth ih =>
    intro m token hnd
    simp only [WPBFLSM.collectFastMatchSuccessorTokens] at hnd ⊢
    split
    · rfl
    · rename_i state hstate
      simp only [hstate] at hnd
      exact WPBFLSM.fastMatchArcLoop_congr fm _ _ ih token _ m hnd

theorem WPBFLSM.collectFastMatchSuccessorTokens_add (fm : Linguist) (depth : Nat)
    (m : WPBFLSM.Manager) (token : Ptr)
    (hnd : WPBFLSM.collectFastMatchSuccessorTokens fm depth m token ≠ .diverges) :
    ∀ k, WPBFLSM.collectFastMatchSuccessorTokens fm (depth + k) m token
      = WPBFLSM.collectFastMatchSuccessorTokens fm depth m token := by
  intro k
  induction k with
  | zero => rfl
  | succ k ih =>
    rw [← Nat.add_assoc, WPBFLSM.collectFastMatchSuccessorTokens_succ fm (depth + k) m token
      (by rw [ih]; exact hnd), ih]

/-- A heap in which every token with a predecessor passes the check of the order has walks
that go upwards. -/
theorem Heap.walksOrdered_of_check (lg : Linguist) (h : Heap) (g : Ptr → Int)
    (hall : h.allWithPredecessor (fun t p =>
      decide (p < h.length ∧
        (GetScore h t < GetScore h p ∨ (GetScore h t = GetScore h p ∧ g t < g p)))) = true) :
    Heap.WalksOrdered lg h := by
  refine ⟨g, ?_⟩
  intro t s hs _ p hp
  have := Heap.allWithPredecessor_spec hall t p (Heap.lt_of_searchState hs) hp
  simpa using this

/-- C20.  Let all tokens be kept.  On a search graph whose arcs have log probabilities, at
most 0, let the manager have simple active lists and a heap in which the walks of `isVisited`
go upwards: then `growNonEmittingBranches`, which visits each non-emitting list once, does
not diverge, whatever cycles of non-emitting states the graph has.  On a fast-match graph
whose arcs lead to states below `n`, let the fast-match list be simple, the tokens of the
fast-match map have emitting states, and `token` start a walk that meets distinct states
below `n`, as a token with an emitting state does: then `collectFastMatchSuccessorTokens`
nests its calls at most `n + 1` deep, so that with any bound on the depth from `n + 1` on it
does not diverge and gives one and the same result. -/
theorem non_emitting_growth_terminates (lg fm : Linguist) (n : Nat)
    (allowExpansion : Token → Bool) (m : WPBFSM.Manager) (lm : WPBFLSM.Manager) (token : Nat)
    (path : List SearchState)
    (harcs : ∀ s arc, arc ∈ lg.successors s → arc.probability ≤ 0)
    (hinv : WPBFSM.TermInv lg m)
    (hstates : ∀ s arc, arc ∈ fm.successors s → arc.state < n)
    (hfast : WPBFLSM.FastInv fm lm) (hchain : Chain fm lm.heap (some token) path)
    (hnodup : path.Nodup) (hbound : ∀ s, s ∈ path → s < n) :
    WPBFSM.growNonEmittingBranches lg allowExpansion m ≠ .diverges ∧
      ∀ depth, n + 1 ≤ depth →
        WPBFLSM.collectFastMatchSuccessorTokens fm depth lm token ≠ .diverges ∧
          WPBFLSM.collectFastMatchSuccessorTokens fm depth lm token
            = WPBFLSM.collectFastMatchSuccessorTokens fm (n + 1) lm token := by
  constructor
  · simp only [WPBFSM.growNonEmittingBranches]
    refine termInv_growNonEmittingLoop_terminates harcs _ _ m hinv ?_
    omega
  · intro depth hdepth
    have hbase := (WPBFLSM.collectFastMatchSuccessorTokens_terminates fm n hstates (n + 1) lm
      token path hfast hchain hnodup hbound (by omega)).1
    have heq := WPBFLSM.collectFastMatchSuccessorTokens_add fm (n + 1) lm token hbase
      (depth - (n + 1))
    have hd : n + 1 + (depth - (n + 1)) = depth := by omega
    rw [hd] at heq
    exact ⟨by rw [heq]; exact hbase, heq⟩

/-- C20 on two graphs with cycles.  On `epsilonLoop`, whose non-emitting state 70 leads to
itself, the growth of the non-emitting lists of `atEpsilonLoop` ends with the token 2 of the
emitting state 71 in the list of order 1.  On `phoneLoop`, whose states are below 43, the
fast match from the token 0 of the phone 41 ends with four tokens, at every depth from 44 on;
the depth 1 is too small for it. -/
theorem non_emitting_growth_terminates_witness :
    (WPBFSM.growNonEmittingBranches epsilonLoop (fun _ => true) atEpsilonLoop).bind
        (fun m => .ok (m.heap.length, m.bestTokenMap)) = .ok (3, [(71, 2), (70, 1)]) ∧
    (WPBFLSM.collectFastMatchSuccessorTokens phoneLoop 44 fastMatchOnePhone 0).bind
        (fun m => .ok (m.heap.length, m.fastMatchBestTokenMap)) = .ok (4, [(42, 3), (41, 1)]) ∧
    WPBFLSM.collectFastMatchSuccessorTokens phoneLoop 1 fastMatchOnePhone 0 = .diverges ∧
    (WPBFSM.growNonEmittingBranches epsilonLoop (fun _ => true) atEpsilonLoop ≠ .diverges ∧
      ∀ depth, 43 + 1 ≤ depth →
        WPBFLSM.collectFastMatchSuccessorTokens phoneLoop depth fastMatchOnePhone 0 ≠ .diverges ∧
          WPBFLSM.collectFastMatchSuccessorTokens phoneLoop depth fastMatchOnePhone 0
            = WPBFLSM.collectFastMatchSuccessorTokens phoneLoop (43 + 1) fastMatchOnePhone 0) :=
  ⟨by decide!, by decide!, by decide!,
    non_emitting_growth_terminates epsilonLoop phoneLoop 43 (fun _ => true) atEpsilonLoop
      fastMatchOnePhone 0 []
      (by
        intro s arc harc
        simp only [epsilonLoop] at harc
        split_ifs at harc <;> simp at harc
        · rcases harc with h | h <;> simp [h]
        · simp [harc])
      ⟨rfl,
        (by
          intro al hal
          simp only [atEpsilonLoop, List.mem_cons, List.mem_singleton, List.not_mem_nil,
            or_false] at hal
          rcases hal with h | h <;> rw [h] <;> exact trivial),
        (by
          intro al hal
          simp only [atEpsilonLoop, Option.some.injEq] at hal
          rw [← hal]
          exact trivial),
        Heap.walksOrdered_of_check epsilonLoop atEpsilonLoop.heap (fun _ => 0) (by decide!)⟩
      (by
        intro s arc harc
        simp only [phoneLoop] at harc
        split_ifs at harc <;> simp at harc
        all_goals (rcases harc with h | h <;> simp [h]))
      ⟨rfl,
        (by
          intro s b hb
          simp [WPBFLSM.getFastMatchBestToken, fastMatchOnePhone, lookaheadOver] at hb),
        (by
          intro al hal
          simp only [fastMatchOnePhone, Option.some.injEq] at hal
          rw [← hal]
          exact trivial)⟩
      (Chain.emitting (s := 41) (by decide!) (by decide))
      List.nodup_nil
      (fun _ h => absurd h (List.not_mem_nil _))⟩

/-! ## C27 to C30: the active lists and their manager -/

/-- C30.  For a simple and for a partition active list, `GetBeamThreshold()` is
`GetBestScore()` plus the field `logRelativeBeamWidth`, and `GetBestScore()` is the score of
the best token, or `-MaxFloat64` when no best token is set. -/
theorem beam_threshold_is_best_score_plus_relative_width {τ : Type} (score : τ → Int)
    (al : ActiveList τ) :
    al.GetBeamThreshold score = al.GetBestScore score + al.logRelativeBeamWidth ∧
    (∀ b, al.GetBestToken = some b → al.GetBestScore score = score b) ∧
    (al.GetBestToken = none → al.GetBestScore score = -maxFloat64) := by
  cases al with
  | simple l =>
    refine ⟨rfl, ?_, ?_⟩
    · intro b hb
      simp only [ActiveList.GetBestToken, SimpleActiveList.GetBestToken] at hb
      simp [ActiveList.GetBestScore, SimpleActiveList.GetBestScore, hb]
    · intro hb
      simp only [ActiveList.GetBestToken, SimpleActiveList.GetBestToken] at hb
      simp [ActiveList.GetBestScore, SimpleActiveList.GetBestScore, hb]
  | partition l =>
    refine ⟨rfl, ?_, ?_⟩
    · intro b hb
      simp only [ActiveList.GetBestToken, PartitionActiveList.GetBestToken] at hb
      simp [ActiveList.GetBestScore, PartitionActiveList.GetBestScore, hb]
    · intro hb
      simp only [ActiveList.GetBestToken, PartitionActiveList.GetBestToken] at hb
      simp [ActiveList.GetBestScore, PartitionActiveList.GetBestScore, hb]

/-- C29.  `NewInstance` on a simple or a partition active list gives a list of the same kind
with `Size()` 0, no best token and no token held, whose `absoluteBeamWidth` and
`logRelativeBeamWidth` are those of the receiver.  The method writes no field of its
receiver: it is a function of the receiver that returns the new list only. -/
theorem new_instance_is_empty_with_same_beam {τ : Type} (al : ActiveList τ) :
    al.NewInstance.Size = 0 ∧ al.NewInstance.GetBestToken = none ∧ al.NewInstance.held = [] ∧
    al.NewInstance.absoluteBeamWidth = al.absoluteBeamWidth ∧
    al.NewInstance.logRelativeBeamWidth = al.logRelativeBeamWidth ∧
    (al.IsSimple ↔ al.NewInstance.IsSimple) := by
  cases al with
  | simple l =>
    exact ⟨rfl, rfl, rfl, rfl, rfl, Iff.rfl⟩
  | partition l =>
    exact ⟨rfl, rfl, ActiveList.held_NewInstance _, rfl, rfl, Iff.rfl⟩

/-- `PartitionActiveList.Add`, when it ends well, leaves the token in the backing slice. -/
theorem PartitionActiveList.AddAux_mem {τ : Type} (score : τ → Int) (p : τ) :
    ∀ (fuel : Nat) (pal pal' : PartitionActiveList τ),
      PartitionActiveList.AddAux score fuel pal p = .ok pal' →
      p ∈ pal'.tokenList.filterMap id := by
  intro fuel
  induction fuel with
  | zero => intro pal pal' h; simp [PartitionActiveList.AddAux] at h
  | succ fuel ih =>
    intro pal pal' h
    simp only [PartitionActiveList.AddAux] at h
    obtain ⟨pal1, h1, h2⟩ := Res.bind_eq_ok.mp h
    have htl : pal'.tokenList = pal1.tokenList := by
      simp only [Res.ok.injEq] at h2
      rw [← h2]; split <;> rfl
    rw [htl]
    split at h1
    · rename_i hsize
      obtain ⟨tl, hset, h3⟩ := Res.bind_eq_ok.mp h1
      simp only [Res.ok.injEq] at h3
      subst h3
      simp only [setAt] at hset
      split at hset
      · rename_i hidx
        simp only [Res.ok.injEq] at hset
        subst hset
        simp only [List.mem_filterMap, id_eq, exists_eq_right]
        exact List.mem_iff_getElem?.mpr ⟨pal.size.toNat, by
          rw [List.getElem?_set_eq_of_lt]
          exact hidx.2⟩
      · cases hset
    · exact ih pal.doubleCapacity pal1 h1

/-- `Add`, when it ends well, leaves the token among those the list holds. -/
theorem ActiveList.Add_mem_held {τ : Type} (score : τ → Int) (al al' : ActiveList τ) (p : τ)
    (h : al.Add score p = .ok al') : p ∈ al'.held := by
  cases al with
  | simple l =>
    simp only [ActiveList.Add, Res.ok.injEq] at h
    subst h
    have htl : (l.Add score p).tokenList = l.tokenList ++ [p] := by
      simp only [SimpleActiveList.Add]; split <;> rfl
    simp [ActiveList.held, htl]
  | partition l =>
    simp only [ActiveList.Add] at h
    obtain ⟨l', h1, h2⟩ := Res.bind_eq_ok.mp h
    simp only [Res.ok.injEq] at h2
    subst h2
    exact PartitionActiveList.AddAux_mem score p _ l l' h1

/-- C28.  `SimpleActiveListManager.Add` with a token whose search state has the order
`order`, a position of the lists of the manager: the call is `Add` on the list at that
position, and when it ends well the list at that position is the one `Add` made, it holds the
token, and every other list, like the rest of the manager, is as before. -/
theorem manager_add_goes_to_the_list_of_the_order (score : Ptr → Int)
    (salm : SimpleActiveListManager) (order : Int) (token : Ptr) (l : ActiveList Ptr)
    (horder : 0 ≤ order) (hl : salm.currentActiveLists[order.toNat]? = some l) :
    salm.Add score order token
      = (l.Add score token).bind (fun l' =>
          .ok { salm with currentActiveLists := salm.currentActiveLists.set order.toNat l' }) ∧
    ∀ salm', salm.Add score order token = .ok salm' →
      (∃ l', l.Add score token = .ok l' ∧
        salm'.currentActiveLists[order.toNat]? = some l' ∧ token ∈ l'.held) ∧
      (∀ j : Nat, j ≠ order.toNat →
        salm'.currentActiveLists[j]? = salm.currentActiveLists[j]?) ∧
      salm'.currentActiveLists.length = salm.currentActiveLists.length ∧
      salm'.activeListFactories = salm.activeListFactories ∧
      salm'.checkPriorLists = salm.checkPriorLists := by
  have hlt : order.toNat < salm.currentActiveLists.length := by
    rcases List.getElem?_eq_some_iff.mp hl with ⟨h, _⟩
    exact h
  have heq : salm.Add score order token
      = (l.Add score token).bind (fun l' =>
          .ok { salm with currentActiveLists := salm.currentActiveLists.set order.toNat l' }) := by
    simp only [SimpleActiveListManager.Add, SimpleActiveListManager.findListFor,
      SimpleActiveListManager.listAt, horder, if_true, hl, Res.bind_ok,
      SimpleActiveListManager.setListAt, hlt, and_self]
  refine ⟨heq, ?_⟩
  intro salm' hok
  rw [heq] at hok
  obtain ⟨l', hl', hok⟩ := Res.bind_eq_ok.mp hok
  simp only [Res.ok.injEq] at hok
  subst hok
  refine ⟨⟨l', hl', ?_, ActiveList.Add_mem_held score l l' token hl'⟩, ?_, ?_, rfl, rfl⟩
  · simp [List.getElem?_set_eq_of_lt, hlt]
  · intro j hj
    simp [List.getElem?_set_ne (Ne.symm hj)]
  · simp

/-- C28 on the manager of `betweenFrames`, whose three lists are simple: the token 2 of the
unit state 30, of order 1, goes to the list at position 1. -/
theorem manager_add_goes_to_the_list_of_the_order_witness :
    smallGraph.order 30 = 1 ∧
    (betweenFrames.activeListManager.Add (GetScore betweenFrames.heap) 1 2).bind
        (fun salm => .ok (salm.currentActiveLists.map ActiveList.held))
      = .ok [[], [2], [4, 5, 6]] ∧
    (betweenFrames.activeListManager.Add (GetScore betweenFrames.heap) 1 2
      = ((ActiveList.simple (NewSimpleActiveList 5 (-100))).Add (GetScore betweenFrames.heap)
          2).bind (fun l' =>
          .ok { betweenFrames.activeListManager with
                currentActiveLists :=
                  betweenFrames.activeListManager.currentActiveLists.set (1 : Int).toNat l' }) ∧
    ∀ salm', betweenFrames.activeListManager.Add (GetScore betweenFrames.heap) 1 2 = .ok salm' →
      (∃ l', (ActiveList.simple (NewSimpleActiveList 5 (-100))).Add
          (GetScore betweenFrames.heap) 2 = .ok l' ∧
        salm'.currentActiveLists[(1 : Int).toNat]? = some l' ∧ 2 ∈ l'.held) ∧
      (∀ j : Nat, j ≠ (1 : Int).toNat →
        salm'.currentActiveLists[j]? = betweenFrames.activeListManager.currentActiveLists[j]?) ∧
      salm'.currentActiveLists.length
        = betweenFrames.activeListManager.currentActiveLists.length ∧
      salm'.activeListFactories = betweenFrames.activeListManager.activeListFactories ∧
      salm'.checkPriorLists = betweenFrames.activeListManager.checkPriorLists) :=
  ⟨by decide, by decide,
    manager_add_goes_to_the_list_of_the_order (GetScore betweenFrames.heap)
      betweenFrames.activeListManager 1 2 (.simple (NewSimpleActiveList 5 (-100)))
      (by decide) (by decide)⟩

/-- The lists `createActiveLists` makes are as many as asked for, and empty. -/
theorem SimpleActiveListManager.createActiveLists_ok (factories : List ActiveListFactory) :
    ∀ (k i : Nat) (lists : List (ActiveList Ptr)),
      SimpleActiveListManager.createActiveLists factories k i = .ok lists →
      lists.length = k ∧ ∀ l ∈ lists, l.Size = 0 := by
  intro k
  induction k with
  | zero =>
    intro i lists h
    simp only [SimpleActiveListManager.createActiveLists, Res.ok.injEq] at h
    subst h
    exact ⟨rfl, fun l hl => absurd hl (List.not_mem_nil l)⟩
  | succ k ih =>
    intro i lists h
    simp only [SimpleActiveListManager.createActiveLists] at h
    generalize (if (i : Int) ≥ (factories.length : Int) then (factories.length : Int) - 1
      else (i : Int)) = which at h
    split at h
    · split at h
      · rename_i alf _
        obtain ⟨rest, hrest, h⟩ := Res.bind_eq_ok.mp h
        simp only [Res.ok.injEq] at h
        subst h
        obtain ⟨hlen, hsize⟩ := ih (i + 1) rest hrest
        refine ⟨by simp [hlen], ?_⟩
        intro l hl
        rcases List.mem_cons.mp hl with hl | hl
        · subst hl
          cases alf <;> rfl
        · exact hsize l hl
      · cases h
    · cases h

/-- A manager set to `n` state orders has `n` lists, all empty. -/
theorem SimpleActiveListManager.SetNumStateOrder_ok {salm salm' : SimpleActiveListManager}
    {n : Int} (h : salm.SetNumStateOrder n = .ok salm') :
    0 ≤ n ∧ salm'.currentActiveLists.length = n.toNat ∧
      (∀ l ∈ salm'.currentActiveLists, l.Size ≤ 0) ∧
      salm'.checkPriorLists = salm.checkPriorLists := by
  simp only [SimpleActiveListManager.SetNumStateOrder] at h
  split at h
  · cases h
  · rename_i hn
    split at h
    · cases h
    · obtain ⟨lists, hlists, h⟩ := Res.bind_eq_ok.mp h
      simp only [Res.ok.injEq] at h
      subst h
      obtain ⟨hlen, hsize⟩ :=
        SimpleActiveListManager.createActiveLists_ok _ _ _ lists hlists
      exact ⟨not_lt.mp hn, hlen, fun l hl => le_of_eq (hsize l hl), rfl⟩

/-- The iterator from the position before `k`, over a manager whose check of the prior lists
passes: it yields the lists at the positions from `k` to the one before the last. -/
theorem nonEmittingListIterator.drain_from (salm : SimpleActiveListManager)
    (hprior : salm.checkPriorLists = true → ∀ l ∈ salm.currentActiveLists, l.Size ≤ 0) :
    ∀ (d k : Nat), k + d = salm.currentActiveLists.length - 1 →
      ∀ fuel, d + 1 ≤ fuel →
        nonEmittingListIterator.drain salm fuel ((k : Int) - 1)
          = .ok ((List.range' k d).map
              fun (i : Nat) => ((i : Int), salm.currentActiveLists[i]?)) := by
  intro d
  induction d with
  | zero =>
    intro k hk fuel hfuel
    cases fuel with
    | zero => omega
    | succ fuel =>
      have hno : ¬ ((k : Int) - 1 + 1 < (salm.currentActiveLists.length : Int) - 1) := by
        omega
      have hno' : ¬ ((k : Int) < (salm.currentActiveLists.length : Int) - 1) := by omega
      simp [nonEmittingListIterator.drain, nonEmittingListIterator.HasNext, hno']
  | succ d ih =>
    intro k hk fuel hfuel
    cases fuel with
    | zero => omega
    | succ fuel =>
      have hyes : (k : Int) - 1 + 1 < (salm.currentActiveLists.length : Int) - 1 := by omega
      have hklt : k < salm.currentActiveLists.length := by omega
      have hnext : nonEmittingListIterator.Next salm ((k : Int) - 1 + 1)
          = .ok (salm.currentActiveLists[k]?) := by
        have hk1 : (k : Int) - 1 + 1 = (k : Int) := by omega
        rw [hk1]
        have hnot : ¬ ((k : Int) ≥ (salm.currentActiveLists.length : Int)) := by omega
        have hcheck : (if salm.checkPriorLists = true then
            nonEmittingListIterator.checkPriorLists salm (k : Int) else Res.ok ()) = .ok () := by
          split
          · rename_i hc
            simp only [nonEmittingListIterator.checkPriorLists]
            rw [if_pos]
            rw [List.all_eq_true]
            intro l hl
            simpa using hprior hc l (List.mem_of_mem_take hl)
          · rfl
        simp only [nonEmittingListIterator.Next, hnot, if_false, hcheck, Res.bind_ok,
          SimpleActiveListManager.listAt, Int.toNat_ofNat, Int.natCast_nonneg, if_true,
          List.getElem?_eq_getElem hklt]
      have hrec := ih (k + 1) (by omega) fuel (by omega)
      have hcast : (((k + 1 : Nat) : Int) - 1) = (k : Int) - 1 + 1 := by push_cast; ring
      rw [hcast] at hrec
      simp only [nonEmittingListIterator.drain, nonEmittingListIterator.HasNext, hyes,
        decide_True, if_true, hnext, Res.bind_ok, hrec, List.range'_succ, List.map_cons]
      have hk1 : (k : Int) - 1 + 1 = (k : Int) := by omega
      rw [hk1]

/-- C27.  For a `SimpleActiveListManager` with `n` lists, whose check of the prior lists
passes (it is off, or the lists are empty, as they are right after `SetNumStateOrder(n)`), a
caller that drains the non-emitting iterator receives the lists at the positions 0, 1, ...,
`n - 2`, in this order: `n - 1` lists, none of them nil, and none at the position `n - 1` of
the emitting list. -/
theorem non_emitting_iterator_yields_the_orders_below_the_emitting_one
    (salm : SimpleActiveListManager) (n : Nat) (hn : salm.currentActiveLists.length = n)
    (hprior : salm.checkPriorLists = true → ∀ l ∈ salm.currentActiveLists, l.Size ≤ 0) :
    nonEmittingListIterator.drain salm (n + 1) (-1)
      = .ok ((List.range (n - 1)).map
          fun (i : Nat) => ((i : Int), salm.currentActiveLists[i]?)) ∧
    ((List.range (n - 1)).map
      fun (i : Nat) => ((i : Int), salm.currentActiveLists[i]?)).length = n - 1 ∧
    ∀ x ∈ (List.range (n - 1)).map
        fun (i : Nat) => ((i : Int), salm.currentActiveLists[i]?),
      0 ≤ x.1 ∧ x.1 < (n : Int) - 1 ∧ x.2 ≠ none := by
  refine ⟨?_, by simp, ?_⟩
  · have h := nonEmittingListIterator.drain_from salm hprior (n - 1) 0 (by omega) (n + 1)
      (by omega)
    simpa [List.range_eq_range'] using h
  · intro x hx
    obtain ⟨i, hi, hxi⟩ := List.mem_map.mp hx
    have hi' : i < n - 1 := List.mem_range.mp hi
    subst hxi
    refine ⟨Int.natCast_nonneg i, by simp only; omega, ?_⟩
    have hlt : i < salm.currentActiveLists.length := by omega
    simp [List.getElem?_eq_getElem hlt]

/-- C27 on `fourOrders`, a manager set to four state orders that checks the prior lists: the
iterator yields the lists at the positions 0, 1 and 2, a simple list and two partition lists,
and not the list at the position 3. -/
theorem non_emitting_iterator_yields_the_orders_below_the_emitting_one_witness :
    (SimpleActiveListManager.SetNumStateOrder
      { checkPriorLists := true
        activeListFactories := [.simple 5 (-100), .partition 6 (-50)]
        currentActiveLists := [] } 4 = .ok fourOrders) ∧
    (nonEmittingListIterator.drain fourOrders 5 (-1)).bind
        (fun ls => .ok (ls.map fun x => (x.1, x.2.map ActiveList.logRelativeBeamWidth)))
      = .ok [(0, some (-100)), (1, some (-50)), (2, some (-50))] ∧
    (nonEmittingListIterator.drain fourOrders (4 + 1) (-1)
        = .ok ((List.range (4 - 1)).map fun (i : Nat) =>
            ((i : Int), fourOrders.currentActiveLists[i]?)) ∧
      ((List.range (4 - 1)).map
        fun (i : Nat) => ((i : Int), fourOrders.currentActiveLists[i]?)).length = 4 - 1 ∧
      ∀ x ∈ (List.range (4 - 1)).map
          fun (i : Nat) => ((i : Int), fourOrders.currentActiveLists[i]?),
        0 ≤ x.1 ∧ x.1 < ((4 : Nat) : Int) - 1 ∧ x.2 ≠ none) :=
  ⟨by decide, by decide,
    non_emitting_iterator_yields_the_orders_below_the_emitting_one fourOrders 4 (by decide)
      (fun _ => (SimpleActiveListManager.SetNumStateOrder_ok
        (show SimpleActiveListManager.SetNumStateOrder
          { checkPriorLists := true
            activeListFactories := [.simple 5 (-100), .partition 6 (-50)]
            currentActiveLists := [] } 4 = .ok fourOrders by decide)).2.2.1)⟩

/-! ## C22 to C25: the constructor, the order check, the skipped growth, final tokens -/

/-- C23.  `NewWordPruningBreadthFirstLookaheadSearchManager` panics exactly when
`lookaheadWindow < 1` or `lookaheadWindow > 10`, and builds the manager with this window
otherwise; it never runs on for ever. -/
theorem lookahead_constructor_panics_iff_window_out_of_range
    (activeListManager : SimpleActiveListManager) (fastmatchActiveListFactory : ActiveListFactory)
    (relativeBeamWidth growSkipInterval : Int) (checkStateOrder buildWordLattice : Bool)
    (lookaheadWindow lookaheadWeight maxLatticeEdges acousticLookaheadFrames : Int)
    (keepAllTokens : Bool) :
    (WPBFLSM.NewWordPruningBreadthFirstLookaheadSearchManager activeListManager
        fastmatchActiveListFactory relativeBeamWidth growSkipInterval checkStateOrder
        buildWordLattice lookaheadWindow lookaheadWeight maxLatticeEdges
        acousticLookaheadFrames keepAllTokens = .panics ↔
      lookaheadWindow < 1 ∨ lookaheadWindow > 10) ∧
    ((∃ m, WPBFLSM.NewWordPruningBreadthFirstLookaheadSearchManager activeListManager
        fastmatchActiveListFactory relativeBeamWidth growSkipInterval checkStateOrder
        buildWordLattice lookaheadWindow lookaheadWeight maxLatticeEdges
        acousticLookaheadFrames keepAllTokens = .ok m ∧ m.lookaheadWindow = lookaheadWindow) ↔
      1 ≤ lookaheadWindow ∧ lookaheadWindow ≤ 10) ∧
    WPBFLSM.NewWordPruningBreadthFirstLookaheadSearchManager activeListManager
        fastmatchActiveListFactory relativeBeamWidth growSkipInterval checkStateOrder
        buildWordLattice lookaheadWindow lookaheadWeight maxLatticeEdges
        acousticLookaheadFrames keepAllTokens ≠ .diverges := by
  unfold WPBFLSM.NewWordPruningBreadthFirstLookaheadSearchManager
  by_cases h : lookaheadWindow < 1 ∨ lookaheadWindow > 10
  · rw [if_pos h]
    refine ⟨by simp [h], ?_, by simp⟩
    constructor
    · rintro ⟨m, hm, _⟩
      cases hm
    · intro hin
      omega
  · rw [if_neg h]
    refine ⟨by simp [h], ?_, by simp⟩
    constructor
    · intro _
      omega
    · intro _
      exact ⟨_, rfl, rfl⟩

/-- One pass of the arc loop leaves the flag `checkStateOrder` as it is. -/
theorem WPBFSM.processArc_checkStateOrder {lg : Linguist} {m m' : WPBFSM.Manager} {token : Ptr}
    {state : SearchState} {predecessor : Option Ptr} {arc : SearchStateArc}
    (h : WPBFSM.processArc lg m token state predecessor arc = .ok m') :
    m'.checkStateOrder = m.checkStateOrder := by
  unfold WPBFSM.processArc at h
  obtain ⟨_, _, h⟩ := Res.bind_eq_ok.mp h
  simp only at h
  split at h
  · simp only [WPBFSM.activeListAdd] at h
    split at h
    · cases h
    · obtain ⟨alm, _, h⟩ := Res.bind_eq_ok.mp h
      cases h
      rfl
  · split at h
    · split at h <;> cases h <;> rfl
    · split at h
      · split at h <;> cases h <;> rfl
      · cases h; rfl

/-- One pass of the arc loop whose order check passes, or is off, is the pass of the manager
with the check off, up to the flag itself. -/
theorem WPBFSM.processArc_check_passed (lg : Linguist) (m : WPBFSM.Manager) (token : Ptr)
    (state : SearchState) (predecessor : Option Ptr) (arc : SearchStateArc)
    (hpass : (if m.checkStateOrder then WPBFSM.checkStateOrder lg m state arc.state
      else .ok ()) = .ok ()) :
    WPBFSM.processArc lg m token state predecessor arc
      = (WPBFSM.processArc lg { m with checkStateOrder := false } token state predecessor
          arc).bind (fun m' => .ok { m' with checkStateOrder := m.checkStateOrder }) := by
  unfold WPBFSM.processArc
  simp only [hpass, Res.bind_ok, Bool.false_eq_true, if_false, WPBFSM.getBestToken]
  cases hbest : m.bestTokenMap.lookup arc.state with
  | none =>
    simp only [WPBFSM.activeListAdd, WPBFSM.setBestToken, newToken, Heap.alloc,
      Heap.deref_append_length, Token.make]
    cases SimpleActiveListManager.Add (GetScore (m.heap ++ [_])) m.activeListManager
      (lg.order arc.state) m.heap.length <;> rfl
  | some b =>
    simp only
    split
    · split <;> rfl
    · split
      · split <;> rfl
      · rfl

/-- C24.  The method `checkStateOrder` panics exactly when the order of `from` is not the
emitting order `numStateOrder - 1` and is higher than the order of `to`.  A pass of the arc
loop with the flag `checkStateOrder` on, for such an arc, panics; every other pass, be the
flag on or off, is the pass that the manager makes with the flag off, so that with the flag
off no arc is turned down for its order. -/
theorem state_order_check_rejects_descending_arcs (lg : Linguist) (m : WPBFSM.Manager)
    (token : Ptr) (state : SearchState) (predecessor : Option Ptr) (arc : SearchStateArc) :
    (WPBFSM.checkStateOrder lg m state arc.state = .panics ↔
      lg.order state ≠ m.numStateOrder - 1 ∧ lg.order state > lg.order arc.state) ∧
    ((m.checkStateOrder = true ∧ lg.order state ≠ m.numStateOrder - 1 ∧
        lg.order state > lg.order arc.state) →
      WPBFSM.processArc lg m token state predecessor arc = .panics) ∧
    (¬ (m.checkStateOrder = true ∧ lg.order state ≠ m.numStateOrder - 1 ∧
        lg.order state > lg.order arc.state) →
      WPBFSM.processArc lg m token state predecessor arc
        = (WPBFSM.processArc lg { m with checkStateOrder := false } token state predecessor
            arc).bind (fun m' => .ok { m' with checkStateOrder := m.checkStateOrder })) := by
  have hcheck : WPBFSM.checkStateOrder lg m state arc.state = .panics ↔
      lg.order state ≠ m.numStateOrder - 1 ∧ lg.order state > lg.order arc.state := by
    simp only [WPBFSM.checkStateOrder]
    by_cases h1 : lg.order state = m.numStateOrder - 1
    · simp [h1]
    · by_cases h2 : lg.order state > lg.order arc.state
      · simp [h1, h2]
      · simp [h1, h2]
  refine ⟨hcheck, ?_, ?_⟩
  · rintro ⟨hon, hbad⟩
    unfold WPBFSM.processArc
    simp only [hon, if_true, hcheck.mpr hbad, Res.bind_panics]
  · intro hno
    apply WPBFSM.processArc_check_passed
    by_cases hon : m.checkStateOrder = true
    · have hgood : ¬ (lg.order state ≠ m.numStateOrder - 1 ∧
          lg.order state > lg.order arc.state) := fun hbad => hno ⟨hon, hbad⟩
      simp only [hon, if_true]
      simp only [WPBFSM.checkStateOrder] at hcheck ⊢
      by_cases h1 : lg.order state = m.numStateOrder - 1
      · simp [h1]
      · by_cases h2 : lg.order state > lg.order arc.state
        · exact absurd ⟨h1, h2⟩ hgood
        · simp [h1, h2]
    · simp [hon]

/-- The order check on `smallGraph`, whose emitting order is 2, in the manager
`betweenFrames`, which has the check on.  The arc from the unit state 30 (order 1) down
to the word state 20 (order 0) is turned down, and followed when the check is off; the arc from
the emitting state 10 (order 2) to the word state 20 is followed. -/
theorem state_order_check_on_small_graph :
    WPBFSM.processArc smallGraph betweenFrames 2 30 (some 2) ⟨20, -1, 0, -1⟩ = .panics ∧
    (WPBFSM.processArc smallGraph { betweenFrames with checkStateOrder := false } 2 30 (some 2)
        ⟨20, -1, 0, -1⟩).bind (fun m => .ok (m.heap.length, m.bestTokenMap.lookup 20))
      = .ok (8, some 7) ∧
    (WPBFSM.processArc smallGraph betweenFrames 4 10 (some 4) ⟨20, -1, 0, -1⟩).bind
        (fun m => .ok (m.heap.length, m.bestTokenMap.lookup 20)) = .ok (8, some 7) := by
  refine ⟨by decide!, by decide!, by decide!⟩

/-- The scoring of a frame leaves the grow skip interval and the frame number as they are. -/
theorem WPBFSM.scoreTokens_frame {sm : ScoringModel} {m m' : WPBFSM.Manager}
    {sas sas' : SimpleAcousticScorer} {more : Bool}
    (h : WPBFSM.scoreTokens sm m sas = .ok (more, m', sas')) :
    m'.growSkipInterval = m.growSkipInterval ∧ m'.currentFrameNumber = m.currentFrameNumber := by
  simp only [WPBFSM.scoreTokens] at h
  split at h
  · cases h
  · obtain ⟨r, _, h⟩ := Res.bind_eq_ok.mp h
    simp only [Res.ok.injEq, Prod.mk.injEq] at h
    rw [← h.2.1]
    exact ⟨rfl, rfl⟩

theorem WPBFSM.shareEmittingList_frame {m m' : WPBFSM.Manager}
    (h : WPBFSM.shareEmittingList m = .ok m') :
    m'.growSkipInterval = m.growSkipInterval ∧ m'.currentFrameNumber = m.currentFrameNumber := by
  simp only [WPBFSM.shareEmittingList] at h
  split at h
  · cases h
  · obtain ⟨alm, _, h⟩ := Res.bind_eq_ok.mp h
    cases h
    exact ⟨rfl, rfl⟩

theorem WPBFSM.pruneBranches_frame {m m' : WPBFSM.Manager}
    (h : WPBFSM.pruneBranches m = .ok m') :
    m'.growSkipInterval = m.growSkipInterval ∧ m'.currentFrameNumber = m.currentFrameNumber := by
  simp only [WPBFSM.pruneBranches] at h
  split at h
  · cases h
  · obtain ⟨al, _, h⟩ := Res.bind_eq_ok.mp h
    cases h
    exact ⟨rfl, rfl⟩

/-- C25.  Take a frame of `recognize` that is scored: the scorer gives a best token, and the
emitting list is pruned, which leaves the manager `pruned`.  The frame number is then
incremented, and `recognize` runs the grow step (`clearCollectors`, `growEmittingBranches`,
`growNonEmittingBranches`) unless `growSkipInterval` is not zero and the incremented frame
number is a multiple of it, in which case the frame ends without growth.  With
`growSkipInterval = 0` the grow step is run. -/
theorem recognize_grows_unless_frame_is_multiple_of_skip_interval (lg : Linguist)
    (allowExpansion : Token → Bool) (sm : ScoringModel) (m pruned : WPBFSM.Manager)
    (sas sas' : SimpleAcousticScorer)
    (hscored :
      (m.activeListManager.GetEmittingList.bind fun al =>
        (WPBFSM.scoreTokens sm { m with activeList := some al } sas).bind fun r =>
        (WPBFSM.shareEmittingList r.2.1).bind fun m1 =>
        (WPBFSM.pruneBranches m1).bind fun m2 =>
        (WPBFSM.shareEmittingList m2).bind fun m3 => .ok (r.1, m3, r.2.2))
      = .ok (true, pruned, sas')) :
    pruned.growSkipInterval = m.growSkipInterval ∧
    pruned.currentFrameNumber = m.currentFrameNumber ∧
    WPBFSM.recognize lg allowExpansion sm m sas
      = (if m.growSkipInterval ≠ 0 ∧ m.growSkipInterval ∣ m.currentFrameNumber + 1 then
          .ok (false, { pruned with currentFrameNumber := m.currentFrameNumber + 1 }, sas')
        else
          (WPBFSM.growStep lg allowExpansion
            { pruned with currentFrameNumber := m.currentFrameNumber + 1 }).bind
            fun grown => .ok (false, grown, sas')) ∧
    (m.growSkipInterval = 0 →
      WPBFSM.recognize lg allowExpansion sm m sas
        = (WPBFSM.growStep lg allowExpansion
            { pruned with currentFrameNumber := m.currentFrameNumber + 1 }).bind
            fun grown => .ok (false, grown, sas')) := by
  obtain ⟨al, hal, h⟩ := Res.bind_eq_ok.mp hscored
  obtain ⟨r, hr, h⟩ := Res.bind_eq_ok.mp h
  obtain ⟨m1, h1, h⟩ := Res.bind_eq_ok.mp h
  obtain ⟨m2, h2, h⟩ := Res.bind_eq_ok.mp h
  obtain ⟨m3, h3, h⟩ := Res.bind_eq_ok.mp h
  simp only [Res.ok.injEq, Prod.mk.injEq] at h
  obtain ⟨hmore, hm3, hsas⟩ := h
  subst hm3
  have hr' : WPBFSM.scoreTokens sm { m with activeList := some al } sas
      = .ok (r.1, r.2.1, r.2.2) := hr
  have f0 := WPBFSM.scoreTokens_frame hr'
  have f1 := WPBFSM.shareEmittingList_frame h1
  have f2 := WPBFSM.pruneBranches_frame h2
  have f3 := WPBFSM.shareEmittingList_frame h3
  have hskip : m3.growSkipInterval = m.growSkipInterval := by
    rw [f3.1, f2.1, f1.1, f0.1]
  have hframe : m3.currentFrameNumber = m.currentFrameNumber := by
    rw [f3.2, f2.2, f1.2, f0.2]
  have hrec : WPBFSM.recognize lg allowExpansion sm m sas
      = (if m.growSkipInterval ≠ 0 ∧ m.growSkipInterval ∣ m.currentFrameNumber + 1 then
          .ok (false, { m3 with currentFrameNumber := m.currentFrameNumber + 1 }, sas')
        else
          (WPBFSM.growStep lg allowExpansion
            { m3 with currentFrameNumber := m.currentFrameNumber + 1 }).bind
            fun grown => .ok (false, grown, sas')) := by
    simp only [WPBFSM.recognize, hal, Res.bind_ok, hr, h1, hmore, if_true, h2, h3, hskip, hframe,
      hsas, Bool.not_true]
    by_cases hz : m.growSkipInterval = 0
    · simp [hz]
    · by_cases hd : m.growSkipInterval ∣ m.currentFrameNumber + 1
      · have ht : Int.tmod (m.currentFrameNumber + 1) m.growSkipInterval = 0 :=
          Int.tmod_eq_zero_of_dvd hd
        simp [hz, hd, ht]
      · have ht : Int.tmod (m.currentFrameNumber + 1) m.growSkipInterval ≠ 0 :=
          fun h0 => hd (Int.dvd_of_tmod_eq_zero h0)
        simp [hz, hd, ht]
  refine ⟨hskip, hframe, hrec, ?_⟩
  intro hz
  rw [hrec, if_neg]
  intro hc
  exact hc.1 hz

/-- C25 on `skippingEverySecond`, which is at frame 1 with a grow skip interval of 2: the
frame of collect time 20 is scored and pruned, the frame number becomes 2, and the frame
ends without growth and without a new token.  With the interval 0, as in `afterGrowStep`,
the same frame is grown, and five tokens are created. -/
theorem recognize_grows_unless_frame_is_multiple_of_skip_interval_witness :
    (skippingEverySecond.growSkipInterval, skippingEverySecond.currentFrameNumber) = (2, 1) ∧
    (WPBFSM.recognize smallGraph (fun _ => true) emittingScoreMinusOne skippingEverySecond
        (scorerOn [frame20, .speechEndSignal])).bind
        (fun x => .ok (x.1, x.2.1.currentFrameNumber, x.2.1.tokensCreated))
      = .ok (false, 2, skippingEverySecond.tokensCreated) ∧
    (WPBFSM.recognize smallGraph (fun _ => true) emittingScoreMinusOne afterGrowStep
        (scorerOn [frame20, .speechEndSignal])).bind
        (fun x => .ok (x.1, x.2.1.currentFrameNumber,
          x.2.1.tokensCreated - afterGrowStep.tokensCreated))
      = .ok (false, 2, 5) ∧
    (scoredAndPruned.growSkipInterval = skippingEverySecond.growSkipInterval ∧
      scoredAndPruned.currentFrameNumber = skippingEverySecond.currentFrameNumber ∧
      WPBFSM.recognize smallGraph (fun _ => true) emittingScoreMinusOne skippingEverySecond
          (scorerOn [frame20, .speechEndSignal])
        = (if skippingEverySecond.growSkipInterval ≠ 0 ∧
              skippingEverySecond.growSkipInterval ∣ skippingEverySecond.currentFrameNumber + 1
          then
            .ok (false,
              { scoredAndPruned with
                currentFrameNumber := skippingEverySecond.currentFrameNumber + 1 },
              scorerOn [.speechEndSignal])
          else
            (WPBFSM.growStep smallGraph (fun _ => true)
              { scoredAndPruned with
                currentFrameNumber := skippingEverySecond.currentFrameNumber + 1 }).bind
              fun grown => .ok (false, grown, scorerOn [.speechEndSignal])) ∧
      (skippingEverySecond.growSkipInterval = 0 →
        WPBFSM.recognize smallGraph (fun _ => true) emittingScoreMinusOne skippingEverySecond
            (scorerOn [frame20, .speechEndSignal])
          = (WPBFSM.growStep smallGraph (fun _ => true)
              { scoredAndPruned with
                currentFrameNumber := skippingEverySecond.currentFrameNumber + 1 }).bind
              fun grown => .ok (false, grown, scorerOn [.speechEndSignal]))) :=
  ⟨by decide!, by decide!, by decide!,
    recognize_grows_unless_frame_is_multiple_of_skip_interval smallGraph (fun _ => true)
      emittingScoreMinusOne skippingEverySecond scoredAndPruned
      (scorerOn [frame20, .speechEndSignal]) (scorerOn [.speechEndSignal]) (by decide!)⟩

/-- C22.  `collectSuccessorTokens` on a token whose search state is final is the call of
`getResultListPredecessor` on the token followed by the append of its result to the result
list.  When it ends well, the manager differs from the one before in the result list, which
has this one entry more, and in the heap only: no token is counted as created, the best
token map, the active lists and the lattice losers are as before, every token of the heap is
as before, and the heap is the one `getResultListPredecessor(token)` leaves, which is the
heap of before unless the word lattice is built without all tokens being kept, where the
result is a token that this call puts together from the scores on the way to the last word
and appends. -/
theorem final_token_only_extends_the_result_list (lg : Linguist) (m : WPBFSM.Manager)
    (token : Ptr) (hfinal : (m.heap.deref token).IsFinal lg = .ok true) :
    WPBFSM.collectSuccessorTokens lg m token
      = (m.getResultListPredecessor lg m.heap token).bind (fun r =>
          .ok { m with heap := r.1, resultList := m.resultList ++ [r.2] }) ∧
    ∀ m', WPBFSM.collectSuccessorTokens lg m token = .ok m' →
      ∃ r, m.getResultListPredecessor lg m.heap token = .ok r ∧
        m'.resultList = m.resultList ++ [r.2] ∧
        m' = { m with heap := m'.heap, resultList := m'.resultList } ∧
        m'.tokensCreated = m.tokensCreated ∧ m'.bestTokenMap = m.bestTokenMap ∧
        m'.activeListManager = m.activeListManager ∧ m'.activeList = m.activeList ∧
        m'.loserManager = m.loserManager ∧
        (∀ p, p < m.heap.length → m'.heap.deref p = m.heap.deref p) ∧
        (m'.heap = m.heap ∨
          (m.keepAllTokens = false ∧ m.buildWordLattice = true ∧
            ∃ t, m'.heap = m.heap ++ [t] ∧ t.searchState = none ∧
              r.2 = some m.heap.length)) := by
  have heq : WPBFSM.collectSuccessorTokens lg m token
      = (m.getResultListPredecessor lg m.heap token).bind (fun r =>
          .ok { m with heap := r.1, resultList := m.resultList ++ [r.2] }) := by
    simp only [WPBFSM.collectSuccessorTokens, hfinal, Res.bind_ok, if_true]
  refine ⟨heq, ?_⟩
  intro m' hok
  rw [heq] at hok
  obtain ⟨r, hr, hok⟩ := Res.bind_eq_ok.mp hok
  simp only [Res.ok.injEq] at hok
  subst hok
  refine ⟨r, hr, rfl, rfl, rfl, rfl, rfl, rfl, rfl, ?_, ?_⟩
  · intro p hp
    rcases TokenSearchManager.getResultListPredecessor_heap hr with h | ⟨t, h⟩
    · simp only [h]
    · simp only [h]
      exact Heap.deref_append_lt m.heap t hp
  · simp only [TokenSearchManager.getResultListPredecessor] at hr
    split at hr
    · cases hr; exact Or.inl rfl
    · rename_i hkeep
      split at hr
      · split at hr <;> cases hr <;> exact Or.inl rfl
      · rename_i hlat
        obtain ⟨x, _, hr⟩ := Res.bind_eq_ok.mp hr
        split at hr
        · cases hr
        · simp only [NewTokenWithScores_heap, Res.ok.injEq] at hr
          subst hr
          refine Or.inr ⟨by simpa using hkeep, by simpa using hlat, _, rfl, rfl, rfl⟩

/-- C22 on `finalReached`, whose token 7 has the final state 99.  With the word lattice and
without all tokens kept, the result list receives the token 8, which
`getResultListPredecessor` appends to the eight tokens of the heap; when all tokens are kept,
the result list receives the token 7 itself and the heap stays. -/
theorem final_token_only_extends_the_result_list_witness :
    (WPBFSM.collectSuccessorTokens smallGraph finalReached 7).bind
        (fun m => .ok (m.resultList, m.heap.length, m.tokensCreated, m.bestTokenMap))
      = .ok ([some 8], 9, finalReached.tokensCreated, finalReached.bestTokenMap) ∧
    (WPBFSM.collectSuccessorTokens smallGraph { finalReached with keepAllTokens := true } 7).bind
        (fun m => .ok (m.resultList, m.heap.length, m.tokensCreated, m.bestTokenMap))
      = .ok ([some 7], 8, finalReached.tokensCreated, finalReached.bestTokenMap) ∧
    (WPBFSM.collectSuccessorTokens smallGraph finalReached 7
      = (finalReached.getResultListPredecessor smallGraph finalReached.heap 7).bind (fun r =>
          .ok { finalReached with heap := r.1, resultList := finalReached.resultList ++ [r.2] }) ∧
    ∀ m', WPBFSM.collectSuccessorTokens smallGraph finalReached 7 = .ok m' →
      ∃ r, finalReached.getResultListPredecessor smallGraph finalReached.heap 7 = .ok r ∧
        m'.resultList = finalReached.resultList ++ [r.2] ∧
        m' = { finalReached with heap := m'.heap, resultList := m'.resultList } ∧
        m'.tokensCreated = finalReached.tokensCreated ∧
        m'.bestTokenMap = finalReached.bestTokenMap ∧
        m'.activeListManager = finalReached.activeListManager ∧
        m'.activeList = finalReached.activeList ∧
        m'.loserManager = finalReached.loserManager ∧
        (∀ p, p < finalReached.heap.length → m'.heap.deref p = finalReached.heap.deref p) ∧
        (m'.heap = finalReached.heap ∨
          (finalReached.keepAllTokens = false ∧ finalReached.buildWordLattice = true ∧
            ∃ t, m'.heap = finalReached.heap ++ [t] ∧ t.searchState = none ∧
              r.2 = some finalReached.heap.length))) :=
  ⟨by decide!, by decide!,
    final_token_only_extends_the_result_list smallGraph finalReached 7 (by decide!)⟩

/-! ## C21: `isVisited` -/

/-- The loop of `isVisited` gives with more fuel what it gives with less. -/
theorem WPBFSM.isVisitedLoop_mono {lg : Linguist} {h : Heap} {cur : Option SearchState}
    {b : Bool} :
    ∀ (fuel : Nat) (t : Option Ptr), WPBFSM.isVisitedLoop lg h cur fuel t = .ok b →
      ∀ fuel', fuel ≤ fuel' → WPBFSM.isVisitedLoop lg h cur fuel' t = .ok b := by
  intro fuel
  induction fuel with
  | zero => intro t h0; simp [WPBFSM.isVisitedLoop] at h0
  | succ fuel ih =>
    intro t hrun fuel' hle
    cases fuel' with
    | zero => omega
    | succ fuel' =>
      cases t with
      | none => simpa [WPBFSM.isVisitedLoop] using hrun
      | some p =>
        simp only [WPBFSM.isVisitedLoop] at hrun ⊢
        cases hem : (h.deref p).IsEmitting lg with
        | panics => rw [hem] at hrun; cases hrun
        | diverges => rw [hem] at hrun; cases hrun
        | ok emitting =>
          rw [hem] at hrun
          simp only [Res.bind_ok] at hrun ⊢
          split
          · rename_i he
            simpa [he] using hrun
          · rename_i he
            simp only [he, if_false] at hrun
            split
            · rename_i hc
              simpa [hc] using hrun
            · rename_i hc
              simp only [hc, if_false] at hrun
              exact ih _ hrun fuel' (by omega)

/-- A run of the loop of `isVisited` that ends goes over distinct tokens of the heap: there
is a list of them, without repetition, whose length and one more is fuel enough. -/
theorem WPBFSM.isVisitedLoop_run {lg : Linguist} {h : Heap} {cur : Option SearchState}
    {b : Bool} :
    ∀ (fuel : Nat) (t : Option Ptr), WPBFSM.isVisitedLoop lg h cur fuel t = .ok b →
      ∃ run : List Nat, run.Nodup ∧ (∀ p, p ∈ run → p < h.length) ∧
        WPBFSM.isVisitedLoop lg h cur (run.length + 1) t = .ok b ∧
        ∀ (q : Nat) (rest : List Nat), (q :: rest) <:+ run →
          WPBFSM.isVisitedLoop lg h cur (rest.length + 2) (some q) = .ok b := by
  intro fuel
  induction fuel with
  | zero => intro t h0; simp [WPBFSM.isVisitedLoop] at h0
  | succ fuel ih =>
    intro t hrun
    have hnil : ∀ (q : Nat) (rest : List Nat), (q :: rest) <:+ ([] : List Nat) →
        WPBFSM.isVisitedLoop lg h cur (rest.length + 2) (some q) = .ok b := by
      intro q rest hsuf
      have := List.IsSuffix.length_le hsuf
      simp at this
    cases t with
    | none =>
      refine ⟨[], List.nodup_nil, fun p hp => absurd hp (List.not_mem_nil p), ?_, hnil⟩
      simpa [WPBFSM.isVisitedLoop] using hrun
    | some p =>
      simp only [WPBFSM.isVisitedLoop] at hrun
      cases hst : (h.deref p).searchState with
      | none => simp [Token.IsEmitting, hst] at hrun
      | some sp =>
        have hem : (h.deref p).IsEmitting lg = .ok (lg.isEmitting sp) := by
          simp [Token.IsEmitting, hst]
        rw [hem] at hrun
        simp only [Res.bind_ok] at hrun
        by_cases he : lg.isEmitting sp = true
        · refine ⟨[], List.nodup_nil, fun p hp => absurd hp (List.not_mem_nil p), ?_, hnil⟩
          simp only [he, if_true] at hrun
          simp [WPBFSM.isVisitedLoop, hem, he, hrun]
        · have he' : lg.isEmitting sp = false := by simpa using he
          simp only [he', Bool.false_eq_true, if_false] at hrun
          by_cases hc : cur = (h.deref p).searchState
          · refine ⟨[], List.nodup_nil, fun p hp => absurd hp (List.not_mem_nil p), ?_, hnil⟩
            simp only [hc, if_true] at hrun
            simp [WPBFSM.isVisitedLoop, hem, he', hc, hrun]
          · simp only [hc, if_false] at hrun
            obtain ⟨run, hnd, hin, hfuel, hsuf⟩ := ih _ hrun
            have hstep : ∀ k, WPBFSM.isVisitedLoop lg h cur k (GetPredecessor h p) = .ok b →
                WPBFSM.isVisitedLoop lg h cur (k + 1) (some p) = .ok b := by
              intro k hk
              simp [WPBFSM.isVisitedLoop, hem, he', hc, hk]
            by_cases hmem : p ∈ run
            · obtain ⟨before, after, hsplit⟩ := List.append_of_mem hmem
              have hsuffix : (p :: after) <:+ run := ⟨before, hsplit.symm⟩
              refine ⟨p :: after, ?_, ?_, ?_, ?_⟩
              · exact (List.IsSuffix.sublist hsuffix).nodup hnd
              · intro q hq
                exact hin q (List.IsSuffix.subset hsuffix hq)
              · exact hsuf p after hsuffix
              · intro q rest hqr
                exact hsuf q rest (List.IsSuffix.trans hqr hsuffix)
            · refine ⟨p :: run, List.nodup_cons.mpr ⟨hmem, hnd⟩, ?_, ?_, ?_⟩
              · intro q hq
                rcases List.mem_cons.mp hq with hq | hq
                · rw [hq]; exact Heap.lt_of_searchState hst
                · exact hin q hq
              · exact hstep _ hfuel
              · intro q rest hqr
                rcases List.suffix_cons_iff.mp hqr with heq | hqr
                · simp only [List.cons.injEq] at heq
                  rw [heq.1, heq.2]
                  exact hstep _ hfuel
                · exact hsuf q rest hqr

/-- What the loop of `isVisited` gives with some fuel, it gives with the fuel of `isVisited`,
one more than the tokens of the heap. -/
theorem WPBFSM.isVisitedLoop_enough {lg : Linguist} {h : Heap} {cur : Option SearchState}
    {b : Bool} {fuel : Nat} {t : Option Ptr}
    (hrun : WPBFSM.isVisitedLoop lg h cur fuel t = .ok b) :
    WPBFSM.isVisitedLoop lg h cur (h.length + 1) t = .ok b := by
  obtain ⟨run, hnd, hin, hfuel, _⟩ := WPBFSM.isVisitedLoop_run fuel t hrun
  have hlen : run.length ≤ h.length := length_le_of_nodup_of_lt hnd hin
  exact WPBFSM.isVisitedLoop_mono _ t hfuel _ (by omega)

/-- A run of the loop of `isVisited` that answers true has met a token of the state looked
for, after tokens of non-emitting states only. -/
theorem WPBFSM.isVisitedLoop_true {lg : Linguist} {h : Heap} {s : SearchState} :
    ∀ (fuel : Nat) (t : Option Ptr), WPBFSM.isVisitedLoop lg h (some s) fuel t = .ok true →
      ∃ a, ThroughNonEmitting lg h t a ∧ (h.deref a).searchState = some s := by
  intro fuel
  induction fuel with
  | zero => intro t h0; simp [WPBFSM.isVisitedLoop] at h0
  | succ fuel ih =>
    intro t hrun
    cases t with
    | none => simp [WPBFSM.isVisitedLoop] at hrun
    | some p =>
      simp only [WPBFSM.isVisitedLoop] at hrun
      cases hst : (h.deref p).searchState with
      | none => simp [Token.IsEmitting, hst] at hrun
      | some sp =>
        simp only [Token.IsEmitting, hst, Res.bind_ok] at hrun
        by_cases he : lg.isEmitting sp = true
        · simp [he] at hrun
        · simp only [he, if_false] at hrun
          by_cases hc : some s = some sp
          · exact ⟨p, ThroughNonEmitting.first, by rw [hst, hc]⟩
          · simp only [hc, if_false] at hrun
            obtain ⟨a, ha, hsa⟩ := ih _ hrun
            exact ⟨a, ThroughNonEmitting.next hst (by simpa using he) ha, hsa⟩

/-- A token of a non-emitting state that is met after tokens of non-emitting states only is
found by the loop of `isVisited`, given fuel. -/
theorem WPBFSM.isVisitedLoop_finds {lg : Linguist} {h : Heap} {s : SearchState}
    (hne : lg.isEmitting s = false) {t : Option Ptr} {a : Ptr}
    (hthrough : ThroughNonEmitting lg h t a) (hstate : (h.deref a).searchState = some s) :
    ∃ fuel, WPBFSM.isVisitedLoop lg h (some s) fuel t = .ok true := by
  induction hthrough with
  | @first p =>
    exact ⟨1, by simp [WPBFSM.isVisitedLoop, Token.IsEmitting, hstate, hne]⟩
  | @next p a sp hsp hnp _ ih =>
    obtain ⟨fuel, hfuel⟩ := ih hstate
    refine ⟨fuel + 1, ?_⟩
    simp only [WPBFSM.isVisitedLoop, Token.IsEmitting, hsp, Res.bind_ok, hnp,
      Bool.false_eq_true, if_false]
    split
    · rfl
    · exact hfuel

/-- On a walk that comes to its end the loop of `isVisited` gives an answer, given fuel. -/
theorem WPBFSM.isVisitedLoop_answers {lg : Linguist} {h : Heap} (cur : Option SearchState)
    {t : Option Ptr} (hends : WalkEnds lg h t) :
    ∃ fuel b, WPBFSM.isVisitedLoop lg h cur fuel t = .ok b := by
  induction hends with
  | atNil => exact ⟨1, false, by simp [WPBFSM.isVisitedLoop]⟩
  | @atEmitting p s hs he =>
    exact ⟨1, false, by simp [WPBFSM.isVisitedLoop, Token.IsEmitting, hs, he]⟩
  | @step p s hs hn _ ih =>
    obtain ⟨fuel, b, hfuel⟩ := ih
    by_cases hc : cur = (h.deref p).searchState
    · exact ⟨1, true, by simp [WPBFSM.isVisitedLoop, Token.IsEmitting, hs, hn, hc]⟩
    · refine ⟨fuel + 1, b, ?_⟩
      simp only [WPBFSM.isVisitedLoop, Token.IsEmitting, hs, Res.bind_ok, hn,
        Bool.false_eq_true, if_false]
      rw [hs] at hc
      simp only [hc, if_false]
      exact hfuel

/-- C21.  Let `t` be a token of a non-emitting state `s`, as `collectSuccessorTokens` passes
to `isVisited`.  Then `isVisited(t)` is true exactly when a proper ancestor of `t`, come to by
following the predecessors from `t` through tokens of non-emitting states only, has the search
state `s`; and when the walk comes to its end, at the first emitting ancestor or at the end of
the chain, without such an ancestor, `isVisited(t)` is false. -/
theorem is_visited_iff_state_met_on_non_emitting_walk (lg : Linguist) (m : WPBFSM.Manager)
    (t : Ptr) (s : SearchState) (hstate : (m.heap.deref t).searchState = some s)
    (hne : lg.isEmitting s = false) :
    (WPBFSM.isVisited lg m t = .ok true ↔
      ∃ a, ThroughNonEmitting lg m.heap (GetPredecessor m.heap t) a ∧
        (m.heap.deref a).searchState = some s) ∧
    (WalkEnds lg m.heap (GetPredecessor m.heap t) →
      (¬ ∃ a, ThroughNonEmitting lg m.heap (GetPredecessor m.heap t) a ∧
        (m.heap.deref a).searchState = some s) →
      WPBFSM.isVisited lg m t = .ok false) := by
  have hiff : WPBFSM.isVisited lg m t = .ok true ↔
      ∃ a, ThroughNonEmitting lg m.heap (GetPredecessor m.heap t) a ∧
        (m.heap.deref a).searchState = some s := by
    simp only [WPBFSM.isVisited, hstate]
    constructor
    · exact WPBFSM.isVisitedLoop_true _ _
    · rintro ⟨a, ha, hsa⟩
      obtain ⟨fuel, hfuel⟩ := WPBFSM.isVisitedLoop_finds hne ha hsa
      exact WPBFSM.isVisitedLoop_enough hfuel
  refine ⟨hiff, ?_⟩
  intro hends hno
  obtain ⟨fuel, b, hfuel⟩ := WPBFSM.isVisitedLoop_answers (some s) hends
  have hres : WPBFSM.isVisited lg m t = .ok b := by
    simp only [WPBFSM.isVisited, hstate]
    exact WPBFSM.isVisitedLoop_enough hfuel
  cases b with
  | true => exact absurd (hiff.mp hres) hno
  | false => exact hres

/-- C21 on `roundTheLoop`: the token 3 of the non-emitting state 70 has the predecessor 2, of
the non-emitting state 72, whose predecessor 1 has the state 70 again, so `isVisited` is true
for it; for the token 2 the walk meets the token 1 and ends at the emitting token 0, and
`isVisited` is false. -/
theorem is_visited_iff_state_met_on_non_emitting_walk_witness :
    WPBFSM.isVisited epsilonLoop roundTheLoop 3 = .ok true ∧
    WPBFSM.isVisited epsilonLoop roundTheLoop 2 = .ok false ∧
    (ThroughNonEmitting epsilonLoop roundTheLoop.heap (GetPredecessor roundTheLoop.heap 3) 1 ∧
      (roundTheLoop.heap.deref 1).searchState = some 70) ∧
    WalkEnds epsilonLoop roundTheLoop.heap (GetPredecessor roundTheLoop.heap 3) ∧
    ((WPBFSM.isVisited epsilonLoop roundTheLoop 3 = .ok true ↔
      ∃ a, ThroughNonEmitting epsilonLoop roundTheLoop.heap
          (GetPredecessor roundTheLoop.heap 3) a ∧
        (roundTheLoop.heap.deref a).searchState = some 70) ∧
    (WalkEnds epsilonLoop roundTheLoop.heap (GetPredecessor roundTheLoop.heap 3) →
      (¬ ∃ a, ThroughNonEmitting epsilonLoop roundTheLoop.heap
          (GetPredecessor roundTheLoop.heap 3) a ∧
        (roundTheLoop.heap.deref a).searchState = some 70) →
      WPBFSM.isVisited epsilonLoop roundTheLoop 3 = .ok false)) :=
  ⟨by decide, by decide,
    ⟨ThroughNonEmitting.next (p := 2) (s := 72) (by decide) (by decide)
      ThroughNonEmitting.first, by decide⟩,
    WalkEnds.step (p := 2) (s := 72) (by decide) (by decide)
      (WalkEnds.step (p := 1) (s := 70) (by decide) (by decide)
        (WalkEnds.atEmitting (p := 0) (s := 71) (by decide) (by decide))),
    is_visited_iff_state_met_on_non_emitting_walk epsilonLoop roundTheLoop 3 70 (by decide)
      (by decide)⟩

/-! ## C26: the tokens that `growEmittingBranches` expands -/

/-- One pass of the arc loop leaves the active list and the acoustic lookahead as they are. -/
theorem WPBFSM.processArc_config {lg : Linguist} {m m' : WPBFSM.Manager} {token : Ptr}
    {state : SearchState} {predecessor : Option Ptr} {arc : SearchStateArc}
    (h : WPBFSM.processArc lg m token state predecessor arc = .ok m') :
    m'.acousticLookaheadFrames = m.acousticLookaheadFrames ∧ m'.activeList = m.activeList := by
  unfold WPBFSM.processArc at h
  obtain ⟨_, _, h⟩ := Res.bind_eq_ok.mp h
  simp only at h
  split at h
  · simp only [WPBFSM.activeListAdd] at h
    split at h
    · cases h
    · obtain ⟨alm, _, h⟩ := Res.bind_eq_ok.mp h
      cases h
      exact ⟨rfl, rfl⟩
  · split at h
    · split at h <;> cases h <;> exact ⟨rfl, rfl⟩
    · split at h
      · split at h <;> cases h <;> exact ⟨rfl, rfl⟩
      · cases h; exact ⟨rfl, rfl⟩

/-- One pass of the arc loop leaves the tokens that are not recorded in the best token map
as they are, and records none of them. -/
theorem unrecorded_processArc {lg : Linguist} {m m' : WPBFSM.Manager} {token : Ptr}
    {state : SearchState} {predecessor : Option Ptr} {arc : SearchStateArc} {toks : List Ptr}
    (h : WPBFSM.processArc lg m token state predecessor arc = .ok m')
    (hun : WPBFSM.Unrecorded m toks) :
    WPBFSM.Unrecorded m' toks ∧ (∀ p, p ∈ toks → m'.heap.deref p = m.heap.deref p) ∧
      m'.acousticLookaheadFrames = m.acousticLookaheadFrames := by
  obtain ⟨hin, hrec⟩ := hun
  refine ⟨?_, ?_, (WPBFSM.processArc_config h).1⟩
  · obtain ⟨_, hcases⟩ := WPBFSM.processArc_ok_cases lg m m' token state predecessor arc h
    rcases hcases with ⟨_, hheap, hmap, _⟩ | ⟨b, hb, hmap, _, hheap⟩
    · constructor
      · intro t ht
        rw [hheap, List.length_append]
        exact Nat.lt_add_right _ (hin t ht)
      · intro s p hp hmem
        simp only [WPBFSM.getBestToken, hmap, List.lookup] at hp
        split at hp
        · simp only [Option.some.injEq] at hp
          have hlt := hin p hmem
          rw [← hp] at hlt
          exact lt_irrefl _ hlt
        · exact hrec s p hp hmem
    · constructor
      · intro t ht
        rcases hheap with ⟨_, hheap⟩ | ⟨_, hheap⟩
        · rw [hheap, Heap.length_store]; exact hin t ht
        · rw [hheap]; exact hin t ht
      · intro s p hp hmem
        simp only [WPBFSM.getBestToken, hmap] at hp
        exact hrec s p hp hmem
  · intro p hp
    obtain ⟨_, hcases⟩ := WPBFSM.processArc_ok_cases lg m m' token state predecessor arc h
    rcases hcases with ⟨_, hheap, _, _⟩ | ⟨b, hb, _, _, hheap⟩
    · rw [hheap]
      exact Heap.deref_append_lt _ _ (hin p hp)
    · rcases hheap with ⟨_, hheap⟩ | ⟨_, hheap⟩
      · rw [hheap]
        apply Heap.deref_store_ne
        intro hpb
        rw [hpb] at hp
        exact hrec arc.state b hb hp
      · rw [hheap]

/-- The arc loop leaves the tokens that are not recorded in the best token map as they are,
and records none of them. -/
theorem unrecorded_arcLoop {lg : Linguist} {token : Ptr} {state : SearchState}
    {predecessor : Option Ptr} {toks : List Ptr} :
    ∀ (arcs : List SearchStateArc) (m m' : WPBFSM.Manager),
      WPBFSM.arcLoop lg token state predecessor arcs m = .ok m' → WPBFSM.Unrecorded m toks →
      WPBFSM.Unrecorded m' toks ∧ (∀ p, p ∈ toks → m'.heap.deref p = m.heap.deref p) ∧
        m'.acousticLookaheadFrames = m.acousticLookaheadFrames := by
  intro arcs
  induction arcs with
  | nil =>
    intro m m' h hun
    simp only [WPBFSM.arcLoop, Res.ok.injEq] at h
    subst h
    exact ⟨hun, fun _ _ => rfl, rfl⟩
  | cons arc rest ih =>
    intro m m' h hun
    simp only [WPBFSM.arcLoop] at h
    obtain ⟨m1, h1, h2⟩ := Res.bind_eq_ok.mp h
    obtain ⟨hun1, hd1, hf1⟩ := unrecorded_processArc h1 hun
    obtain ⟨hun2, hd2, hf2⟩ := ih m1 m' h2 hun1
    exact ⟨hun2, fun p hp => by rw [hd2 p hp, hd1 p hp], by rw [hf2, hf1]⟩

/-- A call of `collectSuccessorTokens` leaves the tokens that are not recorded in the best
token map as they are, and records none of them. -/
theorem unrecorded_collectSuccessorTokens {lg : Linguist} {m m' : WPBFSM.Manager} {token : Ptr}
    {toks : List Ptr} (h : WPBFSM.collectSuccessorTokens lg m token = .ok m')
    (hun : WPBFSM.Unrecorded m toks) :
    WPBFSM.Unrecorded m' toks ∧ (∀ p, p ∈ toks → m'.heap.deref p = m.heap.deref p) ∧
      m'.acousticLookaheadFrames = m.acousticLookaheadFrames := by
  have hgrown : ∀ (r : Heap × Option Ptr),
      m.getResultListPredecessor lg m.heap token = .ok r →
      (∀ t, t ∈ toks → t < r.1.length) ∧
        ∀ p, p ∈ toks → r.1.deref p = m.heap.deref p := by
    intro r hr
    rcases TokenSearchManager.getResultListPredecessor_heap hr with hh | ⟨t, hh⟩
    · rw [hh]; exact ⟨hun.1, fun _ _ => rfl⟩
    · rw [hh]
      refine ⟨fun p hp => ?_, fun p hp => Heap.deref_append_lt _ _ (hun.1 p hp)⟩
      rw [List.length_append]
      exact Nat.lt_add_right _ (hun.1 p hp)
  simp only [WPBFSM.collectSuccessorTokens] at h
  obtain ⟨final, _, h⟩ := Res.bind_eq_ok.mp h
  split at h
  · obtain ⟨r, hr, h⟩ := Res.bind_eq_ok.mp h
    simp only [Res.ok.injEq] at h
    subst h
    obtain ⟨hlen, hderef⟩ := hgrown r hr
    exact ⟨⟨hlen, hun.2⟩, hderef, rfl⟩
  · obtain ⟨emitting, _, h⟩ := Res.bind_eq_ok.mp h
    obtain ⟨visited, _, h⟩ := Res.bind_eq_ok.mp h
    split at h
    · simp only [Res.ok.injEq] at h
      subst h
      exact ⟨hun, fun _ _ => rfl, rfl⟩
    · split at h
      · cases h
      · obtain ⟨r, hr, h⟩ := Res.bind_eq_ok.mp h
        obtain ⟨hlen, hderef⟩ := hgrown r hr
        have hun1 : WPBFSM.Unrecorded { m with heap := r.1 } toks := ⟨hlen, hun.2⟩
        obtain ⟨hun2, hd2, hf2⟩ := unrecorded_arcLoop _ _ _ h hun1
        exact ⟨hun2, fun p hp => by rw [hd2 p hp]; exact hderef p hp, hf2⟩

/-- The first loop of `growEmittingBranches` gives the highest projected score, when this is
not below the value the loop starts from. -/
theorem WPBFSM.bestProjectedScore_max (h : Heap) (frames best : Int) :
    ∀ (toks : List Ptr) (start : Int), start ≤ best →
      (∀ t, t ∈ toks → projectedScore h frames t ≤ best) →
      (start = best ∨ ∃ t, t ∈ toks ∧ projectedScore h frames t = best) →
      WPBFSM.bestProjectedScore h frames (toks.map some) start = .ok best := by
  intro toks
  induction toks with
  | nil =>
    intro start _ _ hatt
    rcases hatt with hatt | ⟨t, ht, _⟩
    · simp [WPBFSM.bestProjectedScore, hatt]
    · exact absurd ht (List.not_mem_nil t)
  | cons t rest ih =>
    intro start hstart hle hatt
    simp only [List.map_cons, WPBFSM.bestProjectedScore]
    have ht : projectedScore h frames t ≤ best := hle t (List.mem_cons_self t rest)
    simp only [projectedScore] at ht
    apply ih
    · split <;> omega
    · intro u hu
      exact hle u (List.mem_cons_of_mem t hu)
    · rcases hatt with hatt | ⟨u, hu, hbest⟩
      · left
        split
        · omega
        · exact hatt
      · rcases List.mem_cons.mp hu with hu | hu
        · left
          simp only [projectedScore, hu] at hbest
          split
          · exact hbest
          · omega
        · exact Or.inr ⟨u, hu, hbest⟩

/-- The second loop of `growEmittingBranches`, over tokens that are not recorded in the best
token map, calls `collectSuccessorTokens` for those whose projected score, as it was when the
loop began, is above the threshold. -/
theorem WPBFSM.growEmittingLoop_eq_expandAll (lg : Linguist) (threshold : Int)
    (m0 : WPBFSM.Manager) (all : List Ptr) :
    ∀ (toks : List Ptr) (m : WPBFSM.Manager), (∀ t, t ∈ toks → t ∈ all) →
      WPBFSM.Unrecorded m all → (∀ p, p ∈ all → m.heap.deref p = m0.heap.deref p) →
      m.acousticLookaheadFrames = m0.acousticLookaheadFrames →
      WPBFSM.growEmittingLoop lg threshold (toks.map some) m
        = WPBFSM.expandAll lg
            (toks.filter fun t =>
              decide (projectedScore m0.heap m0.acousticLookaheadFrames t > threshold)) m := by
  intro toks
  induction toks with
  | nil => intro m _ _ _ _; rfl
  | cons t rest ih =>
    intro m hsub hun hd hf
    have ht : t ∈ all := hsub t (List.mem_cons_self t rest)
    have hrest : ∀ u, u ∈ rest → u ∈ all := fun u hu => hsub u (List.mem_cons_of_mem t hu)
    have hproj : GetScore m.heap t + (m.heap.deref t).logAcousticScore * m.acousticLookaheadFrames
        = projectedScore m0.heap m0.acousticLookaheadFrames t := by
      simp only [projectedScore, GetScore, hd t ht, hf]
    simp only [List.map_cons, WPBFSM.growEmittingLoop, hproj, List.filter_cons]
    by_cases hgt : projectedScore m0.heap m0.acousticLookaheadFrames t > threshold
    · simp only [hgt, if_true, decide_True, WPBFSM.expandAll]
      cases hc : WPBFSM.collectSuccessorTokens lg m t with
      | panics => rfl
      | diverges => rfl
      | ok m1 =>
        obtain ⟨hun1, hd1, hf1⟩ := unrecorded_collectSuccessorTokens hc hun
        simp only [Res.bind_ok]
        exact ih m1 hrest hun1 (fun p hp => by rw [hd1 p hp, hd p hp]) (by rw [hf1, hf])
    · simp only [hgt, if_false, decide_False, Res.bind_ok]
      exact ih m hrest hun hd hf

/-- The loop of `growBranches`, over tokens that are not recorded in the best token map,
calls `collectSuccessorTokens` for those whose score, as it was when the loop began, is at
least the threshold and which `allowExpansion` lets through. -/
theorem WPBFSM.growBranchesLoop_eq_expandAll (lg : Linguist) (allowExpansion : Token → Bool)
    (threshold : Int) (m0 : WPBFSM.Manager) (all : List Ptr) :
    ∀ (toks : List Ptr) (m : WPBFSM.Manager), (∀ t, t ∈ toks → t ∈ all) →
      WPBFSM.Unrecorded m all → (∀ p, p ∈ all → m.heap.deref p = m0.heap.deref p) →
      WPBFSM.growBranchesLoop lg allowExpansion threshold (toks.map some) m
        = WPBFSM.expandAll lg
            (toks.filter fun t =>
              decide (GetScore m0.heap t ≥ threshold) && allowExpansion (m0.heap.deref t)) m := by
  intro toks
  induction toks with
  | nil => intro m _ _ _; rfl
  | cons t rest ih =>
    intro m hsub hun hd
    have ht : t ∈ all := hsub t (List.mem_cons_self t rest)
    have hrest : ∀ u, u ∈ rest → u ∈ all := fun u hu => hsub u (List.mem_cons_of_mem t hu)
    have hscore : GetScore m.heap t = GetScore m0.heap t := by
      simp only [GetScore, hd t ht]
    simp only [List.map_cons, WPBFSM.growBranchesLoop, hscore, hd t ht, List.filter_cons]
    by_cases hge : GetScore m0.heap t ≥ threshold ∧ allowExpansion (m0.heap.deref t) = true
    · simp only [hge, and_self, if_true, decide_True, Bool.and_self, WPBFSM.expandAll]
      cases hc : WPBFSM.collectSuccessorTokens lg m t with
      | panics => rfl
      | diverges => rfl
      | ok m1 =>
        obtain ⟨hun1, hd1, _⟩ := unrecorded_collectSuccessorTokens hc hun
        simp only [Res.bind_ok]
        exact ih m1 hrest hun1 (fun p hp => by rw [hd1 p hp, hd p hp])
    · have hfalse : (decide (GetScore m0.heap t ≥ threshold) &&
          allowExpansion (m0.heap.deref t)) = false := by
        rw [Bool.and_eq_false_iff]
        rw [not_and_or] at hge
        rcases hge with hge | hge
        · left; simpa using hge
        · right; simpa using hge
      simp only [hge, if_false, hfalse, Res.bind_ok]
      exact ih m hrest hun hd

/-- C26.  Let the active list be the pruned emitting list, with the tokens `toks` and no nil
among them, none of which is recorded in the best token map (`clearCollectors` has just
emptied it), and let `allowExpansion`, which the sources call and do not define, let every
token through.  With `acousticLookaheadFrames > 0`, `growEmittingBranches` is the sequence
of the calls `collectSuccessorTokens(t)` for exactly the tokens `t` of the list, in the order
of the list, whose projected score `t.score + acousticLookaheadFrames * t.acousticScore` is
strictly above `best + relativeBeamWidth`, where `best` is the highest projected score of the
list, a `float64` and so not below `-MaxFloat64`.  With `acousticLookaheadFrames <= 0` it is
the sequence of the calls for exactly the tokens whose score is at least the beam threshold
of the list.  On an empty list it calls nothing. -/
theorem grow_emitting_branches_expands_the_tokens_within_the_beam (lg : Linguist)
    (allowExpansion : Token → Bool) (m : WPBFSM.Manager) (al : ActiveList Ptr)
    (toks : List Ptr) (hal : m.activeList = some al) (htoks : al.GetTokens = toks.map some)
    (hun : WPBFSM.Unrecorded m toks) (hallow : ∀ t, allowExpansion t = true) :
    (0 < m.acousticLookaheadFrames →
      ∀ best,
        (∀ t, t ∈ toks → projectedScore m.heap m.acousticLookaheadFrames t ≤ best) →
        (∃ t, t ∈ toks ∧ projectedScore m.heap m.acousticLookaheadFrames t = best) →
        -maxFloat64 ≤ best →
        WPBFSM.growEmittingBranches lg allowExpansion m
          = WPBFSM.expandAll lg
              (toks.filter fun t =>
                decide (projectedScore m.heap m.acousticLookaheadFrames t
                  > best + m.relativeBeamWidth)) m) ∧
    (m.acousticLookaheadFrames ≤ 0 →
      WPBFSM.growEmittingBranches lg allowExpansion m
        = WPBFSM.expandAll lg
            (toks.filter fun t =>
              decide (GetScore m.heap t ≥ al.GetBeamThreshold (GetScore m.heap))) m) ∧
    (toks = [] → WPBFSM.growEmittingBranches lg allowExpansion m = .ok m) := by
  refine ⟨?_, ?_, ?_⟩
  · intro hpos best hle hatt hrange
    have hnot : ¬ m.acousticLookaheadFrames ≤ 0 := not_le.mpr hpos
    simp only [WPBFSM.growEmittingBranches, hnot, if_false, hal, htoks]
    rw [WPBFSM.bestProjectedScore_max m.heap m.acousticLookaheadFrames best toks (-maxFloat64)
      hrange hle (Or.inr hatt)]
    simp only [Res.bind_ok]
    exact WPBFSM.growEmittingLoop_eq_expandAll lg _ m toks toks m (fun _ ht => ht) hun
      (fun _ _ => rfl) rfl
  · intro hzero
    simp only [WPBFSM.growEmittingBranches, hzero, if_true, WPBFSM.growBranches, hal, htoks]
    rw [WPBFSM.growBranchesLoop_eq_expandAll lg allowExpansion _ m toks toks m (fun _ ht => ht)
      hun (fun _ _ => rfl)]
    congr 1
    apply List.filter_congr
    intro t _
    simp [hallow]
  · intro hnil
    subst hnil
    simp only [WPBFSM.growEmittingBranches, WPBFSM.growBranches, hal, htoks, List.map_nil,
      WPBFSM.growBranchesLoop, WPBFSM.bestProjectedScore, Res.bind_ok, WPBFSM.growEmittingLoop]
    split <;> rfl

/-- C26 on `projectingTwoFrames`, whose emitting tokens 4, 5 and 6 have the projected scores
-11, -8 and -8: the highest is -8, the threshold -10, and `growEmittingBranches` is the call
of `collectSuccessorTokens` for the token 5 and then for the token 6, which creates three
tokens, for the states 20, 13 and 16; without acoustic lookahead, in `collectorsCleared`, the
three tokens are above the beam threshold -104 of the list, and four tokens are created. -/
theorem grow_emitting_branches_expands_the_tokens_within_the_beam_witness :
    [4, 5, 6].map (projectedScore projectingTwoFrames.heap 2) = [-11, -8, -8] ∧
    WPBFSM.growEmittingBranches smallGraph (fun _ => true) projectingTwoFrames
      = WPBFSM.expandAll smallGraph [5, 6] projectingTwoFrames ∧
    (WPBFSM.growEmittingBranches smallGraph (fun _ => true) projectingTwoFrames).bind
        (fun m => .ok (m.tokensCreated - projectingTwoFrames.tokensCreated)) = .ok 3 ∧
    (WPBFSM.growEmittingBranches smallGraph (fun _ => true) collectorsCleared).bind
        (fun m => .ok (m.tokensCreated - collectorsCleared.tokensCreated)) = .ok 4 ∧
    ((0 < projectingTwoFrames.acousticLookaheadFrames →
      ∀ best,
        (∀ t, t ∈ [4, 5, 6] →
          projectedScore projectingTwoFrames.heap projectingTwoFrames.acousticLookaheadFrames t
            ≤ best) →
        (∃ t, t ∈ [4, 5, 6] ∧
          projectedScore projectingTwoFrames.heap projectingTwoFrames.acousticLookaheadFrames t
            = best) →
        -maxFloat64 ≤ best →
        WPBFSM.growEmittingBranches smallGraph (fun _ => true) projectingTwoFrames
          = WPBFSM.expandAll smallGraph
              ([4, 5, 6].filter fun t =>
                decide (projectedScore projectingTwoFrames.heap
                    projectingTwoFrames.acousticLookaheadFrames t
                  > best + projectingTwoFrames.relativeBeamWidth)) projectingTwoFrames) ∧
    (projectingTwoFrames.acousticLookaheadFrames ≤ 0 →
      WPBFSM.growEmittingBranches smallGraph (fun _ => true) projectingTwoFrames
        = WPBFSM.expandAll smallGraph
            ([4, 5, 6].filter fun t =>
              decide (GetScore projectingTwoFrames.heap t
                ≥ (ActiveList.simple
                    { absoluteBeamWidth := 5, logRelativeBeamWidth := -100,
                      bestToken := some 5, tokenList := [4, 5, 6] }).GetBeamThreshold
                    (GetScore projectingTwoFrames.heap))) projectingTwoFrames) ∧
    (([4, 5, 6] : List Ptr) = [] →
      WPBFSM.growEmittingBranches smallGraph (fun _ => true) projectingTwoFrames
        = .ok projectingTwoFrames)) :=
  ⟨by decide!, by decide!, by decide!, by decide!,
    grow_emitting_branches_expands_the_tokens_within_the_beam smallGraph (fun _ => true)
      projectingTwoFrames
      (.simple { absoluteBeamWidth := 5, logRelativeBeamWidth := -100, bestToken := some 5,
                 tokenList := [4, 5, 6] })
      [4, 5, 6] (by decide!) (by decide!)
      ⟨by decide!, fun s p hp => by
        have hmap : projectingTwoFrames.bestTokenMap = [] := by decide!
        simp [WPBFSM.getBestToken, hmap] at hp⟩
      (fun _ => rfl)⟩

/-! ## C31, C33: the score and the word path of a token -/

/-- C31.  For a token with a search state that gives the score `s` on the feature,
`CalculateScore(feature)` returns the previous total score plus `s`, and leaves a token whose
`logAcousticScore` is `s`, whose `logTotalScore` is the previous one plus `s`, the value
returned, and whose data is the feature. -/
theorem calculate_score_adds_the_score_of_the_state (sm : ScoringModel) (tok : Token)
    (feature : Data) (st : SearchState) (s : Int) (hstate : tok.searchState = some st)
    (hscore : sm.provider st feature = .ok s) :
    ∃ scored : Token,
      tok.CalculateScoreValue sm feature = .ok (tok.logTotalScore + s, scored) ∧
      scored.logAcousticScore = s ∧ scored.logTotalScore = tok.logTotalScore + s ∧
      scored.data = some feature := by
  cases feature <;>
    simp [Token.CalculateScoreValue, Token.CalculateScore, hstate, hscore, Res.bind, Token.SetData]

/-- C31 on the token of state 4 and total score 10 with a state score of -1: the value returned
is 9. -/
theorem calculate_score_adds_the_score_of_the_state_witness :
    ∃ scored : Token,
      (tokenWith none (some 4) 10 0 0 0 5 none).CalculateScoreValue emittingScoreMinusOne frame20
        = .ok ((tokenWith none (some 4) 10 0 0 0 5 none).logTotalScore + (-1), scored) ∧
      scored.logAcousticScore = -1 ∧
      scored.logTotalScore = (tokenWith none (some 4) 10 0 0 0 5 none).logTotalScore + (-1) ∧
      scored.data = some frame20 :=
  calculate_score_adds_the_score_of_the_state emittingScoreMinusOne
    (tokenWith none (some 4) 10 0 0 0 5 none) frame20 4 (-1) rfl rfl

/-- C33.  `GetWordPath` appends what it finds to the end of the string while it walks from the
token back to its predecessors, so the word recognised last comes first: for the path of
`hello <sil> world` it returns `world hello ` without fillers and `world <sil> hello ` with
them, where the order of the recognition is `hello world ` and `hello <sil> world `. -/
theorem word_path_has_the_latest_word_first :
    GetWordPath threeWords threeWordsInfo helloWorld 4 false false = .ok "world hello " ∧
    GetWordPathNoFiller threeWords threeWordsInfo helloWorld 4 = .ok "world hello " ∧
    GetWordPath threeWords threeWordsInfo helloWorld 4 true false = .ok "world <sil> hello " ∧
    "world hello " ≠ "hello world " := by
  decide!

/-! ## C34: the file of a transform -/

/-- C34.  `Store` writes a row of the matrix on one line, and `Load` takes one number from
every line it reads.  For the transform `twoByTwo`, of one stream of vector length 2, the file
has the lines `1`, `1`, `2`, `1 2`, `3 4`, `5 6` and `1.0 1.0`; `Load` reads the matrix with
the rows `1 3` and `5 1` and the vector `0 0` from it, without error, and not the matrix with
the rows `1 2` and `3 4` and the vector `5 6` that were stored.  With vector length 1, as in
`oneByOne`, the transform read is the one stored. -/
theorem transform_load_reads_one_number_per_line :
    twoByTwo.Store oneStreamOfTwo 0 = .ok twoByTwoFile ∧
    Transform.Load { a := [], b := [] } twoByTwoFile
      = .ok (none, { a := [[[[1, 3], [5, 1]]]], b := [[[0, 0]]] }) ∧
    ({ a := [[[[1, 3], [5, 1]]]], b := [[[0, 0]]] } : Transform) ≠ twoByTwo ∧
    (oneByOne.Store { numStreams := 1, vectorLength := [1] } 0).bind
      (Transform.Load { a := [], b := [] }) = .ok (none, oneByOne) := by
  decide

/-! ## C35: the lifecycle of the recognizer -/

/-- C35.  Every operation of the recognizer checks the state first.  `Allocate` panics unless
the state is `DEALLOCATED`; from `DEALLOCATED`, when the decoder allocates and the state
listener, if there is one, returns, it returns with the state `READY`.  `Recognize` and
`Deallocate` panic unless the state is `READY`, so `Recognize` on a new recognizer panics.  A
call that is rejected leaves the recognizer, state and decoder, as it was. -/
theorem recognizer_checks_the_lifecycle_state {δ ρ : Type} (dm : DecoderMethods δ ρ)
    (dr : Recognizer δ) :
    (dr.currentState ≠ .DEALLOCATED → Recognizer.Allocate dm dr = (.panics, dr)) ∧
    (dr.currentState = .DEALLOCATED → (dm.Allocate dr.decoder).1 = .ok () →
      (∀ listener, dr.StateListenerFunc = some listener → ∀ s, listener s = .ok ()) →
      (Recognizer.Allocate dm dr).1 = .ok () ∧
        (Recognizer.Allocate dm dr).2.currentState = .READY) ∧
    (dr.currentState ≠ .READY → Recognizer.Recognize dm dr = (.panics, dr)) ∧
    (dr.currentState ≠ .READY → Recognizer.Deallocate dm dr = (.panics, dr)) ∧
    (∀ decoder : δ, (NewRecognizer decoder).currentState = .DEALLOCATED ∧
      Recognizer.Recognize dm (NewRecognizer decoder) = (.panics, NewRecognizer decoder)) := by
  refine ⟨?_, ?_, ?_, ?_, ?_⟩
  · intro h
    simp [Recognizer.Allocate, Recognizer.andThen, Recognizer.checkState, h]
  · intro h hdec hlis
    cases hl : dr.StateListenerFunc with
    | none =>
      simp [Recognizer.Allocate, Recognizer.andThen, Recognizer.checkState, Recognizer.setState,
        h, hdec, hl]
    | some listener =>
      have hok := hlis listener hl
      simp [Recognizer.Allocate, Recognizer.andThen, Recognizer.checkState, Recognizer.setState,
        h, hdec, hl, hok]
  · intro h
    simp [Recognizer.Recognize, Recognizer.andThen, Recognizer.checkState, h]
  · intro h
    simp [Recognizer.Deallocate, Recognizer.andThen, Recognizer.checkState, h]
  · intro decoder
    refine ⟨rfl, ?_⟩
    simp [Recognizer.Recognize, Recognizer.andThen, Recognizer.checkState, NewRecognizer]

/-- The lifecycle on a decoder that counts its calls: `Allocate` on the new recognizer ends in
`READY`, `Recognize` then returns the result of the decoder and ends in `READY`, `Deallocate`
then ends in `DEALLOCATED`; a second `Allocate` in the state `READY` panics and leaves the
state `READY`. -/
theorem recognizer_lifecycle_on_counting_decoder :
    (Recognizer.Allocate countingDecoder (NewRecognizer 0)).1 = .ok () ∧
    (Recognizer.Allocate countingDecoder (NewRecognizer 0)).2.currentState = .READY ∧
    (Recognizer.Recognize countingDecoder
      (Recognizer.Allocate countingDecoder (NewRecognizer 0)).2).1 = .ok 1 ∧
    (Recognizer.Recognize countingDecoder
      (Recognizer.Allocate countingDecoder (NewRecognizer 0)).2).2.currentState = .READY ∧
    (Recognizer.Deallocate countingDecoder
      (Recognizer.Allocate countingDecoder (NewRecognizer 0)).2).2.currentState = .DEALLOCATED ∧
    (Recognizer.Allocate countingDecoder
      (Recognizer.Allocate countingDecoder (NewRecognizer 0)).2).1 = .panics ∧
    (Recognizer.Allocate countingDecoder
      (Recognizer.Allocate countingDecoder (NewRecognizer 0)).2).2.currentState = .READY := by
  decide

/-! ## C36, C37: the tokenizers -/

/-- The loop over the characters of a number, started with the value 0, ends with the value
0: a digit multiplies the value, and nothing is added to it. -/
theorem numberLoop_value_zero :
    ∀ (fuel : Nat) (c decexp seendot : Int) (t t' : StreamTokenizer) (r : Int × ℚ × Int × Int),
      numberLoop fuel c (0, decexp, seendot) t = (.ok r, t') → r.2.1 = 0 := by
  intro fuel
  induction fuel with
  | zero => intro c decexp seendot t t' r h; simp [numberLoop] at h
  | succ fuel ih =>
    intro c decexp seendot t t' r h
    simp only [numberLoop] at h
    split at h
    · simp only [StreamTokenizer.readThen] at h
      split at h
      · exact ih _ _ _ _ _ _ h
      · simp at h
      · simp at h
    · split at h
      · simp only [StreamTokenizer.readThen, zero_mul] at h
        split at h
        · exact ih _ _ _ _ _ _ h
        · simp at h
        · simp at h
      · simp only [Prod.mk.injEq, Got.ok.injEq] at h
        rw [← h.1]

/-- The number part of `NextToken` leaves `nval` at 0 whenever it returns `TT_NUMBER`. -/
theorem numberToken_value_zero (t t' : StreamTokenizer) (c : Int)
    (h : t.numberToken c = (.ok TT_NUMBER, t')) : t'.nval = 0 := by
  simp only [StreamTokenizer.numberToken] at h
  split at h
  · simp only [StreamTokenizer.readThen] at h
    split at h
    · split at h
      · simp only [Prod.mk.injEq, Got.ok.injEq] at h
        exact absurd h.1 (by decide)
      · split at h
        · rename_i hloop
          have hv := numberLoop_value_zero _ _ _ _ _ _ _ hloop
          simp only at hv
          simp only [Prod.mk.injEq, true_and] at h
          rw [← h, hv]
          simp
        · simp at h
        · simp at h
    · simp at h
    · simp at h
  · split at h
    · rename_i hloop
      have hv := numberLoop_value_zero _ _ _ _ _ _ _ hloop
      simp only at hv
      simp only [Prod.mk.injEq, true_and] at h
      rw [← h, hv]
      simp
    · simp at h
    · simp at h

/-- C36.  The digits of a number do not reach `nval`: the loop over them has
`v = v * float64(10+(c-'0'))`, which leaves `v` at 0.  For the input `123` followed by a blank,
`NextToken` with the default syntax returns `TT_NUMBER` with `nval = 0`, not 123, and for
`-4.5x` it returns `TT_NUMBER` with `nval = 0`; and whenever the number part of `NextToken`
returns `TT_NUMBER`, `nval` is 0. -/
theorem number_token_has_the_value_zero :
    (NewStreamTokenizerFromReader (bytesOf "123 ")).NextToken.1 = .ok TT_NUMBER ∧
    (NewStreamTokenizerFromReader (bytesOf "123 ")).NextToken.2.nval = 0 ∧
    (NewStreamTokenizerFromReader (bytesOf "-4.5x")).NextToken.1 = .ok TT_NUMBER ∧
    (NewStreamTokenizerFromReader (bytesOf "-4.5x")).NextToken.2.nval = 0 ∧
    ∀ (t t' : StreamTokenizer) (c : Int), t.numberToken c = (.ok TT_NUMBER, t') → t'.nval = 0 :=
  ⟨by decide!, by decide!, by decide!, by decide!, numberToken_value_zero⟩

/-- The method `Read` never returns a negative character, which is what `NextToken` takes for
the end of the input. -/
theorem read_is_never_negative (t t' : StreamTokenizer) (c : Int) (h : t.Read = (.ok c, t')) :
    0 ≤ c := by
  simp only [StreamTokenizer.Read] at h
  split at h
  · simp only [Prod.mk.injEq, Got.ok.injEq] at h
    rw [← h.1]
    exact Int.natCast_nonneg _
  · simp at h
  · simp at h

/-- C37.  At the end of the input `Read` returns the error `io.EOF` and the character 0, not
a negative character, so `NextToken` returns the error and never `TT_EOF`.  Over the words
`ab cd` followed by a blank, `GetString` returns `ab`, `cd` and then the error `io.EOF`, not
the empty string, and `IsEOF()` is false after it; over `ab cd` without a blank after it, the
second call returns the error `io.EOF` and not the word `cd`, and so does the third, after
which `IsEOF()` is false. -/
theorem get_string_returns_an_error_at_the_end_of_input :
    ((wordsOf "ab cd ").getStrings 3).1 = [.ok "ab", .ok "cd", .error .eof] ∧
    ((wordsOf "ab cd ").getStrings 3).2.IsEOF = false ∧
    ((wordsOf "ab cd").getStrings 3).1 = [.ok "ab", .error .eof, .error .eof] ∧
    ((wordsOf "ab cd").getStrings 3).2.IsEOF = false ∧
    ∀ (t t' : StreamTokenizer) (c : Int), t.Read = (.ok c, t') → 0 ≤ c :=
  ⟨by decide!, by decide!, by decide!, by decide!, read_is_never_negative⟩

/-! ## C38, C39: the tokens and the growth of a partition list -/

/-- C38.  `GetTokens()` of a `PartitionActiveList` returns the whole backing slice, nil slots
included: a new list of beam width 9 has `Size() = 0` and returns three nil entries, and after
the `Add` of a token it has `Size() = 1` and returns the token followed by two nil entries.
`GetTokens()` of a `SimpleActiveList` has `Size()` entries. -/
theorem partition_get_tokens_returns_nil_slots :
    (NewPartitionActiveList 9 0 : PartitionActiveList Int).Size = 0 ∧
    (NewPartitionActiveList 9 0 : PartitionActiveList Int).GetTokens = [none, none, none] ∧
    ((NewPartitionActiveList 9 0).Add scoreOf 7).bind (fun pal => .ok (pal.Size, pal.GetTokens))
      = .ok (1, [some 7, none, none]) ∧
    ∀ sal : SimpleActiveList Int, (sal.GetTokens.length : Int) = sal.Size := by
  refine ⟨by decide, by decide, by decide, ?_⟩
  intro sal
  rfl

/-- With an empty backing slice the calls of `Add` never stop: the slice stays empty when its
capacity is doubled. -/
theorem PartitionActiveList.AddAux_empty_diverges {τ : Type} (score : τ → Int) (token : τ) :
    ∀ (fuel : Nat) (pal : PartitionActiveList τ), pal.tokenList = [] → 0 ≤ pal.size →
      PartitionActiveList.AddAux score fuel pal token = .diverges := by
  intro fuel
  induction fuel with
  | zero => intro pal _ _; rfl
  | succ fuel ih =>
    intro pal hempty hsize
    have hnot : ¬ pal.size < (pal.tokenList.length : Int) := by
      rw [hempty]; simpa using hsize
    have hrec := ih pal.doubleCapacity
      (by simp [PartitionActiveList.doubleCapacity, hempty]) hsize
    simp only [PartitionActiveList.AddAux, if_neg hnot, hrec]
    rfl

/-- C39.  A new list of beam width 3 has a backing slice of one slot; the second `Add` doubles
the capacity with a slice made anew, so that after the tokens 9 and 1 the list has `Size() = 2`
and the slots nil and 1: the first slot does not hold the first token.  A new list of beam
width 1 or 2 has an empty backing slice, which doubling leaves empty, and `Add` on it does not
terminate, with however much fuel. -/
theorem partition_add_loses_tokens_or_never_ends :
    (((NewPartitionActiveList 3 0).Add scoreOf 9).bind fun pal => pal.Add scoreOf 1).bind
      (fun pal => .ok (pal.Size, pal.GetTokens)) = .ok (2, [none, some 1]) ∧
    (∀ (fuel : Nat) (token : Int),
      PartitionActiveList.AddAux scoreOf fuel (NewPartitionActiveList 1 0) token = .diverges) ∧
    (∀ (fuel : Nat) (token : Int),
      PartitionActiveList.AddAux scoreOf fuel (NewPartitionActiveList 2 0) token = .diverges) ∧
    (NewPartitionActiveList 1 0).Add scoreOf 7 = .diverges := by
  refine ⟨by decide, ?_, ?_, by decide⟩
  · intro fuel token
    exact PartitionActiveList.AddAux_empty_diverges scoreOf token fuel _ (by decide) (by decide)
  · intro fuel token
    exact PartitionActiveList.AddAux_empty_diverges scoreOf token fuel _ (by decide) (by decide)

/-! ## C32: the scoring of a list of tokens -/

/-- The scoring loop on a list of distinct tokens of the heap that can all be scored: it
returns; every token of the list is left as one `CalculateScore` leaves it and the other tokens
are left alone; the best token is the one it started from when no score of the list is above
the bound it started from, and otherwise the first token of the list with the highest
score. -/
theorem SimpleAcousticScorer.doScoringLoop_first_max (sm : ScoringModel) (data : Data) :
    ∀ (tokens : List Ptr) (h : Heap) (b0 : Option Ptr) (bound : Int),
      (∀ p ∈ tokens, p < h.length) → tokens.Nodup →
      (∀ p ∈ tokens, ∃ scored, (h.deref p).CalculateScore sm data = .ok scored) →
      ∃ (h' : Heap) (best : Option Ptr),
        SimpleAcousticScorer.doScoringLoop sm data (tokens.map some) h (b0, bound)
          = .ok (h', best) ∧
        h'.length = h.length ∧
        (∀ p ∈ tokens, (h.deref p).CalculateScore sm data = .ok (h'.deref p)) ∧
        (∀ q : Nat, q ∉ tokens → h'.deref q = h.deref q) ∧
        ((∀ p ∈ tokens, GetScore h' p ≤ bound) → best = b0) ∧
        ((∃ p ∈ tokens, GetScore h' p > bound) →
          ∃ before b after, tokens = before ++ b :: after ∧ best = some b ∧
            bound < GetScore h' b ∧ (∀ p ∈ before, GetScore h' p < GetScore h' b) ∧
            (∀ p ∈ after, GetScore h' p ≤ GetScore h' b)) := by
  intro tokens
  induction tokens with
  | nil =>
    intro h b0 bound _ _ _
    refine ⟨h, b0, rfl, rfl, ?_, fun _ _ => rfl, fun _ => rfl, ?_⟩
    · intro p hp; cases hp
    · rintro ⟨p, hp, _⟩; cases hp
  | cons p rest ih =>
    intro h b0 bound hvalid hnodup hscorable
    obtain ⟨scored, hscored⟩ := hscorable p (List.mem_cons_self _ _)
    have hp : p < h.length := hvalid p (List.mem_cons_self _ _)
    have hprest : p ∉ rest := (List.nodup_cons.mp hnodup).1
    have hne : ∀ q ∈ rest, q ≠ p := fun q hq hqp => hprest (hqp ▸ hq)
    have hsame : (h.store p scored).deref p = scored := Heap.deref_store_same h scored hp
    have hother : ∀ q : Nat, q ≠ p → (h.store p scored).deref q = h.deref q :=
      fun q hq => Heap.deref_store_ne h scored hq
    have hvalid1 : ∀ q ∈ rest, q < (h.store p scored).length := by
      intro q hq
      rw [Heap.length_store]
      exact hvalid q (List.mem_cons_of_mem _ hq)
    have hscorable1 : ∀ q ∈ rest,
        ∃ s, ((h.store p scored).deref q).CalculateScore sm data = .ok s := by
      intro q hq
      rw [hother q (hne q hq)]
      exact hscorable q (List.mem_cons_of_mem _ hq)
    have hstep : ∀ acc : Option Ptr × Int,
        SimpleAcousticScorer.doScoringLoop sm data ((p :: rest).map some) h acc
          = SimpleAcousticScorer.doScoringLoop sm data (rest.map some) (h.store p scored)
              (if GetScore (h.store p scored) p > acc.2
                then (some p, GetScore (h.store p scored) p) else acc) := by
      intro acc
      simp only [List.map_cons, SimpleAcousticScorer.doScoringLoop, hscored]
      rfl
    by_cases hgt : GetScore (h.store p scored) p > bound
    · obtain ⟨h', best, hrun, hlen, hsc, hfr, hnone, hsome⟩ :=
        ih (h.store p scored) (some p) (GetScore (h.store p scored) p) hvalid1
          (List.nodup_cons.mp hnodup).2 hscorable1
      have hderef : h'.deref p = scored := by rw [hfr p hprest, hsame]
      have hscore : GetScore h' p = GetScore (h.store p scored) p := by
        simp only [GetScore, hderef, hsame]
      refine ⟨h', best, ?_, ?_, ?_, ?_, ?_, ?_⟩
      · rw [hstep, ← hrun]
        simp only [if_pos hgt]
      · rw [hlen, Heap.length_store]
      · intro q hq
        rcases List.mem_cons.mp hq with rfl | hq
        · rw [hderef]; exact hscored
        · rw [← hother q (hne q hq)]; exact hsc q hq
      · intro q hq
        have hqp : q ≠ p := fun hqp => hq (hqp ▸ List.mem_cons_self _ _)
        rw [hfr q (fun hmem => hq (List.mem_cons_of_mem _ hmem)), hother q hqp]
      · intro hall
        have := hall p (List.mem_cons_self _ _)
        rw [hscore] at this
        exact absurd hgt (not_lt.mpr this)
      · intro _
        by_cases hbetter : ∃ q ∈ rest, GetScore h' q > GetScore (h.store p scored) p
        · obtain ⟨before, b, after, hsplit, hbest, hlt, hbefore, hafter⟩ := hsome hbetter
          refine ⟨p :: before, b, after, by rw [hsplit]; rfl, hbest, lt_trans hgt hlt, ?_,
            hafter⟩
          intro q hq
          rcases List.mem_cons.mp hq with rfl | hq
          · rw [hscore]; exact hlt
          · exact hbefore q hq
        · have hall : ∀ q ∈ rest, GetScore h' q ≤ GetScore (h.store p scored) p := by
            intro q hq
            exact not_lt.mp (fun hlt => hbetter ⟨q, hq, hlt⟩)
          refine ⟨[], p, rest, rfl, hnone hall, by rw [hscore]; exact hgt, ?_, ?_⟩
          · intro q hq; cases hq
          · intro q hq; rw [hscore]; exact hall q hq
    · obtain ⟨h', best, hrun, hlen, hsc, hfr, hnone, hsome⟩ :=
        ih (h.store p scored) b0 bound hvalid1 (List.nodup_cons.mp hnodup).2 hscorable1
      have hderef : h'.deref p = scored := by rw [hfr p hprest, hsame]
      have hscore : GetScore h' p = GetScore (h.store p scored) p := by
        simp only [GetScore, hderef, hsame]
      refine ⟨h', best, ?_, ?_, ?_, ?_, ?_, ?_⟩
      · rw [hstep, ← hrun]
        simp only [if_neg hgt]
      · rw [hlen, Heap.length_store]
      · intro q hq
        rcases List.mem_cons.mp hq with rfl | hq
        · rw [hderef]; exact hscored
        · rw [← hother q (hne q hq)]; exact hsc q hq
      · intro q hq
        have hqp : q ≠ p := fun hqp => hq (hqp ▸ List.mem_cons_self _ _)
        rw [hfr q (fun hmem => hq (List.mem_cons_of_mem _ hmem)), hother q hqp]
      · intro hall
        exact hnone (fun q hq => hall q (List.mem_cons_of_mem _ hq))
      · rintro ⟨q, hq, hqgt⟩
        have hqrest : q ∈ rest := by
          rcases List.mem_cons.mp hq with rfl | hq
          · rw [hscore] at hqgt; exact absurd hqgt hgt
          · exact hq
        obtain ⟨before, b, after, hsplit, hbest, hlt, hbefore, hafter⟩ :=
          hsome ⟨q, hqrest, hqgt⟩
        refine ⟨p :: before, b, after, by rw [hsplit]; rfl, hbest, hlt, ?_, hafter⟩
        intro r hr
        rcases List.mem_cons.mp hr with rfl | hr
        · rw [hscore]; exact lt_of_le_of_lt (not_lt.mp hgt) hlt
        · exact hbefore r hr

/-- C32 as stated fails: for a list of one token whose state scores `-math.MaxFloat64`, the
token is scored, its updated score `-math.MaxFloat64` is the maximum over the list, and
`doScoring` returns nil and not the token. -/
theorem do_scoring_returns_nil_at_the_lowest_score :
    SimpleAcousticScorer.doScoring everyStateLowest [tokenWith none (some 4) 0 0 0 0 5 none]
        [some 0] frame20
      = .ok ([tokenWith none (some 4) (-maxFloat64) (-maxFloat64) 0 0 20 (some frame20)], none) := by
  decide!

/-- C32, as the code has it.  On a list of distinct tokens of the heap, each with a state that
scores the frame, `doScoring` returns, and it has called `CalculateScore` once on every token
of the list: each is left as one call leaves it, and no other token is touched.  When the
updated score of some token is above `-math.MaxFloat64`, the token returned is the first one of
the list whose updated score is the maximum over the list; when no updated score is above
`-math.MaxFloat64`, nil is returned. -/
theorem do_scoring_returns_first_token_of_highest_score (sm : ScoringModel) (data : Data)
    (h : Heap) (tokens : List Ptr) (hvalid : ∀ p ∈ tokens, p < h.length)
    (hdistinct : tokens.Nodup)
    (hscorable : ∀ p ∈ tokens, ∃ scored, (h.deref p).CalculateScore sm data = .ok scored) :
    ∃ (h' : Heap) (best : Option Ptr),
      SimpleAcousticScorer.doScoring sm h (tokens.map some) data = .ok (h', best) ∧
      (∀ p ∈ tokens, (h.deref p).CalculateScore sm data = .ok (h'.deref p)) ∧
      (∀ q : Nat, q ∉ tokens → h'.deref q = h.deref q) ∧
      ((∀ p ∈ tokens, GetScore h' p ≤ -maxFloat64) → best = none) ∧
      ((∃ p ∈ tokens, GetScore h' p > -maxFloat64) →
        ∃ before b after, tokens = before ++ b :: after ∧ best = some b ∧
          (∀ p ∈ before, GetScore h' p < GetScore h' b) ∧
          (∀ p ∈ after, GetScore h' p ≤ GetScore h' b)) := by
  obtain ⟨h', best, hrun, _, hsc, hfr, hnone, hsome⟩ :=
    SimpleAcousticScorer.doScoringLoop_first_max sm data tokens h none (-maxFloat64) hvalid
      hdistinct hscorable
  refine ⟨h', best, hrun, hsc, hfr, hnone, ?_⟩
  intro hex
  obtain ⟨before, b, after, hsplit, hbest, _, hbefore, hafter⟩ := hsome hex
  exact ⟨before, b, after, hsplit, hbest, hbefore, hafter⟩

/-- C32 on the tokens 4, 5 and 6 of `betweenFrames`, whose states score -1 on the frame. -/
theorem do_scoring_returns_first_token_of_highest_score_witness :
    ∃ (h' : Heap) (best : Option Ptr),
      SimpleAcousticScorer.doScoring emittingScoreMinusOne betweenFrames.heap
        ([4, 5, 6].map some) frame20 = .ok (h', best) ∧
      (∀ p ∈ [4, 5, 6],
        (betweenFrames.heap.deref p).CalculateScore emittingScoreMinusOne frame20
          = .ok (h'.deref p)) ∧
      (∀ q : Nat, q ∉ [4, 5, 6] → h'.deref q = betweenFrames.heap.deref q) ∧
      ((∀ p ∈ [4, 5, 6], GetScore h' p ≤ -maxFloat64) → best = none) ∧
      ((∃ p ∈ [4, 5, 6], GetScore h' p > -maxFloat64) →
        ∃ before b after, [4, 5, 6] = before ++ b :: after ∧ best = some b ∧
          (∀ p ∈ before, GetScore h' p < GetScore h' b) ∧
          (∀ p ∈ after, GetScore h' p ≤ GetScore h' b)) :=
  do_scoring_returns_first_token_of_highest_score emittingScoreMinusOne frame20
    betweenFrames.heap [4, 5, 6] (by decide) (by decide)
    (by
      intro p hp
      simp only [List.mem_cons, List.mem_singleton, List.not_mem_nil, or_false] at hp
      rcases hp with rfl | rfl | rfl <;> exact ⟨_, rfl⟩)

/-! ## C40: `Partition` only permutes -/

theorem holdsTokens_mono {τ : Type} {n m : Nat} {a : List (Option τ)} (h : HoldsTokens n a)
    (hmn : m ≤ n) : HoldsTokens m a :=
  fun k hk => h k (lt_of_lt_of_le hk hmn)

theorem holdsTokens_le_length {τ : Type} {n : Nat} {a : List (Option τ)} (h : HoldsTokens n a) :
    n ≤ a.length := by
  by_contra hlt
  obtain ⟨t, ht⟩ := h a.length (by omega)
  simp at ht

theorem shuffled_refl {τ : Type} (n : Nat) (a : List (Option τ)) : Shuffled n a a :=
  ⟨rfl, List.Perm.refl _, fun _ _ => rfl, fun h => h⟩

theorem shuffled_trans {τ : Type} {n : Nat} {a b c : List (Option τ)} (hab : Shuffled n a b)
    (hbc : Shuffled n b c) : Shuffled n a c :=
  ⟨hbc.length.trans hab.length, hbc.perm.trans hab.perm,
    fun k hk => (hbc.outside k hk).trans (hab.outside k hk), fun h => hbc.inside (hab.inside h)⟩

theorem shuffled_mono {τ : Type} {m n : Nat} {a b : List (Option τ)} (hab : Shuffled m a b)
    (hmn : m ≤ n) : Shuffled n a b := by
  refine ⟨hab.length, hab.perm, fun k hk => hab.outside k (le_trans hmn hk), ?_⟩
  intro h k hk
  by_cases hkm : k < m
  · exact hab.inside (holdsTokens_mono h hmn) k hkm
  · rw [hab.outside k (not_lt.mp hkm)]
    exact h k hk

/-- Two entries of a list that take the place of each other leave a permutation of the list. -/
theorem swap_perm {α : Type} :
    ∀ (a : List α) (i j : Nat) (vi vj : α), a[i]? = some vi → a[j]? = some vj →
      ((a.set j vi).set i vj).Perm a := by
  have one : ∀ (xs : List α) (k : Nat) (x v : α), xs[k]? = some v →
      (v :: xs.set k x).Perm (x :: xs) := by
    intro xs
    induction xs with
    | nil => intro k x v h; simp at h
    | cons y ys ih =>
      intro k x v h
      cases k with
      | zero =>
        simp only [List.getElem?_cons_zero, Option.some.injEq] at h
        subst h
        simp only [List.set_cons_zero]
        exact List.Perm.swap _ _ _
      | succ k =>
        simp only [List.getElem?_cons_succ] at h
        simp only [List.set_cons_succ]
        exact (List.Perm.swap _ _ _).trans
          (((ih k x v h).cons y).trans (List.Perm.swap _ _ _))
  intro a
  induction a with
  | nil => intro i j vi vj h; simp at h
  | cons x xs ih =>
    intro i j vi vj hi hj
    cases i with
    | zero =>
      simp only [List.getElem?_cons_zero, Option.some.injEq] at hi
      subst hi
      cases j with
      | zero =>
        simp only [List.getElem?_cons_zero, Option.some.injEq] at hj
        subst hj
        simp
      | succ j =>
        simp only [List.getElem?_cons_succ] at hj
        simp only [List.set_cons_succ, List.set_cons_zero]
        exact one xs j _ _ hj
    | succ i =>
      simp only [List.getElem?_cons_succ] at hi
      cases j with
      | zero =>
        simp only [List.getElem?_cons_zero, Option.some.injEq] at hj
        subst hj
        simp only [List.set_cons_succ, List.set_cons_zero]
        exact one xs i _ _ hi
      | succ j =>
        simp only [List.getElem?_cons_succ] at hj
        simp only [List.set_cons_succ]
        exact (ih i j vi vj hi hj).cons x

theorem set_then_read_same {α : Type} (l : List α) (k : Nat) (v : α) (h : k < l.length) :
    (l.set k v)[k]? = some v := by
  simp [List.getElem?_set, h]

/-- The exchange of the entries at `i` and `j`, as the source writes it with one read of each
and two writes, for two indices below `n` in a slice whose first `n` slots hold tokens: the
reads and the writes succeed, and the slice they leave is shuffled below `n`, with the two
tokens in each other's place. -/
theorem swap_shuffled {τ : Type} (tokens : List (Option τ)) (n : Nat) (i j : Int)
    (hi0 : 0 ≤ i) (hin : i < n) (hj0 : 0 ≤ j) (hjn : j < n) (hn : HoldsTokens n tokens) :
    ∃ (ti tj : τ) (tokens' : List (Option τ)),
      tokens[i.toNat]? = some (some ti) ∧ tokens[j.toNat]? = some (some tj) ∧
      getAt tokens i = .ok (some ti) ∧ getAt tokens j = .ok (some tj) ∧
      (setAt tokens j (some ti)).bind (fun tokens => setAt tokens i (some tj)) = .ok tokens' ∧
      Shuffled n tokens tokens' ∧ tokens'[i.toNat]? = some (some tj) ∧
      (i ≠ j → tokens'[j.toNat]? = some (some ti)) := by
  have hlen := holdsTokens_le_length hn
  have hik : i.toNat < n := by omega
  have hjk : j.toNat < n := by omega
  obtain ⟨ti, hti⟩ := hn i.toNat hik
  obtain ⟨tj, htj⟩ := hn j.toNat hjk
  refine ⟨ti, tj, (tokens.set j.toNat (some ti)).set i.toNat (some tj), hti, htj,
    ?_, ?_, ?_, ?_, ?_, ?_⟩
  · simp [getAt, hi0, hti]
  · simp [getAt, hj0, htj]
  · have h1 : j.toNat < tokens.length := by omega
    have h2 : i.toNat < tokens.length := by omega
    have h3 : i < (tokens.length : Int) := by omega
    simp [setAt, hi0, hj0, h1, h2, h3]
  · refine ⟨by simp, swap_perm tokens _ _ _ _ hti htj, ?_, ?_⟩
    · intro k hk
      rw [List.getElem?_set_ne (by omega), List.getElem?_set_ne (by omega)]
    · intro _ k hk
      by_cases hki : i.toNat = k
      · subst hki
        exact ⟨tj, set_then_read_same _ _ _ (by simp; omega)⟩
      · rw [List.getElem?_set_ne hki]
        by_cases hkj : j.toNat = k
        · subst hkj
          exact ⟨ti, set_then_read_same _ _ _ (by omega)⟩
        · rw [List.getElem?_set_ne hkj]
          exact hn k hk
  · exact set_then_read_same _ _ _ (by simp; omega)
  · intro hij
    have hne : i.toNat ≠ j.toNat := by omega
    rw [List.getElem?_set_ne hne]
    exact set_then_read_same _ _ _ (by omega)

/-- The first inner loop of `endPointPartition` returns with enough fuel: it stops at `end` or
at a token that scores below the pivot, and it goes past a token that scores at least the
pivot. -/
theorem scanUp_ok {τ : Type} (score : τ → Int) (tokens : List (Option τ)) (pivotScore end_ : Int)
    (n : Nat) (hn : HoldsTokens n tokens) (hend : end_ ≤ n) :
    ∀ (fuel : Nat) (i : Int), 0 ≤ i → i ≤ end_ → end_ - i + 1 ≤ fuel →
      ∃ i', scanUp score tokens pivotScore end_ fuel i = .ok i' ∧ i ≤ i' ∧ i' ≤ end_ ∧
        (i' < end_ → ∃ t, tokens[i'.toNat]? = some (some t) ∧ score t < pivotScore) ∧
        (∀ t, i < end_ → tokens[i.toNat]? = some (some t) → score t ≥ pivotScore →
          i + 1 ≤ i') := by
  intro fuel
  induction fuel with
  | zero => intro i _ _ hf; omega
  | succ fuel ih =>
    intro i hi0 hie hf
    simp only [scanUp]
    by_cases hlt : i < end_
    · obtain ⟨t, ht⟩ := hn i.toNat (by omega)
      simp only [if_pos hlt, scoreAt, getAt, if_pos hi0, ht, Res.bind_ok, derefScore]
      by_cases hs : score t ≥ pivotScore
      · simp only [if_pos hs]
        obtain ⟨i', hrun, h1, h2, h3, _⟩ := ih (i + 1) (by omega) (by omega)
          (by push_cast at hf ⊢; omega)
        refine ⟨i', hrun, by omega, h2, h3, ?_⟩
        intro _ _ _ _
        exact h1
      · simp only [if_neg hs]
        refine ⟨i, rfl, le_refl _, hie, ?_, ?_⟩
        · intro _
          exact ⟨t, ht, not_le.mp hs⟩
        · intro t' _ ht' hs'
          simp only [Option.some.injEq] at ht'
          subst ht'
          exact absurd hs' hs
    · simp only [if_neg hlt]
      refine ⟨i, rfl, le_refl _, hie, ?_, ?_⟩
      · intro h; exact absurd h hlt
      · intro _ h; exact absurd h hlt

/-- The second inner loop of `endPointPartition` returns with enough fuel: it stops at `i` or
above it at a token that scores at least the pivot, and it goes past a token above `i` that
scores below the pivot. -/
theorem scanDown_ok {τ : Type} (score : τ → Int) (tokens : List (Option τ)) (pivotScore i : Int)
    (n : Nat) (hn : HoldsTokens n tokens) (hi0 : 0 ≤ i) :
    ∀ (fuel : Nat) (j : Int), j < n → (j - i).toNat + 1 ≤ fuel →
      ∃ j', scanDown score tokens pivotScore i fuel j = .ok j' ∧ j' ≤ j ∧
        (j' > i → ∃ t, tokens[j'.toNat]? = some (some t) ∧ score t ≥ pivotScore) ∧
        (∀ t, j > i → tokens[j.toNat]? = some (some t) → score t < pivotScore →
          j' ≤ j - 1) := by
  intro fuel
  induction fuel with
  | zero => intro j _ hf; omega
  | succ fuel ih =>
    intro j hjn hf
    simp only [scanDown]
    by_cases hgt : j > i
    · obtain ⟨t, ht⟩ := hn j.toNat (by omega)
      have hj0 : 0 ≤ j := by omega
      simp only [if_pos hgt, scoreAt, getAt, if_pos hj0, ht, Res.bind_ok, derefScore]
      by_cases hs : score t < pivotScore
      · simp only [if_pos hs]
        obtain ⟨j', hrun, h1, h2, _⟩ := ih (j - 1) (by omega) (by omega)
        refine ⟨j', hrun, by omega, h2, ?_⟩
        intro _ _ _ _
        exact h1
      · simp only [if_neg hs]
        refine ⟨j, rfl, le_refl _, ?_, ?_⟩
        · intro _
          exact ⟨t, ht, not_lt.mp hs⟩
        · intro t' _ ht' hs'
          simp only [Option.some.injEq] at ht'
          subst ht'
          exact absurd hs' hs
    · simp only [if_neg hgt]
      refine ⟨j, rfl, le_refl _, ?_, ?_⟩
      · intro h; exact absurd h hgt
      · intro _ h; exact absurd h hgt

/-- The outer loop of `endPointPartition` returns with the fuel it is given: after an exchange
the token at `i` scores at least the pivot and the token at `j` below it, so that the next
pass moves both, and `j - i` passes are enough after the first one. -/
theorem partitionLoop_ok {τ : Type} (score : τ → Int) (pivotScore end_ : Int) (m : Nat)
    (hm : (m : Int) = end_) :
    ∀ (fuel : Nat) (tokens : List (Option τ)) (i j : Int), 0 ≤ i → i ≤ end_ → j < end_ →
      HoldsTokens m tokens →
      ((j - i).toNat + 2 ≤ fuel ∨
        ((j - i).toNat + 1 ≤ fuel ∧ i < j ∧
          (∃ ti, tokens[i.toNat]? = some (some ti) ∧ score ti ≥ pivotScore) ∧
          (∃ tj, tokens[j.toNat]? = some (some tj) ∧ score tj < pivotScore))) →
      ∃ (tokens' : List (Option τ)) (i' : Int),
        partitionLoop score pivotScore end_ fuel tokens i j = .ok (tokens', i') ∧
        Shuffled m tokens tokens' ∧ i ≤ i' ∧ i' ≤ end_ := by
  intro fuel
  induction fuel with
  | zero => intro tokens i j _ _ _ _ hf; omega
  | succ fuel ih =>
    intro tokens i j hi0 hie hje hn hf
    obtain ⟨i1, hup, hi1, hi1e, hstop1, hmove1⟩ :=
      scanUp_ok score tokens pivotScore end_ m hn (le_of_eq hm.symm) ((end_ - i).toNat + 1) i hi0
        hie (by push_cast; omega)
    obtain ⟨j1, hdown, hj1, hstop2, hmove2⟩ :=
      scanDown_ok score tokens pivotScore i1 m hn (by omega) ((j - i1).toNat + 1) j (by omega)
        (le_refl _)
    simp only [partitionLoop, hup, hdown, Res.bind_ok]
    by_cases hbreak : j1 ≤ i1
    · simp only [if_pos hbreak]
      exact ⟨tokens, i1, rfl, shuffled_refl _ _, hi1, hi1e⟩
    · simp only [if_neg hbreak]
      have hlt : i1 < j1 := not_le.mp hbreak
      obtain ⟨t1, ht1, hs1⟩ := hstop1 (by omega)
      obtain ⟨t2, ht2, hs2⟩ := hstop2 hlt
      obtain ⟨ti, tj, tokens', hti, htj, hgi, hgj, hset, hsh, hnewi, hnewj⟩ :=
        swap_shuffled tokens m i1 j1 (by omega) (by omega) (by omega) (by omega) hn
      rw [ht1] at hti
      rw [ht2] at htj
      simp only [Option.some.injEq] at hti htj
      subst hti
      subst htj
      obtain ⟨mid, hmid, hfin⟩ := Res.bind_eq_ok.mp hset
      simp only [hgi, hgj, hmid, hfin, Res.bind_ok]
      have hfuel : (j1 - i1).toNat + 1 ≤ fuel := by
        rcases hf with hf | ⟨hf, hij, ⟨ti, hti, hsi⟩, ⟨tj, htj, hsj⟩⟩
        · omega
        · have h1 := hmove1 ti (by omega) hti hsi
          have h2 := hmove2 tj (by omega) htj hsj
          omega
      obtain ⟨tokens'', i', hrun, hsh', hi', hi'e⟩ :=
        ih tokens' i1 j1 (by omega) hi1e (by omega) (hsh.inside hn)
          (Or.inr ⟨hfuel, hlt, ⟨t2, hnewi, hs2⟩, ⟨t1, hnewj (by omega), hs1⟩⟩)
      exact ⟨tokens'', i', hrun, shuffled_trans hsh hsh', by omega, hi'e⟩

/-- The method `endPointPartition` returns on a range of tokens: it shuffles the slots up to
`end`, and the index it returns is in the range. -/
theorem endPointPartition_ok {τ : Type} (score : τ → Int) (tokens : List (Option τ))
    (start end_ : Int) (n : Nat) (hn : HoldsTokens n tokens) (h0 : 0 ≤ start)
    (hse : start ≤ end_) (hen : end_ < n) :
    ∃ (tokens' : List (Option τ)) (p : Int),
      endPointPartition score tokens start end_ = .ok (tokens', p) ∧
      Shuffled (end_.toNat + 1) tokens tokens' ∧ start ≤ p ∧ p ≤ end_ := by
  obtain ⟨tp, htp⟩ := hn end_.toNat (by omega)
  have hpivot : getAt tokens end_ = .ok (some tp) := by
    simp [getAt, htp, le_trans h0 hse]
  obtain ⟨tokens1, i1, hloop, hsh, hi1, hi1e⟩ :=
    partitionLoop_ok score (score tp) end_ end_.toNat (by omega) ((end_ - start).toNat + 2)
      tokens start (end_ - 1) h0 hse (by omega) (holdsTokens_mono hn (by omega))
      (Or.inl (by omega))
  have hn1 : HoldsTokens (end_.toNat + 1) tokens1 :=
    (shuffled_mono hsh (Nat.le_succ _)).inside (holdsTokens_mono hn (by omega))
  obtain ⟨ti, tj, tokens', _, htj, hgi, _, hset, hsh', _, _⟩ :=
    swap_shuffled tokens1 (end_.toNat + 1) i1 end_ (by omega) (by push_cast; omega) (by omega)
      (by push_cast; omega) hn1
  rw [hsh.outside end_.toNat (le_refl _), htp] at htj
  simp only [Option.some.injEq] at htj
  subst htj
  obtain ⟨mid, hmid, hfin⟩ := Res.bind_eq_ok.mp hset
  refine ⟨tokens', i1, ?_, shuffled_trans (shuffled_mono hsh (Nat.le_succ _)) hsh', hi1, hi1e⟩
  simp only [endPointPartition, hpivot, derefScore, hloop, hgi, hmid, hfin, Res.bind_ok]

/-- The method `midPointPartition` returns on a range of tokens: it shuffles the slots up to
`end`, and the index it returns is in the range. -/
theorem midPointPartition_ok {τ : Type} (score : τ → Int) (tokens : List (Option τ))
    (start end_ : Int) (n : Nat) (hn : HoldsTokens n tokens) (h0 : 0 ≤ start)
    (hse : start ≤ end_) (hen : end_ < n) :
    ∃ (tokens' : List (Option τ)) (p : Int),
      midPointPartition score tokens start end_ = .ok (tokens', p) ∧
      Shuffled (end_.toNat + 1) tokens tokens' ∧ start ≤ p ∧ p ≤ end_ := by
  have hn0 : HoldsTokens (end_.toNat + 1) tokens := holdsTokens_mono hn (by omega)
  obtain ⟨ti, tj, tokens1, _, _, hgi, hgj, hset, hsh, _, _⟩ :=
    swap_shuffled tokens (end_.toNat + 1) ((start + end_) / 2) end_ (by omega)
      (by push_cast; omega) (by omega) (by push_cast; omega) hn0
  have hn1 : HoldsTokens n tokens1 := (shuffled_mono hsh (by omega)).inside hn
  obtain ⟨tokens', p, hrun, hsh', hp, hpe⟩ :=
    endPointPartition_ok score tokens1 start end_ n hn1 h0 hse hen
  obtain ⟨mid, hmid, hfin⟩ := Res.bind_eq_ok.mp hset
  refine ⟨tokens', p, ?_, shuffled_trans hsh hsh', hp, hpe⟩
  simp only [midPointPartition, hgi, hgj, hmid, hfin, hrun, Res.bind_ok]

/-- A slice whose middle part is permuted is shuffled below the end of this part. -/
theorem segment_shuffled {τ : Type} (pre mid mid' post : List (Option τ)) (n : Nat)
    (hperm : mid'.Perm mid) (hn : pre.length + mid.length ≤ n) :
    Shuffled n (pre ++ mid ++ post) (pre ++ mid' ++ post) := by
  have hlen : mid'.length = mid.length := hperm.length_eq
  refine ⟨by simp [hlen], (hperm.append_left pre).append_right post, ?_, ?_⟩
  · intro k hk
    rw [List.getElem?_append_right (by simp; omega),
      List.getElem?_append_right (by simp; omega)]
    simp [hlen]
  · intro h k hk
    by_cases h1 : k < pre.length
    · have := h k hk
      rw [List.append_assoc, List.getElem?_append_left h1] at this ⊢
      exact this
    · by_cases h2 : k < pre.length + mid'.length
      · have hk' : k - pre.length < mid'.length := by omega
        have hmem : mid'[k - pre.length] ∈ mid := hperm.subset (List.getElem_mem _)
        obtain ⟨idx, hidx, hget⟩ := List.getElem_of_mem hmem
        have hsrc := h (pre.length + idx) (by omega)
        rw [List.append_assoc, List.getElem?_append_right (by omega),
          List.getElem?_append_left (by omega)] at hsrc
        simp only [Nat.add_sub_cancel_left, List.getElem?_eq_getElem hidx, hget] at hsrc
        rw [List.append_assoc, List.getElem?_append_right (by omega),
          List.getElem?_append_left hk', List.getElem?_eq_getElem hk']
        exact hsrc
      · have := h k hk
        rw [List.getElem?_append_right (by simp; omega)] at this ⊢
        simpa [hlen] using this

/-- The sort of a slice of tokens returns a permutation of the slice. -/
theorem sortSlots_ok {τ : Type} (score : τ → Int) (seg : List (Option τ))
    (hsome : ∀ x ∈ seg, ∃ t, x = some t) :
    ∃ seg', sortSlots score seg = .ok seg' ∧ seg'.Perm seg := by
  have hmap : ∀ l : List (Option τ), (∀ x ∈ l, ∃ t, x = some t) →
      (l.filterMap id).map some = l := by
    intro l
    induction l with
    | nil => intro _; rfl
    | cons x xs ih =>
      intro h
      obtain ⟨t, rfl⟩ := h x (List.mem_cons_self _ _)
      simp only [List.filterMap_cons, id, List.map_cons]
      rw [ih (fun y hy => h y (List.mem_cons_of_mem _ hy))]
  simp only [sortSlots]
  by_cases hshort : seg.length < 2
  · exact ⟨seg, by simp [hshort], List.Perm.refl _⟩
  · have hall : seg.all Option.isSome = true := by
      rw [List.all_eq_true]
      intro x hx
      obtain ⟨t, rfl⟩ := hsome x hx
      rfl
    refine ⟨(sortByScore score (seg.filterMap id)).map some, by simp [hshort, hall], ?_⟩
    have := (sortByScore_perm score (seg.filterMap id)).map some
    rwa [hmap seg hsome] at this

/-- The method `simplePointSelect` returns on a range of tokens: it shuffles the slots up to
`end` and returns `start + targetSize - 1`. -/
theorem simplePointSelect_ok {τ : Type} (score : τ → Int) (tokens : List (Option τ))
    (start end_ targetSize : Int) (n : Nat) (hn : HoldsTokens n tokens) (h0 : 0 ≤ start)
    (hse : start ≤ end_) (hen : end_ < n) :
    ∃ tokens' : List (Option τ),
      simplePointSelect score tokens start end_ targetSize
        = .ok (tokens', start + targetSize - 1) ∧
      Shuffled (end_.toNat + 1) tokens tokens' := by
  have hlen := holdsTokens_le_length hn
  have hsplit : tokens = tokens.take start.toNat ++
      (tokens.drop start.toNat).take (end_ + 1 - start).toNat ++
      tokens.drop (end_ + 1).toNat := by
    have h1 : (end_ + 1).toNat = start.toNat + (end_ + 1 - start).toNat := by omega
    rw [h1, ← List.drop_drop, List.append_assoc, List.take_append_drop,
      List.take_append_drop]
  have hsome : ∀ x ∈ (tokens.drop start.toNat).take (end_ + 1 - start).toNat,
      ∃ t, x = some t := by
    intro x hx
    obtain ⟨idx, hidx, hget⟩ := List.getElem_of_mem hx
    simp only [List.length_take, List.length_drop] at hidx
    obtain ⟨t, ht⟩ := hn (start.toNat + idx) (by omega)
    refine ⟨t, ?_⟩
    rw [← hget, List.getElem_take, List.getElem_drop]
    have hlt : start.toNat + idx < tokens.length := by omega
    rw [List.getElem?_eq_getElem hlt] at ht
    exact Option.some.inj ht
  obtain ⟨seg', hsort, hperm⟩ := sortSlots_ok score _ hsome
  refine ⟨tokens.take start.toNat ++ seg' ++ tokens.drop (end_ + 1).toNat, ?_, ?_⟩
  · have hcond : 0 ≤ start ∧ start ≤ end_ + 1 ∧ end_ + 1 ≤ (tokens.length : Int) :=
      ⟨h0, by omega, by omega⟩
    simp only [simplePointSelect, if_pos hcond, hsort, Res.bind_ok]
  · have := segment_shuffled (tokens.take start.toNat)
      ((tokens.drop start.toNat).take (end_ + 1 - start).toNat) seg'
      (tokens.drop (end_ + 1).toNat) (end_.toNat + 1) hperm
      (by simp only [List.length_take, List.length_drop]; omega)
    rwa [← hsplit] at this

/-- The recursion of `midPointSelect` returns on a range of tokens with a target size within
the range, when the fuel reaches to the depth at which the slots are sorted: it shuffles the
slots below `n` and returns `start + targetSize - 1`. -/
theorem midPointSelectAux_ok {τ : Type} (score : τ → Int) (n : Nat) :
    ∀ (fuel : Nat) (tokens : List (Option τ)) (start end_ targetSize depth : Int),
      HoldsTokens n tokens → 0 ≤ start → start ≤ end_ → end_ < n → 1 ≤ targetSize →
      targetSize ≤ end_ - start + 1 → depth ≤ DEFAULT_MAX_DEPTH + 1 →
      DEFAULT_MAX_DEPTH + 2 ≤ depth + fuel →
      ∃ tokens' : List (Option τ),
        midPointSelectAux score fuel tokens start end_ targetSize depth
          = .ok (tokens', start + targetSize - 1) ∧
        Shuffled n tokens tokens' := by
  intro fuel
  induction fuel with
  | zero =>
    intro tokens start end_ targetSize depth _ _ _ _ _ _ hd hf
    simp only [Nat.cast_zero, add_zero] at hf
    omega
  | succ fuel ih =>
    intro tokens start end_ targetSize depth hn h0 hse hen ht1 hts hd hf
    simp only [midPointSelectAux]
    by_cases hdeep : depth > DEFAULT_MAX_DEPTH
    · simp only [if_pos hdeep]
      obtain ⟨tokens', hrun, hsh⟩ :=
        simplePointSelect_ok score tokens start end_ targetSize n hn h0 hse hen
      exact ⟨tokens', hrun, shuffled_mono hsh (by omega)⟩
    · simp only [if_neg hdeep]
      by_cases hone : start = end_
      · simp only [if_pos hone]
        have : start + targetSize - 1 = start := by omega
        rw [this]
        exact ⟨tokens, rfl, shuffled_refl _ _⟩
      · simp only [if_neg hone]
        obtain ⟨tokens1, p, hpart, hsh, hp, hpe⟩ :=
          midPointPartition_ok score tokens start end_ n hn h0 hse hen
        have hsh1 : Shuffled n tokens tokens1 := shuffled_mono hsh (by omega)
        have hn1 : HoldsTokens n tokens1 := hsh1.inside hn
        simp only [hpart, Res.bind_ok]
        by_cases heq : targetSize = p - start + 1
        · simp only [if_pos heq]
          have : start + targetSize - 1 = p := by omega
          rw [this]
          exact ⟨tokens1, rfl, hsh1⟩
        · simp only [if_neg heq]
          have hfuel : DEFAULT_MAX_DEPTH + 2 ≤ depth + 1 + (fuel : Int) := by
            push_cast at hf; omega
          by_cases hless : targetSize < p - start + 1
          · simp only [if_pos hless]
            obtain ⟨tokens', hrun, hsh'⟩ :=
              ih tokens1 start (p - 1) targetSize (depth + 1) hn1 h0 (by omega) (by omega) ht1
                (by omega) (by omega) hfuel
            exact ⟨tokens', hrun, shuffled_trans hsh1 hsh'⟩
          · simp only [if_neg hless]
            obtain ⟨tokens', hrun, hsh'⟩ :=
              ih tokens1 (p + 1) end_ (targetSize - (p - start + 1)) (depth + 1) hn1 (by omega)
                (by omega) hen (by omega) (by omega) (by omega) hfuel
            have : p + 1 + (targetSize - (p - start + 1)) - 1 = start + targetSize - 1 := by
              omega
            rw [this] at hrun
            exact ⟨tokens', hrun, shuffled_trans hsh1 hsh'⟩

/-- C40.  For `0 < n < size <= len(tokens)` and a slice whose first `size` slots hold tokens,
`Partition` returns the index `n - 1`, the first `size` slots afterwards hold the same tokens
as before, each as often as before, and the slots from `size` on are as they were. -/
theorem partition_only_permutes {τ : Type} (score : τ → Int) (tokens : List (Option τ))
    (size n : Int) (hn : 0 < n) (hsize : n < size) (hlen : size ≤ tokens.length)
    (htokens : ∀ k : Nat, (k : Int) < size → ∃ t, tokens[k]? = some (some t)) :
    ∃ tokens' : List (Option τ),
      Partition score tokens size n = .ok (tokens', n - 1) ∧
      (tokens'.take size.toNat).Perm (tokens.take size.toNat) ∧
      tokens'.drop size.toNat = tokens.drop size.toNat := by
  have hhold : HoldsTokens size.toNat tokens := fun k hk => htokens k (by omega)
  obtain ⟨tokens', hrun, hsh⟩ :=
    midPointSelectAux_ok score size.toNat (DEFAULT_MAX_DEPTH + 2 - 0).toNat tokens 0 (size - 1)
      n 0 hhold (le_refl _) (by omega) (by omega) (by omega) (by omega) (by decide) (by decide)
  have hdrop : tokens'.drop size.toNat = tokens.drop size.toNat := by
    apply List.ext_getElem?
    intro k
    rw [List.getElem?_drop, List.getElem?_drop]
    exact hsh.outside _ (Nat.le_add_right _ _)
  refine ⟨tokens', ?_, ?_, hdrop⟩
  · have hgt : (tokens.length : Int) > n := by omega
    have hidx : (0 : Int) + n - 1 = n - 1 := by omega
    simp only [Partition, if_pos hgt, midPointSelect]
    rw [← hidx]
    exact hrun
  · have hperm := hsh.perm
    rw [← List.take_append_drop size.toNat tokens', ← List.take_append_drop size.toNat tokens,
      hdrop] at hperm
    exact (List.perm_append_right_iff _).mp hperm

/-- C40 on seven tokens followed by a nil slot, for the best three of the seven. -/
theorem partition_only_permutes_witness :
    ∃ tokens' : List (Option Int),
      Partition scoreOf sevenAndNil 7 3 = .ok (tokens', 3 - 1) ∧
      (tokens'.take (7 : Int).toNat).Perm (sevenAndNil.take (7 : Int).toNat) ∧
      tokens'.drop (7 : Int).toNat = sevenAndNil.drop (7 : Int).toNat :=
  partition_only_permutes scoreOf sevenAndNil 7 3 (by decide) (by decide) (by decide)
    (by
      intro k hk
      have hk7 : k < 7 := by omega
      interval_cases k <;> exact ⟨_, rfl⟩)

end Sphinx
